import Mathlib

/-!
# RE-to-DFA converter: a verification development

Shallow embedding of `parser.js`, `nfa.js`, `dfa.js` and `direct-dfa.js`, and
proofs about the parser, Thompson's construction, the subset construction and
the followpos construction.

Conventions of the embedding:
* a JavaScript string is a `List Char` (one entry per code point, the unit of
  the `for ... of` loop of the parser; the characters the index loop of the
  parser tests are all in the basic plane, so both loops see the same tokens);
* a JavaScript array used as a stack (`push` / `pop`) is a `List` whose head is
  the top of the stack;
* a thrown `Error` is `Except.error` carrying the message;
* a `Set` is a duplicate-free list in insertion order, a `Map` (or an object
  used as a dictionary) an association list in insertion order;
* the `State` objects of `nfa.js` live in a `Store` (the global counter
  `stateId` and the list of allocated objects); a reference to a `State` is its
  index in that list, and the functions of `nfa.js` pass the store along;
* a `while` loop is a recursion on a fuel argument and returns `none` when the
  fuel runs out or when JavaScript would throw a `TypeError`; the theorems on
  the pipelines show that the fuel the models give is enough.
-/

namespace RegexToDfa

/-! ## parser.js -/

/-- AST node of `parser.js`: `{ type: 'CHAR', value }`, `{ type: 'CONCAT', left, right }`,
`{ type: 'ALTERNATION', left, right }`, `{ type: 'KLEENE_STAR', child }`. -/
inductive AST where
  | CHAR (value : Char) : AST
  | CONCAT (left right : AST) : AST
  | ALTERNATION (left right : AST) : AST
  | KLEENE_STAR (child : AST) : AST
  deriving DecidableEq, Repr

/-- `isLiteral(char)`: the test `/^[a-zA-Z0-9]$/`. -/
def isLiteral (char : Char) : Bool :=
  (97 ≤ char.toNat && char.toNat ≤ 122) ||
  (65 ≤ char.toNat && char.toNat ≤ 90) ||
  (48 ≤ char.toNat && char.toNat ≤ 57)

/-- First loop of `parseRegex`: copy `regex[i]` and append `'.'` when the pair
`(regex[i], regex[i+1])` asks for an explicit concatenation. -/
def addConcat : List Char → List Char
  | [] => []
  | [current] => [current]
  | current :: next :: rest =>
    if isLiteral current && (isLiteral next || next == '(') then
      current :: '.' :: addConcat (next :: rest)
    else if (current == ')' || current == '*') && (isLiteral next || next == '(') then
      current :: '.' :: addConcat (next :: rest)
    else
      current :: addConcat (next :: rest)

/-- The table `precedence = { '|': 1, '.': 2, '*': 3 }`; other keys are `undefined`. -/
def precedence (c : Char) : Option Nat :=
  if c = '|' then some 1 else if c = '.' then some 2 else if c = '*' then some 3 else none

/-- JavaScript `precedence[top] >= precedence[token]`: false as soon as one side
is `undefined`. -/
def precGe (top token : Char) : Bool :=
  match precedence top, precedence token with
  | some p, some q => decide (q ≤ p)
  | _, _ => false

/-- `applyOperator(output, operator)`. -/
def applyOperator (output : List AST) (operator : Char) : Except String (List AST) :=
  if operator = '*' then
    match output with
    | [] => .error "Invalid syntax for Kleene star."
    | operand :: out => .ok (AST.KLEENE_STAR operand :: out)
  else
    match output with
    | right :: left :: out =>
      .ok ((if operator = '|' then AST.ALTERNATION left right else AST.CONCAT left right) :: out)
    | _ => .error ("Invalid syntax for operator \x27" ++ operator.toString ++ "\x27.")

/-- The loop of the `')'` branch: apply operators until the stack is empty or
its top is `'('`. Returns the output and the remaining operator stack. -/
def popUntilParen (output : List AST) : List Char → Except String (List AST × List Char)
  | [] => .ok (output, [])
  | top :: ops =>
    if top = '(' then .ok (output, top :: ops)
    else
      match applyOperator output top with
      | .error e => .error e
      | .ok out => popUntilParen out ops

/-- The loop of the operator branch: apply operators while the stack is not
empty, its top is not `'('` and its top has precedence at least that of `token`. -/
def popWhilePrec (token : Char) (output : List AST) : List Char → Except String (List AST × List Char)
  | [] => .ok (output, [])
  | top :: ops =>
    if top ≠ '(' ∧ precGe top token = true then
      match applyOperator output top with
      | .error e => .error e
      | .ok out => popWhilePrec token out ops
    else .ok (output, top :: ops)

/-- Body of the token loop of `parseRegex`. -/
def step (output : List AST) (operators : List Char) (token : Char) :
    Except String (List AST × List Char) :=
  if isLiteral token then .ok (AST.CHAR token :: output, operators)
  else if token = '(' then .ok (output, token :: operators)
  else if token = ')' then
    match popUntilParen output operators with
    | .error e => .error e
    | .ok (out, ops) => .ok (out, ops.tail)
  else
    match popWhilePrec token output operators with
    | .error e => .error e
    | .ok (out, ops) => .ok (out, token :: ops)

/-- The token loop `for (const token of processedRegex)`. -/
def tokenLoop (output : List AST) (operators : List Char) :
    List Char → Except String (List AST × List Char)
  | [] => .ok (output, operators)
  | token :: rest =>
    match step output operators token with
    | .error e => .error e
    | .ok (out, ops) => tokenLoop out ops rest

/-- The final loop `while (operators.length) applyOperator(output, operators.pop())`. -/
def drain (output : List AST) : List Char → Except String (List AST)
  | [] => .ok output
  | top :: ops =>
    match applyOperator output top with
    | .error e => .error e
    | .ok out => drain out ops

/-- The shunting-yard part of `parseRegex`, run on the processed string. -/
def shunt (processedRegex : List Char) : Except String AST :=
  match tokenLoop [] [] processedRegex with
  | .error e => .error e
  | .ok (output, operators) =>
    match drain output operators with
    | .error e => .error e
    | .ok [tree] => .ok tree
    | .ok _ => .error "Invalid syntax in regular expression."

/-- `parseRegex(regex)`. -/
def parseRegex (regex : List Char) : Except String AST :=
  shunt (addConcat regex)

/-- Whether `parseRegex` returned an AST. -/
def parses (regex : List Char) : Bool :=
  match parseRegex regex with
  | .ok _ => true
  | .error _ => false

/-! ## Insertion-ordered sets and maps

A JavaScript `Set` is a duplicate-free list in insertion order and a `Map` (or
an object used as a dictionary) is an association list in insertion order. -/

/-- `set.add(x)`. -/
def setAdd (set : List Nat) (x : Nat) : List Nat :=
  if x ∈ set then set else set ++ [x]

/-- `new Set([...a, ...b])` and `new Set(array)`: keep the first occurrence of each member. -/
def setOfList (l : List Nat) : List Nat := l.foldl setAdd []

/-- `map.get(k)`, `undefined` being `none`. -/
def mapGet {α β : Type} [BEq α] (m : List (α × β)) (k : α) : Option β := m.lookup k

/-- `map.set(k, v)`: overwrite the entry of `k`, or append a new entry. -/
def mapSet {α β : Type} [BEq α] (m : List (α × β)) (k : α) (v : β) : List (α × β) :=
  match m with
  | [] => [(k, v)]
  | (k', v') :: rest => if k' == k then (k, v) :: rest else (k', v') :: mapSet rest k v

/-! ## nfa.js -/

/-- The symbol `'ε'` that labels the epsilon transitions. -/
def EPSILON : Char := 'ε'

/-- An object of `class State`. The members of the target sets are references
to `State` objects: indices into the list of allocated states. -/
structure State where
  id : Nat
  isAccepting : Bool
  transitions : List (Char × List Nat)
  deriving DecidableEq, Repr

/-- An object of `class NFAFragment`; both fields are references to `State` objects. -/
structure NFAFragment where
  startState : Nat
  endState : Nat
  deriving DecidableEq, Repr

/-- The mutable world of `nfa.js`: the global counter `stateId` and the `State`
objects allocated so far (a reference to one is its index in `states`). -/
structure Store where
  stateId : Nat
  states : List State
  deriving DecidableEq, Repr

/-- `State.prototype.addTransition(symbol, state)`. -/
def State.addTransition (self : State) (symbol : Char) (state : Nat) : State :=
  match mapGet self.transitions symbol with
  | none => { self with transitions := mapSet self.transitions symbol [state] }
  | some targets => { self with transitions := mapSet self.transitions symbol (setAdd targets state) }

/-- `new State()`: the fresh object gets `id = stateId++`, `isAccepting = false`
and no transition. Returns the reference of the new object. -/
def Store.newState (σ : Store) : Nat × Store :=
  (σ.states.length,
   { stateId := σ.stateId + 1,
     states := σ.states ++ [{ id := σ.stateId, isAccepting := false, transitions := [] }] })

/-- `src.addTransition(symbol, target)` on the object referenced by `src`. -/
def Store.addTransition (σ : Store) (src : Nat) (symbol : Char) (target : Nat) : Store :=
  { σ with states := σ.states.modify (fun s => s.addTransition symbol target) src }

/-- `buildNfaForNode(node)` with its four helpers `buildNfaForChar`,
`buildNfaForConcat`, `buildNfaForAlternation` and `buildNfaForKleeneStar`. -/
def buildNfaForNode : AST → Store → NFAFragment × Store
  | .CHAR value, σ =>
    let (startState, σ) := σ.newState
    let (endState, σ) := σ.newState
    let σ := σ.addTransition startState value endState
    (⟨startState, endState⟩, σ)
  | .CONCAT left right, σ =>
    let (leftNfa, σ) := buildNfaForNode left σ
    let (rightNfa, σ) := buildNfaForNode right σ
    let σ := σ.addTransition leftNfa.endState EPSILON rightNfa.startState
    (⟨leftNfa.startState, rightNfa.endState⟩, σ)
  | .ALTERNATION left right, σ =>
    let (startState, σ) := σ.newState
    let (endState, σ) := σ.newState
    let (leftNfa, σ) := buildNfaForNode left σ
    let (rightNfa, σ) := buildNfaForNode right σ
    let σ := σ.addTransition startState EPSILON leftNfa.startState
    let σ := σ.addTransition startState EPSILON rightNfa.startState
    let σ := σ.addTransition leftNfa.endState EPSILON endState
    let σ := σ.addTransition rightNfa.endState EPSILON endState
    (⟨startState, endState⟩, σ)
  | .KLEENE_STAR child, σ =>
    let (startState, σ) := σ.newState
    let (endState, σ) := σ.newState
    let (childNfa, σ) := buildNfaForNode child σ
    let σ := σ.addTransition startState EPSILON childNfa.startState
    let σ := σ.addTransition startState EPSILON endState
    let σ := σ.addTransition childNfa.endState EPSILON childNfa.startState
    let σ := σ.addTransition childNfa.endState EPSILON endState
    (⟨startState, endState⟩, σ)

/-- `astToNfa(ast)`, run in the store `σ`: reset the counter, build, mark the
end state accepting. -/
def astToNfa (ast : AST) (σ : Store) : NFAFragment × Store :=
  let σ := { σ with stateId := 0 }
  let (nfa, σ) := buildNfaForNode ast σ
  (nfa, { σ with states := σ.states.modify (fun s => { s with isAccepting := true }) nfa.endState })

/-- The store of a freshly loaded page: counter `0`, no `State` object yet. -/
def Store.initial : Store := { stateId := 0, states := [] }

/-! ## dfa.js -/

/-- A DFA state object `{id, isAccepting, transitions}`; the followpos path adds
`positions`. -/
structure DFAState where
  id : Nat
  positions : Option (List Nat)
  isAccepting : Bool
  transitions : List (Char × Nat)
  deriving DecidableEq, Repr

/-- The object `{states, alphabet, startState}` returned by both constructions;
`startState` is `null` (`none`) in the degenerate case of the followpos path. -/
structure DFA where
  states : List DFAState
  alphabet : List Char
  startState : Option Nat
  deriving DecidableEq, Repr

/-- The `State` object behind a reference. -/
def deref (heap : List State) (s : Nat) : State :=
  heap.getD s { id := 0, isAccepting := false, transitions := [] }

/-- `state.transitions.get(symbol) || []`. -/
def targetsOf (heap : List State) (s : Nat) (symbol : Char) : List Nat :=
  (mapGet (deref heap s).transitions symbol).getD []

/-- UTF-16 code units of a one-character string. -/
def utf16 (c : Char) : List Nat :=
  if c.toNat < 65536 then [c.toNat]
  else [55296 + (c.toNat - 65536) / 1024, 56320 + (c.toNat - 65536) % 1024]

/-- Lexicographic `≤` on code-unit sequences. -/
def unitsLe : List Nat → List Nat → Bool
  | [], _ => true
  | _ :: _, [] => false
  | a :: as, b :: bs => a < b || (a == b && unitsLe as bs)

/-- The order of the default `Array.prototype.sort()` on one-character strings. -/
def symbolLe (a b : Char) : Prop := unitsLe (utf16 a) (utf16 b) = true

instance : DecidableRel symbolLe := fun a b => by unfold symbolLe; exact inferInstance

/-- `[...alphabet].sort()`. -/
def sortSymbols (l : List Char) : List Char := l.insertionSort symbolLe

/-- `alphabet.add(symbol)` on a `Set` of symbols. -/
def symAdd (set : List Char) (x : Char) : List Char :=
  if x ∈ set then set else set ++ [x]

/-- The inner loop `for (const target of targets)` of `getAlphabet`, on the pair
(visited, stack). -/
def visitTargets (visited stack : List Nat) : List Nat → List Nat × List Nat
  | [] => (visited, stack)
  | target :: rest =>
    if target ∈ visited then visitTargets visited stack rest
    else visitTargets (visited ++ [target]) (target :: stack) rest

/-- The loop `for (const [symbol, targets] of state.transitions)` of `getAlphabet`. -/
def visitTransitions (alphabet : List Char) (visited stack : List Nat) :
    List (Char × List Nat) → List Char × List Nat × List Nat
  | [] => (alphabet, visited, stack)
  | (symbol, targets) :: rest =>
    let alphabet := if symbol ≠ EPSILON then symAdd alphabet symbol else alphabet
    let (visited, stack) := visitTargets visited stack targets
    visitTransitions alphabet visited stack rest

/-- The `while (stack.length)` loop of `getAlphabet`; `none` when the fuel runs out. -/
def getAlphabetLoop (heap : List State) :
    Nat → List Char → List Nat → List Nat → Option (List Char)
  | 0, _, _, _ => none
  | _ + 1, alphabet, _, [] => some alphabet
  | fuel + 1, alphabet, visited, state :: stack =>
    let (alphabet, visited, stack) :=
      visitTransitions alphabet visited stack (deref heap state).transitions
    getAlphabetLoop heap fuel alphabet visited stack

/-- `getAlphabet(startState, visited)`. -/
def getAlphabet (heap : List State) (startState : Nat) (visited : List Nat) :
    Option (List Char) :=
  (getAlphabetLoop heap (heap.length + 2) [] (setAdd visited startState) [startState]).map
    sortSymbols

/-- The loop `for (const targetState of epsilonTransitions)` of `epsilonClosure`,
on the pair (closure, stack). -/
def closeTargets (closure stack : List Nat) : List Nat → List Nat × List Nat
  | [] => (closure, stack)
  | targetState :: rest =>
    if targetState ∈ closure then closeTargets closure stack rest
    else closeTargets (closure ++ [targetState]) (targetState :: stack) rest

/-- The `while (stack.length)` loop of `epsilonClosure`; `none` when the fuel runs out. -/
def epsilonClosureLoop (heap : List State) : Nat → List Nat → List Nat → Option (List Nat)
  | 0, _, _ => none
  | _ + 1, closure, [] => some closure
  | fuel + 1, closure, s :: stack =>
    let (closure, stack) := closeTargets closure stack (targetsOf heap s EPSILON)
    epsilonClosureLoop heap fuel closure stack

/-- `epsilonClosure(states)`: the stack starts as `[...states]` (top = last
member) and the closure as a copy of `states`. -/
def epsilonClosure (heap : List State) (states : List Nat) : Option (List Nat) :=
  epsilonClosureLoop heap (states.length + heap.length + 1) states states.reverse

/-- `move(states, symbol)`. -/
def move (heap : List State) (states : List Nat) (symbol : Char) : List Nat :=
  states.foldl (fun reachable state => (targetsOf heap state symbol).foldl setAdd reachable) []

/-- `array.join(',')` on an array of numbers. -/
def joinComma (l : List Nat) : String := ",".intercalate (l.map toString)

/-- `setToKey(stateSet)`. -/
def setToKey (heap : List State) (stateSet : List Nat) : String :=
  joinComma ((stateSet.map fun s => (deref heap s).id).insertionSort (· ≤ ·))

/-- `[...set].some(s => s.isAccepting)`. -/
def someAccepting (heap : List State) (set : List Nat) : Bool :=
  set.any fun s => (deref heap s).isAccepting

/-- The variables of the worklist loop of `nfaToDfa`. -/
structure SubsetVars where
  dfaStates : List (String × Nat)
  dfaStateInfo : List DFAState
  queue : List (List Nat)
  deriving DecidableEq, Repr

/-- `dfaStateInfo[from].transitions[symbol] = to`; fails when `dfaStateInfo[from]`
is `undefined`. -/
def setTransition (info : List DFAState) (src : Nat) (symbol : Char) (dst : Nat) :
    Option (List DFAState) :=
  match info[src]? with
  | none => none
  | some st => some (info.set src { st with transitions := mapSet st.transitions symbol dst })

/-- Body of `for (const symbol of alphabet)` in `nfaToDfa`. -/
def subsetSymbol (heap : List State) (currentNfaSet : List Nat) (currentDfaId : Nat)
    (v : SubsetVars) (symbol : Char) : Option SubsetVars :=
  let moveSet := move heap currentNfaSet symbol
  if moveSet.length = 0 then some v
  else
    match epsilonClosure heap moveSet with
    | none => none
    | some nextNfaSet =>
      let nextKey := setToKey heap nextNfaSet
      match mapGet v.dfaStates nextKey with
      | none =>
        let nextDfaId := v.dfaStateInfo.length
        let info := v.dfaStateInfo ++
          [{ id := nextDfaId, positions := none,
             isAccepting := someAccepting heap nextNfaSet, transitions := [] }]
        (setTransition info currentDfaId symbol nextDfaId).map fun info =>
          { dfaStates := mapSet v.dfaStates nextKey nextDfaId,
            dfaStateInfo := info,
            queue := v.queue ++ [nextNfaSet] }
      | some nextDfaId =>
        (setTransition v.dfaStateInfo currentDfaId symbol nextDfaId).map fun info =>
          { v with dfaStateInfo := info }

/-- The loop `for (const symbol of alphabet)`. -/
def subsetSymbols (heap : List State) (currentNfaSet : List Nat) (currentDfaId : Nat) :
    SubsetVars → List Char → Option SubsetVars
  | v, [] => some v
  | v, symbol :: rest =>
    match subsetSymbol heap currentNfaSet currentDfaId v symbol with
    | none => none
    | some v => subsetSymbols heap currentNfaSet currentDfaId v rest

/-- The loop `while (head < queue.length)` of `nfaToDfa`; `none` when the fuel
runs out or a lookup fails. -/
def subsetLoop (heap : List State) (alphabet : List Char) :
    Nat → Nat → SubsetVars → Option SubsetVars
  | 0, _, _ => none
  | fuel + 1, head, v =>
    match v.queue[head]? with
    | none => some v
    | some currentNfaSet =>
      match mapGet v.dfaStates (setToKey heap currentNfaSet) with
      | none => none
      | some currentDfaId =>
        match subsetSymbols heap currentNfaSet currentDfaId v alphabet with
        | none => none
        | some v => subsetLoop heap alphabet fuel (head + 1) v

/-- `nfaToDfa(nfa)`, the `State` objects being those of `heap`. The worklist loop
gets one unit of fuel for each subset of the allocated states, plus one. -/
def nfaToDfa (heap : List State) (nfa : NFAFragment) : Option DFA :=
  match getAlphabet heap nfa.startState [] with
  | none => none
  | some alphabet =>
    match epsilonClosure heap (setOfList [nfa.startState]) with
    | none => none
    | some startSet =>
      let startKey := setToKey heap startSet
      let v : SubsetVars :=
        { dfaStates := mapSet [] startKey 0,
          dfaStateInfo := [{ id := 0, positions := none,
                             isAccepting := someAccepting heap startSet, transitions := [] }],
          queue := [startSet] }
      (subsetLoop heap alphabet (2 ^ heap.length + 1) 0 v).map fun v =>
        { states := v.dfaStateInfo, alphabet := alphabet, startState := some 0 }

/-- The subset-construction pipeline `nfaToDfa(astToNfa(ast))`, run in the store `σ`. -/
def subsetDfa (ast : AST) (σ : Store) : Option DFA :=
  let (nfa, σ) := astToNfa ast σ
  nfaToDfa σ.states nfa

/-! ## direct-dfa.js -/

/-- The attributes `position`, `nullable`, `firstpos`, `lastpos` that
`calculateFollowpos` attaches to a node (`position` only to a `CHAR` leaf). -/
structure Attrs where
  position : Option Nat
  nullable : Bool
  firstpos : List Nat
  lastpos : List Nat
  deriving DecidableEq, Repr

/-- An AST whose nodes carry the attached attributes. -/
inductive AnnotatedAST where
  | CHAR (value : Char) (attrs : Attrs) : AnnotatedAST
  | CONCAT (left right : AnnotatedAST) (attrs : Attrs) : AnnotatedAST
  | ALTERNATION (left right : AnnotatedAST) (attrs : Attrs) : AnnotatedAST
  | KLEENE_STAR (child : AnnotatedAST) (attrs : Attrs) : AnnotatedAST
  deriving DecidableEq, Repr

/-- The attributes of a node. -/
def AnnotatedAST.attrs : AnnotatedAST → Attrs
  | .CHAR _ a => a
  | .CONCAT _ _ a => a
  | .ALTERNATION _ _ a => a
  | .KLEENE_STAR _ a => a

/-- `node.nullable`. -/
def AnnotatedAST.nullable (n : AnnotatedAST) : Bool := n.attrs.nullable

/-- `node.firstpos`. -/
def AnnotatedAST.firstpos (n : AnnotatedAST) : List Nat := n.attrs.firstpos

/-- `node.lastpos`. -/
def AnnotatedAST.lastpos (n : AnnotatedAST) : List Nat := n.attrs.lastpos

/-- The variables `position`, `positions`, `followpos` captured by `traverse`. -/
structure FollowVars where
  position : Nat
  positions : List (Nat × Char)
  followpos : List (Nat × List Nat)
  deriving DecidableEq, Repr

/-- `followpos.get(pos).add(fp)`; fails when `followpos.get(pos)` is `undefined`. -/
def followAdd (followpos : List (Nat × List Nat)) (pos fp : Nat) :
    Option (List (Nat × List Nat)) :=
  match mapGet followpos pos with
  | none => none
  | some set => some (mapSet followpos pos (setAdd set fp))

/-- The loop `for (const fp of targets) followpos.get(pos).add(fp)`. -/
def followAddAll (followpos : List (Nat × List Nat)) (pos : Nat) :
    List Nat → Option (List (Nat × List Nat))
  | [] => some followpos
  | fp :: rest =>
    match followAdd followpos pos fp with
    | none => none
    | some followpos => followAddAll followpos pos rest

/-- The nested loops `for (const pos of sources) for (const fp of targets) ...`. -/
def followLink (followpos : List (Nat × List Nat)) :
    List Nat → List Nat → Option (List (Nat × List Nat))
  | [], _ => some followpos
  | pos :: rest, targets =>
    match followAddAll followpos pos targets with
    | none => none
    | some followpos => followLink followpos rest targets

/-- The inner function `traverse(node)` of `calculateFollowpos`. -/
def traverse : AST → FollowVars → Option (AnnotatedAST × FollowVars)
  | .CHAR value, v =>
    let position := v.position + 1
    let positions := mapSet v.positions position value
    if value ≠ EPSILON then
      some (.CHAR value { position := some position, nullable := false,
                          firstpos := [position], lastpos := [position] },
            { position := position, positions := positions,
              followpos := mapSet v.followpos position [] })
    else
      some (.CHAR value { position := some position, nullable := true,
                          firstpos := [], lastpos := [] },
            { position := position, positions := positions, followpos := v.followpos })
  | .KLEENE_STAR child, v =>
    match traverse child v with
    | none => none
    | some (child, v) =>
      match followLink v.followpos child.lastpos child.firstpos with
      | none => none
      | some followpos =>
        some (.KLEENE_STAR child { position := none, nullable := true,
                                   firstpos := child.firstpos, lastpos := child.lastpos },
              { v with followpos := followpos })
  | .ALTERNATION left right, v =>
    match traverse left v with
    | none => none
    | some (left, v) =>
      match traverse right v with
      | none => none
      | some (right, v) =>
        some (.ALTERNATION left right
                { position := none, nullable := left.nullable || right.nullable,
                  firstpos := setOfList (left.firstpos ++ right.firstpos),
                  lastpos := setOfList (left.lastpos ++ right.lastpos) },
              v)
  | .CONCAT left right, v =>
    match traverse left v with
    | none => none
    | some (left, v) =>
      match traverse right v with
      | none => none
      | some (right, v) =>
        match followLink v.followpos left.lastpos right.firstpos with
        | none => none
        | some followpos =>
          some (.CONCAT left right
                  { position := none, nullable := left.nullable && right.nullable,
                    firstpos := if left.nullable then setOfList (left.firstpos ++ right.firstpos)
                                else left.firstpos,
                    lastpos := if right.nullable then setOfList (left.lastpos ++ right.lastpos)
                               else right.lastpos },
                { v with followpos := followpos })

/-- The object `{ augmentedAst, positions, followpos }` returned by `calculateFollowpos`. -/
structure CalcData where
  augmentedAst : AnnotatedAST
  positions : List (Nat × Char)
  followpos : List (Nat × List Nat)
  deriving DecidableEq, Repr

/-- `calculateFollowpos(ast)`. -/
def calculateFollowpos (ast : AST) : Option CalcData :=
  match traverse (.CONCAT ast (.CHAR '#')) { position := 0, positions := [], followpos := [] } with
  | none => none
  | some (augmentedAst, v) =>
    some { augmentedAst := augmentedAst, positions := v.positions, followpos := v.followpos }

/-- `posToKey(posSet)`. -/
def posToKey (posSet : List Nat) : String := joinComma (posSet.insertionSort (· ≤ ·))

/-- `[...new Set([...positions.values()])].filter(c => c !== '#').sort()`. -/
def positionsAlphabet (positions : List (Nat × Char)) : List Char :=
  sortSymbols (((positions.map Prod.snd).foldl symAdd []).filter fun c => c ≠ '#')

/-- The variables of the worklist loop of `buildDfaFromFollowpos`. -/
structure DirectVars where
  dfaStates : List (String × Nat)
  dfaStateInfo : List DFAState
  queue : List (List Nat)
  trace : List String
  deriving DecidableEq, Repr

/-- The `forEach` loops that union the `followpos` sets of the contributing
positions; fails when a `followpos.get(pos)` is `undefined`. -/
def unionFollowpos (followpos : List (Nat × List Nat)) (nextPosSet : List Nat) :
    List Nat → Option (List Nat)
  | [] => some nextPosSet
  | pos :: rest =>
    match mapGet followpos pos with
    | none => none
    | some set => unionFollowpos followpos (set.foldl setAdd nextPosSet) rest

/-- Body of `for (const symbol of alphabet)` in `buildDfaFromFollowpos`. -/
def directSymbol (positions : List (Nat × Char)) (followpos : List (Nat × List Nat))
    (endPosition : Nat) (currentPosSet : List Nat) (currentDfaId : Nat)
    (v : DirectVars) (symbol : Char) : Option DirectVars :=
  let contributingPositions := currentPosSet.filter fun p => mapGet positions p == some symbol
  if contributingPositions.length = 0 then some v
  else
    match unionFollowpos followpos [] contributingPositions with
    | none => none
    | some nextPosSet =>
      let trace := v.trace ++
        ["  - On input **\x27" ++ symbol.toString ++ "\x27**: Union of followpos for positions \x7b"
          ++ joinComma contributingPositions ++ "\x7d -> \x7b" ++ posToKey nextPosSet ++ "\x7d"]
      if nextPosSet.length > 0 then
        let nextKey := posToKey nextPosSet
        match mapGet v.dfaStates nextKey with
        | none =>
          let nextDfaId := v.dfaStateInfo.length
          let info := v.dfaStateInfo ++
            [{ id := nextDfaId, positions := some nextPosSet,
               isAccepting := nextPosSet.contains endPosition, transitions := [] }]
          (setTransition info currentDfaId symbol nextDfaId).map fun info =>
            { dfaStates := mapSet v.dfaStates nextKey nextDfaId,
              dfaStateInfo := info,
              queue := v.queue ++ [nextPosSet],
              trace := trace ++ ["    - This is a **new state**: q" ++ toString nextDfaId] }
        | some nextDfaId =>
          (setTransition v.dfaStateInfo currentDfaId symbol nextDfaId).map fun info =>
            { v with dfaStateInfo := info,
                     trace := trace ++
                       ["    - This corresponds to existing state q" ++ toString nextDfaId] }
      else some { v with trace := trace }

/-- The loop `for (const symbol of alphabet)`. -/
def directSymbols (positions : List (Nat × Char)) (followpos : List (Nat × List Nat))
    (endPosition : Nat) (currentPosSet : List Nat) (currentDfaId : Nat) :
    DirectVars → List Char → Option DirectVars
  | v, [] => some v
  | v, symbol :: rest =>
    match directSymbol positions followpos endPosition currentPosSet currentDfaId v symbol with
    | none => none
    | some v => directSymbols positions followpos endPosition currentPosSet currentDfaId v rest

/-- The loop `while (head < queue.length)` of `buildDfaFromFollowpos`; `none`
when the fuel runs out or a lookup fails. -/
def directLoop (positions : List (Nat × Char)) (followpos : List (Nat × List Nat))
    (endPosition : Nat) (alphabet : List Char) : Nat → Nat → DirectVars → Option DirectVars
  | 0, _, _ => none
  | fuel + 1, head, v =>
    match v.queue[head]? with
    | none => some v
    | some currentPosSet =>
      match mapGet v.dfaStates (posToKey currentPosSet) with
      | none => none
      | some currentDfaId =>
        let v := { v with trace := v.trace ++
          ["\n- **Processing q" ++ toString currentDfaId ++ "** (positions \x7b"
            ++ posToKey currentPosSet ++ "\x7d):"] }
        match directSymbols positions followpos endPosition currentPosSet currentDfaId
            v alphabet with
        | none => none
        | some v => directLoop positions followpos endPosition alphabet fuel (head + 1) v

/-- `buildDfaFromFollowpos({ augmentedAst, positions, followpos })`: the pair
`{ dfa, trace }`. The worklist loop gets one unit of fuel for each set of keys
of `followpos`, plus one. -/
def buildDfaFromFollowpos (d : CalcData) : Option (DFA × List String) :=
  let alphabet := positionsAlphabet d.positions
  let endPosition := d.positions.length
  let startPosSet := d.augmentedAst.firstpos
  if startPosSet.length = 0 then
    some ({ states := [], alphabet := alphabet, startState := none },
          ["Empty regex results in an empty automaton."])
  else
    let startKey := posToKey startPosSet
    let v : DirectVars :=
      { dfaStates := mapSet [] startKey 0,
        dfaStateInfo := [{ id := 0, positions := some startPosSet,
                           isAccepting := startPosSet.contains endPosition, transitions := [] }],
        queue := [startPosSet],
        trace := ["- **Initial State**: q0 = firstpos(root) = \x7b" ++ startKey ++ "\x7d"] }
    (directLoop d.positions d.followpos endPosition alphabet (2 ^ d.positions.length + 1) 0 v).map
      fun v => ({ states := v.dfaStateInfo, alphabet := alphabet, startState := some 0 }, v.trace)

/-- The object returned by `generateDfaDirectly`. -/
structure DirectResult where
  dfa : DFA
  trace : List String
  annotatedAst : AnnotatedAST
  positions : List (Nat × Char)
  followpos : List (Nat × List Nat)
  deriving DecidableEq, Repr

/-- `generateDfaDirectly(ast)`. -/
def generateDfaDirectly (ast : AST) : Option DirectResult :=
  match calculateFollowpos ast with
  | none => none
  | some calcData =>
    match buildDfaFromFollowpos calcData with
    | none => none
    | some (dfa, trace) =>
      some { dfa := dfa, trace := trace, annotatedAst := calcData.augmentedAst,
             positions := calcData.positions, followpos := calcData.followpos }

/-! ## Parser: specification-side definitions -/

/-- Spec-side rule of the implicit concatenation: the left token is a literal,
`)` or `*`, and the right token is a literal or `(`. -/
def needsConcat (l r : Char) : Bool :=
  (isLiteral l || l == ')' || l == '*') && (isLiteral r || r == '(')

/-- Spec-side insertion of the explicit concatenation operator between every
adjacent pair that needs it. -/
def insertExplicitConcat : List Char → List Char
  | [] => []
  | [c] => [c]
  | l :: r :: rest =>
    if needsConcat l r then l :: '.' :: insertExplicitConcat (r :: rest)
    else l :: insertExplicitConcat (r :: rest)

/-- Parenthesis depth scan: `none` as soon as a `)` has no earlier unmatched `(`,
otherwise the number of `(` still open at the end. -/
def parenDepth : Nat → List Char → Option Nat
  | d, [] => some d
  | d, c :: rest =>
    if c = '(' then parenDepth (d + 1) rest
    else if c = ')' then
      match d with
      | 0 => none
      | d + 1 => parenDepth d rest
    else parenDepth d rest

/-- Balanced parentheses: every `)` closes an earlier `(` and every `(` is closed. -/
def balanced (s : List Char) : Bool := parenDepth 0 s == some 0

/-! ## Specification side: acceptance by a DFA, language of an AST -/

/-- The state object whose `id` is `s`. -/
def DFA.state (d : DFA) (s : Nat) : Option DFAState :=
  d.states.find? fun st => st.id == s

/-- One move: the target of state `s` on symbol `c`, `none` when the transition
is missing. -/
def DFA.next (d : DFA) (s : Nat) (c : Char) : Option Nat :=
  match d.state s with
  | none => none
  | some st => mapGet st.transitions c

/-- Follow the transitions from `s` over the characters of `w`. -/
def DFA.run (d : DFA) : Nat → List Char → Option Nat
  | s, [] => some s
  | s, c :: w =>
    match d.next s c with
    | none => none
    | some t => d.run t w

/-- Acceptance from state `s`: the run never hits a missing transition and ends
in a state with `isAccepting = true`. -/
def DFA.acceptsFrom (d : DFA) (s : Nat) (w : List Char) : Bool :=
  match d.run s w with
  | none => false
  | some q =>
    match d.state q with
    | none => false
    | some st => st.isAccepting

/-- Acceptance of `w` by the DFA (from `startState`; a DFA without start state
accepts nothing). -/
def DFA.accepts (d : DFA) (w : List Char) : Bool :=
  match d.startState with
  | none => false
  | some s => d.acceptsFrom s w

/-- The regular language denoted by an AST: `CHAR c` denotes `{c}`, `CONCAT` the
concatenation, `ALTERNATION` the union, `KLEENE_STAR` the Kleene closure. -/
def languageOf : AST → Language Char
  | .CHAR c => {[c]}
  | .CONCAT l r => languageOf l * languageOf r
  | .ALTERNATION l r => languageOf l + languageOf r
  | .KLEENE_STAR c => KStar.kstar (languageOf c)

/-- No `CHAR` leaf of the AST carries the value `c`. -/
def AST.avoids (c : Char) : AST → Prop
  | .CHAR v => v ≠ c
  | .CONCAT l r => l.avoids c ∧ r.avoids c
  | .ALTERNATION l r => l.avoids c ∧ r.avoids c
  | .KLEENE_STAR e => e.avoids c

/-- Every `CHAR` leaf of the AST carries an alphanumeric character. -/
def AST.alphanumeric : AST → Prop
  | .CHAR v => isLiteral v = true
  | .CONCAT l r => l.alphanumeric ∧ r.alphanumeric
  | .ALTERNATION l r => l.alphanumeric ∧ r.alphanumeric
  | .KLEENE_STAR e => e.alphanumeric

/-- The `isAccepting` flag of the state whose `id` is `s` (`false` when the DFA
has no such state). -/
def DFA.isAcceptingAt (d : DFA) (s : Nat) : Bool :=
  match d.state s with
  | none => false
  | some st => st.isAccepting

/-- Each state has at most one target state for each symbol. -/
def DFA.Deterministic (d : DFA) : Prop :=
  ∀ st ∈ d.states, ∀ a t1 t2,
    (a, t1) ∈ st.transitions → (a, t2) ∈ st.transitions → t1 = t2

/-- A trim DFA: the start state is a state, every state is reached from the
start state by some word, from every state some word is accepted, and every
transition leads to a state. -/
structure DFA.Trim (d : DFA) : Prop where
  start : ∃ s, d.startState = some s ∧ (d.state s).isSome = true
  reach : ∀ s, (d.state s).isSome = true →
    ∃ s0 w, d.startState = some s0 ∧ d.run s0 w = some s
  live : ∀ s, (d.state s).isSome = true → ∃ w, d.acceptsFrom s w = true
  closed : ∀ s a t, d.next s a = some t → (d.state t).isSome = true

/-- Isomorphism of DFAs: a bijection `f` between the state ids of `d1` and
those of `d2` that maps start state to start state, preserves `isAccepting` and
preserves every transition on every symbol. -/
def DFA.Isomorphic (d1 d2 : DFA) : Prop :=
  ∃ f : Nat → Nat,
    Set.BijOn f {s | (d1.state s).isSome = true} {s | (d2.state s).isSome = true} ∧
    d2.startState = d1.startState.map f ∧
    (∀ s, (d1.state s).isSome = true → d2.isAcceptingAt (f s) = d1.isAcceptingAt s) ∧
    (∀ s a, (d1.state s).isSome = true → d2.next (f s) a = (d1.next s a).map f)

/-- Bisimilarity of DFAs: a relation `R` between the states of `d1` and the
states of `d2` that relates every state of each DFA to some state of the other,
relates start state to start state, preserves `isAccepting`, and preserves
every transition on every symbol: related states either both lack the
transition or both have it, with related targets. -/
def DFA.Bisimilar (d1 d2 : DFA) : Prop :=
  ∃ R : Nat → Nat → Prop,
    (∀ s t, R s t → (d1.state s).isSome = true ∧ (d2.state t).isSome = true) ∧
    (∀ s, (d1.state s).isSome = true → ∃ t, R s t) ∧
    (∀ t, (d2.state t).isSome = true → ∃ s, R s t) ∧
    (∃ s t, d1.startState = some s ∧ d2.startState = some t ∧ R s t) ∧
    (∀ s t, R s t → d1.isAcceptingAt s = d2.isAcceptingAt t) ∧
    (∀ s t a, R s t →
      (d1.next s a = none ∧ d2.next t a = none) ∨
      ∃ s' t', d1.next s a = some s' ∧ d2.next t a = some t' ∧ R s' t')

/-! ## Specification side: runs of the NFA -/

/-- A run of the NFA stored in `heap`: `NPath heap s w u` says that `u` is
reached from `s` by transitions that read exactly `w`, the transitions labelled
`'ε'` reading nothing. -/
inductive NPath (heap : List State) : Nat → List Char → Nat → Prop
  | nil (s : Nat) : NPath heap s [] s
  | eps {s t u : Nat} {w : List Char} :
      t ∈ targetsOf heap s EPSILON → NPath heap t w u → NPath heap s w u
  | sym {s t u : Nat} {c : Char} {w : List Char} :
      c ≠ EPSILON → t ∈ targetsOf heap s c → NPath heap t w u → NPath heap s (c :: w) u

/-- Reachability in the state graph, by transitions on any symbol (the entries
of the `transitions` map of a state, as `getAlphabet` walks them). -/
inductive Reach (heap : List State) : Nat → Nat → Prop
  | refl (s : Nat) : Reach heap s s
  | step {s t u : Nat} {e : Char × List Nat} :
      e ∈ (deref heap s).transitions → t ∈ e.2 → Reach heap t u → Reach heap s u

/-- A set of references that lie in the heap and that no transition leaves. -/
structure ClosedRegion (heap : List State) (U : Nat → Prop) : Prop where
  inHeap : ∀ s, U s → s < heap.length
  closedEntries : ∀ s, U s → ∀ e ∈ (deref heap s).transitions, ∀ t ∈ e.2, U t

/-! ## Specification side: positions and position paths of the followpos construction -/

/-- The values of the `CHAR` leaves of an AST, left to right. -/
def AST.leaves : AST → List Char
  | .CHAR v => [v]
  | .CONCAT l r => l.leaves ++ r.leaves
  | .ALTERNATION l r => l.leaves ++ r.leaves
  | .KLEENE_STAR c => c.leaves

/-- `q ∈ followpos(p)` in the map `F`. -/
def Follows (F : List (Nat × List Nat)) (p q : Nat) : Prop :=
  ∃ S, mapGet F p = some S ∧ q ∈ S

/-- A path of positions: `PosPath F P p w q` says that `w` is read along
positions that start at `p`, end at `q`, each carry the next character of `w`
(in the map `P`) and each lie in the `followpos` (in the map `F`) of the one before. -/
inductive PosPath (F : List (Nat × List Nat)) (P : List (Nat × Char)) :
    Nat → List Char → Nat → Prop
  | single {p : Nat} {a : Char} : mapGet P p = some a → PosPath F P p [a] p
  | step {p q r : Nat} {a : Char} {w : List Char} :
      mapGet P p = some a → Follows F p q → PosPath F P q w r → PosPath F P p (a :: w) r

/-- Well-formed variables of `traverse`: the positions handed out so far are
`1 .. position`, and only they can have a `followpos` entry. -/
structure FollowVars.WF (v : FollowVars) : Prop where
  keys : v.positions.map Prod.fst = List.range' 1 v.position
  followKeys : ∀ k, (mapGet v.followpos k).isSome = true → 1 ≤ k ∧ k ≤ v.position

/-- What `traverse ast v0 = some (A, v1)` guarantees. -/
structure Traversed (ast : AST) (v0 : FollowVars) (A : AnnotatedAST) (v1 : FollowVars) :
    Prop where
  position : v1.position = v0.position + ast.leaves.length
  positions : v1.positions =
    v0.positions ++ (List.range' (v0.position + 1) ast.leaves.length).zip ast.leaves
  wf : v1.WF
  followOld : ∀ k, k ≤ v0.position → mapGet v1.followpos k = mapGet v0.followpos k
  followNew : ∀ k S, v0.position < k → mapGet v1.followpos k = some S →
    S.Nodup ∧ ∀ q ∈ S, v0.position < q ∧ (mapGet v1.followpos q).isSome = true
  first_nodup : A.firstpos.Nodup
  first_in : ∀ p ∈ A.firstpos, v0.position < p ∧ (mapGet v1.followpos p).isSome = true
  last_nodup : A.lastpos.Nodup
  last_in : ∀ p ∈ A.lastpos, v0.position < p ∧ (mapGet v1.followpos p).isSome = true
  nonempty : A.nullable = false → A.firstpos ≠ []
  coacc : ∀ p, v0.position < p → (mapGet v1.followpos p).isSome = true →
    ∃ w, ∃ q ∈ A.lastpos, PosPath v1.followpos v1.positions p w q
  lang : ast.avoids EPSILON → ∀ w, w ∈ languageOf ast ↔
    ((w = [] ∧ A.nullable = true) ∨
      ∃ p ∈ A.firstpos, ∃ q ∈ A.lastpos, PosPath v1.followpos v1.positions p w q)

/-- The successor of a set of positions in `buildDfaFromFollowpos`: `none` when a
`followpos` lookup fails, `some none` when no transition is recorded. -/
def nextDirect (positions : List (Nat × Char)) (followpos : List (Nat × List Nat))
    (S : List Nat) (a : Char) : Option (Option (List Nat)) :=
  if (S.filter fun p => mapGet positions p == some a).length = 0 then some none
  else
    match unionFollowpos followpos [] (S.filter fun p => mapGet positions p == some a) with
    | none => none
    | some nextPosSet => if nextPosSet.length > 0 then some (some nextPosSet) else some none

/-- The DFA state object that `buildDfaFromFollowpos` creates for a set of positions. -/
def mkDirect (endPosition : Nat) (id : Nat) (S : List Nat) : DFAState :=
  { id := id, positions := some S, isAccepting := S.contains endPosition, transitions := [] }

/-- The variables of the worklist loop without the trace. -/
def DirectVars.core (v : DirectVars) : SubsetVars :=
  { dfaStates := v.dfaStates, dfaStateInfo := v.dfaStateInfo, queue := v.queue }

/-- The sets of positions that the worklist of `buildDfaFromFollowpos` can hold. -/
def GoodPos (followpos : List (Nat × List Nat)) (S : List Nat) : Prop :=
  S.Nodup ∧ ∀ p ∈ S, (mapGet followpos p).isSome = true

/-! ## Definitions used by the proofs

The worklist loop `bfsLoop` that both `subsetLoop` and `directLoop` refine, the
automaton of sets that the resulting DFA simulates, and the invariants of the
loops and of the builders. -/

/-- Value of a string of decimal digits. -/
def decimalValue (cs : List Char) : Nat := cs.foldl (fun a c => 10 * a + (c.toNat - 48)) 0

/-- The decimal digits of `n`, as `toString` prints them. -/
def decimal (n : Nat) : List Char := Nat.toDigits 10 n

/-- The characters that follow the first number in `join(',')`. -/
def commaTail (l : List Nat) : List Char := l.flatMap fun m => ',' :: decimal m

section BfsDefs

variable (next : List Nat → Char → Option (Option (List Nat)))
variable (key : List Nat → String) (mk : Nat → List Nat → DFAState)

/-- Body of the loop over the alphabet. -/
def bfsSymbol (cur : List Nat) (curId : Nat) (v : SubsetVars) (symbol : Char) :
    Option SubsetVars :=
  match next cur symbol with
  | none => none
  | some none => some v
  | some (some nxt) =>
    match mapGet v.dfaStates (key nxt) with
    | none =>
      (setTransition (v.dfaStateInfo ++ [mk v.dfaStateInfo.length nxt]) curId symbol
          v.dfaStateInfo.length).map fun info =>
        { dfaStates := mapSet v.dfaStates (key nxt) v.dfaStateInfo.length,
          dfaStateInfo := info,
          queue := v.queue ++ [nxt] }
    | some nextDfaId =>
      (setTransition v.dfaStateInfo curId symbol nextDfaId).map fun info =>
        { v with dfaStateInfo := info }

/-- The loop over the alphabet. -/
def bfsSymbols (cur : List Nat) (curId : Nat) : SubsetVars → List Char → Option SubsetVars
  | v, [] => some v
  | v, symbol :: rest =>
    match bfsSymbol next key mk cur curId v symbol with
    | none => none
    | some v => bfsSymbols cur curId v rest

/-- The worklist loop. -/
def bfsLoop (alphabet : List Char) : Nat → Nat → SubsetVars → Option SubsetVars
  | 0, _, _ => none
  | fuel + 1, head, v =>
    match v.queue[head]? with
    | none => some v
    | some cur =>
      match mapGet v.dfaStates (key cur) with
      | none => none
      | some curId =>
        match bfsSymbols next key mk cur curId v alphabet with
        | none => none
        | some v => bfsLoop alphabet fuel (head + 1) v

/-- What the transition table of a state must say on symbol `a` once the pair
has been processed. -/
def TransOK (queue : List (List Nat)) (S : List Nat) (st : DFAState) (a : Char) : Prop :=
  match next S a with
  | none => False
  | some none => mapGet st.transitions a = none
  | some (some T) =>
    ∃ j S', mapGet st.transitions a = some j ∧ queue[j]? = some S' ∧ key S' = key T

/-- Invariant of the worklist loop; `P i a` says that symbol `a` of state `i`
has been processed. -/
structure BfsInv (Good : List Nat → Prop) (start : List Nat) (P : Nat → Char → Prop)
    (v : SubsetVars) : Prop where
  len : v.dfaStateInfo.length = v.queue.length
  first : v.queue[0]? = some start
  good : ∀ S ∈ v.queue, Good S
  map : ∀ k j, mapGet v.dfaStates k = some j ↔ ∃ S, v.queue[j]? = some S ∧ key S = k
  shape : ∀ i st S, v.dfaStateInfo[i]? = some st → v.queue[i]? = some S →
    st = { mk i S with transitions := st.transitions }
  bound : ∀ i a, P i a → i < v.queue.length
  done : ∀ i st S a, v.dfaStateInfo[i]? = some st → v.queue[i]? = some S → P i a →
    TransOK next key v.queue S st a
  todo : ∀ i st a, v.dfaStateInfo[i]? = some st → ¬ P i a → mapGet st.transitions a = none
  nodup : ∀ st ∈ v.dfaStateInfo, (st.transitions.map Prod.fst).Nodup

end BfsDefs

/-- The variables with which both worklist loops start. -/
def bfsInit (key : List Nat → String) (mk : Nat → List Nat → DFAState) (start : List Nat) :
    SubsetVars :=
  { dfaStates := mapSet [] (key start) 0, dfaStateInfo := [mk 0 start], queue := [start] }

/-- Acceptance by the automaton whose states are the sets themselves: `acc`
tells the accepting sets and `next` is the successor. -/
def absAccepts (next : List Nat → Char → Option (Option (List Nat))) (acc : List Nat → Bool)
    (alphabet : List Char) : List Nat → List Char → Prop
  | S, [] => acc S = true
  | S, a :: w => a ∈ alphabet ∧ ∃ T, next S a = some (some T) ∧ absAccepts next acc alphabet T w

/-- The sets that the automaton of sets reaches from `start` over the symbols
of the alphabet. -/
inductive AbsReach (next : List Nat → Char → Option (Option (List Nat)))
    (alphabet : List Char) (start : List Nat) : List Nat → Prop
  | refl : AbsReach next alphabet start start
  | step {S T : List Nat} {a : Char} : AbsReach next alphabet start S → a ∈ alphabet →
      next S a = some (some T) → AbsReach next alphabet start T

/-- Invariant of the `while` loop of `epsilonClosure`. -/
structure ClosureInv (heap : List State) (U : Nat → Prop) (S closure stack : List Nat) :
    Prop where
  nodup : closure.Nodup
  inU : ∀ x ∈ closure, U x
  stack_sub : ∀ x ∈ stack, x ∈ closure
  init_sub : ∀ x ∈ S, x ∈ closure
  sound : ∀ x ∈ closure, ∃ s ∈ S, NPath heap s [] x
  closedOff : ∀ x ∈ closure, x ∉ stack → ∀ t ∈ targetsOf heap x EPSILON, t ∈ closure

/-- Invariant of the `while` loop of `getAlphabet`. -/
structure AlphabetInv (heap : List State) (U : Nat → Prop) (start : Nat)
    (alphabet : List Char) (visited stack : List Nat) : Prop where
  nodup : visited.Nodup
  inU : ∀ x ∈ visited, U x
  stack_sub : ∀ x ∈ stack, x ∈ visited
  init_mem : start ∈ visited
  reach : ∀ x ∈ visited, Reach heap start x
  sound : ∀ a ∈ alphabet, a ≠ EPSILON ∧
    ∃ s, Reach heap start s ∧ ∃ e ∈ (deref heap s).transitions, e.1 = a
  processed : ∀ x ∈ visited, x ∉ stack → ∀ e ∈ (deref heap x).transitions,
    (e.1 ≠ EPSILON → e.1 ∈ alphabet) ∧ ∀ t ∈ e.2, t ∈ visited

/-- The targets of a state, read off its `State` object. -/
def State.targets (s : State) (c : Char) : List Nat := (mapGet s.transitions c).getD []

/-- What `buildNfaForNode ast σ0 = (frag, σ1)` guarantees. The new states are
those with references from `σ0.states.length` up to `σ1.states.length`. -/
structure Built (ast : AST) (σ0 : Store) (frag : NFAFragment) (σ1 : Store) : Prop where
  le : σ0.states.length ≤ σ1.states.length
  old : ∀ i, i < σ0.states.length → deref σ1.states i = deref σ0.states i
  counter : σ1.stateId = σ0.stateId + (σ1.states.length - σ0.states.length)
  start_ge : σ0.states.length ≤ frag.startState
  start_lt : frag.startState < σ1.states.length
  end_ge : σ0.states.length ≤ frag.endState
  end_lt : frag.endState < σ1.states.length
  closed : ∀ i, σ0.states.length ≤ i → i < σ1.states.length →
    ∀ e ∈ (deref σ1.states i).transitions, ∀ t ∈ e.2,
      σ0.states.length ≤ t ∧ t < σ1.states.length
  end_empty : (deref σ1.states frag.endState).transitions = []
  ids : ∀ i, σ0.states.length ≤ i → i < σ1.states.length →
    (deref σ1.states i).id = σ0.stateId + (i - σ0.states.length)
  nonacc : ∀ i, σ0.states.length ≤ i → i < σ1.states.length →
    (deref σ1.states i).isAccepting = false
  conn : ∃ w, NPath σ1.states frag.startState w frag.endState
  coacc : ∀ i, σ0.states.length ≤ i → i < σ1.states.length →
    ∃ w, NPath σ1.states i w frag.endState
  acc : ∀ i, σ0.states.length ≤ i → i < σ1.states.length →
    ∃ w, NPath σ1.states frag.startState w i
  symsSound : ∀ i, σ0.states.length ≤ i → i < σ1.states.length →
    ∀ e ∈ (deref σ1.states i).transitions, e.1 = EPSILON ∨ e.1 ∈ ast.leaves
  symsComplete : ∀ a ∈ ast.leaves, ∃ i t, σ0.states.length ≤ i ∧ i < σ1.states.length ∧
    t ∈ targetsOf σ1.states i a
  lang : ast.avoids EPSILON →
    ∀ w, NPath σ1.states frag.startState w frag.endState ↔ w ∈ languageOf ast

/-- The two states that `buildNfaForAlternation` and `buildNfaForKleeneStar`
allocate first. -/
structure TwoNew (σ0 σb : Store) : Prop where
  length : σb.states.length = σ0.states.length + 2
  stateId : σb.stateId = σ0.stateId + 2
  old : ∀ i, i < σ0.states.length → deref σb.states i = deref σ0.states i
  first : deref σb.states σ0.states.length =
    { id := σ0.stateId, isAccepting := false, transitions := [] }
  second : deref σb.states (σ0.states.length + 1) =
    { id := σ0.stateId + 1, isAccepting := false, transitions := [] }

/-- The successor of a set of NFA states in `nfaToDfa`: no transition when
`move` is empty, otherwise the epsilon closure of `move`. -/
def nextSubset (heap : List State) (S : List Nat) (a : Char) : Option (Option (List Nat)) :=
  if (move heap S a).length = 0 then some none
  else (epsilonClosure heap (move heap S a)).map some

/-- The DFA state object that `nfaToDfa` creates for a set of NFA states. -/
def mkSubset (heap : List State) (id : Nat) (S : List Nat) : DFAState :=
  { id := id, positions := none, isAccepting := someAccepting heap S, transitions := [] }

/-- The sets of NFA states that the worklist of `nfaToDfa` can hold: duplicate
free, made of states reachable from the start state. -/
def GoodSet (heap : List State) (start : Nat) (S : List Nat) : Prop :=
  S.Nodup ∧ ∀ s ∈ S, Reach heap start s

/-- The sets of NFA states that the worklist of `nfaToDfa` holds: good, not
empty, and closed under epsilon moves. -/
def ClosedSet (heap : List State) (start : Nat) (S : List Nat) : Prop :=
  GoodSet heap start S ∧ S ≠ [] ∧ ∀ s ∈ S, ∀ t, NPath heap s [] t → t ∈ S

/-- A region of the heap on which the `id` fields tell the states apart. -/
def IdsDistinct (heap : List State) (U : Nat → Prop) : Prop :=
  ∀ i j, U i → U j → (deref heap i).id = (deref heap j).id → i = j

/-- What `astToNfa ast σ = (nfa, σ')` guarantees about the heap `σ'.states`;
`n0` is the number of states allocated before the call. -/
structure IsThompson (ast : AST) (n0 : Nat) (heap : List State) (nfa : NFAFragment) : Prop where
  start_ge : n0 ≤ nfa.startState
  start_lt : nfa.startState < heap.length
  end_ge : n0 ≤ nfa.endState
  end_lt : nfa.endState < heap.length
  region : ClosedRegion heap (fun i => n0 ≤ i ∧ i < heap.length)
  ids : ∀ i, n0 ≤ i → i < heap.length → (deref heap i).id = i - n0
  accepting : ∀ i, n0 ≤ i → i < heap.length →
    ((deref heap i).isAccepting = true ↔ i = nfa.endState)
  end_empty : (deref heap nfa.endState).transitions = []
  conn : ∃ w, NPath heap nfa.startState w nfa.endState
  coacc : ∀ i, n0 ≤ i → i < heap.length → ∃ w, NPath heap i w nfa.endState
  lang : ast.avoids EPSILON →
    ∀ w, NPath heap nfa.startState w nfa.endState ↔ w ∈ languageOf ast

/-- What `calculateFollowpos ast = some d` guarantees. -/
structure RootFacts (ast : AST) (d : CalcData) : Prop where
  positions : d.positions =
    (List.range' 1 (ast.leaves.length + 1)).zip (ast.leaves ++ ['#'])
  length : d.positions.length = ast.leaves.length + 1
  keys : (d.positions.map Prod.fst).Nodup
  keysRange : ∀ k, (mapGet d.followpos k).isSome = true → 1 ≤ k ∧ k ≤ ast.leaves.length + 1
  closed : ∀ k S, mapGet d.followpos k = some S →
    S.Nodup ∧ ∀ q ∈ S, (mapGet d.followpos q).isSome = true
  first_nodup : d.augmentedAst.firstpos.Nodup
  first_in : ∀ p ∈ d.augmentedAst.firstpos, (mapGet d.followpos p).isSome = true
  endSym : mapGet d.positions (ast.leaves.length + 1) = some '#'
  endF : mapGet d.followpos (ast.leaves.length + 1) = some []
  hash : ast.avoids '#' → ∀ k, mapGet d.positions k = some '#' → k = ast.leaves.length + 1
  nonempty : d.augmentedAst.firstpos ≠ []
  coacc : ∀ p, (mapGet d.followpos p).isSome = true →
    ∃ w, PosPath d.followpos d.positions p w (ast.leaves.length + 1)
  lang : ast.avoids EPSILON → ∀ w, w ∈ languageOf ast ↔
    ∃ p ∈ d.augmentedAst.firstpos,
      PosPath d.followpos d.positions p (w ++ ['#']) (ast.leaves.length + 1)

/-! ## Further specification-side definitions -/

/-- The number of nodes for which Thompson's construction allocates two states:
the `CHAR`, `ALTERNATION` and `KLEENE_STAR` nodes. -/
def AST.thompsonNodes : AST → Nat
  | .CHAR _ => 1
  | .CONCAT l r => l.thompsonNodes + r.thompsonNodes
  | .ALTERNATION l r => l.thompsonNodes + r.thompsonNodes + 1
  | .KLEENE_STAR c => c.thompsonNodes + 1

/-- The `State` object `s` seen from a heap in which `n` more objects precede it
and the counter started `c` higher: every reference grows by `n`, the identity
by `c`. -/
def State.shift (n c : Nat) (s : State) : State :=
  { id := s.id + c, isAccepting := s.isAccepting,
    transitions := s.transitions.map fun e => (e.1, e.2.map (· + n)) }

/-- The AST under the attributes. -/
def AnnotatedAST.erase : AnnotatedAST → AST
  | .CHAR v _ => .CHAR v
  | .CONCAT l r _ => .CONCAT l.erase r.erase
  | .ALTERNATION l r _ => .ALTERNATION l.erase r.erase
  | .KLEENE_STAR c _ => .KLEENE_STAR c.erase

/-- The `position` attributes of the `CHAR` leaves, left to right. -/
def AnnotatedAST.leafPositions : AnnotatedAST → List (Option Nat)
  | .CHAR _ a => [a.position]
  | .CONCAT l r _ => l.leafPositions ++ r.leafPositions
  | .ALTERNATION l r _ => l.leafPositions ++ r.leafPositions
  | .KLEENE_STAR c _ => c.leafPositions

/-- The table of transitions says `info[i].transitions[b] === t`. -/
def StepIn (info : List DFAState) (i : Nat) (b : Char) (t : Nat) : Prop :=
  ∃ st, info[i]? = some st ∧ mapGet st.transitions b = some t

/-- The DFA has a transition on `b` from the state stored at index `i` to the
state `t`. -/
def DFA.Step (d : DFA) (i : Nat) (b : Char) (t : Nat) : Prop := StepIn d.states i b t

/-- The lexicographic order on pairs (source state, index of the symbol in the
alphabet). -/
def pairLt (p q : Nat × Nat) : Prop := p.1 < q.1 ∨ (p.1 = q.1 ∧ p.2 < q.2)

/-- The transition `(j, a)` enters `k` and no transition into `k` has a smaller
pair (source state, index of the symbol in the alphabet). -/
def DFA.LeastEntry (d : DFA) (k j : Nat) (a : Char) : Prop :=
  a ∈ d.alphabet ∧ d.Step j a k ∧
  ∀ j' a', d.Step j' a' k →
    ¬ pairLt (j', d.alphabet.indexOf a') (j, d.alphabet.indexOf a)

/-- Invariant of the worklist loop about the order of discovery, when the pairs
below `(h, k)` have been processed and `n` sets have been discovered: every
recorded transition belongs to a processed pair, and every state but the first
has a transition that discovered it, before which no transition reached that
state or a later one. -/
structure DiscInv (alphabet : List Char) (info : List DFAState) (n h k : Nat) : Prop where
  proc : ∀ i b t, StepIn info i b t →
    b ∈ alphabet ∧ pairLt (i, alphabet.indexOf b) (h, k) ∧ t < n
  disc : ∀ t, 1 ≤ t → t < n → ∃ j a, a ∈ alphabet ∧ j < t ∧ StepIn info j a t ∧
    ∀ i b t', StepIn info i b t' → t ≤ t' →
      ¬ pairLt (i, alphabet.indexOf b) (j, alphabet.indexOf a)

/-- A DFA as both constructions return it: start state `0`, at least one state,
the state stored at index `i` has `id = i`, every transition symbol belongs to
the alphabet and every transition target is the `id` of a state in the list. -/
structure DFA.WellFormed (d : DFA) : Prop where
  start : d.startState = some 0
  nonempty : d.states ≠ []
  ids : ∀ (i : Nat) (st : DFAState), d.states[i]? = some st → st.id = i
  symbols : ∀ st ∈ d.states, ∀ e ∈ st.transitions, e.1 ∈ d.alphabet
  targets : ∀ st ∈ d.states, ∀ e ∈ st.transitions, ∃ st' ∈ d.states, st'.id = e.2

/-- The set `U` of the followpos construction, in the words of its description:
the union of `followpos(p)` over the positions `p` of `S` whose symbol is `a`. -/
def followUnion (positions : List (Nat × Char)) (followpos : List (Nat × List Nat))
    (S : List Nat) (a : Char) : List Nat :=
  (S.filter fun p => mapGet positions p == some a).flatMap fun p =>
    (mapGet followpos p).getD []

/-- The fragment seen from a heap in which `n` more objects precede it. -/
def NFAFragment.shift (n : Nat) (f : NFAFragment) : NFAFragment :=
  { startState := f.startState + n, endState := f.endState + n }

/-- The store `σ` relocated behind the objects `pre`, with the counter started
`c` higher. -/
def Store.reloc (pre : List State) (c : Nat) (σ : Store) : Store :=
  { stateId := σ.stateId + c, states := pre ++ σ.states.map (State.shift pre.length c) }

/-- The NFA made of the objects allocated from reference `n0` on, as a reader
of the objects sees it: for each state its `id`, its `isAccepting` flag and its
transitions, each target set given by the `id`s of its members. -/
def nfaView (heap : List State) (n0 : Nat) : List (Nat × Bool × List (Char × List Nat)) :=
  (heap.drop n0).map fun s =>
    (s.id, s.isAccepting, s.transitions.map fun e => (e.1, e.2.map fun t => (deref heap t).id))

/-- The alphabet in the words of its description: the distinct characters of
the `CHAR` leaves, sorted ascending. -/
def leafAlphabet (ast : AST) : List Char := sortSymbols ast.leaves.dedup

/-- The fully parenthesised rendering of an AST: a `CHAR` leaf is its character
and every operand of an operator is wrapped in parentheses. -/
def AST.render : AST → List Char
  | .CHAR c => [c]
  | .CONCAT l r => '(' :: (l.render ++ ')' :: '(' :: (r.render ++ [')']))
  | .ALTERNATION l r => '(' :: (l.render ++ ')' :: '|' :: '(' :: (r.render ++ [')']))
  | .KLEENE_STAR c => '(' :: (c.render ++ [')', '*'])

/-- The rendering with the explicit concatenation operators in place. -/
def AST.tokens : AST → List Char
  | .CHAR c => [c]
  | .CONCAT l r => '(' :: (l.tokens ++ ')' :: '.' :: '(' :: (r.tokens ++ [')']))
  | .ALTERNATION l r => '(' :: (l.tokens ++ ')' :: '|' :: '(' :: (r.tokens ++ [')']))
  | .KLEENE_STAR c => '(' :: (c.tokens ++ [')', '*'])

/-- Scan of the parentheses from depth `d`: a `(` opens, a `)` closes the last
open `(` if there is one. The result is the number of `(` left open. -/
def openParens : Nat → List Char → Nat
  | d, [] => d
  | d, c :: rest =>
    if c = '(' then openParens (d + 1) rest
    else if c = ')' then openParens (d - 1) rest
    else openParens d rest

/-- The number of `(` of the string that no later `)` closes. -/
def unclosedParens (s : List Char) : Nat := openParens 0 s

/-- A token that the parser pushes as an operator and applies to two operands:
any character but a literal, a parenthesis or `*`. -/
def isBinaryToken (c : Char) : Bool := !isLiteral c && c != '(' && c != ')' && c != '*'

/-- The number of literals among the tokens. -/
def literalCount (l : List Char) : Nat := l.countP isLiteral

/-- The number of two-operand operators among the tokens. -/
def binaryCount (l : List Char) : Nat := l.countP isBinaryToken

/-- The operators of the stack that take two operands, parentheses apart. -/
def pendingBinary (ops : List Char) : Nat := ops.countP fun c => c != '*' && c != '('

/-- The parentheses of the operator stack. -/
def pendingParens (ops : List Char) : Nat := ops.countP fun c => c == '('

/-- Whether the string starts with a literal or with `(`. -/
def leadsOperand : List Char → Nat
  | [] => 0
  | c :: _ => if isLiteral c || c == '(' then 1 else 0

/-! ## Parser: lemmas -/

theorem addConcat_head (c : Char) (rest : List Char) :
    ∃ t, addConcat (c :: rest) = c :: t := by
  cases rest with
  | nil => exact ⟨[], rfl⟩
  | cons n rest =>
    unfold addConcat
    split
    · exact ⟨_, rfl⟩
    · split
      · exact ⟨_, rfl⟩
      · exact ⟨_, rfl⟩

theorem addConcat_eq_insertExplicitConcat (s : List Char) :
    addConcat s = insertExplicitConcat s := by
  induction s with
  | nil => rfl
  | cons c rest ih =>
    cases rest with
    | nil => rfl
    | cons n rest =>
      unfold addConcat insertExplicitConcat
      rw [ih]
      by_cases h1 : isLiteral c = true <;> by_cases h2 : (isLiteral n || n == '(') = true <;>
        by_cases h3 : (c == ')' || c == '*') = true <;>
        simp_all [needsConcat]

theorem addConcat_dot (n : Char) (t : List Char) :
    addConcat ('.' :: n :: t) = '.' :: addConcat (n :: t) := by
  have h1 : isLiteral '.' = false := by decide
  have h2 : ('.' == ')' || '.' == '*') = false := by decide
  rw [addConcat]
  simp [h1, h2]

theorem addConcat_before_dot (c : Char) (t : List Char) :
    addConcat (c :: '.' :: t) = c :: addConcat ('.' :: t) := by
  have h1 : isLiteral '.' = false := by decide
  rw [addConcat]
  simp [h1]

theorem addConcat_idem (s : List Char) : addConcat (addConcat s) = addConcat s := by
  induction s with
  | nil => rfl
  | cons c rest ih =>
    cases rest with
    | nil => rfl
    | cons n rest =>
      obtain ⟨t, ht⟩ := addConcat_head n rest
      have step1 : addConcat (c :: '.' :: addConcat (n :: rest)) =
          c :: '.' :: addConcat (n :: rest) := by
        rw [addConcat_before_dot]
        conv_lhs => rw [ht, addConcat_dot, ← ht, ih]
      by_cases h1 : (isLiteral c && (isLiteral n || n == '(')) = true
      · have e : addConcat (c :: n :: rest) = c :: '.' :: addConcat (n :: rest) := by
          rw [addConcat]; simp [h1]
        rw [e, step1]
      · by_cases h2 : ((c == ')' || c == '*') && (isLiteral n || n == '(')) = true
        · have e : addConcat (c :: n :: rest) = c :: '.' :: addConcat (n :: rest) := by
            rw [addConcat]; simp [h1, h2]
          rw [e, step1]
        · have e : addConcat (c :: n :: rest) = c :: addConcat (n :: rest) := by
            rw [addConcat]; simp [h1, h2]
          rw [e]
          have e2 : addConcat (c :: addConcat (n :: rest)) =
              c :: addConcat (addConcat (n :: rest)) := by
            rw [ht, addConcat]; simp [h1, h2]
          rw [e2, ih]

theorem isLiteral_ne {c : Char} (h : isLiteral c = true) :
    c ≠ '(' ∧ c ≠ ')' ∧ c ≠ '*' ∧ c ≠ '|' ∧ c ≠ '.' := by
  refine ⟨?_, ?_, ?_, ?_, ?_⟩ <;> (intro e; subst e; revert h; decide)

/-! ## Insertion-ordered sets and maps: lemmas -/

section MapLemmas
variable {α β : Type} [BEq α] [LawfulBEq α]

omit [LawfulBEq α] in
theorem mapGet_nil (k : α) : mapGet ([] : List (α × β)) k = none := rfl

theorem mapGet_mapSet_self (m : List (α × β)) (k : α) (v : β) :
    mapGet (mapSet m k v) k = some v := by
  induction m with
  | nil => simp [mapSet, mapGet, List.lookup]
  | cons e m ih =>
    obtain ⟨k', v'⟩ := e
    unfold mapSet
    by_cases h : (k' == k) = true
    · simp [h, mapGet, List.lookup]
    · have h' : (k == k') = false := by
        cases hk : (k == k') with
        | false => rfl
        | true => exact absurd (by simpa using (eq_of_beq hk).symm) (by simpa using h)
      simp only [h, Bool.false_eq_true, ↓reduceIte]
      unfold mapGet at ih ⊢
      rw [List.lookup, h']
      exact ih

theorem mapGet_mapSet_ne (m : List (α × β)) (k k' : α) (v : β) (hne : k' ≠ k) :
    mapGet (mapSet m k v) k' = mapGet m k' := by
  induction m with
  | nil =>
    have : (k' == k) = false := by simpa using hne
    simp [mapSet, mapGet, List.lookup, this]
  | cons e m ih =>
    obtain ⟨k0, v0⟩ := e
    unfold mapSet
    by_cases h : (k0 == k) = true
    · have e0 : k0 = k := eq_of_beq h
      subst e0
      have : (k' == k0) = false := by simpa using hne
      simp [mapGet, List.lookup, this]
    · simp only [h, Bool.false_eq_true, ↓reduceIte]
      unfold mapGet at ih ⊢
      cases hk : (k' == k0) with
      | true => simp [List.lookup, hk]
      | false => simp only [List.lookup, hk]; exact ih

theorem mapGet_mapSet (m : List (α × β)) (k k' : α) (v : β) [DecidableEq α] :
    mapGet (mapSet m k v) k' = if k' = k then some v else mapGet m k' := by
  by_cases h : k' = k
  · subst h; simp [mapGet_mapSet_self]
  · simp [h, mapGet_mapSet_ne _ _ _ _ h]

theorem mapSet_keys (m : List (α × β)) (k : α) (v : β) :
    (mapSet m k v).map Prod.fst =
      if (mapGet m k).isNone then m.map Prod.fst ++ [k] else m.map Prod.fst := by
  induction m with
  | nil => simp [mapSet, mapGet]
  | cons e m ih =>
    obtain ⟨k0, v0⟩ := e
    unfold mapSet
    by_cases h : (k0 == k) = true
    · have e0 : k0 = k := eq_of_beq h
      subst e0
      simp [mapGet, List.lookup]
    · have h' : (k == k0) = false := by
        cases hk : (k == k0) with
        | false => rfl
        | true => exact absurd (by simpa using (eq_of_beq hk).symm) (by simpa using h)
      simp only [h, Bool.false_eq_true, ↓reduceIte, List.map_cons, ih]
      unfold mapGet
      rw [List.lookup, h']
      split <;> simp

theorem mapGet_eq_none_iff (m : List (α × β)) (k : α) :
    mapGet m k = none ↔ k ∉ m.map Prod.fst := by
  induction m with
  | nil => simp [mapGet]
  | cons e m ih =>
    obtain ⟨k0, v0⟩ := e
    unfold mapGet at ih ⊢
    cases hk : (k == k0) with
    | true =>
      have : k = k0 := eq_of_beq hk
      simp [List.lookup, hk, this]
    | false =>
      have : k ≠ k0 := by simpa using hk
      simp [List.lookup, hk, ih, this]

theorem mapSet_keys_nodup (m : List (α × β)) (k : α) (v : β)
    (h : (m.map Prod.fst).Nodup) : ((mapSet m k v).map Prod.fst).Nodup := by
  rw [mapSet_keys]
  split
  · rename_i hn
    rw [Option.isNone_iff_eq_none, mapGet_eq_none_iff] at hn
    exact List.Nodup.append h (List.nodup_singleton k) (by simpa using hn)
  · exact h

theorem mapSet_length (m : List (α × β)) (k : α) (v : β) :
    (mapSet m k v).length = if (mapGet m k).isNone then m.length + 1 else m.length := by
  have := congrArg List.length (mapSet_keys m k v)
  simp only [List.length_map] at this
  rw [this]
  split <;> simp

theorem mapGet_mem (m : List (α × β)) (k : α) (v : β) (h : mapGet m k = some v) :
    (k, v) ∈ m := by
  induction m with
  | nil => simp [mapGet] at h
  | cons e m ih =>
    obtain ⟨k0, v0⟩ := e
    unfold mapGet at ih h
    cases hk : (k == k0) with
    | true =>
      have : k = k0 := eq_of_beq hk
      simp [List.lookup, hk] at h
      simp [this, h]
    | false =>
      simp only [List.lookup, hk] at h
      exact List.mem_cons_of_mem _ (ih h)

end MapLemmas

theorem mem_setAdd (s : List Nat) (x y : Nat) : y ∈ setAdd s x ↔ y ∈ s ∨ y = x := by
  unfold setAdd
  split
  · constructor
    · exact Or.inl
    · rintro (h | h)
      · exact h
      · subst h; assumption
  · simp

theorem nodup_setAdd (s : List Nat) (x : Nat) (h : s.Nodup) : (setAdd s x).Nodup := by
  unfold setAdd
  split
  · exact h
  · rename_i hx
    exact List.Nodup.append h (List.nodup_singleton x) (by simpa using hx)

theorem length_setAdd_le (s : List Nat) (x : Nat) : s.length ≤ (setAdd s x).length := by
  unfold setAdd
  split <;> simp

theorem mem_foldl_setAdd (l acc : List Nat) (y : Nat) :
    y ∈ l.foldl setAdd acc ↔ y ∈ acc ∨ y ∈ l := by
  induction l generalizing acc with
  | nil => simp
  | cons x l ih =>
    simp only [List.foldl_cons, ih, mem_setAdd, List.mem_cons]
    tauto

theorem nodup_foldl_setAdd (l acc : List Nat) (h : acc.Nodup) : (l.foldl setAdd acc).Nodup := by
  induction l generalizing acc with
  | nil => exact h
  | cons x l ih => exact ih _ (nodup_setAdd _ _ h)

theorem mem_setOfList (l : List Nat) (y : Nat) : y ∈ setOfList l ↔ y ∈ l := by
  simp [setOfList, mem_foldl_setAdd]

theorem nodup_setOfList (l : List Nat) : (setOfList l).Nodup :=
  nodup_foldl_setAdd _ _ List.nodup_nil

theorem mem_symAdd (s : List Char) (x y : Char) : y ∈ symAdd s x ↔ y ∈ s ∨ y = x := by
  unfold symAdd
  split
  · constructor
    · exact Or.inl
    · rintro (h | h)
      · exact h
      · subst h; assumption
  · simp

theorem mem_sortSymbols (l : List Char) (c : Char) : c ∈ sortSymbols l ↔ c ∈ l :=
  (List.perm_insertionSort symbolLe l).mem_iff

/-! ## The canonical key `join(',')` determines the list of numbers -/

theorem toDigitsCore_append (f n : Nat) (ds : List Char) :
    Nat.toDigitsCore 10 f n ds = Nat.toDigitsCore 10 f n [] ++ ds := by
  induction f generalizing n ds with
  | zero => simp [Nat.toDigitsCore]
  | succ f ih =>
    simp only [Nat.toDigitsCore]
    split
    · simp
    · rw [ih, ih (n / 10) [Nat.digitChar (n % 10)]]
      simp

theorem digitChar_value : ∀ k, k < 10 → (Nat.digitChar k).toNat - 48 = k := by decide

theorem digitChar_ne_comma : ∀ k, k < 10 → Nat.digitChar k ≠ ',' := by decide

theorem decimalValue_toDigitsCore (f n : Nat) (h : n < f) :
    decimalValue (Nat.toDigitsCore 10 f n []) = n := by
  induction f generalizing n with
  | zero => omega
  | succ f ih =>
    simp only [Nat.toDigitsCore]
    split
    · rename_i h0
      simp only [decimalValue, List.foldl_cons, List.foldl_nil]
      rw [digitChar_value _ (Nat.mod_lt _ (by decide))]
      omega
    · rename_i h0
      rw [toDigitsCore_append]
      have hlt : n / 10 < f := by omega
      have := ih (n / 10) hlt
      simp only [decimalValue, List.foldl_append, List.foldl_cons, List.foldl_nil] at this ⊢
      rw [this, digitChar_value _ (Nat.mod_lt _ (by decide))]
      omega

theorem toDigitsCore_no_comma (f n : Nat) (ds : List Char) (hds : ∀ c ∈ ds, c ≠ ',') :
    ∀ c ∈ Nat.toDigitsCore 10 f n ds, c ≠ ',' := by
  induction f generalizing n ds with
  | zero => simpa [Nat.toDigitsCore] using hds
  | succ f ih =>
    have hd : ∀ c ∈ Nat.digitChar (n % 10) :: ds, c ≠ ',' := by
      intro c hc
      rcases List.mem_cons.1 hc with h | h
      · rw [h]; exact digitChar_ne_comma _ (Nat.mod_lt _ (by decide))
      · exact hds c h
    simp only [Nat.toDigitsCore]
    split
    · exact hd
    · exact ih _ _ hd

theorem toDigitsCore_ne_nil (f n : Nat) : Nat.toDigitsCore 10 (f + 1) n [] ≠ [] := by
  simp only [Nat.toDigitsCore]
  split
  · simp
  · rw [toDigitsCore_append]; simp

theorem toString_data (n : Nat) : (toString n).data = decimal n := rfl

theorem decimal_injective {n m : Nat} (h : decimal n = decimal m) : n = m := by
  have h1 := decimalValue_toDigitsCore (n + 1) n (by omega)
  have h2 := decimalValue_toDigitsCore (m + 1) m (by omega)
  unfold decimal Nat.toDigits at h
  rw [h] at h1
  omega

theorem decimal_no_comma (n : Nat) : ∀ c ∈ decimal n, c ≠ ',' :=
  toDigitsCore_no_comma _ _ _ (by simp)

theorem decimal_ne_nil (n : Nat) : decimal n ≠ [] := toDigitsCore_ne_nil n n

theorem intercalate_go_data (acc : String) (l : List Nat) :
    (String.intercalate.go acc "," (l.map toString)).data = acc.data ++ commaTail l := by
  induction l generalizing acc with
  | nil => simp [String.intercalate.go, commaTail]
  | cons n l ih =>
    simp only [List.map_cons, String.intercalate.go, ih, commaTail, List.flatMap_cons]
    simp [String.data_append, toString_data]

theorem joinComma_data_cons (n : Nat) (l : List Nat) :
    (joinComma (n :: l)).data = decimal n ++ commaTail l := by
  unfold joinComma
  simp only [List.map_cons, String.intercalate]
  rw [intercalate_go_data, toString_data]

theorem joinComma_nil : joinComma [] = "" := rfl

/-- Two comma-free prefixes followed by tails that are empty or start with a
comma: equal wholes have equal parts. -/
theorem prefix_split {a b x y : List Char} (ha : ∀ c ∈ a, c ≠ ',') (hb : ∀ c ∈ b, c ≠ ',')
    (hx : x = [] ∨ ∃ t, x = ',' :: t) (hy : y = [] ∨ ∃ t, y = ',' :: t)
    (h : a ++ x = b ++ y) : a = b ∧ x = y := by
  induction a generalizing b with
  | nil =>
    cases b with
    | nil => exact ⟨rfl, by simpa using h⟩
    | cons c b =>
      exfalso
      rcases hx with hx | ⟨t, hx⟩
      · subst hx; simp at h
      · subst hx
        simp only [List.nil_append, List.cons_append, List.cons.injEq] at h
        exact hb c (List.mem_cons_self _ _) h.1.symm
  | cons c a ih =>
    cases b with
    | nil =>
      exfalso
      rcases hy with hy | ⟨t, hy⟩
      · subst hy; simp at h
      · subst hy
        simp only [List.nil_append, List.cons_append, List.cons.injEq] at h
        exact ha c (List.mem_cons_self _ _) h.1
    | cons d b =>
      simp only [List.cons_append, List.cons.injEq] at h
      obtain ⟨h1, h2⟩ := ih (fun c hc => ha c (List.mem_cons_of_mem _ hc))
        (fun c hc => hb c (List.mem_cons_of_mem _ hc)) h.2
      exact ⟨by rw [h.1, h1], h2⟩

theorem commaTail_shape (l : List Nat) : commaTail l = [] ∨ ∃ t, commaTail l = ',' :: t := by
  cases l with
  | nil => exact Or.inl rfl
  | cons n l => exact Or.inr ⟨decimal n ++ commaTail l, by simp [commaTail, List.flatMap_cons]⟩

theorem commaTail_injective {l1 l2 : List Nat} (h : commaTail l1 = commaTail l2) : l1 = l2 := by
  induction l1 generalizing l2 with
  | nil =>
    cases l2 with
    | nil => rfl
    | cons m l2 => simp [commaTail, List.flatMap_cons] at h
  | cons n l1 ih =>
    cases l2 with
    | nil => simp [commaTail, List.flatMap_cons] at h
    | cons m l2 =>
      have h' : decimal n ++ commaTail l1 = decimal m ++ commaTail l2 := by
        simpa [commaTail, List.flatMap_cons] using h
      obtain ⟨h1, h2⟩ := prefix_split (decimal_no_comma n) (decimal_no_comma m)
        (commaTail_shape l1) (commaTail_shape l2) h'
      rw [decimal_injective h1, ih h2]

/-- `join(',')` is injective on lists of numbers. -/
theorem joinComma_injective {l1 l2 : List Nat} (h : joinComma l1 = joinComma l2) : l1 = l2 := by
  have hd := congrArg String.data h
  cases l1 with
  | nil =>
    cases l2 with
    | nil => rfl
    | cons m l2 =>
      rw [joinComma_data_cons, joinComma_nil] at hd
      have := decimal_ne_nil m
      simp at hd
      exact absurd hd.1 this
  | cons n l1 =>
    cases l2 with
    | nil =>
      rw [joinComma_data_cons, joinComma_nil] at hd
      have := decimal_ne_nil n
      simp at hd
      exact absurd hd.1 this
    | cons m l2 =>
      rw [joinComma_data_cons, joinComma_data_cons] at hd
      obtain ⟨h1, h2⟩ := prefix_split (decimal_no_comma n) (decimal_no_comma m)
        (commaTail_shape l1) (commaTail_shape l2) hd
      rw [decimal_injective h1, commaTail_injective h2]

/-- Sorted keys of duplicate-free lists agree exactly when the lists have the same members. -/
theorem sortedKey_eq_iff {l1 l2 : List Nat} (h1 : l1.Nodup) (h2 : l2.Nodup) :
    joinComma (l1.insertionSort (· ≤ ·)) = joinComma (l2.insertionSort (· ≤ ·)) ↔
      ∀ x, x ∈ l1 ↔ x ∈ l2 := by
  constructor
  · intro h x
    have e := joinComma_injective h
    have p1 := (List.perm_insertionSort (· ≤ ·) l1).mem_iff (a := x)
    have p2 := (List.perm_insertionSort (· ≤ ·) l2).mem_iff (a := x)
    rw [← p1, ← p2, e]
  · intro h
    have hp : l1.Perm l2 := (List.perm_ext_iff_of_nodup h1 h2).2 h
    have hp' : (l1.insertionSort (· ≤ ·)).Perm (l2.insertionSort (· ≤ ·)) :=
      ((List.perm_insertionSort _ l1).trans hp).trans (List.perm_insertionSort _ l2).symm
    rw [List.eq_of_perm_of_sorted hp' (List.sorted_insertionSort _ _)
      (List.sorted_insertionSort _ _)]

/-! ## The invariant of the worklist loop

`bfsLoop` is the common shape of the two `while (head < queue.length)` loops:
`next` computes the successor set (`none`: a lookup failed, `some none`: no
transition is recorded), `key` is the canonical key and `mk` creates the state
object of a new set. The loop keeps `BfsInv` and ends within the fuel as soon
as the number of sets with distinct keys is bounded. -/

section Bfs

variable {next : List Nat → Char → Option (Option (List Nat))}
variable {key : List Nat → String} {mk : Nat → List Nat → DFAState}

theorem TransOK.mono {queue : List (List Nat)} {S : List Nat} {st : DFAState} {a : Char}
    (T : List Nat) (h : TransOK next key queue S st a) :
    TransOK next key (queue ++ [T]) S st a := by
  unfold TransOK at h ⊢
  split
  · simp_all
  · simp_all
  · rename_i T' hT
    rw [hT] at h
    obtain ⟨j, S', h1, h2, h3⟩ := h
    refine ⟨j, S', h1, ?_, h3⟩
    have hj : j < queue.length := by
      rcases List.getElem?_eq_some.1 h2 with ⟨hj, _⟩
      exact hj
    rw [List.getElem?_append_left hj]
    exact h2

theorem BfsInv.congr {Good : List Nat → Prop} {start : List Nat} {P Q : Nat → Char → Prop}
    {v : SubsetVars} (h : BfsInv next key mk Good start P v) (hPQ : ∀ i a, P i a ↔ Q i a) :
    BfsInv next key mk Good start Q v where
  len := h.len
  first := h.first
  good := h.good
  map := h.map
  shape := h.shape
  bound := fun i a hq => h.bound i a ((hPQ i a).2 hq)
  done := fun i st S a h1 h2 hq => h.done i st S a h1 h2 ((hPQ i a).2 hq)
  todo := fun i st a h1 hq => h.todo i st a h1 (fun hp => hq ((hPQ i a).1 hp))
  nodup := h.nodup

theorem TransOK.of_eq {queue : List (List Nat)} {S : List Nat} {st st' : DFAState} {a : Char}
    (e : mapGet st'.transitions a = mapGet st.transitions a)
    (h : TransOK next key queue S st a) : TransOK next key queue S st' a := by
  unfold TransOK at h ⊢
  rw [e]
  exact h

/-- Appending the state of a set whose key is new keeps the invariant. -/
theorem BfsInv.push {Good : List Nat → Prop} {start : List Nat} {P : Nat → Char → Prop}
    {v : SubsetVars} (h : BfsInv next key mk Good start P v)
    (hmk : ∀ i S, (mk i S).transitions = []) {T : List Nat}
    (hkey : mapGet v.dfaStates (key T) = none) (hT : Good T) (hne : 0 < v.queue.length) :
    BfsInv next key mk Good start P
      { dfaStates := mapSet v.dfaStates (key T) v.dfaStateInfo.length,
        dfaStateInfo := v.dfaStateInfo ++ [mk v.dfaStateInfo.length T],
        queue := v.queue ++ [T] } where
  len := by simp [h.len]
  first := by
    show (v.queue ++ [T])[0]? = some start
    rw [List.getElem?_append_left hne]
    exact h.first
  good := by
    intro S hS
    rcases List.mem_append.1 hS with h1 | h1
    · exact h.good S h1
    · rw [List.mem_singleton.1 h1]; exact hT
  map := by
    intro k j
    show mapGet (mapSet v.dfaStates (key T) v.dfaStateInfo.length) k = some j ↔
      ∃ S, (v.queue ++ [T])[j]? = some S ∧ key S = k
    rw [mapGet_mapSet, h.len]
    by_cases hk : k = key T
    · subst hk
      simp only [↓reduceIte, Option.some.injEq]
      constructor
      · intro e
        subst e
        exact ⟨T, List.getElem?_concat_length _ _, rfl⟩
      · rintro ⟨S, h1, h2⟩
        by_cases hj : j < v.queue.length
        · rw [List.getElem?_append_left hj] at h1
          have := (h.map (key T) j).2 ⟨S, h1, h2⟩
          rw [hkey] at this
          exact absurd this (by simp)
        · rcases List.getElem?_eq_some.1 h1 with ⟨hj', _⟩
          simp only [List.length_append, List.length_singleton] at hj'
          omega
    · simp only [hk, ↓reduceIte]
      rw [h.map k j]
      constructor
      · rintro ⟨S, h1, h2⟩
        rcases List.getElem?_eq_some.1 h1 with ⟨hj, _⟩
        exact ⟨S, by rw [List.getElem?_append_left hj]; exact h1, h2⟩
      · rintro ⟨S, h1, h2⟩
        by_cases hj : j < v.queue.length
        · rw [List.getElem?_append_left hj] at h1
          exact ⟨S, h1, h2⟩
        · rcases List.getElem?_eq_some.1 h1 with ⟨hj', _⟩
          simp only [List.length_append, List.length_singleton] at hj'
          have e : j = v.queue.length := by omega
          subst e
          rw [List.getElem?_concat_length] at h1
          simp only [Option.some.injEq] at h1
          subst h1
          exact absurd h2.symm hk
  shape := by
    intro i st S h1 h2
    simp only at h1 h2
    by_cases hi : i < v.queue.length
    · rw [List.getElem?_append_left hi] at h2
      rw [List.getElem?_append_left (by rw [h.len]; exact hi)] at h1
      exact h.shape i st S h1 h2
    · rcases List.getElem?_eq_some.1 h2 with ⟨hj', _⟩
      simp only [List.length_append, List.length_singleton] at hj'
      have e : i = v.queue.length := by omega
      subst e
      rw [List.getElem?_concat_length] at h2
      rw [← h.len, List.getElem?_concat_length] at h1
      simp only [Option.some.injEq] at h1 h2
      subst h1 h2
      rw [h.len]
  bound := by
    intro i a hp
    have := h.bound i a hp
    simp only [List.length_append, List.length_singleton]
    omega
  done := by
    intro i st S a h1 h2 hp
    simp only at h1 h2
    have hi := h.bound i a hp
    rw [List.getElem?_append_left hi] at h2
    rw [List.getElem?_append_left (by rw [h.len]; exact hi)] at h1
    exact (h.done i st S a h1 h2 hp).mono T
  todo := by
    intro i st a h1 hp
    simp only at h1
    by_cases hi : i < v.dfaStateInfo.length
    · rw [List.getElem?_append_left hi] at h1
      exact h.todo i st a h1 hp
    · rcases List.getElem?_eq_some.1 h1 with ⟨hj', _⟩
      simp only [List.length_append, List.length_singleton] at hj'
      have e : i = v.dfaStateInfo.length := by omega
      subst e
      rw [List.getElem?_concat_length] at h1
      simp only [Option.some.injEq] at h1
      subst h1
      rw [hmk]
      rfl
  nodup := by
    intro st hst
    rcases List.mem_append.1 hst with h1 | h1
    · exact h.nodup st h1
    · rw [List.mem_singleton.1 h1, hmk]
      exact List.nodup_nil

/-- Recording the transition of the current state on `a` keeps the invariant
and marks the pair as processed. -/
theorem BfsInv.record {Good : List Nat → Prop} {start : List Nat} {P : Nat → Char → Prop}
    {v : SubsetVars} (h : BfsInv next key mk Good start P v)
    {head : Nat} {cur : List Nat} (hcur : v.queue[head]? = some cur) {a : Char}
    {T S' : List Nat} {j : Nat} (hnext : next cur a = some (some T))
    (hj : v.queue[j]? = some S') (hkey : key S' = key T) :
    ∃ info, setTransition v.dfaStateInfo head a j = some info ∧
      BfsInv next key mk Good start (fun i b => P i b ∨ (i = head ∧ b = a))
        { v with dfaStateInfo := info } := by
  have hhead : head < v.dfaStateInfo.length := by
    rcases List.getElem?_eq_some.1 hcur with ⟨hh, _⟩
    rw [h.len]; exact hh
  obtain ⟨st, hst⟩ : ∃ st, v.dfaStateInfo[head]? = some st :=
    ⟨v.dfaStateInfo[head], List.getElem?_eq_getElem hhead⟩
  refine ⟨v.dfaStateInfo.set head { st with transitions := mapSet st.transitions a j },
    by simp only [setTransition, hst], ?_⟩
  have hget : ∀ i x, (v.dfaStateInfo.set head
      { st with transitions := mapSet st.transitions a j })[i]? = some x →
      (i = head ∧ x = { st with transitions := mapSet st.transitions a j }) ∨
      (i ≠ head ∧ v.dfaStateInfo[i]? = some x) := by
    intro i x hx
    rw [List.getElem?_set] at hx
    by_cases e : head = i
    · subst e
      simp only [↓reduceIte, hhead, Option.some.injEq] at hx
      exact Or.inl ⟨rfl, hx.symm⟩
    · simp only [e, ↓reduceIte] at hx
      exact Or.inr ⟨fun e' => e e'.symm, hx⟩
  refine
    { len := by simp [h.len]
      first := h.first
      good := h.good
      map := h.map
      shape := ?_
      bound := ?_
      done := ?_
      todo := ?_
      nodup := ?_ }
  · intro i x S h1 h2
    rcases hget i x h1 with ⟨e1, e2⟩ | ⟨_, e2⟩
    · subst e1
      have := h.shape i st S hst h2
      rw [e2]
      simp only
      rw [this]
    · exact h.shape i x S e2 h2
  · rintro i b (hp | ⟨e, _⟩)
    · exact h.bound i b hp
    · rw [e, ← h.len]; exact hhead
  · intro i x S b h1 h2 hp
    simp only at h2
    rcases hget i x h1 with ⟨e1, e2⟩ | ⟨e1, e2⟩
    · subst e1
      have hS : S = cur := by rw [hcur] at h2; exact (Option.some.inj h2).symm
      subst hS
      by_cases hb : b = a
      · subst hb
        unfold TransOK
        rw [hnext]
        exact ⟨j, S', by rw [e2]; exact mapGet_mapSet_self _ _ _, hj, hkey⟩
      · have hp' : P i b := by
          rcases hp with hp | ⟨_, hp⟩
          · exact hp
          · exact absurd hp hb
        refine TransOK.of_eq ?_ (h.done i st S b hst h2 hp')
        rw [e2]
        exact mapGet_mapSet_ne _ _ _ _ hb
    · have hp' : P i b := by
        rcases hp with hp | ⟨hp, _⟩
        · exact hp
        · exact absurd hp e1
      exact h.done i x S b e2 h2 hp'
  · intro i x b h1 hp
    rcases hget i x h1 with ⟨e1, e2⟩ | ⟨e1, e2⟩
    · subst e1
      have hb : b ≠ a := fun e => hp (Or.inr ⟨rfl, e⟩)
      rw [e2]
      simp only
      rw [mapGet_mapSet_ne _ _ _ _ hb]
      exact h.todo i st b hst (fun hp' => hp (Or.inl hp'))
    · exact h.todo i x b e2 (fun hp' => hp (Or.inl hp'))
  · intro x hx
    rcases List.mem_iff_getElem?.1 hx with ⟨i, hi⟩
    rcases hget i x hi with ⟨_, e2⟩ | ⟨_, e2⟩
    · rw [e2]
      exact mapSet_keys_nodup _ _ _ (h.nodup st (List.mem_iff_getElem?.2 ⟨head, hst⟩))
    · exact h.nodup x (List.mem_iff_getElem?.2 ⟨i, e2⟩)

/-- When no transition is to be recorded, the pair counts as processed. -/
theorem BfsInv.skip {Good : List Nat → Prop} {start : List Nat} {P : Nat → Char → Prop}
    {v : SubsetVars} (h : BfsInv next key mk Good start P v)
    {head : Nat} {cur : List Nat} (hcur : v.queue[head]? = some cur) {a : Char}
    (hnext : next cur a = some none) :
    BfsInv next key mk Good start (fun i b => P i b ∨ (i = head ∧ b = a)) v := by
  have hhead : head < v.queue.length := by
    rcases List.getElem?_eq_some.1 hcur with ⟨hh, _⟩
    exact hh
  refine
    { len := h.len
      first := h.first
      good := h.good
      map := h.map
      shape := h.shape
      bound := ?_
      done := ?_
      todo := ?_
      nodup := h.nodup }
  · rintro i b (hp | ⟨e, _⟩)
    · exact h.bound i b hp
    · rw [e]; exact hhead
  · intro i x S b h1 h2 hp
    by_cases hp' : P i b
    · exact h.done i x S b h1 h2 hp'
    · rcases hp with hp | ⟨e1, e2⟩
      · exact absurd hp hp'
      · subst e1 e2
        have hS : S = cur := by rw [hcur] at h2; exact (Option.some.inj h2).symm
        subst hS
        unfold TransOK
        rw [hnext]
        exact h.todo i x b h1 hp'
  · intro i x b h1 hp
    exact h.todo i x b h1 (fun hp' => hp (Or.inl hp'))

theorem bfsSymbol_inv {Good : List Nat → Prop} {start : List Nat} {P : Nat → Char → Prop}
    {v : SubsetVars} (h : BfsInv next key mk Good start P v)
    (hmk : ∀ i S, (mk i S).transitions = [])
    {head : Nat} {cur : List Nat} (hcur : v.queue[head]? = some cur) (a : Char)
    (hnext : ∃ r, next cur a = some r ∧ ∀ T, r = some T → Good T) :
    ∃ v', bfsSymbol next key mk cur head v a = some v' ∧
      BfsInv next key mk Good start (fun i b => P i b ∨ (i = head ∧ b = a)) v' ∧
      v'.queue[head]? = some cur := by
  obtain ⟨r, hr, hgood⟩ := hnext
  have hhead : head < v.queue.length := by
    rcases List.getElem?_eq_some.1 hcur with ⟨hh, _⟩
    exact hh
  cases r with
  | none =>
    exact ⟨v, by simp only [bfsSymbol, hr], h.skip hcur hr, hcur⟩
  | some T =>
    cases hk : mapGet v.dfaStates (key T) with
    | none =>
      have h1 := h.push hmk hk (hgood T rfl) (by omega)
      have hcur1 : (v.queue ++ [T])[head]? = some cur := by
        rw [List.getElem?_append_left hhead]; exact hcur
      have hj : (v.queue ++ [T])[v.dfaStateInfo.length]? = some T := by
        rw [h.len]; exact List.getElem?_concat_length _ _
      obtain ⟨info, hi1, hi2⟩ := h1.record hcur1 hr hj rfl
      refine ⟨_, ?_, hi2, hcur1⟩
      simp only [bfsSymbol, hr, hk]
      simp only at hi1
      rw [hi1]
      rfl
    | some j =>
      obtain ⟨S', hS1, hS2⟩ := (h.map (key T) j).1 hk
      obtain ⟨info, hi1, hi2⟩ := h.record hcur hr hS1 hS2
      refine ⟨_, ?_, hi2, hcur⟩
      simp only [bfsSymbol, hr, hk]
      rw [hi1]
      rfl

theorem bfsSymbols_inv {Good : List Nat → Prop} {start : List Nat}
    (hmk : ∀ i S, (mk i S).transitions = [])
    {head : Nat} {cur : List Nat} (syms : List Char)
    (hnext : ∀ a ∈ syms, ∃ r, next cur a = some r ∧ ∀ T, r = some T → Good T) :
    ∀ {P : Nat → Char → Prop} {v : SubsetVars}, BfsInv next key mk Good start P v →
      v.queue[head]? = some cur →
      ∃ v', bfsSymbols next key mk cur head v syms = some v' ∧
        BfsInv next key mk Good start (fun i b => P i b ∨ (i = head ∧ b ∈ syms)) v' ∧
        v'.queue[head]? = some cur := by
  induction syms with
  | nil =>
    intro P v h hcur
    exact ⟨v, rfl, h.congr (fun i a => by simp), hcur⟩
  | cons a rest ih =>
    intro P v h hcur
    obtain ⟨v1, e1, h1, c1⟩ := bfsSymbol_inv h hmk hcur a (hnext a (List.mem_cons_self _ _))
    obtain ⟨v2, e2, h2, c2⟩ :=
      ih (fun b hb => hnext b (List.mem_cons_of_mem _ hb)) h1 c1
    refine ⟨v2, by simp only [bfsSymbols, e1, e2], h2.congr (fun i b => ?_), c2⟩
    simp only [List.mem_cons]
    tauto

theorem BfsInv.keys_nodup {Good : List Nat → Prop} {start : List Nat} {P : Nat → Char → Prop}
    {v : SubsetVars} (h : BfsInv next key mk Good start P v) : (v.queue.map key).Nodup := by
  rw [List.nodup_iff_getElem?_ne_getElem?]
  intro i j hij hj e
  simp only [List.length_map] at hj
  have hi : i < v.queue.length := by omega
  rw [List.getElem?_map, List.getElem?_map, List.getElem?_eq_getElem hi,
    List.getElem?_eq_getElem hj] at e
  simp only [Option.map_some', Option.some.injEq] at e
  have h1 := (h.map (key v.queue[i]) i).2 ⟨_, List.getElem?_eq_getElem hi, rfl⟩
  have h2 := (h.map (key v.queue[i]) j).2 ⟨_, List.getElem?_eq_getElem hj, e.symm⟩
  rw [h1] at h2
  simp only [Option.some.injEq] at h2
  omega

theorem bfsLoop_inv {Good : List Nat → Prop} {start : List Nat} {alphabet : List Char} {B : Nat}
    (hmk : ∀ i S, (mk i S).transitions = [])
    (hnext : ∀ S a, Good S → a ∈ alphabet → ∃ r, next S a = some r ∧ ∀ T, r = some T → Good T)
    (hbound : ∀ q : List (List Nat), (∀ S ∈ q, Good S) → (q.map key).Nodup → q.length ≤ B) :
    ∀ (fuel head : Nat) (v : SubsetVars),
      BfsInv next key mk Good start (fun i a => i < head ∧ a ∈ alphabet) v →
      head ≤ v.queue.length → B + 1 ≤ fuel + head →
      ∃ v', bfsLoop next key mk alphabet fuel head v = some v' ∧
        BfsInv next key mk Good start (fun i a => i < v'.queue.length ∧ a ∈ alphabet) v' := by
  intro fuel
  induction fuel with
  | zero =>
    intro head v h hle hfuel
    have := hbound v.queue h.good h.keys_nodup
    omega
  | succ fuel ih =>
    intro head v h hle hfuel
    cases hq : v.queue[head]? with
    | none =>
      have : v.queue.length ≤ head := List.getElem?_eq_none_iff.1 hq
      have e : head = v.queue.length := by omega
      refine ⟨v, by simp only [bfsLoop, hq], h.congr (fun i a => ?_)⟩
      rw [e]
    | some cur =>
      have hid : mapGet v.dfaStates (key cur) = some head := (h.map _ _).2 ⟨cur, hq, rfl⟩
      have hgood : Good cur := h.good cur (List.mem_iff_getElem?.2 ⟨head, hq⟩)
      obtain ⟨v1, e1, h1, c1⟩ := bfsSymbols_inv hmk alphabet
        (fun a ha => hnext cur a hgood ha) h hq
      have hlt : head < v1.queue.length := by
        rcases List.getElem?_eq_some.1 c1 with ⟨hh, _⟩
        exact hh
      have hP : ∀ i a, ((i < head ∧ a ∈ alphabet) ∨ (i = head ∧ a ∈ alphabet)) ↔
          (i < head + 1 ∧ a ∈ alphabet) := by
        intro i a
        constructor
        · rintro (⟨p1, p2⟩ | ⟨p1, p2⟩)
          · exact ⟨by omega, p2⟩
          · exact ⟨by omega, p2⟩
        · rintro ⟨p1, p2⟩
          by_cases e : i = head
          · exact Or.inr ⟨e, p2⟩
          · exact Or.inl ⟨by omega, p2⟩
      obtain ⟨v2, e2, h2⟩ := ih (head + 1) v1 (h1.congr hP) hlt (by omega)
      exact ⟨v2, by simp only [bfsLoop, hq, hid, e1, e2], h2⟩

theorem bfsInit_inv {Good : List Nat → Prop} {start : List Nat}
    (hmk : ∀ i S, (mk i S).transitions = []) (hstart : Good start) :
    BfsInv next key mk Good start (fun i _ => i < 0 ∧ True) (bfsInit key mk start) where
  len := rfl
  first := rfl
  good := by
    intro S hS
    rw [List.mem_singleton.1 hS]; exact hstart
  map := by
    intro k j
    show mapGet (mapSet [] (key start) 0) k = some j ↔ ∃ S, [start][j]? = some S ∧ key S = k
    rw [mapGet_mapSet]
    by_cases hk : k = key start
    · subst hk
      simp only [↓reduceIte, Option.some.injEq]
      constructor
      · intro e; subst e; exact ⟨start, rfl, rfl⟩
      · rintro ⟨S, h1, _⟩
        rcases List.getElem?_eq_some.1 h1 with ⟨hj, _⟩
        simp only [List.length_singleton] at hj
        omega
    · simp only [hk, ↓reduceIte, mapGet_nil]
      constructor
      · intro e; exact absurd e (by simp)
      · rintro ⟨S, h1, h2⟩
        rcases List.getElem?_eq_some.1 h1 with ⟨hj, e⟩
        simp only [List.length_singleton] at hj
        have : j = 0 := by omega
        subst this
        simp only [List.getElem_cons_zero] at e
        subst e
        exact absurd h2.symm hk
  shape := by
    intro i st S h1 h2
    rcases List.getElem?_eq_some.1 h1 with ⟨hj, e⟩
    rcases List.getElem?_eq_some.1 h2 with ⟨_, e2⟩
    simp only [bfsInit, List.length_singleton] at hj
    have : i = 0 := by omega
    subst this
    simp only [bfsInit, List.getElem_cons_zero] at e e2
    subst e e2
    rfl
  bound := by
    intro i a hp
    omega
  done := by
    intro i st S a _ _ hp
    omega
  todo := by
    intro i st a h1 _
    rcases List.getElem?_eq_some.1 h1 with ⟨hj, e⟩
    simp only [bfsInit, List.length_singleton] at hj
    have : i = 0 := by omega
    subst this
    simp only [bfsInit, List.getElem_cons_zero] at e
    subst e
    rw [hmk]
    rfl
  nodup := by
    intro st hst
    simp only [bfsInit, List.mem_singleton] at hst
    rw [hst, hmk]
    exact List.nodup_nil

/-- The worklist loop terminates within `B + 1` rounds when at most `B` sets
have pairwise distinct keys, and its result satisfies the invariant with every
pair processed. -/
theorem bfsLoop_result {Good : List Nat → Prop} {start : List Nat} {alphabet : List Char}
    {B : Nat} (hmk : ∀ i S, (mk i S).transitions = []) (hstart : Good start)
    (hnext : ∀ S a, Good S → a ∈ alphabet → ∃ r, next S a = some r ∧ ∀ T, r = some T → Good T)
    (hbound : ∀ q : List (List Nat), (∀ S ∈ q, Good S) → (q.map key).Nodup → q.length ≤ B) :
    ∃ v, bfsLoop next key mk alphabet (B + 1) 0 (bfsInit key mk start) = some v ∧
      BfsInv next key mk Good start (fun i a => i < v.queue.length ∧ a ∈ alphabet) v := by
  refine bfsLoop_inv hmk hnext hbound (B + 1) 0 _ ?_ (Nat.zero_le _) (by omega)
  exact (bfsInit_inv hmk hstart).congr (fun i a => by constructor <;> intro hh <;> omega)

end Bfs

/-! ## Runs of a DFA -/

theorem DFA.acceptsFrom_nil (d : DFA) (s : Nat) :
    d.acceptsFrom s [] = d.isAcceptingAt s := rfl

theorem DFA.acceptsFrom_cons_none {d : DFA} {s : Nat} {a : Char} (h : d.next s a = none)
    (w : List Char) : d.acceptsFrom s (a :: w) = false := by
  unfold DFA.acceptsFrom
  simp only [DFA.run, h]

theorem DFA.acceptsFrom_cons_some {d : DFA} {s t : Nat} {a : Char} (h : d.next s a = some t)
    (w : List Char) : d.acceptsFrom s (a :: w) = d.acceptsFrom t w := by
  unfold DFA.acceptsFrom
  simp only [DFA.run, h]

theorem DFA.state_of_acceptsFrom {d : DFA} {s : Nat} {w : List Char}
    (h : d.acceptsFrom s w = true) : (d.state s).isSome = true := by
  cases w with
  | nil =>
    rw [DFA.acceptsFrom_nil] at h
    unfold DFA.isAcceptingAt at h
    cases hs : d.state s with
    | none => rw [hs] at h; cases h
    | some st => rfl
  | cons a w =>
    cases hn : d.next s a with
    | none => rw [DFA.acceptsFrom_cons_none hn] at h; cases h
    | some t =>
      unfold DFA.next at hn
      cases hs : d.state s with
      | none => rw [hs] at hn; cases hn
      | some st => rfl

theorem DFA.state_isSome_iff (d : DFA) (s : Nat) :
    (d.state s).isSome = true ↔ s ∈ d.states.map DFAState.id := by
  unfold DFA.state
  rw [List.find?_isSome]
  simp only [beq_iff_eq, List.mem_map]

theorem DFA.run_append (d : DFA) :
    ∀ (u v : List Char) (s : Nat), d.run s (u ++ v) = (d.run s u).bind fun t => d.run t v
  | [], _, _ => rfl
  | a :: u, v, s => by
    simp only [List.cons_append, DFA.run]
    cases d.next s a with
    | none => rfl
    | some t => exact DFA.run_append d u v t

theorem DFA.acceptsFrom_append {d : DFA} {s t : Nat} {w : List Char}
    (h : d.run s w = some t) (u : List Char) :
    d.acceptsFrom s (w ++ u) = d.acceptsFrom t u := by
  unfold DFA.acceptsFrom
  rw [DFA.run_append, h]
  rfl

theorem DFA.run_of_acceptsFrom_append {d : DFA} {s : Nat} {w u : List Char}
    (h : d.acceptsFrom s (w ++ u) = true) : ∃ t, d.run s w = some t := by
  unfold DFA.acceptsFrom at h
  rw [DFA.run_append] at h
  cases hr : d.run s w with
  | none => rw [hr] at h; cases h
  | some t => exact ⟨t, rfl⟩

/-! ## What the DFA built by the worklist loop accepts -/

theorem absAccepts_nil (next : List Nat → Char → Option (Option (List Nat)))
    (acc : List Nat → Bool) (alphabet : List Char) (S : List Nat) :
    absAccepts next acc alphabet S [] ↔ acc S = true := Iff.rfl

theorem absAccepts_cons (next : List Nat → Char → Option (Option (List Nat)))
    (acc : List Nat → Bool) (alphabet : List Char) (S : List Nat) (a : Char) (w : List Char) :
    absAccepts next acc alphabet S (a :: w) ↔
      a ∈ alphabet ∧ ∃ T, next S a = some (some T) ∧ absAccepts next acc alphabet T w :=
  Iff.rfl

theorem find_by_id (l : List DFAState) (off i : Nat)
    (h : ∀ j st, l[j]? = some st → st.id = off + j) :
    l.find? (fun st => st.id == off + i) = l[i]? := by
  induction l generalizing off i with
  | nil => rfl
  | cons x l ih =>
    have hx : x.id = off := by simpa using h 0 x (by simp)
    cases i with
    | zero => simp [List.find?, hx]
    | succ i =>
      have hne : (x.id == off + (i + 1)) = false := by
        rw [hx]; simp
      simp only [List.find?, hne, List.getElem?_cons_succ]
      have := ih (off + 1) i (fun j st hj => by
        have := h (j + 1) st (by simpa using hj)
        omega)
      rw [← this]
      congr 1
      funext st
      congr 1
      omega

section BfsSem

variable {next : List Nat → Char → Option (Option (List Nat))}
variable {key : List Nat → String} {mk : Nat → List Nat → DFAState}
variable {Good : List Nat → Prop} {alphabet : List Char} {acc : List Nat → Bool}

theorem absAccepts_congr
    (hnext : ∀ S a, Good S → a ∈ alphabet → ∃ r, next S a = some r ∧ ∀ T, r = some T → Good T)
    (hacc : ∀ S S', Good S → Good S' → key S = key S' → acc S = acc S')
    (hcongr : ∀ S S' a T, Good S → Good S' → key S = key S' → a ∈ alphabet →
      next S a = some (some T) → ∃ T', next S' a = some (some T') ∧ key T = key T') :
    ∀ (w : List Char) (S S' : List Nat), Good S → Good S' → key S = key S' →
      absAccepts next acc alphabet S w → absAccepts next acc alphabet S' w := by
  intro w
  induction w with
  | nil =>
    intro S S' g g' e h
    unfold absAccepts at h ⊢
    rw [← hacc S S' g g' e]; exact h
  | cons a w ih =>
    intro S S' g g' e h
    unfold absAccepts at h ⊢
    obtain ⟨ha, T, hT, hw⟩ := h
    obtain ⟨T', hT', ek⟩ := hcongr S S' a T g g' e ha hT
    obtain ⟨r, hr, hg⟩ := hnext S a g ha
    obtain ⟨r', hr', hg'⟩ := hnext S' a g' ha
    have gT : Good T := hg T (by rw [hT] at hr; exact (Option.some.inj hr).symm)
    have gT' : Good T' := hg' T' (by rw [hT'] at hr'; exact (Option.some.inj hr').symm)
    exact ⟨ha, T', hT', ih T T' gT gT' ek hw⟩

/-- The DFA produced by the worklist loop accepts from state `i` exactly what
the automaton of sets accepts from the `i`-th discovered set. -/
theorem bfs_acceptsFrom {start : List Nat} {v : SubsetVars}
    (h : BfsInv next key mk Good start (fun i a => i < v.queue.length ∧ a ∈ alphabet) v)
    (hid : ∀ i S, (mk i S).id = i) (hmkacc : ∀ i S, (mk i S).isAccepting = acc S)
    (hnext : ∀ S a, Good S → a ∈ alphabet → ∃ r, next S a = some r ∧ ∀ T, r = some T → Good T)
    (hacc : ∀ S S', Good S → Good S' → key S = key S' → acc S = acc S')
    (hcongr : ∀ S S' a T, Good S → Good S' → key S = key S' → a ∈ alphabet →
      next S a = some (some T) → ∃ T', next S' a = some (some T') ∧ key T = key T')
    (start' : Option Nat) :
    ∀ (w : List Char) (i : Nat) (S : List Nat), v.queue[i]? = some S →
      (DFA.acceptsFrom { states := v.dfaStateInfo, alphabet := alphabet, startState := start' }
          i w = true ↔ absAccepts next acc alphabet S w) := by
  have hstate : ∀ i, DFA.state
      { states := v.dfaStateInfo, alphabet := alphabet, startState := start' } i =
      v.dfaStateInfo[i]? := by
    intro i
    have := find_by_id v.dfaStateInfo 0 i (fun j st hj => by
      have hjl : j < v.queue.length := by
        rcases List.getElem?_eq_some.1 hj with ⟨hh, _⟩
        rw [← h.len]; exact hh
      have := h.shape j st _ hj (List.getElem?_eq_getElem hjl)
      rw [this]
      simp [hid])
    simpa [DFA.state] using this
  intro w
  induction w with
  | nil =>
    intro i S hS
    have hi : i < v.dfaStateInfo.length := by
      rcases List.getElem?_eq_some.1 hS with ⟨hh, _⟩
      rw [h.len]; exact hh
    have hst := List.getElem?_eq_getElem hi
    have hsh := h.shape i _ S hst hS
    simp only [DFA.acceptsFrom, DFA.run, hstate, hst, absAccepts]
    rw [hsh]
    simp [hmkacc]
  | cons a w ih =>
    intro i S hS
    have hiq : i < v.queue.length := by
      rcases List.getElem?_eq_some.1 hS with ⟨hh, _⟩
      exact hh
    have hi : i < v.dfaStateInfo.length := by rw [h.len]; exact hiq
    have hst := List.getElem?_eq_getElem hi
    have gS : Good S := h.good S (List.mem_iff_getElem?.2 ⟨i, hS⟩)
    by_cases ha : a ∈ alphabet
    · have hd := h.done i _ S a hst hS ⟨hiq, ha⟩
      unfold TransOK at hd
      obtain ⟨r, hr, hg⟩ := hnext S a gS ha
      cases r with
      | none =>
        rw [hr] at hd
        simp only at hd
        simp only [DFA.acceptsFrom, DFA.run, DFA.next, hstate, hst, hd, absAccepts, hr]
        simp
      | some T =>
        rw [hr] at hd
        simp only at hd
        obtain ⟨j, S', h1, h2, h3⟩ := hd
        have gS' : Good S' := h.good S' (List.mem_iff_getElem?.2 ⟨j, h2⟩)
        have gT : Good T := hg T rfl
        have e1 : DFA.acceptsFrom
            { states := v.dfaStateInfo, alphabet := alphabet, startState := start' } i (a :: w) =
            DFA.acceptsFrom
            { states := v.dfaStateInfo, alphabet := alphabet, startState := start' } j w := by
          simp only [DFA.acceptsFrom, DFA.run, DFA.next, hstate, hst, h1]
        rw [e1, ih j S' h2, absAccepts_cons]
        constructor
        · intro hw
          exact ⟨ha, T, hr, absAccepts_congr hnext hacc hcongr w S' T gS' gT h3 hw⟩
        · rintro ⟨_, T', hT', hw⟩
          have : T' = T := by
            rw [hr] at hT'
            exact (Option.some.inj (Option.some.inj hT')).symm
          subst this
          exact absAccepts_congr hnext hacc hcongr w T' S' gT gS' h3.symm hw
    · have hd := h.todo i _ a hst (fun hp => ha hp.2)
      simp only [DFA.acceptsFrom, DFA.run, DFA.next, hstate, hst, hd, absAccepts]
      simp [ha]

/-- The state objects of the DFA produced by the worklist loop are found by
their index. -/
theorem bfs_state {start : List Nat} {v : SubsetVars} {Q : Nat → Char → Prop}
    (h : BfsInv next key mk Good start Q v) (hid : ∀ i S, (mk i S).id = i)
    (A : List Char) (start' : Option Nat) (i : Nat) :
    DFA.state { states := v.dfaStateInfo, alphabet := A, startState := start' } i =
      v.dfaStateInfo[i]? := by
  have := find_by_id v.dfaStateInfo 0 i (fun j st hj => by
    have hjl : j < v.queue.length := by
      rcases List.getElem?_eq_some.1 hj with ⟨hh, _⟩
      rw [← h.len]; exact hh
    have := h.shape j st _ hj (List.getElem?_eq_getElem hjl)
    rw [this]
    simp [hid])
  simpa [DFA.state] using this

/-- A transition of the DFA produced by the worklist loop leads to a state of
that DFA. -/
theorem bfs_next_lt {start : List Nat} {v : SubsetVars}
    (h : BfsInv next key mk Good start (fun i a => i < v.queue.length ∧ a ∈ alphabet) v)
    (hid : ∀ i S, (mk i S).id = i)
    (hnext : ∀ S a, Good S → a ∈ alphabet → ∃ r, next S a = some r ∧ ∀ T, r = some T → Good T)
    (start' : Option Nat) (i : Nat) (a : Char) (j : Nat)
    (hj : DFA.next { states := v.dfaStateInfo, alphabet := alphabet, startState := start' }
      i a = some j) : j < v.queue.length := by
  unfold DFA.next at hj
  rw [bfs_state h hid] at hj
  cases hst : v.dfaStateInfo[i]? with
  | none => rw [hst] at hj; simp at hj
  | some st =>
    rw [hst] at hj
    simp only at hj
    have hi : i < v.queue.length := by
      rcases List.getElem?_eq_some.1 hst with ⟨hh, _⟩
      rw [← h.len]; exact hh
    have hS := List.getElem?_eq_getElem hi
    have gS : Good v.queue[i] := h.good _ (List.mem_iff_getElem?.2 ⟨i, hS⟩)
    by_cases ha : a ∈ alphabet
    · have hd := h.done i st _ a hst hS ⟨hi, ha⟩
      unfold TransOK at hd
      obtain ⟨r, hr, _⟩ := hnext _ a gS ha
      cases r with
      | none =>
        rw [hr] at hd
        simp only at hd
        rw [hd] at hj
        simp at hj
      | some T =>
        rw [hr] at hd
        simp only at hd
        obtain ⟨j', S', h1, h2, _⟩ := hd
        rw [h1] at hj
        rw [← Option.some.inj hj]
        rcases List.getElem?_eq_some.1 h2 with ⟨hh, _⟩
        exact hh
    · have hd := h.todo i st a hst (fun hp => ha hp.2)
      rw [hd] at hj
      simp at hj

/-- The start state `0` of the DFA produced by the worklist loop is one of its
states. -/
theorem bfs_start_state {start : List Nat} {v : SubsetVars} {Q : Nat → Char → Prop}
    (h : BfsInv next key mk Good start Q v) (hid : ∀ i S, (mk i S).id = i)
    (A : List Char) (start' : Option Nat) :
    (DFA.state { states := v.dfaStateInfo, alphabet := A, startState := start' } 0).isSome
      = true := by
  rw [bfs_state h hid]
  have h0 : 0 < v.dfaStateInfo.length := by
    rw [h.len]
    rcases List.getElem?_eq_some.1 h.first with ⟨hh, _⟩
    exact hh
  rw [List.getElem?_eq_getElem h0]
  rfl

/-- The index of a state object of the DFA produced by the worklist loop is
the index of a discovered set. -/
theorem bfs_state_lt {start : List Nat} {v : SubsetVars} {Q : Nat → Char → Prop}
    (h : BfsInv next key mk Good start Q v) (hid : ∀ i S, (mk i S).id = i)
    (A : List Char) (start' : Option Nat) (i : Nat) :
    (DFA.state { states := v.dfaStateInfo, alphabet := A, startState := start' } i).isSome
      = true ↔ i < v.queue.length := by
  rw [bfs_state h hid, ← h.len]
  by_cases hi : i < v.dfaStateInfo.length
  · simp [List.getElem?_eq_getElem hi, hi]
  · simp [List.getElem?_eq_none (Nat.le_of_not_lt hi), hi]

/-- A set that the automaton of sets reaches from the start set is good, and
the DFA produced by the worklist loop reaches, over the same word, the state of
a discovered set with the same key. -/
theorem bfs_absReach {start : List Nat} {v : SubsetVars}
    (h : BfsInv next key mk Good start (fun i a => i < v.queue.length ∧ a ∈ alphabet) v)
    (hid : ∀ i S, (mk i S).id = i)
    (hnext : ∀ S a, Good S → a ∈ alphabet → ∃ r, next S a = some r ∧ ∀ T, r = some T → Good T)
    (hcongr : ∀ S S' a T, Good S → Good S' → key S = key S' → a ∈ alphabet →
      next S a = some (some T) → ∃ T', next S' a = some (some T') ∧ key T = key T')
    (start' : Option Nat) (S : List Nat) (hS : AbsReach next alphabet start S) :
    Good S ∧ ∃ w j S',
      DFA.run { states := v.dfaStateInfo, alphabet := alphabet, startState := start' } 0 w
        = some j ∧ v.queue[j]? = some S' ∧ key S' = key S := by
  induction hS with
  | refl =>
    exact ⟨h.good _ (List.mem_iff_getElem?.2 ⟨0, h.first⟩), [], 0, start, rfl, h.first, rfl⟩
  | @step S T a _ ha hT ih =>
    obtain ⟨gS, w, j, S', hrun, hq, hk⟩ := ih
    have gS' : Good S' := h.good S' (List.mem_iff_getElem?.2 ⟨j, hq⟩)
    obtain ⟨r, hr, hg⟩ := hnext S a gS ha
    have gT : Good T := hg T (by rw [hT] at hr; exact (Option.some.inj hr).symm)
    obtain ⟨T', hT', hk'⟩ := hcongr S S' a T gS gS' hk.symm ha hT
    have hjl : j < v.queue.length := by
      rcases List.getElem?_eq_some.1 hq with ⟨hh, _⟩
      exact hh
    have hst := List.getElem?_eq_getElem (show j < v.dfaStateInfo.length by rw [h.len]; exact hjl)
    have hd := h.done j _ S' a hst hq ⟨hjl, ha⟩
    unfold TransOK at hd
    rw [hT'] at hd
    simp only at hd
    obtain ⟨j2, S2, h1, h2, h3⟩ := hd
    refine ⟨gT, w ++ [a], j2, S2, ?_, h2, h3.trans hk'.symm⟩
    rw [DFA.run_append, hrun]
    show DFA.run _ j [a] = some j2
    simp only [DFA.run, DFA.next, bfs_state h hid, hst, h1]

/-- The DFA produced by the worklist loop is trim as soon as every good set
accepts some word and is reached from the start set. -/
theorem bfs_trim {start : List Nat} {v : SubsetVars}
    (h : BfsInv next key mk Good start (fun i a => i < v.queue.length ∧ a ∈ alphabet) v)
    (hid : ∀ i S, (mk i S).id = i) (hmkacc : ∀ i S, (mk i S).isAccepting = acc S)
    (hnext : ∀ S a, Good S → a ∈ alphabet → ∃ r, next S a = some r ∧ ∀ T, r = some T → Good T)
    (hacc : ∀ S S', Good S → Good S' → key S = key S' → acc S = acc S')
    (hcongr : ∀ S S' a T, Good S → Good S' → key S = key S' → a ∈ alphabet →
      next S a = some (some T) → ∃ T', next S' a = some (some T') ∧ key T = key T')
    (hlive : ∀ S, Good S → ∃ w, absAccepts next acc alphabet S w)
    (hreach : ∀ S, Good S → AbsReach next alphabet start S) :
    DFA.Trim { states := v.dfaStateInfo, alphabet := alphabet, startState := some 0 } where
  start := ⟨0, rfl, bfs_start_state h hid _ _⟩
  reach := by
    intro s hs
    have hlt := (bfs_state_lt h hid _ _ s).1 hs
    have hS := List.getElem?_eq_getElem hlt
    have gS := h.good _ (List.mem_iff_getElem?.2 ⟨s, hS⟩)
    obtain ⟨_, w, j, S', hrun, hq, hk⟩ :=
      bfs_absReach h hid hnext hcongr (some 0) _ (hreach _ gS)
    have hjl : j < v.queue.length := by
      rcases List.getElem?_eq_some.1 hq with ⟨hh, _⟩
      exact hh
    have e : j = s := by
      have hn := h.keys_nodup
      have e1 : (v.queue.map key)[j]? = some (key S') := by
        rw [List.getElem?_map, hq]; rfl
      have e2 : (v.queue.map key)[s]? = some (key S') := by
        rw [List.getElem?_map, hS, hk]; rfl
      have lj : j < (v.queue.map key).length := by rw [List.length_map]; exact hjl
      have ls : s < (v.queue.map key).length := by rw [List.length_map]; exact hlt
      rw [List.getElem?_eq_getElem lj] at e1
      rw [List.getElem?_eq_getElem ls] at e2
      exact (List.Nodup.getElem_inj_iff hn).1
        ((Option.some.inj e1).trans (Option.some.inj e2).symm)
    rw [e] at hrun
    exact ⟨0, w, rfl, hrun⟩
  live := by
    intro s hs
    have hlt := (bfs_state_lt h hid _ _ s).1 hs
    have hS := List.getElem?_eq_getElem hlt
    obtain ⟨w, hw⟩ := hlive _ (h.good _ (List.mem_iff_getElem?.2 ⟨s, hS⟩))
    exact ⟨w, (bfs_acceptsFrom h hid hmkacc hnext hacc hcongr (some 0) w s _ hS).2 hw⟩
  closed := by
    intro s a t ht
    exact (bfs_state_lt h hid _ _ t).2 (bfs_next_lt h hid hnext (some 0) s a t ht)

end BfsSem

/-! ## The stack-based traversals of `dfa.js` -/

theorem nodup_bounded_length {l : List Nat} {n : Nat} (h : l.Nodup) (hb : ∀ x ∈ l, x < n) :
    l.length ≤ n := by
  have hs : l ⊆ List.range n := fun x hx => List.mem_range.2 (hb x hx)
  have := (List.subperm_of_subset h hs).length_le
  simpa using this

theorem targetsOf_entry {heap : List State} {s t : Nat} {c : Char}
    (h : t ∈ targetsOf heap s c) : ∃ e ∈ (deref heap s).transitions, e.1 = c ∧ t ∈ e.2 := by
  unfold targetsOf at h
  cases hg : mapGet (deref heap s).transitions c with
  | none => simp [hg] at h
  | some ts =>
    rw [hg] at h
    exact ⟨(c, ts), mapGet_mem _ _ _ hg, rfl, h⟩

theorem ClosedRegion.closed {heap : List State} {U : Nat → Prop} (hU : ClosedRegion heap U)
    (s : Nat) (c : Char) (t : Nat) (hs : U s) (ht : t ∈ targetsOf heap s c) : U t := by
  obtain ⟨e, he, _, h2⟩ := targetsOf_entry ht
  exact hU.closedEntries s hs e he t h2

theorem NPath.trans {heap : List State} {s t u : Nat} {w1 w2 : List Char}
    (h1 : NPath heap s w1 t) (h2 : NPath heap t w2 u) : NPath heap s (w1 ++ w2) u := by
  induction h1 with
  | nil s => exact h2
  | eps ht _ ih => exact NPath.eps ht (ih h2)
  | sym hc ht _ ih => exact NPath.sym hc ht (ih h2)

theorem NPath.eps_snoc {heap : List State} {s t u : Nat}
    (h1 : NPath heap s [] t) (h2 : u ∈ targetsOf heap t EPSILON) : NPath heap s [] u := by
  have := h1.trans (NPath.eps h2 (NPath.nil u))
  simpa using this

theorem NPath.inRegion {heap : List State} {U : Nat → Prop} (hU : ClosedRegion heap U)
    {s u : Nat} {w : List Char} (h : NPath heap s w u) (hs : U s) : U u := by
  induction h with
  | nil s => exact hs
  | eps ht _ ih => exact ih (hU.closed _ _ _ hs ht)
  | sym _ ht _ ih => exact ih (hU.closed _ _ _ hs ht)

theorem Reach.staysIn {heap : List State} {U : Nat → Prop} (hU : ClosedRegion heap U)
    {s u : Nat} (h : Reach heap s u) (hs : U s) : U u := by
  induction h with
  | refl s => exact hs
  | step he ht _ ih => exact ih (hU.closedEntries _ hs _ he _ ht)

theorem NPath.reach {heap : List State} {s u : Nat} {w : List Char} (h : NPath heap s w u) :
    Reach heap s u := by
  induction h with
  | nil s => exact Reach.refl s
  | eps ht _ ih =>
    obtain ⟨e, he, _, h2⟩ := targetsOf_entry ht
    exact Reach.step he h2 ih
  | sym _ ht _ ih =>
    obtain ⟨e, he, _, h2⟩ := targetsOf_entry ht
    exact Reach.step he h2 ih

theorem Reach.concat {heap : List State} {s t u : Nat} (h1 : Reach heap s t)
    (h2 : Reach heap t u) : Reach heap s u := by
  induction h1 with
  | refl s => exact h2
  | step he ht _ ih => exact Reach.step he ht (ih h2)

/-- What the loop over the targets does to the pair (closure, stack). -/
theorem closeTargets_spec (targets : List Nat) :
    ∀ (closure stack : List Nat),
      (closure.Nodup → (closeTargets closure stack targets).1.Nodup) ∧
      (∀ x, x ∈ (closeTargets closure stack targets).1 ↔ x ∈ closure ∨ x ∈ targets) ∧
      (∀ x, x ∈ (closeTargets closure stack targets).2 ↔
        x ∈ stack ∨ (x ∈ targets ∧ x ∉ closure)) ∧
      (closeTargets closure stack targets).2.length + closure.length =
        stack.length + (closeTargets closure stack targets).1.length := by
  induction targets with
  | nil =>
    intro closure stack
    simp [closeTargets]
  | cons t rest ih =>
    intro closure stack
    unfold closeTargets
    by_cases ht : t ∈ closure
    · simp only [ht, ↓reduceIte]
      obtain ⟨h1, h2, h3, h4⟩ := ih closure stack
      refine ⟨h1, ?_, ?_, h4⟩
      · intro x
        rw [h2, List.mem_cons]
        constructor
        · rintro (h | h)
          · exact Or.inl h
          · exact Or.inr (Or.inr h)
        · rintro (h | h | h)
          · exact Or.inl h
          · exact Or.inl (h ▸ ht)
          · exact Or.inr h
      · intro x
        rw [h3, List.mem_cons]
        constructor
        · rintro (h | ⟨h, h'⟩)
          · exact Or.inl h
          · exact Or.inr ⟨Or.inr h, h'⟩
        · rintro (h | ⟨h | h, h'⟩)
          · exact Or.inl h
          · exact absurd (h ▸ ht) h'
          · exact Or.inr ⟨h, h'⟩
    · simp only [ht, ↓reduceIte]
      obtain ⟨h1, h2, h3, h4⟩ := ih (closure ++ [t]) (t :: stack)
      refine ⟨?_, ?_, ?_, ?_⟩
      · intro hn
        exact h1 (List.Nodup.append hn (List.nodup_singleton t) (by simpa using ht))
      · intro x
        rw [h2, List.mem_append, List.mem_singleton, List.mem_cons]
        tauto
      · intro x
        rw [h3, List.mem_cons, List.mem_append, List.mem_singleton, List.mem_cons]
        constructor
        · rintro ((h | h) | ⟨h, h'⟩)
          · exact Or.inr ⟨Or.inl h, h ▸ ht⟩
          · exact Or.inl h
          · exact Or.inr ⟨Or.inr h, fun hc => h' (Or.inl hc)⟩
        · rintro (h | ⟨h | h, h'⟩)
          · exact Or.inl (Or.inr h)
          · exact Or.inl (Or.inl h)
          · by_cases hx : x = t
            · exact Or.inl (Or.inl hx)
            · exact Or.inr ⟨h, fun hc => hc.elim h' hx⟩
      · simp only [List.length_append, List.length_singleton, List.length_cons,
          List.length_nil] at h4 ⊢
        omega

theorem ClosureInv.complete {heap : List State} {U : Nat → Prop} {S closure : List Nat}
    (h : ClosureInv heap U S closure []) {s x : Nat} {w : List Char}
    (hp : NPath heap s w x) (hw : w = []) (hs : s ∈ closure) : x ∈ closure := by
  induction hp with
  | nil s => exact hs
  | eps ht _ ih => exact ih hw (h.closedOff _ hs (by simp) _ ht)
  | sym _ _ _ _ => simp at hw

theorem epsilonClosureLoop_spec {heap : List State} {U : Nat → Prop}
    (hU : ClosedRegion heap U) {S : List Nat} :
    ∀ (fuel : Nat) (closure stack : List Nat), ClosureInv heap U S closure stack →
      stack.length + heap.length + 1 ≤ fuel + closure.length →
      ∃ C, epsilonClosureLoop heap fuel closure stack = some C ∧ ClosureInv heap U S C [] := by
  intro fuel
  induction fuel with
  | zero =>
    intro closure stack h hf
    have := nodup_bounded_length h.nodup (fun x hx => hU.inHeap x (h.inU x hx))
    omega
  | succ fuel ih =>
    intro closure stack h hf
    cases stack with
    | nil => exact ⟨closure, rfl, h⟩
    | cons s stack =>
      obtain ⟨h1, h2, h3, h4⟩ := closeTargets_spec (targetsOf heap s EPSILON) closure stack
      have hs : s ∈ closure := h.stack_sub s (List.mem_cons_self _ _)
      have inv : ClosureInv heap U S (closeTargets closure stack (targetsOf heap s EPSILON)).1
          (closeTargets closure stack (targetsOf heap s EPSILON)).2 :=
        { nodup := h1 h.nodup
          inU := by
            intro x hx
            rcases (h2 x).1 hx with hx | hx
            · exact h.inU x hx
            · exact hU.closed s _ x (h.inU s hs) hx
          stack_sub := by
            intro x hx
            rcases (h3 x).1 hx with hx | ⟨hx, _⟩
            · exact (h2 x).2 (Or.inl (h.stack_sub x (List.mem_cons_of_mem _ hx)))
            · exact (h2 x).2 (Or.inr hx)
          init_sub := fun x hx => (h2 x).2 (Or.inl (h.init_sub x hx))
          sound := by
            intro x hx
            rcases (h2 x).1 hx with hx | hx
            · exact h.sound x hx
            · obtain ⟨s0, hs0, hp⟩ := h.sound s hs
              exact ⟨s0, hs0, hp.eps_snoc hx⟩
          closedOff := by
            intro x hx hns t ht
            by_cases hxc : x ∈ closure
            · by_cases hxs : x = s
              · subst hxs
                exact (h2 t).2 (Or.inr ht)
              · have : x ∉ s :: stack := by
                  intro hc
                  rcases List.mem_cons.1 hc with hc | hc
                  · exact hxs hc
                  · exact hns ((h3 x).2 (Or.inl hc))
                exact (h2 t).2 (Or.inl (h.closedOff x hxc this t ht))
            · rcases (h2 x).1 hx with hx | hx
              · exact absurd hx hxc
              · exact absurd ((h3 x).2 (Or.inr ⟨hx, hxc⟩)) hns }
      obtain ⟨C, hC, hinv⟩ := ih _ _ inv (by
        simp only [List.length_cons] at hf
        omega)
      exact ⟨C, by simp only [epsilonClosureLoop, hC], hinv⟩

/-- `epsilonClosure` terminates and returns the states reachable from the given
ones by `'ε'` transitions, each once. -/
theorem epsilonClosure_spec {heap : List State} {U : Nat → Prop} (hU : ClosedRegion heap U)
    {S : List Nat} (hn : S.Nodup) (hS : ∀ s ∈ S, U s) :
    ∃ C, epsilonClosure heap S = some C ∧ C.Nodup ∧ (∀ x ∈ C, U x) ∧
      ∀ x, x ∈ C ↔ ∃ s ∈ S, NPath heap s [] x := by
  have inv : ClosureInv heap U S S S.reverse :=
    { nodup := hn
      inU := hS
      stack_sub := fun x hx => List.mem_reverse.1 hx
      init_sub := fun x hx => hx
      sound := fun x hx => ⟨x, hx, NPath.nil x⟩
      closedOff := fun x hx hns => absurd (List.mem_reverse.2 hx) hns }
  obtain ⟨C, hC, hinv⟩ := epsilonClosureLoop_spec hU (S.length + heap.length + 1) S S.reverse inv
    (by simp)
  refine ⟨C, hC, hinv.nodup, hinv.inU, fun x => ⟨hinv.sound x, ?_⟩⟩
  rintro ⟨s, hs, hp⟩
  exact hinv.complete hp rfl (hinv.init_sub s hs)

theorem mem_move {heap : List State} (S : List Nat) (a : Char) (x : Nat) :
    x ∈ move heap S a ↔ ∃ s ∈ S, x ∈ targetsOf heap s a := by
  unfold move
  have : ∀ (acc : List Nat), x ∈ S.foldl
      (fun reachable state => (targetsOf heap state a).foldl setAdd reachable) acc ↔
      x ∈ acc ∨ ∃ s ∈ S, x ∈ targetsOf heap s a := by
    induction S with
    | nil => intro acc; simp
    | cons s S ih =>
      intro acc
      simp only [List.foldl_cons, ih, mem_foldl_setAdd, List.mem_cons, exists_eq_or_imp]
      tauto
  simpa using this []

theorem nodup_move {heap : List State} (S : List Nat) (a : Char) : (move heap S a).Nodup := by
  unfold move
  have : ∀ (acc : List Nat), acc.Nodup → (S.foldl
      (fun reachable state => (targetsOf heap state a).foldl setAdd reachable) acc).Nodup := by
    induction S with
    | nil => intro acc h; exact h
    | cons s S ih =>
      intro acc h
      exact ih _ (nodup_foldl_setAdd _ _ h)
  exact this [] List.nodup_nil

theorem visitTargets_eq (targets visited stack : List Nat) :
    visitTargets visited stack targets = closeTargets visited stack targets := by
  induction targets generalizing visited stack with
  | nil => rfl
  | cons t rest ih =>
    unfold visitTargets closeTargets
    split
    · exact ih _ _
    · exact ih _ _

/-- What the loop over the transitions of one state does to the triple
(alphabet, visited, stack). -/
theorem visitTransitions_spec (entries : List (Char × List Nat)) :
    ∀ (alphabet : List Char) (visited stack : List Nat),
      (visited.Nodup → (visitTransitions alphabet visited stack entries).2.1.Nodup) ∧
      (∀ x, x ∈ (visitTransitions alphabet visited stack entries).2.1 ↔
        x ∈ visited ∨ ∃ e ∈ entries, x ∈ e.2) ∧
      (∀ x, x ∈ (visitTransitions alphabet visited stack entries).2.2 ↔
        x ∈ stack ∨ ((∃ e ∈ entries, x ∈ e.2) ∧ x ∉ visited)) ∧
      (∀ c, c ∈ (visitTransitions alphabet visited stack entries).1 ↔
        c ∈ alphabet ∨ (c ≠ EPSILON ∧ ∃ e ∈ entries, e.1 = c)) ∧
      (visitTransitions alphabet visited stack entries).2.2.length + visited.length =
        stack.length + (visitTransitions alphabet visited stack entries).2.1.length := by
  induction entries with
  | nil =>
    intro alphabet visited stack
    simp [visitTransitions]
  | cons e rest ih =>
    intro alphabet visited stack
    obtain ⟨symbol, targets⟩ := e
    obtain ⟨c1, c2, c3, c4⟩ := closeTargets_spec targets visited stack
    simp only [visitTransitions, visitTargets_eq]
    obtain ⟨h1, h2, h3, h4, h5⟩ := ih (if symbol ≠ EPSILON then symAdd alphabet symbol else alphabet)
      (closeTargets visited stack targets).1 (closeTargets visited stack targets).2
    refine ⟨fun hn => h1 (c1 hn), ?_, ?_, ?_, by omega⟩
    · intro x
      rw [h2, c2]
      simp only [List.mem_cons, exists_eq_or_imp]
      tauto
    · intro x
      rw [h3, c3, c2]
      simp only [List.mem_cons, exists_eq_or_imp]
      tauto
    · intro c
      rw [h4]
      simp only [List.mem_cons, exists_eq_or_imp]
      by_cases hs : symbol = EPSILON
      · subst hs
        simp only [ne_eq, not_true_eq_false, ↓reduceIte]
        constructor
        · rintro (h | ⟨h, h'⟩)
          · exact Or.inl h
          · exact Or.inr ⟨h, Or.inr h'⟩
        · rintro (h | ⟨h, h' | h'⟩)
          · exact Or.inl h
          · exact absurd h'.symm h
          · exact Or.inr ⟨h, h'⟩
      · simp only [ne_eq, hs, not_false_eq_true, ↓reduceIte, mem_symAdd]
        constructor
        · rintro ((h | h) | ⟨h, h'⟩)
          · exact Or.inl h
          · exact Or.inr ⟨h ▸ hs, Or.inl h.symm⟩
          · exact Or.inr ⟨h, Or.inr h'⟩
        · rintro (h | ⟨h, h' | h'⟩)
          · exact Or.inl (Or.inl h)
          · exact Or.inl (Or.inr h'.symm)
          · exact Or.inr ⟨h, h'⟩

theorem AlphabetInv.saturated {heap : List State} {U : Nat → Prop} {start : Nat}
    {alphabet : List Char} {visited : List Nat}
    (h : AlphabetInv heap U start alphabet visited []) {s x : Nat}
    (hp : Reach heap s x) (hs : s ∈ visited) : x ∈ visited := by
  induction hp with
  | refl s => exact hs
  | step he ht _ ih => exact ih ((h.processed _ hs (by simp) _ he).2 _ ht)

theorem getAlphabetLoop_spec {heap : List State} {U : Nat → Prop}
    (hU : ClosedRegion heap U) {start : Nat} :
    ∀ (fuel : Nat) (alphabet : List Char) (visited stack : List Nat),
      AlphabetInv heap U start alphabet visited stack →
      stack.length + heap.length + 1 ≤ fuel + visited.length →
      ∃ A V, getAlphabetLoop heap fuel alphabet visited stack = some A ∧
        AlphabetInv heap U start A V [] := by
  intro fuel
  induction fuel with
  | zero =>
    intro alphabet visited stack h hf
    have := nodup_bounded_length h.nodup (fun x hx => hU.inHeap x (h.inU x hx))
    omega
  | succ fuel ih =>
    intro alphabet visited stack h hf
    cases stack with
    | nil => exact ⟨alphabet, visited, rfl, h⟩
    | cons s stack =>
      obtain ⟨h1, h2, h3, h4, h5⟩ :=
        visitTransitions_spec (deref heap s).transitions alphabet visited stack
      have hs : s ∈ visited := h.stack_sub s (List.mem_cons_self _ _)
      have inv : AlphabetInv heap U start
          (visitTransitions alphabet visited stack (deref heap s).transitions).1
          (visitTransitions alphabet visited stack (deref heap s).transitions).2.1
          (visitTransitions alphabet visited stack (deref heap s).transitions).2.2 :=
        { nodup := h1 h.nodup
          inU := by
            intro x hx
            rcases (h2 x).1 hx with hx | ⟨e, he, hx⟩
            · exact h.inU x hx
            · exact hU.closedEntries s (h.inU s hs) e he x hx
          stack_sub := by
            intro x hx
            rcases (h3 x).1 hx with hx | ⟨hx, _⟩
            · exact (h2 x).2 (Or.inl (h.stack_sub x (List.mem_cons_of_mem _ hx)))
            · exact (h2 x).2 (Or.inr hx)
          init_mem := (h2 start).2 (Or.inl h.init_mem)
          reach := by
            intro x hx
            rcases (h2 x).1 hx with hx | ⟨e, he, hx⟩
            · exact h.reach x hx
            · exact (h.reach s hs).concat (Reach.step he hx (Reach.refl x))
          sound := by
            intro a ha
            rcases (h4 a).1 ha with ha | ⟨ha, e, he, hea⟩
            · exact h.sound a ha
            · exact ⟨ha, s, h.reach s hs, e, he, hea⟩
          processed := by
            intro x hx hns e he
            by_cases hxc : x ∈ visited
            · by_cases hxs : x = s
              · subst hxs
                exact ⟨fun hne => (h4 e.1).2 (Or.inr ⟨hne, e, he, rfl⟩),
                  fun t ht => (h2 t).2 (Or.inr ⟨e, he, ht⟩)⟩
              · have : x ∉ s :: stack := by
                  intro hc
                  rcases List.mem_cons.1 hc with hc | hc
                  · exact hxs hc
                  · exact hns ((h3 x).2 (Or.inl hc))
                have hp := h.processed x hxc this e he
                exact ⟨fun hne => (h4 e.1).2 (Or.inl (hp.1 hne)),
                  fun t ht => (h2 t).2 (Or.inl (hp.2 t ht))⟩
            · rcases (h2 x).1 hx with hx | hx
              · exact absurd hx hxc
              · exact absurd ((h3 x).2 (Or.inr ⟨hx, hxc⟩)) hns }
      obtain ⟨A, V, hA, hinv⟩ := ih _ _ _ inv (by
        simp only [List.length_cons] at hf
        omega)
      exact ⟨A, V, by simp only [getAlphabetLoop, hA], hinv⟩

/-- `getAlphabet` terminates and returns the non-epsilon symbols that label a
transition of a state reachable from the start state. -/
theorem getAlphabet_spec {heap : List State} {U : Nat → Prop} (hU : ClosedRegion heap U)
    {start : Nat} (hs : U start) :
    ∃ A, getAlphabet heap start [] = some A ∧
      ∀ a, a ∈ A ↔ (a ≠ EPSILON ∧
        ∃ s, Reach heap start s ∧ ∃ e ∈ (deref heap s).transitions, e.1 = a) := by
  have inv : AlphabetInv heap U start [] (setAdd [] start) [start] :=
    { nodup := by simp [setAdd]
      inU := by
        intro x hx
        simp only [setAdd, List.not_mem_nil, ↓reduceIte, List.nil_append,
          List.mem_singleton] at hx
        rw [hx]; exact hs
      stack_sub := by
        intro x hx
        simpa [setAdd] using hx
      init_mem := by simp [setAdd]
      reach := by
        intro x hx
        simp only [setAdd, List.not_mem_nil, ↓reduceIte, List.nil_append,
          List.mem_singleton] at hx
        rw [hx]; exact Reach.refl _
      sound := by simp
      processed := by
        intro x hx hns
        simp only [setAdd, List.not_mem_nil, ↓reduceIte, List.nil_append,
          List.mem_singleton] at hx
        simp [hx] at hns }
  obtain ⟨A, V, hA, hinv⟩ := getAlphabetLoop_spec hU (heap.length + 2) [] _ _ inv
    (by simp only [setAdd, List.not_mem_nil, ↓reduceIte, List.nil_append,
          List.length_singleton]; omega)
  refine ⟨sortSymbols A, by simp only [getAlphabet, hA, Option.map_some'], fun a => ?_⟩
  rw [mem_sortSymbols]
  constructor
  · exact hinv.sound a
  · rintro ⟨hne, s, hr, e, he, hea⟩
    have hsv := hinv.saturated hr hinv.init_mem
    rw [← hea]
    exact (hinv.processed s hsv (by simp) e he).1 (hea ▸ hne)

/-! ## The store operations of `nfa.js` -/

theorem deref_eq_of_getElem? {heap : List State} {i : Nat} {st : State}
    (h : heap[i]? = some st) : deref heap i = st := by
  simp [deref, List.getD_eq_getElem?_getD, h]

theorem newState_fst (σ : Store) : σ.newState.1 = σ.states.length := rfl

theorem newState_length (σ : Store) : σ.newState.2.states.length = σ.states.length + 1 := by
  simp [Store.newState]

theorem newState_stateId (σ : Store) : σ.newState.2.stateId = σ.stateId + 1 := rfl

theorem deref_newState_old (σ : Store) {i : Nat} (h : i < σ.states.length) :
    deref σ.newState.2.states i = deref σ.states i := by
  simp [deref, Store.newState, List.getD_eq_getElem?_getD, List.getElem?_append_left h]

theorem deref_newState_new (σ : Store) :
    deref σ.newState.2.states σ.states.length =
      { id := σ.stateId, isAccepting := false, transitions := [] } := by
  simp [deref, Store.newState, List.getD_eq_getElem?_getD]

theorem addTransition_length (σ : Store) (src : Nat) (c : Char) (t : Nat) :
    (σ.addTransition src c t).states.length = σ.states.length := by
  simp [Store.addTransition, List.length_modify]

theorem addTransition_stateId (σ : Store) (src : Nat) (c : Char) (t : Nat) :
    (σ.addTransition src c t).stateId = σ.stateId := rfl

theorem deref_addTransition_ne (σ : Store) {src i : Nat} (c : Char) (t : Nat) (h : i ≠ src) :
    deref (σ.addTransition src c t).states i = deref σ.states i := by
  simp only [deref, Store.addTransition, List.getD_eq_getElem?_getD, List.getElem?_modify]
  have : ¬ src = i := fun e => h e.symm
  simp only [this, ↓reduceIte]
  cases σ.states[i]? <;> rfl

theorem deref_addTransition_self (σ : Store) {src : Nat} (c : Char) (t : Nat)
    (h : src < σ.states.length) :
    deref (σ.addTransition src c t).states src = (deref σ.states src).addTransition c t := by
  simp only [deref, Store.addTransition, List.getD_eq_getElem?_getD, List.getElem?_modify,
    List.getElem?_eq_getElem h]
  simp

theorem State.addTransition_id (s : State) (c : Char) (t : Nat) :
    (s.addTransition c t).id = s.id := by
  unfold State.addTransition
  split <;> rfl

theorem State.addTransition_isAccepting (s : State) (c : Char) (t : Nat) :
    (s.addTransition c t).isAccepting = s.isAccepting := by
  unfold State.addTransition
  split <;> rfl

theorem State.addTransition_transitions (s : State) (c : Char) (t : Nat) :
    (s.addTransition c t).transitions =
      mapSet s.transitions c (setAdd ((mapGet s.transitions c).getD []) t) := by
  unfold State.addTransition
  split
  · rename_i h
    simp [h, setAdd]
  · rename_i ts h
    simp [h]

theorem mem_mapSet {α β : Type} [BEq α] [LawfulBEq α] {m : List (α × β)} {k : α} {v : β}
    {e : α × β} (h : e ∈ mapSet m k v) : e ∈ m ∨ e = (k, v) := by
  induction m with
  | nil => simpa [mapSet] using h
  | cons x m ih =>
    obtain ⟨k0, v0⟩ := x
    unfold mapSet at h
    split at h
    · rcases List.mem_cons.1 h with h | h
      · exact Or.inr h
      · exact Or.inl (List.mem_cons_of_mem _ h)
    · rcases List.mem_cons.1 h with h | h
      · exact Or.inl (h ▸ List.mem_cons_self _ _)
      · rcases ih h with h | h
        · exact Or.inl (List.mem_cons_of_mem _ h)
        · exact Or.inr h

theorem targetsOf_eq (heap : List State) (i : Nat) (c : Char) :
    targetsOf heap i c = (deref heap i).targets c := rfl

theorem State.mem_targets_addTransition (s : State) (c c' : Char) (t x : Nat) :
    x ∈ (s.addTransition c t).targets c' ↔ x ∈ s.targets c' ∨ (c' = c ∧ x = t) := by
  unfold State.targets
  rw [State.addTransition_transitions, mapGet_mapSet]
  by_cases h : c' = c
  · subst h
    simp [mem_setAdd]
  · simp [h]

theorem State.mem_entries_addTransition (s : State) (c : Char) (t x : Nat)
    {e : Char × List Nat} (he : e ∈ (s.addTransition c t).transitions) (hx : x ∈ e.2) :
    x = t ∨ ∃ e' ∈ s.transitions, x ∈ e'.2 := by
  rw [State.addTransition_transitions] at he
  rcases mem_mapSet he with h | h
  · exact Or.inr ⟨e, h, hx⟩
  · subst h
    simp only [mem_setAdd] at hx
    rcases hx with hx | hx
    · right
      cases hg : mapGet s.transitions c with
      | none => simp [hg] at hx
      | some ts =>
        rw [hg] at hx
        exact ⟨(c, ts), mapGet_mem _ _ _ hg, hx⟩
    · exact Or.inl hx

theorem State.entries_addTransition_nil (s : State) (c : Char) (t : Nat)
    (h : s.transitions = []) : (s.addTransition c t).transitions = [(c, [t])] := by
  rw [State.addTransition_transitions, h]
  simp [mapSet, mapGet, setAdd]

theorem State.targets_nil (s : State) (c : Char) (h : s.transitions = []) :
    s.targets c = [] := by
  simp [State.targets, h, mapGet]

/-! ## Runs that stay in a region of the heap -/

theorem NPath.frame {h h' : List State} {U : Nat → Prop}
    (hagree : ∀ i, U i → deref h' i = deref h i)
    (hclosed : ∀ i, U i → ∀ c t, t ∈ targetsOf h i c → U t)
    {s u : Nat} {w : List Char} (hs : U s) : NPath h' s w u ↔ NPath h s w u := by
  constructor
  · intro hp
    induction hp with
    | nil s => exact NPath.nil s
    | eps ht _ ih =>
      rw [targetsOf_eq, hagree _ hs, ← targetsOf_eq] at ht
      exact NPath.eps ht (ih (hclosed _ hs _ _ ht))
    | sym hc ht _ ih =>
      rw [targetsOf_eq, hagree _ hs, ← targetsOf_eq] at ht
      exact NPath.sym hc ht (ih (hclosed _ hs _ _ ht))
  · intro hp
    induction hp with
    | nil s => exact NPath.nil s
    | eps ht _ ih =>
      have ht' := ht
      rw [targetsOf_eq, ← hagree _ hs, ← targetsOf_eq] at ht'
      exact NPath.eps ht' (ih (hclosed _ hs _ _ ht))
    | sym hc ht _ ih =>
      have ht' := ht
      rw [targetsOf_eq, ← hagree _ hs, ← targetsOf_eq] at ht'
      exact NPath.sym hc ht' (ih (hclosed _ hs _ _ ht))

/-- A run that starts in a region whose states are unchanged except for the
exit state `e` either is a run of the old heap or passes through `e`. -/
theorem NPath.split_at_exit {h h' : List State} {U : Nat → Prop} {e : Nat}
    (hagree : ∀ i, U i → i ≠ e → deref h' i = deref h i)
    (hclosed : ∀ i, U i → ∀ c t, t ∈ targetsOf h i c → U t)
    {s u : Nat} {w : List Char} (hp : NPath h' s w u) (hs : U s) :
    NPath h s w u ∨ ∃ w1 w2, w = w1 ++ w2 ∧ NPath h s w1 e ∧ NPath h' e w2 u := by
  induction hp with
  | nil s => exact Or.inl (NPath.nil s)
  | @eps s t u w ht hrest ih =>
    by_cases hse : s = e
    · subst hse
      exact Or.inr ⟨[], w, rfl, NPath.nil s, NPath.eps ht hrest⟩
    · rw [targetsOf_eq, hagree _ hs hse, ← targetsOf_eq] at ht
      rcases ih (hclosed _ hs _ _ ht) with h1 | ⟨w1, w2, e1, h1, h2⟩
      · exact Or.inl (NPath.eps ht h1)
      · exact Or.inr ⟨w1, w2, e1, NPath.eps ht h1, h2⟩
  | @sym s t u c w hc ht hrest ih =>
    by_cases hse : s = e
    · subst hse
      exact Or.inr ⟨[], c :: w, rfl, NPath.nil s, NPath.sym hc ht hrest⟩
    · rw [targetsOf_eq, hagree _ hs hse, ← targetsOf_eq] at ht
      rcases ih (hclosed _ hs _ _ ht) with h1 | ⟨w1, w2, e1, h1, h2⟩
      · exact Or.inl (NPath.sym hc ht h1)
      · exact Or.inr ⟨c :: w1, w2, by rw [e1]; rfl, NPath.sym hc ht h1, h2⟩

/-- A run of the old heap inside the region is a run of the new heap, when only
the exit state, which had no transition, was changed. -/
theorem NPath.lift {h h' : List State} {U : Nat → Prop} {e : Nat}
    (hagree : ∀ i, U i → i ≠ e → deref h' i = deref h i)
    (hclosed : ∀ i, U i → ∀ c t, t ∈ targetsOf h i c → U t)
    (hexit : (deref h e).transitions = [])
    {s u : Nat} {w : List Char} (hp : NPath h s w u) (hs : U s) : NPath h' s w u := by
  induction hp with
  | nil s => exact NPath.nil s
  | @eps s t u w ht _ ih =>
    have hse : s ≠ e := by
      intro e1; subst e1
      rw [targetsOf_eq, State.targets_nil _ _ hexit] at ht
      simp at ht
    have ht' := ht
    rw [targetsOf_eq, ← hagree _ hs hse, ← targetsOf_eq] at ht'
    exact NPath.eps ht' (ih (hclosed _ hs _ _ ht))
  | @sym s t u c w hc ht _ ih =>
    have hse : s ≠ e := by
      intro e1; subst e1
      rw [targetsOf_eq, State.targets_nil _ _ hexit] at ht
      simp at ht
    have ht' := ht
    rw [targetsOf_eq, ← hagree _ hs hse, ← targetsOf_eq] at ht'
    exact NPath.sym hc ht' (ih (hclosed _ hs _ _ ht))

/-- From a state without transitions only the empty run exists. -/
theorem NPath.of_no_transitions {h : List State} {s u : Nat} {w : List Char}
    (hexit : (deref h s).transitions = []) (hp : NPath h s w u) : w = [] ∧ u = s := by
  cases hp with
  | nil => exact ⟨rfl, rfl⟩
  | eps ht _ =>
    rw [targetsOf_eq, State.targets_nil _ _ hexit] at ht
    simp at ht
  | sym _ ht _ =>
    rw [targetsOf_eq, State.targets_nil _ _ hexit] at ht
    simp at ht

/-- Inversion of a run on its first transition. -/
theorem NPath.inv {h : List State} {s u : Nat} {w : List Char} (hp : NPath h s w u) :
    (w = [] ∧ u = s) ∨ (∃ t, t ∈ targetsOf h s EPSILON ∧ NPath h t w u) ∨
    (∃ c t w', c ≠ EPSILON ∧ w = c :: w' ∧ t ∈ targetsOf h s c ∧ NPath h t w' u) := by
  cases hp with
  | nil => exact Or.inl ⟨rfl, rfl⟩
  | eps ht hr => exact Or.inr (Or.inl ⟨_, ht, hr⟩)
  | sym hc ht hr => exact Or.inr (Or.inr ⟨_, _, _, hc, rfl, ht, hr⟩)

theorem deref_addTransition_oob (σ : Store) {src : Nat} (c : Char) (t : Nat) (i : Nat)
    (h : σ.states.length ≤ src) :
    deref (σ.addTransition src c t).states i = deref σ.states i := by
  by_cases hi : i = src
  · subst hi
    simp only [deref, Store.addTransition, List.getD_eq_getElem?_getD, List.getElem?_modify,
      List.getElem?_eq_none h]
    rfl
  · exact deref_addTransition_ne σ c t hi

theorem deref_addTransition_id (σ : Store) (src : Nat) (c : Char) (t : Nat) (i : Nat) :
    (deref (σ.addTransition src c t).states i).id = (deref σ.states i).id := by
  by_cases hi : i = src
  · subst hi
    by_cases hl : i < σ.states.length
    · rw [deref_addTransition_self _ _ _ hl, State.addTransition_id]
    · rw [deref_addTransition_oob _ _ _ _ (by omega)]
  · rw [deref_addTransition_ne _ _ _ hi]

theorem deref_addTransition_isAccepting (σ : Store) (src : Nat) (c : Char) (t : Nat) (i : Nat) :
    (deref (σ.addTransition src c t).states i).isAccepting = (deref σ.states i).isAccepting := by
  by_cases hi : i = src
  · subst hi
    by_cases hl : i < σ.states.length
    · rw [deref_addTransition_self _ _ _ hl, State.addTransition_isAccepting]
    · rw [deref_addTransition_oob _ _ _ _ (by omega)]
  · rw [deref_addTransition_ne _ _ _ hi]

/-- The targets listed in the entries of a state after an `addTransition`
somewhere in the store: the old ones, and the added target at the source. -/
theorem entries_addTransition (σ : Store) (src : Nat) (c : Char) (t : Nat) (i x : Nat)
    {e : Char × List Nat} (he : e ∈ (deref (σ.addTransition src c t).states i).transitions)
    (hx : x ∈ e.2) :
    (i = src ∧ x = t) ∨ ∃ e' ∈ (deref σ.states i).transitions, x ∈ e'.2 := by
  by_cases hi : i = src
  · subst hi
    by_cases hl : i < σ.states.length
    · rw [deref_addTransition_self _ _ _ hl] at he
      rcases State.mem_entries_addTransition _ _ _ _ he hx with h | h
      · exact Or.inl ⟨rfl, h⟩
      · exact Or.inr h
    · rw [deref_addTransition_oob _ _ _ _ (by omega)] at he
      exact Or.inr ⟨e, he, hx⟩
  · rw [deref_addTransition_ne _ _ _ hi] at he
    exact Or.inr ⟨e, he, hx⟩

/-- The targets of a state on a symbol after an `addTransition` somewhere in the store. -/
theorem mem_targetsOf_addTransition (σ : Store) (src : Nat) (c : Char) (t : Nat) (i : Nat)
    (c' : Char) (x : Nat) (hl : src < σ.states.length) :
    x ∈ targetsOf (σ.addTransition src c t).states i c' ↔
      x ∈ targetsOf σ.states i c' ∨ (i = src ∧ c' = c ∧ x = t) := by
  by_cases hi : i = src
  · subst hi
    rw [targetsOf_eq, deref_addTransition_self _ _ _ hl, State.mem_targets_addTransition,
      ← targetsOf_eq]
    simp
  · rw [targetsOf_eq, deref_addTransition_ne _ _ _ hi, ← targetsOf_eq]
    simp [hi]

theorem deref_transitions_nil_targets {heap : List State} {i : Nat}
    (h : (deref heap i).transitions = []) (c : Char) : targetsOf heap i c = [] := by
  rw [targetsOf_eq, State.targets_nil _ _ h]

theorem entryKey_addTransition (σ : Store) (src : Nat) (c : Char) (t : Nat) (i : Nat)
    {e : Char × List Nat} (he : e ∈ (deref (σ.addTransition src c t).states i).transitions) :
    e.1 = c ∨ ∃ e' ∈ (deref σ.states i).transitions, e'.1 = e.1 := by
  by_cases hi : i = src
  · subst hi
    by_cases hl : i < σ.states.length
    · rw [deref_addTransition_self _ _ _ hl, State.addTransition_transitions] at he
      rcases mem_mapSet he with h | h
      · exact Or.inr ⟨e, h, rfl⟩
      · rw [h]; exact Or.inl rfl
    · rw [deref_addTransition_oob _ _ _ _ (by omega)] at he
      exact Or.inr ⟨e, he, rfl⟩
  · rw [deref_addTransition_ne _ _ _ hi] at he
    exact Or.inr ⟨e, he, rfl⟩

/-! ## Thompson's construction: what `buildNfaForNode` builds -/

theorem buildNfaForNode_char (value : Char) (σ : Store) :
    buildNfaForNode (.CHAR value) σ =
      (⟨σ.states.length, σ.states.length + 1⟩,
        (σ.newState.2.newState.2).addTransition σ.states.length value
          (σ.states.length + 1)) := by
  simp [buildNfaForNode, Store.newState]

theorem buildNfaForNode_concat (left right : AST) (σ : Store) :
    buildNfaForNode (.CONCAT left right) σ =
      (⟨(buildNfaForNode left σ).1.startState,
        (buildNfaForNode right (buildNfaForNode left σ).2).1.endState⟩,
       (buildNfaForNode right (buildNfaForNode left σ).2).2.addTransition
         (buildNfaForNode left σ).1.endState EPSILON
         (buildNfaForNode right (buildNfaForNode left σ).2).1.startState) := rfl

theorem buildNfaForNode_alternation (left right : AST) (σ : Store) :
    buildNfaForNode (.ALTERNATION left right) σ =
      (⟨σ.states.length, σ.states.length + 1⟩,
       ((((buildNfaForNode right (buildNfaForNode left σ.newState.2.newState.2).2).2.addTransition
          σ.states.length EPSILON (buildNfaForNode left σ.newState.2.newState.2).1.startState
          ).addTransition σ.states.length EPSILON
            (buildNfaForNode right (buildNfaForNode left σ.newState.2.newState.2).2).1.startState
          ).addTransition (buildNfaForNode left σ.newState.2.newState.2).1.endState EPSILON
            (σ.states.length + 1)
          ).addTransition
            (buildNfaForNode right (buildNfaForNode left σ.newState.2.newState.2).2).1.endState
            EPSILON (σ.states.length + 1)) := by
  simp [buildNfaForNode, Store.newState]

theorem buildNfaForNode_star (child : AST) (σ : Store) :
    buildNfaForNode (.KLEENE_STAR child) σ =
      (⟨σ.states.length, σ.states.length + 1⟩,
       (((((buildNfaForNode child σ.newState.2.newState.2).2.addTransition
          σ.states.length EPSILON (buildNfaForNode child σ.newState.2.newState.2).1.startState
          ).addTransition σ.states.length EPSILON (σ.states.length + 1)
          ).addTransition (buildNfaForNode child σ.newState.2.newState.2).1.endState EPSILON
            (buildNfaForNode child σ.newState.2.newState.2).1.startState
          ).addTransition (buildNfaForNode child σ.newState.2.newState.2).1.endState EPSILON
            (σ.states.length + 1))) := by
  simp [buildNfaForNode, Store.newState]

theorem Built.closedT {ast : AST} {σ0 σ1 : Store} {frag : NFAFragment}
    (h : Built ast σ0 frag σ1) :
    ∀ i, (σ0.states.length ≤ i ∧ i < σ1.states.length) → ∀ c t, t ∈ targetsOf σ1.states i c →
      (σ0.states.length ≤ t ∧ t < σ1.states.length) := by
  intro i hi c t ht
  obtain ⟨e, he, _, h2⟩ := targetsOf_entry ht
  exact h.closed i hi.1 hi.2 e he t h2

theorem built_char (c : Char) (σ0 : Store) :
    Built (.CHAR c) σ0 (buildNfaForNode (.CHAR c) σ0).1 (buildNfaForNode (.CHAR c) σ0).2 := by
  rw [buildNfaForNode_char]
  simp only
  have d0 : ∀ i, i < σ0.states.length →
      deref ((σ0.newState.2.newState.2).addTransition σ0.states.length c
        (σ0.states.length + 1)).states i = deref σ0.states i := by
    intro i hi
    rw [deref_addTransition_ne _ _ _ (by omega), deref_newState_old _ (by
      rw [newState_length]; omega), deref_newState_old _ hi]
  have d1 : deref ((σ0.newState.2.newState.2).addTransition σ0.states.length c
      (σ0.states.length + 1)).states σ0.states.length =
      { id := σ0.stateId, isAccepting := false,
        transitions := [(c, [σ0.states.length + 1])] } := by
    rw [deref_addTransition_self _ _ _ (by rw [newState_length, newState_length]; omega),
      deref_newState_old _ (by rw [newState_length]; omega), deref_newState_new]
    simp [State.addTransition, mapGet, mapSet]
  have d2 : deref ((σ0.newState.2.newState.2).addTransition σ0.states.length c
      (σ0.states.length + 1)).states (σ0.states.length + 1) =
      { id := σ0.stateId + 1, isAccepting := false, transitions := [] } := by
    rw [deref_addTransition_ne _ _ _ (by omega)]
    have := deref_newState_new σ0.newState.2
    rw [newState_length, newState_stateId] at this
    exact this
  have hlen : ((σ0.newState.2.newState.2).addTransition σ0.states.length c
      (σ0.states.length + 1)).states.length = σ0.states.length + 2 := by
    rw [addTransition_length, newState_length, newState_length]
  have cases2 : ∀ i, σ0.states.length ≤ i → i < σ0.states.length + 2 →
      i = σ0.states.length ∨ i = σ0.states.length + 1 := by
    intro i h1 h2; omega
  refine
    { le := by rw [hlen]; omega
      old := d0
      counter := by
        rw [hlen, addTransition_stateId, newState_stateId, newState_stateId]; omega
      start_ge := Nat.le_refl _
      start_lt := by rw [hlen]; simp
      end_ge := by simp
      end_lt := by rw [hlen]; simp
      closed := ?_
      end_empty := by rw [d2]
      ids := ?_
      nonacc := ?_
      conn := ?_
      coacc := ?_
      acc := ?_
      symsSound := ?_
      symsComplete := ?_
      lang := ?_ }
  · intro i h1 h2 e he t ht
    rw [hlen] at h2 ⊢
    rcases cases2 i h1 h2 with h | h
    · subst h
      rw [d1] at he
      simp only [List.mem_singleton] at he
      subst he
      simp only [List.mem_singleton] at ht
      omega
    · subst h
      rw [d2] at he
      simp at he
  · intro i h1 h2
    rw [hlen] at h2
    rcases cases2 i h1 h2 with h | h
    · subst h; rw [d1]; simp
    · subst h; rw [d2]; simp
  · intro i h1 h2
    rw [hlen] at h2
    rcases cases2 i h1 h2 with h | h
    · subst h; rw [d1]
    · subst h; rw [d2]
  · have ht : σ0.states.length + 1 ∈ targetsOf ((σ0.newState.2.newState.2).addTransition
        σ0.states.length c (σ0.states.length + 1)).states σ0.states.length c := by
      rw [targetsOf_eq, d1]
      simp [State.targets, mapGet, List.lookup]
    by_cases hc : c = EPSILON
    · exact ⟨[], NPath.eps (hc ▸ ht) (NPath.nil _)⟩
    · exact ⟨[c], NPath.sym hc ht (NPath.nil _)⟩
  · intro i h1 h2
    rw [hlen] at h2
    have ht : σ0.states.length + 1 ∈ targetsOf ((σ0.newState.2.newState.2).addTransition
        σ0.states.length c (σ0.states.length + 1)).states σ0.states.length c := by
      rw [targetsOf_eq, d1]
      simp [State.targets, mapGet, List.lookup]
    rcases cases2 i h1 h2 with h | h
    · subst h
      by_cases hc : c = EPSILON
      · exact ⟨[], NPath.eps (hc ▸ ht) (NPath.nil _)⟩
      · exact ⟨[c], NPath.sym hc ht (NPath.nil _)⟩
    · subst h
      exact ⟨[], NPath.nil _⟩
  · intro i h1 h2
    rw [hlen] at h2
    have ht : σ0.states.length + 1 ∈ targetsOf ((σ0.newState.2.newState.2).addTransition
        σ0.states.length c (σ0.states.length + 1)).states σ0.states.length c := by
      rw [targetsOf_eq, d1]
      simp [State.targets, mapGet, List.lookup]
    rcases cases2 i h1 h2 with h | h
    · subst h
      exact ⟨[], NPath.nil _⟩
    · subst h
      by_cases hc : c = EPSILON
      · exact ⟨[], NPath.eps (hc ▸ ht) (NPath.nil _)⟩
      · exact ⟨[c], NPath.sym hc ht (NPath.nil _)⟩
  · intro i h1 h2 e he
    rw [hlen] at h2
    rcases cases2 i h1 h2 with h | h
    · subst h
      rw [d1] at he
      simp only [List.mem_singleton] at he
      subst he
      exact Or.inr (by simp [AST.leaves])
    · subst h
      rw [d2] at he
      simp at he
  · intro a ha
    simp only [AST.leaves, List.mem_singleton] at ha
    subst ha
    refine ⟨σ0.states.length, σ0.states.length + 1, Nat.le_refl _, by rw [hlen]; omega, ?_⟩
    rw [targetsOf_eq, d1]
    simp [State.targets, mapGet, List.lookup]
  · intro hc w
    have t1 : ∀ c' x, x ∈ targetsOf ((σ0.newState.2.newState.2).addTransition σ0.states.length c
        (σ0.states.length + 1)).states σ0.states.length c' ↔
        (c' = c ∧ x = σ0.states.length + 1) := by
      intro c' x
      rw [targetsOf_eq, d1]
      unfold State.targets mapGet
      by_cases hcc : c' = c
      · subst hcc
        simp [List.lookup]
      · have : (c' == c) = false := by simpa using hcc
        simp [List.lookup, this, hcc]
    constructor
    · intro hp
      rcases hp.inv with ⟨_, h2⟩ | ⟨t, ht, _⟩ | ⟨c', t, w', hc', hw, ht, hrest⟩
      · simp at h2
      · rw [t1] at ht
        exact absurd ht.1.symm hc
      · rw [t1] at ht
        obtain ⟨e1, e2⟩ := ht
        subst e1 e2
        have := NPath.of_no_transitions (by rw [d2]) hrest
        rw [hw, this.1]
        exact Set.mem_singleton _
    · intro hw
      have : w = [c] := hw
      subst this
      exact NPath.sym hc ((t1 c _).2 ⟨rfl, rfl⟩) (NPath.nil _)

theorem built_concat {l r : AST} {σ0 σ1 σ2 : Store} {f1 f2 : NFAFragment}
    (h1 : Built l σ0 f1 σ1) (h2 : Built r σ1 f2 σ2) :
    Built (.CONCAT l r) σ0 ⟨f1.startState, f2.endState⟩
      (σ2.addTransition f1.endState EPSILON f2.startState) := by
  have n01 := h1.le
  have n12 := h2.le
  have s1a := h1.start_ge
  have s1b := h1.start_lt
  have e1a := h1.end_ge
  have e1b := h1.end_lt
  have s2a := h2.start_ge
  have s2b := h2.start_lt
  have e2a := h2.end_ge
  have e2b := h2.end_lt
  have hlen : (σ2.addTransition f1.endState EPSILON f2.startState).states.length =
      σ2.states.length := addTransition_length _ _ _ _
  have e1nil : (deref σ2.states f1.endState).transitions = [] := by
    rw [h2.old _ e1b]; exact h1.end_empty
  -- the targets in the final heap
  have tgt : ∀ i c' x,
      x ∈ targetsOf (σ2.addTransition f1.endState EPSILON f2.startState).states i c' ↔
      x ∈ targetsOf σ2.states i c' ∨ (i = f1.endState ∧ c' = EPSILON ∧ x = f2.startState) :=
    fun i c' x => mem_targetsOf_addTransition σ2 _ _ _ i c' x (by omega)
  have agree1 : ∀ i, (σ0.states.length ≤ i ∧ i < σ1.states.length) → i ≠ f1.endState →
      deref (σ2.addTransition f1.endState EPSILON f2.startState).states i =
        deref σ1.states i := by
    intro i hi hne
    rw [deref_addTransition_ne _ _ _ hne, h2.old _ hi.2]
  have agree2 : ∀ i, (σ1.states.length ≤ i ∧ i < σ2.states.length) →
      deref (σ2.addTransition f1.endState EPSILON f2.startState).states i =
        deref σ2.states i := by
    intro i hi
    rw [deref_addTransition_ne _ _ _ (by omega)]
  refine
    { le := by rw [hlen]; omega
      old := ?_
      counter := by
        rw [hlen, addTransition_stateId, h2.counter, h1.counter]; omega
      start_ge := s1a
      start_lt := by rw [hlen]; simp only; omega
      end_ge := by simp only; omega
      end_lt := by rw [hlen]; exact e2b
      closed := ?_
      end_empty := by
        simp only
        rw [deref_addTransition_ne _ _ _ (by omega)]
        exact h2.end_empty
      ids := ?_
      nonacc := ?_
      conn := ?_
      coacc := ?_
      acc := ?_
      symsSound := ?_
      symsComplete := ?_
      lang := ?_ }
  · intro i hi
    rw [deref_addTransition_ne _ _ _ (by omega), h2.old _ (by omega), h1.old _ hi]
  · intro i hi1 hi2 e he t ht
    rw [hlen] at hi2 ⊢
    rcases entries_addTransition _ _ _ _ _ _ he ht with ⟨_, h⟩ | ⟨e', he', ht'⟩
    · omega
    · by_cases hlt : i < σ1.states.length
      · rw [h2.old _ hlt] at he'
        have := h1.closed i hi1 hlt e' he' t ht'
        omega
      · have := h2.closed i (by omega) hi2 e' he' t ht'
        omega
  · intro i hi1 hi2
    rw [hlen] at hi2
    rw [deref_addTransition_id]
    by_cases hlt : i < σ1.states.length
    · rw [h2.old _ hlt, h1.ids i hi1 hlt]
    · rw [h2.ids i (by omega) hi2, h1.counter]; omega
  · intro i hi1 hi2
    rw [hlen] at hi2
    rw [deref_addTransition_isAccepting]
    by_cases hlt : i < σ1.states.length
    · rw [h2.old _ hlt, h1.nonacc i hi1 hlt]
    · rw [h2.nonacc i (by omega) hi2]
  · obtain ⟨w1, q1⟩ := h1.conn
    obtain ⟨w2, q2⟩ := h2.conn
    have p1 := NPath.lift agree1 h1.closedT h1.end_empty q1 ⟨s1a, s1b⟩
    have p2 := (NPath.frame agree2 h2.closedT ⟨s2a, s2b⟩).2 q2
    exact ⟨_, p1.trans (NPath.eps ((tgt _ _ _).2 (Or.inr ⟨rfl, rfl, rfl⟩)) p2)⟩
  · intro i hi1 hi2
    rw [hlen] at hi2
    by_cases hlt : i < σ1.states.length
    · obtain ⟨w1, q1⟩ := h1.coacc i hi1 hlt
      obtain ⟨w2, q2⟩ := h2.conn
      have p1 := NPath.lift agree1 h1.closedT h1.end_empty q1 ⟨hi1, hlt⟩
      have p2 := (NPath.frame agree2 h2.closedT ⟨s2a, s2b⟩).2 q2
      exact ⟨_, p1.trans (NPath.eps ((tgt _ _ _).2 (Or.inr ⟨rfl, rfl, rfl⟩)) p2)⟩
    · obtain ⟨w2, q2⟩ := h2.coacc i (by omega) hi2
      exact ⟨w2, (NPath.frame agree2 h2.closedT ⟨by omega, hi2⟩).2 q2⟩
  · intro i hi1 hi2
    rw [hlen] at hi2
    by_cases hlt : i < σ1.states.length
    · obtain ⟨w1, q1⟩ := h1.acc i hi1 hlt
      exact ⟨w1, NPath.lift agree1 h1.closedT h1.end_empty q1 ⟨s1a, s1b⟩⟩
    · obtain ⟨w1, q1⟩ := h1.conn
      obtain ⟨w2, q2⟩ := h2.acc i (by omega) hi2
      have p1 := NPath.lift agree1 h1.closedT h1.end_empty q1 ⟨s1a, s1b⟩
      have p2 := (NPath.frame agree2 h2.closedT ⟨s2a, s2b⟩).2 q2
      exact ⟨_, p1.trans (NPath.eps ((tgt _ _ _).2 (Or.inr ⟨rfl, rfl, rfl⟩)) p2)⟩
  · intro i hi1 hi2 e he
    rw [hlen] at hi2
    simp only [AST.leaves, List.mem_append]
    rcases entryKey_addTransition _ _ _ _ _ he with h | ⟨e3, he3, k3⟩
    · exact Or.inl h
    by_cases hlt : i < σ1.states.length
    · rw [h2.old _ hlt] at he3
      rcases h1.symsSound i hi1 hlt e3 he3 with h | h
      · exact Or.inl (by rw [← k3]; exact h)
      · exact Or.inr (Or.inl (by rw [← k3]; exact h))
    · rcases h2.symsSound i (by omega) hi2 e3 he3 with h | h
      · exact Or.inl (by rw [← k3]; exact h)
      · exact Or.inr (Or.inr (by rw [← k3]; exact h))
  · intro a ha
    simp only [AST.leaves, List.mem_append] at ha
    rcases ha with ha | ha
    · obtain ⟨i, t, g1, g2, g3⟩ := h1.symsComplete a ha
      refine ⟨i, t, g1, by rw [hlen]; omega, (tgt _ _ _).2 (Or.inl ?_)⟩
      rw [targetsOf_eq, h2.old _ g2]
      exact g3
    · obtain ⟨i, t, g1, g2, g3⟩ := h2.symsComplete a ha
      exact ⟨i, t, by omega, by rw [hlen]; exact g2, (tgt _ _ _).2 (Or.inl g3)⟩
  · intro hε w
    have l1 := h1.lang hε.1
    have l2 := h2.lang hε.2
    simp only [languageOf, Language.mem_mul]
    constructor
    · intro hp
      rcases NPath.split_at_exit agree1 h1.closedT hp ⟨s1a, s1b⟩ with hq | ⟨w1, w2, hw, hq1, hq2⟩
      · have := hq.inRegion (U := fun i => σ0.states.length ≤ i ∧ i < σ1.states.length)
          ⟨fun s hs => hs.2, fun s hs e he t ht => h1.closed s hs.1 hs.2 e he t ht⟩ ⟨s1a, s1b⟩
        simp only at this
        omega
      · refine ⟨w1, (l1 w1).1 hq1, w2, ?_, hw.symm⟩
        rcases hq2.inv with ⟨_, h⟩ | ⟨t, ht, hr⟩ | ⟨c, t, w', hc, _, ht, _⟩
        · omega
        · rw [tgt, deref_transitions_nil_targets e1nil] at ht
          simp only [List.not_mem_nil, true_and, false_or] at ht
          rw [ht] at hr
          exact (l2 w2).1 ((NPath.frame agree2 h2.closedT ⟨s2a, s2b⟩).1 hr)
        · rw [tgt, deref_transitions_nil_targets e1nil] at ht
          simp only [List.not_mem_nil, true_and, false_or] at ht
          exact absurd ht.1 hc
    · rintro ⟨w1, hw1, w2, hw2, hw⟩
      rw [← hw]
      have p1 := NPath.lift agree1 h1.closedT h1.end_empty ((l1 w1).2 hw1) ⟨s1a, s1b⟩
      have p2 := (NPath.frame agree2 h2.closedT ⟨s2a, s2b⟩).2 ((l2 w2).2 hw2)
      exact p1.trans (NPath.eps ((tgt _ _ _).2 (Or.inr ⟨rfl, rfl, rfl⟩)) p2)

theorem twoNew (σ0 : Store) : TwoNew σ0 σ0.newState.2.newState.2 where
  length := by rw [newState_length, newState_length]
  stateId := by rw [newState_stateId, newState_stateId]
  old := by
    intro i hi
    rw [deref_newState_old _ (by rw [newState_length]; omega), deref_newState_old _ hi]
  first := by
    rw [deref_newState_old _ (by rw [newState_length]; omega), deref_newState_new]
  second := by
    have := deref_newState_new σ0.newState.2
    rw [newState_length, newState_stateId] at this
    exact this

theorem built_alternation {l r : AST} {σ0 σb σ1 σ2 : Store} {f1 f2 : NFAFragment}
    (hb : TwoNew σ0 σb) (h1 : Built l σb f1 σ1) (h2 : Built r σ1 f2 σ2) :
    Built (.ALTERNATION l r) σ0 ⟨σ0.states.length, σ0.states.length + 1⟩
      ((((σ2.addTransition σ0.states.length EPSILON f1.startState).addTransition
          σ0.states.length EPSILON f2.startState).addTransition
          f1.endState EPSILON (σ0.states.length + 1)).addTransition
          f2.endState EPSILON (σ0.states.length + 1)) := by
  have nb := hb.length
  have n01 := h1.le
  have n12 := h2.le
  have s1a := h1.start_ge
  have s1b := h1.start_lt
  have e1a := h1.end_ge
  have e1b := h1.end_lt
  have s2a := h2.start_ge
  have s2b := h2.start_lt
  have e2a := h2.end_ge
  have e2b := h2.end_lt
  have dS : deref σ2.states σ0.states.length =
      { id := σ0.stateId, isAccepting := false, transitions := [] } := by
    rw [h2.old _ (by omega), h1.old _ (by omega), hb.first]
  have dE : deref σ2.states (σ0.states.length + 1) =
      { id := σ0.stateId + 1, isAccepting := false, transitions := [] } := by
    rw [h2.old _ (by omega), h1.old _ (by omega), hb.second]
  have e1nil : (deref σ2.states f1.endState).transitions = [] := by
    rw [h2.old _ e1b]; exact h1.end_empty
  have tgt : ∀ i c' x,
      x ∈ targetsOf ((((σ2.addTransition σ0.states.length EPSILON f1.startState).addTransition
          σ0.states.length EPSILON f2.startState).addTransition
          f1.endState EPSILON (σ0.states.length + 1)).addTransition
          f2.endState EPSILON (σ0.states.length + 1)).states i c' ↔
      ((((x ∈ targetsOf σ2.states i c' ∨
        (i = σ0.states.length ∧ c' = EPSILON ∧ x = f1.startState)) ∨
        (i = σ0.states.length ∧ c' = EPSILON ∧ x = f2.startState)) ∨
        (i = f1.endState ∧ c' = EPSILON ∧ x = σ0.states.length + 1)) ∨
        (i = f2.endState ∧ c' = EPSILON ∧ x = σ0.states.length + 1)) := by
    intro i c' x
    rw [mem_targetsOf_addTransition _ _ _ _ _ _ _ (by simp only [addTransition_length]; omega),
      mem_targetsOf_addTransition _ _ _ _ _ _ _ (by simp only [addTransition_length]; omega),
      mem_targetsOf_addTransition _ _ _ _ _ _ _ (by simp only [addTransition_length]; omega),
      mem_targetsOf_addTransition _ _ _ _ _ _ _ (by omega)]
  have agree1 : ∀ i, (σb.states.length ≤ i ∧ i < σ1.states.length) → i ≠ f1.endState →
      deref ((((σ2.addTransition σ0.states.length EPSILON f1.startState).addTransition
          σ0.states.length EPSILON f2.startState).addTransition
          f1.endState EPSILON (σ0.states.length + 1)).addTransition
          f2.endState EPSILON (σ0.states.length + 1)).states i = deref σ1.states i := by
    intro i hi hne
    rw [deref_addTransition_ne _ _ _ (by omega), deref_addTransition_ne _ _ _ hne,
      deref_addTransition_ne _ _ _ (by omega), deref_addTransition_ne _ _ _ (by omega),
      h2.old _ hi.2]
  have agree2 : ∀ i, (σ1.states.length ≤ i ∧ i < σ2.states.length) → i ≠ f2.endState →
      deref ((((σ2.addTransition σ0.states.length EPSILON f1.startState).addTransition
          σ0.states.length EPSILON f2.startState).addTransition
          f1.endState EPSILON (σ0.states.length + 1)).addTransition
          f2.endState EPSILON (σ0.states.length + 1)).states i = deref σ2.states i := by
    intro i hi hne
    rw [deref_addTransition_ne _ _ _ hne, deref_addTransition_ne _ _ _ (by omega),
      deref_addTransition_ne _ _ _ (by omega), deref_addTransition_ne _ _ _ (by omega)]
  have dEnd : deref ((((σ2.addTransition σ0.states.length EPSILON f1.startState).addTransition
          σ0.states.length EPSILON f2.startState).addTransition
          f1.endState EPSILON (σ0.states.length + 1)).addTransition
          f2.endState EPSILON (σ0.states.length + 1)).states (σ0.states.length + 1) =
      { id := σ0.stateId + 1, isAccepting := false, transitions := [] } := by
    rw [deref_addTransition_ne _ _ _ (by omega), deref_addTransition_ne _ _ _ (by omega),
      deref_addTransition_ne _ _ _ (by omega), deref_addTransition_ne _ _ _ (by omega), dE]
  have hlen : ((((σ2.addTransition σ0.states.length EPSILON f1.startState).addTransition
          σ0.states.length EPSILON f2.startState).addTransition
          f1.endState EPSILON (σ0.states.length + 1)).addTransition
          f2.endState EPSILON (σ0.states.length + 1)).states.length = σ2.states.length := by
    simp only [addTransition_length]
  refine
    { le := by rw [hlen]; omega
      old := ?_
      counter := by
        rw [hlen]
        simp only [addTransition_stateId]
        rw [h2.counter, h1.counter, hb.stateId]; omega
      start_ge := Nat.le_refl _
      start_lt := by rw [hlen]; simp only; omega
      end_ge := by simp only; omega
      end_lt := by rw [hlen]; simp only; omega
      closed := ?_
      end_empty := by rw [dEnd]
      ids := ?_
      nonacc := ?_
      conn := ?_
      coacc := ?_
      acc := ?_
      symsSound := ?_
      symsComplete := ?_
      lang := ?_ }
  · intro i hi
    rw [deref_addTransition_ne _ _ _ (by omega), deref_addTransition_ne _ _ _ (by omega),
      deref_addTransition_ne _ _ _ (by omega), deref_addTransition_ne _ _ _ (by omega),
      h2.old _ (by omega), h1.old _ (by omega), hb.old _ hi]
  · intro i hi1 hi2 e he t ht
    rw [hlen] at hi2 ⊢
    rcases entries_addTransition _ _ _ _ _ _ he ht with ⟨_, h⟩ | ⟨e3, he3, ht3⟩
    · omega
    rcases entries_addTransition _ _ _ _ _ _ he3 ht3 with ⟨_, h⟩ | ⟨e4, he4, ht4⟩
    · omega
    rcases entries_addTransition _ _ _ _ _ _ he4 ht4 with ⟨_, h⟩ | ⟨e5, he5, ht5⟩
    · omega
    rcases entries_addTransition _ _ _ _ _ _ he5 ht5 with ⟨_, h⟩ | ⟨e6, he6, ht6⟩
    · omega
    by_cases hlt : i < σ1.states.length
    · rw [h2.old _ hlt] at he6
      by_cases hlb : i < σb.states.length
      · rw [h1.old _ hlb] at he6
        have hi' : i = σ0.states.length ∨ i = σ0.states.length + 1 := by omega
        rcases hi' with hi' | hi'
        · rw [hi', hb.first] at he6; simp at he6
        · rw [hi', hb.second] at he6; simp at he6
      · have := h1.closed i (by omega) hlt e6 he6 t ht6
        omega
    · have := h2.closed i (by omega) hi2 e6 he6 t ht6
      omega
  · intro i hi1 hi2
    rw [hlen] at hi2
    simp only [deref_addTransition_id]
    by_cases hlt : i < σ1.states.length
    · rw [h2.old _ hlt]
      by_cases hlb : i < σb.states.length
      · rw [h1.old _ hlb]
        have hi' : i = σ0.states.length ∨ i = σ0.states.length + 1 := by omega
        rcases hi' with hi' | hi'
        · rw [hi', hb.first]; simp
        · rw [hi', hb.second]; simp
      · rw [h1.ids i (by omega) hlt, hb.stateId]; omega
    · rw [h2.ids i (by omega) hi2, h1.counter, hb.stateId]; omega
  · intro i hi1 hi2
    rw [hlen] at hi2
    simp only [deref_addTransition_isAccepting]
    by_cases hlt : i < σ1.states.length
    · rw [h2.old _ hlt]
      by_cases hlb : i < σb.states.length
      · rw [h1.old _ hlb]
        have hi' : i = σ0.states.length ∨ i = σ0.states.length + 1 := by omega
        rcases hi' with hi' | hi'
        · rw [hi', hb.first]
        · rw [hi', hb.second]
      · exact h1.nonacc i (by omega) hlt
    · exact h2.nonacc i (by omega) hi2
  · obtain ⟨w1, q1⟩ := h1.conn
    have p1 := NPath.lift agree1 h1.closedT h1.end_empty q1 ⟨s1a, s1b⟩
    have p2 := p1.trans (NPath.eps ((tgt f1.endState EPSILON (σ0.states.length + 1)).2
      (Or.inl (Or.inr ⟨rfl, rfl, rfl⟩))) (NPath.nil _))
    exact ⟨_, NPath.eps ((tgt _ _ _).2 (Or.inl (Or.inl (Or.inl (Or.inr ⟨rfl, rfl, rfl⟩))))) p2⟩
  · intro i hi1 hi2
    rw [hlen] at hi2
    by_cases hlt : i < σ1.states.length
    · by_cases hlb : i < σb.states.length
      · have hi' : i = σ0.states.length ∨ i = σ0.states.length + 1 := by omega
        rcases hi' with hi' | hi'
        · obtain ⟨w1, q1⟩ := h1.conn
          have p1 := NPath.lift agree1 h1.closedT h1.end_empty q1 ⟨s1a, s1b⟩
          have p2 := p1.trans (NPath.eps ((tgt f1.endState EPSILON (σ0.states.length + 1)).2
            (Or.inl (Or.inr ⟨rfl, rfl, rfl⟩))) (NPath.nil _))
          rw [hi']
          exact ⟨_, NPath.eps
            ((tgt _ _ _).2 (Or.inl (Or.inl (Or.inl (Or.inr ⟨rfl, rfl, rfl⟩))))) p2⟩
        · rw [hi']
          exact ⟨[], NPath.nil _⟩
      · obtain ⟨w1, q1⟩ := h1.coacc i (by omega) hlt
        have p1 := NPath.lift agree1 h1.closedT h1.end_empty q1 ⟨by omega, hlt⟩
        exact ⟨_, p1.trans (NPath.eps ((tgt f1.endState EPSILON (σ0.states.length + 1)).2
          (Or.inl (Or.inr ⟨rfl, rfl, rfl⟩))) (NPath.nil _))⟩
    · obtain ⟨w2, q2⟩ := h2.coacc i (by omega) hi2
      have p1 := NPath.lift agree2 h2.closedT h2.end_empty q2 ⟨by omega, hi2⟩
      exact ⟨_, p1.trans (NPath.eps ((tgt f2.endState EPSILON (σ0.states.length + 1)).2
        (Or.inr ⟨rfl, rfl, rfl⟩)) (NPath.nil _))⟩
  · intro i hi1 hi2
    rw [hlen] at hi2
    by_cases hlt : i < σ1.states.length
    · by_cases hlb : i < σb.states.length
      · have hi' : i = σ0.states.length ∨ i = σ0.states.length + 1 := by omega
        rcases hi' with hi' | hi'
        · rw [hi']
          exact ⟨[], NPath.nil _⟩
        · obtain ⟨w1, q1⟩ := h1.conn
          have p1 := NPath.lift agree1 h1.closedT h1.end_empty q1 ⟨s1a, s1b⟩
          have p2 := p1.trans (NPath.eps ((tgt f1.endState EPSILON (σ0.states.length + 1)).2
            (Or.inl (Or.inr ⟨rfl, rfl, rfl⟩))) (NPath.nil _))
          rw [hi']
          exact ⟨_, NPath.eps
            ((tgt _ _ _).2 (Or.inl (Or.inl (Or.inl (Or.inr ⟨rfl, rfl, rfl⟩))))) p2⟩
      · obtain ⟨w1, q1⟩ := h1.acc i (by omega) hlt
        have p1 := NPath.lift agree1 h1.closedT h1.end_empty q1 ⟨s1a, s1b⟩
        exact ⟨_, NPath.eps
          ((tgt _ _ _).2 (Or.inl (Or.inl (Or.inl (Or.inr ⟨rfl, rfl, rfl⟩))))) p1⟩
    · obtain ⟨w2, q2⟩ := h2.acc i (by omega) hi2
      have p1 := NPath.lift agree2 h2.closedT h2.end_empty q2 ⟨s2a, s2b⟩
      exact ⟨_, NPath.eps
        ((tgt _ _ _).2 (Or.inl (Or.inl (Or.inr ⟨rfl, rfl, rfl⟩)))) p1⟩
  · intro i hi1 hi2 e he
    rw [hlen] at hi2
    simp only [AST.leaves, List.mem_append]
    rcases entryKey_addTransition _ _ _ _ _ he with h | ⟨e3, he3, k3⟩
    · exact Or.inl h
    rcases entryKey_addTransition _ _ _ _ _ he3 with h | ⟨e4, he4, k4⟩
    · exact Or.inl (by rw [← k3]; exact h)
    rcases entryKey_addTransition _ _ _ _ _ he4 with h | ⟨e5, he5, k5⟩
    · exact Or.inl (by rw [← k3, ← k4]; exact h)
    rcases entryKey_addTransition _ _ _ _ _ he5 with h | ⟨e6, he6, k6⟩
    · exact Or.inl (by rw [← k3, ← k4, ← k5]; exact h)
    have k : e6.1 = e.1 := by rw [k6, k5, k4, k3]
    by_cases hlt : i < σ1.states.length
    · rw [h2.old _ hlt] at he6
      by_cases hlb : i < σb.states.length
      · rw [h1.old _ hlb] at he6
        have hi' : i = σ0.states.length ∨ i = σ0.states.length + 1 := by omega
        rcases hi' with hi' | hi'
        · rw [hi', hb.first] at he6; simp at he6
        · rw [hi', hb.second] at he6; simp at he6
      · rcases h1.symsSound i (by omega) hlt e6 he6 with h | h
        · exact Or.inl (by rw [← k]; exact h)
        · exact Or.inr (Or.inl (by rw [← k]; exact h))
    · rcases h2.symsSound i (by omega) hi2 e6 he6 with h | h
      · exact Or.inl (by rw [← k]; exact h)
      · exact Or.inr (Or.inr (by rw [← k]; exact h))
  · intro a ha
    simp only [AST.leaves, List.mem_append] at ha
    rcases ha with ha | ha
    · obtain ⟨i, t, g1, g2, g3⟩ := h1.symsComplete a ha
      refine ⟨i, t, by omega, by rw [hlen]; omega,
        (tgt _ _ _).2 (Or.inl (Or.inl (Or.inl (Or.inl ?_))))⟩
      rw [targetsOf_eq, h2.old _ g2]
      exact g3
    · obtain ⟨i, t, g1, g2, g3⟩ := h2.symsComplete a ha
      exact ⟨i, t, by omega, by rw [hlen]; exact g2,
        (tgt _ _ _).2 (Or.inl (Or.inl (Or.inl (Or.inl g3))))⟩
  · intro hε w
    have l1 := h1.lang hε.1
    have l2 := h2.lang hε.2
    simp only [languageOf, Language.mem_add]
    have tS : ∀ c, targetsOf σ2.states σ0.states.length c = [] :=
      deref_transitions_nil_targets (by rw [dS])
    have tE1 : ∀ c, targetsOf σ2.states f1.endState c = [] :=
      deref_transitions_nil_targets e1nil
    have tE2 : ∀ c, targetsOf σ2.states f2.endState c = [] :=
      deref_transitions_nil_targets h2.end_empty
    -- a run from an exit state to the new end state reads nothing
    have fromExit : ∀ (x : Nat) (w2 : List Char), (x = f1.endState ∨ x = f2.endState) →
        NPath ((((σ2.addTransition σ0.states.length EPSILON f1.startState).addTransition
          σ0.states.length EPSILON f2.startState).addTransition
          f1.endState EPSILON (σ0.states.length + 1)).addTransition
          f2.endState EPSILON (σ0.states.length + 1)).states x w2 (σ0.states.length + 1) →
        w2 = [] := by
      intro x w2 hx hp
      have tX : ∀ c, targetsOf σ2.states x c = [] := by
        rcases hx with hx | hx <;> rw [hx] <;> assumption
      rcases hp.inv with ⟨_, h⟩ | ⟨t, ht, hr⟩ | ⟨c, t, w', hc, _, ht, _⟩
      · rcases hx with hx | hx <;> omega
      · rw [tgt, tX] at ht
        have : t = σ0.states.length + 1 := by
          simp only [List.not_mem_nil, false_or] at ht
          rcases ht with (((h | h) | h) | h)
          · rcases hx with hx | hx <;> omega
          · rcases hx with hx | hx <;> omega
          · exact h.2.2
          · exact h.2.2
        rw [this] at hr
        exact (NPath.of_no_transitions (by rw [dEnd]) hr).1
      · rw [tgt, tX] at ht
        simp only [List.not_mem_nil, false_or] at ht
        rcases ht with (((h | h) | h) | h) <;> exact absurd h.2.1 hc
    constructor
    · intro hp
      rcases hp.inv with ⟨_, h⟩ | ⟨t, ht, hr⟩ | ⟨c, t, w', hc, _, ht, _⟩
      · simp at h
      · rw [tgt, tS] at ht
        simp only [List.not_mem_nil, false_or] at ht
        rcases ht with (((h | h) | h) | h)
        · left
          rw [h.2.2] at hr
          rcases NPath.split_at_exit agree1 h1.closedT hr ⟨s1a, s1b⟩ with
            hq | ⟨w1, w2, hw, hq1, hq2⟩
          · have := hq.inRegion (U := fun i => σb.states.length ≤ i ∧ i < σ1.states.length)
              ⟨fun s hs => hs.2, fun s hs e he t ht => h1.closed s hs.1 hs.2 e he t ht⟩
              ⟨s1a, s1b⟩
            simp only at this
            omega
          · have := fromExit _ _ (Or.inl rfl) hq2
            rw [hw, this, List.append_nil]
            exact (l1 w1).1 hq1
        · right
          rw [h.2.2] at hr
          rcases NPath.split_at_exit agree2 h2.closedT hr ⟨s2a, s2b⟩ with
            hq | ⟨w1, w2, hw, hq1, hq2⟩
          · have := hq.inRegion (U := fun i => σ1.states.length ≤ i ∧ i < σ2.states.length)
              ⟨fun s hs => hs.2, fun s hs e he t ht => h2.closed s hs.1 hs.2 e he t ht⟩
              ⟨s2a, s2b⟩
            simp only at this
            omega
          · have := fromExit _ _ (Or.inr rfl) hq2
            rw [hw, this, List.append_nil]
            exact (l2 w1).1 hq1
        · omega
        · omega
      · rw [tgt, tS] at ht
        simp only [List.not_mem_nil, false_or] at ht
        rcases ht with (((h | h) | h) | h) <;> exact absurd h.2.1 hc
    · rintro (hw | hw)
      · have p1 := NPath.lift agree1 h1.closedT h1.end_empty ((l1 w).2 hw) ⟨s1a, s1b⟩
        have p2 := p1.trans (NPath.eps ((tgt f1.endState EPSILON (σ0.states.length + 1)).2
          (Or.inl (Or.inr ⟨rfl, rfl, rfl⟩))) (NPath.nil _))
        rw [List.append_nil] at p2
        exact NPath.eps ((tgt _ _ _).2 (Or.inl (Or.inl (Or.inl (Or.inr ⟨rfl, rfl, rfl⟩))))) p2
      · have p1 := NPath.lift agree2 h2.closedT h2.end_empty ((l2 w).2 hw) ⟨s2a, s2b⟩
        have p2 := p1.trans (NPath.eps ((tgt f2.endState EPSILON (σ0.states.length + 1)).2
          (Or.inr ⟨rfl, rfl, rfl⟩)) (NPath.nil _))
        rw [List.append_nil] at p2
        exact NPath.eps ((tgt _ _ _).2 (Or.inl (Or.inl (Or.inr ⟨rfl, rfl, rfl⟩)))) p2

theorem append_mem_kstar {L : Language Char} {a b : List Char} (ha : a ∈ L)
    (hb : b ∈ KStar.kstar L) : a ++ b ∈ KStar.kstar L := by
  rw [Language.mem_kstar] at hb ⊢
  obtain ⟨S, rfl, hS⟩ := hb
  exact ⟨a :: S, by simp, by simpa [ha] using hS⟩

theorem built_star {c : AST} {σ0 σb σ1 : Store} {f1 : NFAFragment}
    (hb : TwoNew σ0 σb) (h1 : Built c σb f1 σ1) :
    Built (.KLEENE_STAR c) σ0 ⟨σ0.states.length, σ0.states.length + 1⟩
      ((((σ1.addTransition σ0.states.length EPSILON f1.startState).addTransition
          σ0.states.length EPSILON (σ0.states.length + 1)).addTransition
          f1.endState EPSILON f1.startState).addTransition
          f1.endState EPSILON (σ0.states.length + 1)) := by
  have nb := hb.length
  have n01 := h1.le
  have s1a := h1.start_ge
  have s1b := h1.start_lt
  have e1a := h1.end_ge
  have e1b := h1.end_lt
  have dS : deref σ1.states σ0.states.length =
      { id := σ0.stateId, isAccepting := false, transitions := [] } := by
    rw [h1.old _ (by omega), hb.first]
  have dE : deref σ1.states (σ0.states.length + 1) =
      { id := σ0.stateId + 1, isAccepting := false, transitions := [] } := by
    rw [h1.old _ (by omega), hb.second]
  have tgt : ∀ i c' x,
      x ∈ targetsOf ((((σ1.addTransition σ0.states.length EPSILON f1.startState).addTransition
          σ0.states.length EPSILON (σ0.states.length + 1)).addTransition
          f1.endState EPSILON f1.startState).addTransition
          f1.endState EPSILON (σ0.states.length + 1)).states i c' ↔
      ((((x ∈ targetsOf σ1.states i c' ∨
        (i = σ0.states.length ∧ c' = EPSILON ∧ x = f1.startState)) ∨
        (i = σ0.states.length ∧ c' = EPSILON ∧ x = σ0.states.length + 1)) ∨
        (i = f1.endState ∧ c' = EPSILON ∧ x = f1.startState)) ∨
        (i = f1.endState ∧ c' = EPSILON ∧ x = σ0.states.length + 1)) := by
    intro i c' x
    rw [mem_targetsOf_addTransition _ _ _ _ _ _ _ (by simp only [addTransition_length]; omega),
      mem_targetsOf_addTransition _ _ _ _ _ _ _ (by simp only [addTransition_length]; omega),
      mem_targetsOf_addTransition _ _ _ _ _ _ _ (by simp only [addTransition_length]; omega),
      mem_targetsOf_addTransition _ _ _ _ _ _ _ (by omega)]
  have agree1 : ∀ i, (σb.states.length ≤ i ∧ i < σ1.states.length) → i ≠ f1.endState →
      deref ((((σ1.addTransition σ0.states.length EPSILON f1.startState).addTransition
          σ0.states.length EPSILON (σ0.states.length + 1)).addTransition
          f1.endState EPSILON f1.startState).addTransition
          f1.endState EPSILON (σ0.states.length + 1)).states i = deref σ1.states i := by
    intro i hi hne
    rw [deref_addTransition_ne _ _ _ hne, deref_addTransition_ne _ _ _ hne,
      deref_addTransition_ne _ _ _ (by omega), deref_addTransition_ne _ _ _ (by omega)]
  have dEnd : deref ((((σ1.addTransition σ0.states.length EPSILON f1.startState).addTransition
          σ0.states.length EPSILON (σ0.states.length + 1)).addTransition
          f1.endState EPSILON f1.startState).addTransition
          f1.endState EPSILON (σ0.states.length + 1)).states (σ0.states.length + 1) =
      { id := σ0.stateId + 1, isAccepting := false, transitions := [] } := by
    rw [deref_addTransition_ne _ _ _ (by omega), deref_addTransition_ne _ _ _ (by omega),
      deref_addTransition_ne _ _ _ (by omega), deref_addTransition_ne _ _ _ (by omega), dE]
  have hlen : ((((σ1.addTransition σ0.states.length EPSILON f1.startState).addTransition
          σ0.states.length EPSILON (σ0.states.length + 1)).addTransition
          f1.endState EPSILON f1.startState).addTransition
          f1.endState EPSILON (σ0.states.length + 1)).states.length = σ1.states.length := by
    simp only [addTransition_length]
  refine
    { le := by rw [hlen]; omega
      old := ?_
      counter := by
        rw [hlen]
        simp only [addTransition_stateId]
        rw [h1.counter, hb.stateId]; omega
      start_ge := Nat.le_refl _
      start_lt := by rw [hlen]; simp only; omega
      end_ge := by simp only; omega
      end_lt := by rw [hlen]; simp only; omega
      closed := ?_
      end_empty := by rw [dEnd]
      ids := ?_
      nonacc := ?_
      conn := ?_
      coacc := ?_
      acc := ?_
      symsSound := ?_
      symsComplete := ?_
      lang := ?_ }
  · intro i hi
    rw [deref_addTransition_ne _ _ _ (by omega), deref_addTransition_ne _ _ _ (by omega),
      deref_addTransition_ne _ _ _ (by omega), deref_addTransition_ne _ _ _ (by omega),
      h1.old _ (by omega), hb.old _ hi]
  · intro i hi1 hi2 e he t ht
    rw [hlen] at hi2 ⊢
    rcases entries_addTransition _ _ _ _ _ _ he ht with ⟨_, h⟩ | ⟨e3, he3, ht3⟩
    · omega
    rcases entries_addTransition _ _ _ _ _ _ he3 ht3 with ⟨_, h⟩ | ⟨e4, he4, ht4⟩
    · omega
    rcases entries_addTransition _ _ _ _ _ _ he4 ht4 with ⟨_, h⟩ | ⟨e5, he5, ht5⟩
    · omega
    rcases entries_addTransition _ _ _ _ _ _ he5 ht5 with ⟨_, h⟩ | ⟨e6, he6, ht6⟩
    · omega
    by_cases hlb : i < σb.states.length
    · rw [h1.old _ hlb] at he6
      have hi' : i = σ0.states.length ∨ i = σ0.states.length + 1 := by omega
      rcases hi' with hi' | hi'
      · rw [hi', hb.first] at he6; simp at he6
      · rw [hi', hb.second] at he6; simp at he6
    · have := h1.closed i (by omega) hi2 e6 he6 t ht6
      omega
  · intro i hi1 hi2
    rw [hlen] at hi2
    simp only [deref_addTransition_id]
    by_cases hlb : i < σb.states.length
    · rw [h1.old _ hlb]
      have hi' : i = σ0.states.length ∨ i = σ0.states.length + 1 := by omega
      rcases hi' with hi' | hi'
      · rw [hi', hb.first]; simp
      · rw [hi', hb.second]; simp
    · rw [h1.ids i (by omega) hi2, hb.stateId]; omega
  · intro i hi1 hi2
    rw [hlen] at hi2
    simp only [deref_addTransition_isAccepting]
    by_cases hlb : i < σb.states.length
    · rw [h1.old _ hlb]
      have hi' : i = σ0.states.length ∨ i = σ0.states.length + 1 := by omega
      rcases hi' with hi' | hi'
      · rw [hi', hb.first]
      · rw [hi', hb.second]
    · exact h1.nonacc i (by omega) hi2
  · exact ⟨[], NPath.eps ((tgt _ _ _).2 (Or.inl (Or.inl (Or.inr ⟨rfl, rfl, rfl⟩))))
      (NPath.nil _)⟩
  · intro i hi1 hi2
    rw [hlen] at hi2
    by_cases hlb : i < σb.states.length
    · have hi' : i = σ0.states.length ∨ i = σ0.states.length + 1 := by omega
      rcases hi' with hi' | hi'
      · rw [hi']
        exact ⟨[], NPath.eps ((tgt _ _ _).2 (Or.inl (Or.inl (Or.inr ⟨rfl, rfl, rfl⟩))))
          (NPath.nil _)⟩
      · rw [hi']
        exact ⟨[], NPath.nil _⟩
    · obtain ⟨w1, q1⟩ := h1.coacc i (by omega) hi2
      have p1 := NPath.lift agree1 h1.closedT h1.end_empty q1 ⟨by omega, hi2⟩
      exact ⟨_, p1.trans (NPath.eps ((tgt f1.endState EPSILON (σ0.states.length + 1)).2
        (Or.inr ⟨rfl, rfl, rfl⟩)) (NPath.nil _))⟩
  · intro i hi1 hi2
    rw [hlen] at hi2
    by_cases hlb : i < σb.states.length
    · have hi' : i = σ0.states.length ∨ i = σ0.states.length + 1 := by omega
      rcases hi' with hi' | hi'
      · rw [hi']
        exact ⟨[], NPath.nil _⟩
      · rw [hi']
        exact ⟨[], NPath.eps ((tgt _ _ _).2 (Or.inl (Or.inl (Or.inr ⟨rfl, rfl, rfl⟩))))
          (NPath.nil _)⟩
    · obtain ⟨w1, q1⟩ := h1.acc i (by omega) hi2
      have p1 := NPath.lift agree1 h1.closedT h1.end_empty q1 ⟨s1a, s1b⟩
      exact ⟨_, NPath.eps
        ((tgt _ _ _).2 (Or.inl (Or.inl (Or.inl (Or.inr ⟨rfl, rfl, rfl⟩))))) p1⟩
  · intro i hi1 hi2 e he
    rw [hlen] at hi2
    simp only [AST.leaves]
    rcases entryKey_addTransition _ _ _ _ _ he with h | ⟨e3, he3, k3⟩
    · exact Or.inl h
    rcases entryKey_addTransition _ _ _ _ _ he3 with h | ⟨e4, he4, k4⟩
    · exact Or.inl (by rw [← k3]; exact h)
    rcases entryKey_addTransition _ _ _ _ _ he4 with h | ⟨e5, he5, k5⟩
    · exact Or.inl (by rw [← k3, ← k4]; exact h)
    rcases entryKey_addTransition _ _ _ _ _ he5 with h | ⟨e6, he6, k6⟩
    · exact Or.inl (by rw [← k3, ← k4, ← k5]; exact h)
    have k : e6.1 = e.1 := by rw [k6, k5, k4, k3]
    by_cases hlb : i < σb.states.length
    · rw [h1.old _ hlb] at he6
      have hi' : i = σ0.states.length ∨ i = σ0.states.length + 1 := by omega
      rcases hi' with hi' | hi'
      · rw [hi', hb.first] at he6; simp at he6
      · rw [hi', hb.second] at he6; simp at he6
    · rcases h1.symsSound i (by omega) hi2 e6 he6 with h | h
      · exact Or.inl (by rw [← k]; exact h)
      · exact Or.inr (by rw [← k]; exact h)
  · intro a ha
    simp only [AST.leaves] at ha
    obtain ⟨i, t, g1, g2, g3⟩ := h1.symsComplete a ha
    exact ⟨i, t, by omega, by rw [hlen]; exact g2,
      (tgt _ _ _).2 (Or.inl (Or.inl (Or.inl (Or.inl g3))))⟩
  · intro hε w
    have l1 := h1.lang hε
    simp only [languageOf]
    have tS : ∀ c, targetsOf σ1.states σ0.states.length c = [] :=
      deref_transitions_nil_targets (by rw [dS])
    have tE1 : ∀ c, targetsOf σ1.states f1.endState c = [] :=
      deref_transitions_nil_targets h1.end_empty
    constructor
    · intro hp
      -- generalised over the state the run starts from
      have key : ∀ (x u : Nat) (w : List Char),
          NPath ((((σ1.addTransition σ0.states.length EPSILON f1.startState).addTransition
            σ0.states.length EPSILON (σ0.states.length + 1)).addTransition
            f1.endState EPSILON f1.startState).addTransition
            f1.endState EPSILON (σ0.states.length + 1)).states x w u →
          u = σ0.states.length + 1 →
          (x = σ0.states.length → w ∈ KStar.kstar (languageOf c)) ∧
          ((σb.states.length ≤ x ∧ x < σ1.states.length) →
            ∃ w1 w2, w = w1 ++ w2 ∧ NPath σ1.states x w1 f1.endState ∧
              w2 ∈ KStar.kstar (languageOf c)) := by
        intro x u w hp
        induction hp with
        | nil s =>
          intro hu
          exact ⟨fun h => by omega, fun h => by omega⟩
        | @eps s t u w ht hrest ih =>
          intro hu
          have ih' := ih hu
          rw [tgt] at ht
          refine ⟨fun hs => ?_, fun hs => ?_⟩
          · subst hs
            rw [tS] at ht
            simp only [List.not_mem_nil, false_or] at ht
            rcases ht with (((h | h) | h) | h)
            · rw [h.2.2] at ih'
              obtain ⟨w1, w2, hw, hq, hk⟩ := ih'.2 ⟨s1a, s1b⟩
              rw [hw]
              exact append_mem_kstar ((l1 w1).1 hq) hk
            · rw [h.2.2, hu] at hrest
              rw [(NPath.of_no_transitions (by rw [dEnd]) hrest).1]
              exact Language.nil_mem_kstar _
            · omega
            · omega
          · by_cases hse : s = f1.endState
            · subst hse
              rw [tE1] at ht
              simp only [List.not_mem_nil, false_or] at ht
              rcases ht with (((h | h) | h) | h)
              · omega
              · omega
              · rw [h.2.2] at ih'
                obtain ⟨w1, w2, hw, hq, hk⟩ := ih'.2 ⟨s1a, s1b⟩
                refine ⟨[], w, rfl, NPath.nil _, ?_⟩
                rw [hw]
                exact append_mem_kstar ((l1 w1).1 hq) hk
              · rw [h.2.2, hu] at hrest
                rw [(NPath.of_no_transitions (by rw [dEnd]) hrest).1]
                exact ⟨[], [], rfl, NPath.nil _, Language.nil_mem_kstar _⟩
            · have ht' : t ∈ targetsOf σ1.states s EPSILON := by
                rcases ht with ((((h | h) | h) | h) | h)
                · exact h
                · omega
                · omega
                · exact absurd h.1 hse
                · exact absurd h.1 hse
              obtain ⟨w1, w2, hw, hq, hk⟩ := ih'.2 (h1.closedT s hs _ _ ht')
              exact ⟨w1, w2, hw, NPath.eps ht' hq, hk⟩
        | @sym s t u c' w hc ht hrest ih =>
          intro hu
          have ih' := ih hu
          rw [tgt] at ht
          have ht' : t ∈ targetsOf σ1.states s c' := by
            rcases ht with ((((h | h) | h) | h) | h)
            · exact h
            · exact absurd h.2.1 hc
            · exact absurd h.2.1 hc
            · exact absurd h.2.1 hc
            · exact absurd h.2.1 hc
          refine ⟨fun hs => ?_, fun hs => ?_⟩
          · subst hs
            rw [tS] at ht'
            simp at ht'
          · obtain ⟨w1, w2, hw, hq, hk⟩ := ih'.2 (h1.closedT s hs _ _ ht')
            exact ⟨c' :: w1, w2, by rw [hw]; rfl, NPath.sym hc ht' hq, hk⟩
      exact (key _ _ _ hp rfl).1 rfl
    · intro hw
      rw [Language.mem_kstar] at hw
      obtain ⟨S, rfl, hS⟩ := hw
      have toEnd : NPath ((((σ1.addTransition σ0.states.length EPSILON f1.startState).addTransition
            σ0.states.length EPSILON (σ0.states.length + 1)).addTransition
            f1.endState EPSILON f1.startState).addTransition
            f1.endState EPSILON (σ0.states.length + 1)).states f1.endState []
            (σ0.states.length + 1) :=
        NPath.eps ((tgt _ _ _).2 (Or.inr ⟨rfl, rfl, rfl⟩)) (NPath.nil _)
      have fromExit : ∀ S : List (List Char), (∀ y ∈ S, y ∈ languageOf c) →
          NPath ((((σ1.addTransition σ0.states.length EPSILON f1.startState).addTransition
            σ0.states.length EPSILON (σ0.states.length + 1)).addTransition
            f1.endState EPSILON f1.startState).addTransition
            f1.endState EPSILON (σ0.states.length + 1)).states f1.endState S.flatten
            (σ0.states.length + 1) := by
        intro S
        induction S with
        | nil => intro _; exact toEnd
        | cons y S ih =>
          intro hS
          have p1 := NPath.lift agree1 h1.closedT h1.end_empty
            ((l1 y).2 (hS y (List.mem_cons_self _ _))) ⟨s1a, s1b⟩
          have p2 := p1.trans (ih (fun z hz => hS z (List.mem_cons_of_mem _ hz)))
          rw [List.flatten_cons]
          exact NPath.eps ((tgt _ _ _).2 (Or.inl (Or.inr ⟨rfl, rfl, rfl⟩))) p2
      cases S with
      | nil =>
        exact NPath.eps ((tgt _ _ _).2 (Or.inl (Or.inl (Or.inr ⟨rfl, rfl, rfl⟩)))) (NPath.nil _)
      | cons y S =>
        have p1 := NPath.lift agree1 h1.closedT h1.end_empty
          ((l1 y).2 (hS y (List.mem_cons_self _ _))) ⟨s1a, s1b⟩
        have p2 := p1.trans (fromExit S (fun z hz => hS z (List.mem_cons_of_mem _ hz)))
        rw [List.flatten_cons]
        exact NPath.eps ((tgt _ _ _).2 (Or.inl (Or.inl (Or.inl (Or.inr ⟨rfl, rfl, rfl⟩))))) p2

/-- Thompson's construction is correct: `buildNfaForNode` allocates a closed
block of states whose runs from the start state to the end state read exactly
the words of the language of the AST. -/
theorem built (ast : AST) :
    ∀ σ0 : Store, Built ast σ0 (buildNfaForNode ast σ0).1 (buildNfaForNode ast σ0).2 := by
  induction ast with
  | CHAR c => exact fun σ0 => built_char c σ0
  | CONCAT l r ihl ihr =>
    intro σ0
    rw [buildNfaForNode_concat]
    exact built_concat (ihl σ0) (ihr _)
  | ALTERNATION l r ihl ihr =>
    intro σ0
    rw [buildNfaForNode_alternation]
    exact built_alternation (twoNew σ0) (ihl _) (ihr _)
  | KLEENE_STAR c ih =>
    intro σ0
    rw [buildNfaForNode_star]
    exact built_star (twoNew σ0) (ih _)

/-! ## The subset construction `nfaToDfa` -/

theorem subsetSymbol_eq (heap : List State) (cur : List Nat) (curId : Nat) (v : SubsetVars)
    (a : Char) :
    subsetSymbol heap cur curId v a =
      bfsSymbol (nextSubset heap) (setToKey heap) (mkSubset heap) cur curId v a := by
  unfold subsetSymbol bfsSymbol nextSubset
  by_cases h : (move heap cur a).length = 0
  · simp [h]
  · simp only [h, ↓reduceIte]
    cases epsilonClosure heap (move heap cur a) with
    | none => rfl
    | some C =>
      simp only [Option.map_some']
      cases mapGet v.dfaStates (setToKey heap C) <;> rfl

theorem subsetSymbols_eq (heap : List State) (cur : List Nat) (curId : Nat) (syms : List Char) :
    ∀ v, subsetSymbols heap cur curId v syms =
      bfsSymbols (nextSubset heap) (setToKey heap) (mkSubset heap) cur curId v syms := by
  induction syms with
  | nil => intro v; rfl
  | cons a rest ih =>
    intro v
    simp only [subsetSymbols, bfsSymbols, subsetSymbol_eq]
    cases bfsSymbol (nextSubset heap) (setToKey heap) (mkSubset heap) cur curId v a with
    | none => rfl
    | some v' => exact ih v'

theorem subsetLoop_eq (heap : List State) (alphabet : List Char) (fuel : Nat) :
    ∀ head v, subsetLoop heap alphabet fuel head v =
      bfsLoop (nextSubset heap) (setToKey heap) (mkSubset heap) alphabet fuel head v := by
  induction fuel with
  | zero => intro head v; rfl
  | succ fuel ih =>
    intro head v
    simp only [subsetLoop, bfsLoop]
    cases v.queue[head]? with
    | none => rfl
    | some cur =>
      simp only
      cases mapGet v.dfaStates (setToKey heap cur) with
      | none => rfl
      | some curId =>
        simp only [subsetSymbols_eq]
        cases bfsSymbols (nextSubset heap) (setToKey heap) (mkSubset heap) cur curId v
            alphabet with
        | none => rfl
        | some v' => exact ih _ v'

section Subset

variable {heap : List State} {U : Nat → Prop} {start : Nat}

theorem GoodSet.inU (hU : ClosedRegion heap U) (hs : U start) {S : List Nat}
    (h : GoodSet heap start S) : ∀ s ∈ S, U s :=
  fun s hsS => (h.2 s hsS).staysIn hU hs

/-- Two good sets have the same key exactly when they have the same members. -/
theorem setToKey_eq_iff (hU : ClosedRegion heap U) (hs : U start) (hid : IdsDistinct heap U)
    {S S' : List Nat} (g : GoodSet heap start S) (g' : GoodSet heap start S') :
    setToKey heap S = setToKey heap S' ↔ ∀ x, x ∈ S ↔ x ∈ S' := by
  have inj : ∀ {T : List Nat}, GoodSet heap start T →
      ∀ x ∈ T, ∀ y ∈ T, (deref heap x).id = (deref heap y).id → x = y :=
    fun gT x hx y hy e => hid x y (gT.inU hU hs x hx) (gT.inU hU hs y hy) e
  have n1 : (S.map fun s => (deref heap s).id).Nodup := List.Nodup.map_on (inj g) g.1
  have n2 : (S'.map fun s => (deref heap s).id).Nodup := List.Nodup.map_on (inj g') g'.1
  unfold setToKey
  rw [sortedKey_eq_iff n1 n2]
  constructor
  · intro h x
    constructor
    · intro hx
      obtain ⟨y, hy, e⟩ := List.mem_map.1 ((h _).1 (List.mem_map.2 ⟨x, hx, rfl⟩))
      have : y = x := hid y x (g'.inU hU hs y hy) (g.inU hU hs x hx) e
      exact this ▸ hy
    · intro hx
      obtain ⟨y, hy, e⟩ := List.mem_map.1 ((h _).2 (List.mem_map.2 ⟨x, hx, rfl⟩))
      have : y = x := hid y x (g.inU hU hs y hy) (g'.inU hU hs x hx) e
      exact this ▸ hy
  · intro h y
    simp only [List.mem_map]
    constructor
    · rintro ⟨x, hx, e⟩; exact ⟨x, (h x).1 hx, e⟩
    · rintro ⟨x, hx, e⟩; exact ⟨x, (h x).2 hx, e⟩

theorem goodSet_move {S : List Nat} (g : GoodSet heap start S) (a : Char) :
    GoodSet heap start (move heap S a) := by
  refine ⟨nodup_move S a, fun x hx => ?_⟩
  obtain ⟨s, hsS, hx⟩ := (mem_move S a x).1 hx
  obtain ⟨e, he, _, h2⟩ := targetsOf_entry hx
  exact (g.2 s hsS).concat (Reach.step he h2 (Reach.refl x))

/-- The successor of a good set is computed (the closure loop does not run out
of fuel) and is good; it is the closure of `move`. -/
theorem nextSubset_spec (hU : ClosedRegion heap U) (hs : U start) {S : List Nat}
    (g : GoodSet heap start S) (a : Char) :
    (nextSubset heap S a = some none ∧ ∀ x, x ∉ move heap S a) ∨
    ∃ T, nextSubset heap S a = some (some T) ∧ GoodSet heap start T ∧
      (∃ x, x ∈ move heap S a) ∧
      ∀ x, x ∈ T ↔ ∃ m ∈ move heap S a, NPath heap m [] x := by
  have gm := goodSet_move g a
  unfold nextSubset
  by_cases h : (move heap S a).length = 0
  · left
    have : move heap S a = [] := List.length_eq_zero.1 h
    simp [h, this]
  · right
    obtain ⟨C, hC, hn, _, hmem⟩ := epsilonClosure_spec hU gm.1 (gm.inU hU hs)
    refine ⟨C, by simp [h, hC], ⟨hn, fun x hx => ?_⟩, ?_, hmem⟩
    · obtain ⟨m, hm, hp⟩ := (hmem x).1 hx
      exact (gm.2 m hm).concat hp.reach
    · cases hm : move heap S a with
      | nil => simp [hm] at h
      | cons x _ => exact ⟨x, List.mem_cons_self _ _⟩

theorem someAccepting_iff (S : List Nat) :
    someAccepting heap S = true ↔ ∃ s ∈ S, (deref heap s).isAccepting = true := by
  simp [someAccepting, List.any_eq_true]

theorem subset_bound (hU : ClosedRegion heap U) (hs : U start) (hid : IdsDistinct heap U)
    (q : List (List Nat)) (hq : ∀ S ∈ q, GoodSet heap start S)
    (hk : (q.map (setToKey heap)).Nodup) : q.length ≤ 2 ^ heap.length := by
  have hinj : ∀ S ∈ q, ∀ S' ∈ q, S.toFinset = S'.toFinset → S = S' := by
    intro S hS S' hS' e
    have : setToKey heap S = setToKey heap S' :=
      (setToKey_eq_iff hU hs hid (hq S hS) (hq S' hS')).2 (fun x => by
        have := Finset.ext_iff.1 e x
        simpa using this)
    exact List.inj_on_of_nodup_map hk hS hS' this
  have hn : (q.map List.toFinset).Nodup := List.Nodup.map_on hinj (List.Nodup.of_map _ hk)
  have hsub : (q.map List.toFinset).toFinset ⊆ (Finset.range heap.length).powerset := by
    intro F hF
    simp only [List.mem_toFinset, List.mem_map] at hF
    obtain ⟨S, hS, rfl⟩ := hF
    rw [Finset.mem_powerset]
    intro x hx
    simp only [List.mem_toFinset] at hx
    exact Finset.mem_range.2 (hU.inHeap x ((hq S hS).inU hU hs x hx))
  have := Finset.card_le_card hsub
  rw [List.toFinset_card_of_nodup hn, Finset.card_powerset, Finset.card_range,
    List.length_map] at this
  exact this

end Subset

theorem NPath.cons_inv {heap : List State} {s u : Nat} {a : Char} {w : List Char}
    (hp : NPath heap s (a :: w) u) :
    ∃ s' m, NPath heap s [] s' ∧ a ≠ EPSILON ∧ m ∈ targetsOf heap s' a ∧ NPath heap m w u := by
  generalize hw : a :: w = w' at hp
  induction hp with
  | nil s => simp at hw
  | eps ht _ ih =>
    obtain ⟨s', m, h1, h2, h3, h4⟩ := ih hw
    exact ⟨s', m, NPath.eps ht h1, h2, h3, h4⟩
  | @sym s t u c w0 hc ht hr _ =>
    simp only [List.cons.injEq] at hw
    obtain ⟨e1, e2⟩ := hw
    subst e1 e2
    exact ⟨s, t, NPath.nil s, hc, ht, hr⟩

section SubsetSem

variable {heap : List State} {U : Nat → Prop} {start : Nat} {A : List Char}

/-- The automaton of sets accepts from an epsilon-closed good set exactly the
words that some run of the NFA from a member of the set reads up to an
accepting state. -/
theorem absAccepts_subset (hU : ClosedRegion heap U) (hs : U start)
    (hA : ∀ a, a ∈ A ↔ (a ≠ EPSILON ∧
      ∃ s, Reach heap start s ∧ ∃ e ∈ (deref heap s).transitions, e.1 = a)) :
    ∀ (w : List Char) (S : List Nat), GoodSet heap start S →
      (∀ s ∈ S, ∀ t, NPath heap s [] t → t ∈ S) →
      (absAccepts (nextSubset heap) (someAccepting heap) A S w ↔
        ∃ s ∈ S, ∃ u, NPath heap s w u ∧ (deref heap u).isAccepting = true) := by
  intro w
  induction w with
  | nil =>
    intro S g hcl
    rw [absAccepts_nil, someAccepting_iff]
    constructor
    · rintro ⟨s, hsS, hacc⟩
      exact ⟨s, hsS, s, NPath.nil s, hacc⟩
    · rintro ⟨s, hsS, u, hp, hacc⟩
      exact ⟨u, hcl s hsS u hp, hacc⟩
  | cons a w ih =>
    intro S g hcl
    rw [absAccepts_cons]
    have closedT : ∀ T : List Nat, (∀ x, x ∈ T ↔ ∃ m ∈ move heap S a, NPath heap m [] x) →
        ∀ s ∈ T, ∀ t, NPath heap s [] t → t ∈ T := by
      intro T hT s hsT t hp
      obtain ⟨m, hm, hq⟩ := (hT s).1 hsT
      exact (hT t).2 ⟨m, hm, by simpa using hq.trans hp⟩
    constructor
    · rintro ⟨ha, T, hT, hw⟩
      rcases nextSubset_spec hU hs g a with ⟨h1, _⟩ | ⟨T', h1, gT, _, hmem⟩
      · rw [h1] at hT; simp at hT
      · have : T' = T := by
          rw [h1] at hT
          exact Option.some.inj (Option.some.inj hT)
        subst this
        obtain ⟨t, htT, u, hp, hacc⟩ := (ih T' gT (closedT T' hmem)).1 hw
        obtain ⟨m, hm, hq⟩ := (hmem t).1 htT
        obtain ⟨s, hsS, hms⟩ := (mem_move S a m).1 hm
        have := hq.trans hp
        simp only [List.nil_append] at this
        exact ⟨s, hsS, u, NPath.sym ((hA a).1 ha).1 hms this, hacc⟩
    · rintro ⟨s, hsS, u, hp, hacc⟩
      obtain ⟨s', m, h1, h2, h3, h4⟩ := hp.cons_inv
      have hs' : s' ∈ S := hcl s hsS s' h1
      have hmove : m ∈ move heap S a := (mem_move S a m).2 ⟨s', hs', h3⟩
      obtain ⟨e, he, hea, _⟩ := targetsOf_entry h3
      have ha : a ∈ A := (hA a).2 ⟨h2, s', g.2 s' hs', e, he, hea⟩
      rcases nextSubset_spec hU hs g a with ⟨_, h5⟩ | ⟨T, h5, gT, _, hmem⟩
      · exact absurd hmove (h5 m)
      · refine ⟨ha, T, h5, (ih T gT (closedT T hmem)).2 ?_⟩
        exact ⟨m, (hmem m).2 ⟨m, hmove, NPath.nil m⟩, u, h4, hacc⟩

/-- What `nfaToDfa` returns on a well-formed NFA: it terminates, its worklist
loop keeps the symbols of every state distinct, and the DFA accepts the words
of the NFA; when every state of the region has a run to an accepting state, the
DFA is trim. -/
theorem nfaToDfa_spec (hU : ClosedRegion heap U) (hid : IdsDistinct heap U)
    (nfa : NFAFragment) (hs : U nfa.startState) :
    ∃ (A : List Char) (S0 : List Nat) (v : SubsetVars),
      nfaToDfa heap nfa =
        some { states := v.dfaStateInfo, alphabet := A, startState := some 0 } ∧
      (∀ a, a ∈ A ↔ (a ≠ EPSILON ∧
        ∃ s, Reach heap nfa.startState s ∧ ∃ e ∈ (deref heap s).transitions, e.1 = a)) ∧
      (∀ x, x ∈ S0 ↔ NPath heap nfa.startState [] x) ∧
      (∀ st ∈ v.dfaStateInfo, (st.transitions.map Prod.fst).Nodup) ∧
      (∀ w, DFA.accepts { states := v.dfaStateInfo, alphabet := A, startState := some 0 } w = true ↔
        ∃ u, NPath heap nfa.startState w u ∧ (deref heap u).isAccepting = true) ∧
      ((∀ s, U s → ∃ w u, NPath heap s w u ∧ (deref heap u).isAccepting = true) →
        DFA.Trim { states := v.dfaStateInfo, alphabet := A, startState := some 0 }) := by
  obtain ⟨A, hA, hAmem⟩ := getAlphabet_spec hU hs
  have hstart : (setOfList [nfa.startState]) = [nfa.startState] := by
    simp [setOfList, setAdd]
  obtain ⟨S0, hS0, hn0, _, hmem0⟩ := epsilonClosure_spec hU
    (S := setOfList [nfa.startState]) (by rw [hstart]; simp) (by
      intro s h
      rw [hstart, List.mem_singleton] at h
      rw [h]; exact hs)
  have hmem0' : ∀ x, x ∈ S0 ↔ NPath heap nfa.startState [] x := by
    intro x
    rw [hmem0, hstart]
    simp
  have c0 : ClosedSet heap nfa.startState S0 :=
    ⟨⟨hn0, fun x hx => ((hmem0' x).1 hx).reach⟩,
      List.ne_nil_of_mem ((hmem0' _).2 (NPath.nil _)),
      fun s hsS t hp => by
        rw [hmem0'] at hsS ⊢
        simpa using hsS.trans hp⟩
  have g0 : ClosedSet heap nfa.startState S0 ∧ AbsReach (nextSubset heap) A S0 S0 :=
    ⟨c0, AbsReach.refl⟩
  have hnext : ∀ S a,
      (ClosedSet heap nfa.startState S ∧ AbsReach (nextSubset heap) A S0 S) → a ∈ A →
      ∃ r, nextSubset heap S a = some r ∧ ∀ T, r = some T →
        (ClosedSet heap nfa.startState T ∧ AbsReach (nextSubset heap) A S0 T) := by
    intro S a gg ha
    obtain ⟨g, hreach⟩ := gg
    rcases nextSubset_spec hU hs g.1 a with ⟨h1, _⟩ | ⟨T, h1, gT, ⟨x, hx⟩, hmem⟩
    · exact ⟨none, h1, fun T hT => by simp at hT⟩
    · refine ⟨some T, h1, fun T' hT => ?_⟩
      rw [← Option.some.inj hT]
      refine ⟨⟨gT, List.ne_nil_of_mem ((hmem x).2 ⟨x, hx, NPath.nil x⟩),
        fun s hsT t hp => ?_⟩, AbsReach.step hreach ha h1⟩
      obtain ⟨m, hm, hq⟩ := (hmem s).1 hsT
      exact (hmem t).2 ⟨m, hm, by simpa using hq.trans hp⟩
  have hmk : ∀ i S, (mkSubset heap i S).transitions = [] := fun _ _ => rfl
  obtain ⟨v, hv, hinv⟩ := @bfsLoop_result (nextSubset heap) (setToKey heap) (mkSubset heap)
    (fun S => ClosedSet heap nfa.startState S ∧ AbsReach (nextSubset heap) A S0 S)
    S0 A (2 ^ heap.length) hmk g0 hnext
    (fun q hq hk => subset_bound hU hs hid q (fun S hS => (hq S hS).1.1) hk)
  have hacc : ∀ S S',
      (ClosedSet heap nfa.startState S ∧ AbsReach (nextSubset heap) A S0 S) →
      (ClosedSet heap nfa.startState S' ∧ AbsReach (nextSubset heap) A S0 S') →
      setToKey heap S = setToKey heap S' → someAccepting heap S = someAccepting heap S' := by
    intro S S' gg gg' e
    have g := gg.1
    have g' := gg'.1
    have hm := (setToKey_eq_iff hU hs hid g.1 g'.1).1 e
    rw [Bool.eq_iff_iff, someAccepting_iff, someAccepting_iff]
    constructor
    · rintro ⟨s, h1, h2⟩; exact ⟨s, (hm s).1 h1, h2⟩
    · rintro ⟨s, h1, h2⟩; exact ⟨s, (hm s).2 h1, h2⟩
  have hcongr : ∀ S S' a T,
      (ClosedSet heap nfa.startState S ∧ AbsReach (nextSubset heap) A S0 S) →
      (ClosedSet heap nfa.startState S' ∧ AbsReach (nextSubset heap) A S0 S') →
      setToKey heap S = setToKey heap S' → a ∈ A → nextSubset heap S a = some (some T) →
      ∃ T', nextSubset heap S' a = some (some T') ∧ setToKey heap T = setToKey heap T' := by
    intro S S' a T gg gg' e _ hT
    have g := gg.1
    have g' := gg'.1
    have hm := (setToKey_eq_iff hU hs hid g.1 g'.1).1 e
    have hmv : ∀ x, x ∈ move heap S a ↔ x ∈ move heap S' a := by
      intro x
      rw [mem_move, mem_move]
      constructor
      · rintro ⟨s, h1, h2⟩; exact ⟨s, (hm s).1 h1, h2⟩
      · rintro ⟨s, h1, h2⟩; exact ⟨s, (hm s).2 h1, h2⟩
    rcases nextSubset_spec hU hs g.1 a with ⟨h1, _⟩ | ⟨T0, h1, gT, ⟨x, hx⟩, hmem⟩
    · rw [h1] at hT; simp at hT
    · have : T0 = T := by
        rw [h1] at hT
        exact Option.some.inj (Option.some.inj hT)
      subst this
      rcases nextSubset_spec hU hs g'.1 a with ⟨_, h2⟩ | ⟨T', h2, gT', _, hmem'⟩
      · exact absurd ((hmv x).1 hx) (h2 x)
      · refine ⟨T', h2, (setToKey_eq_iff hU hs hid gT gT').2 (fun y => ?_)⟩
        rw [hmem, hmem']
        constructor
        · rintro ⟨m, h3, h4⟩; exact ⟨m, (hmv m).1 h3, h4⟩
        · rintro ⟨m, h3, h4⟩; exact ⟨m, (hmv m).2 h3, h4⟩
  have hrun : nfaToDfa heap nfa =
      some { states := v.dfaStateInfo, alphabet := A, startState := some 0 } := by
    unfold nfaToDfa
    simp only [hA, hS0, subsetLoop_eq]
    have : bfsLoop (nextSubset heap) (setToKey heap) (mkSubset heap) A (2 ^ heap.length + 1) 0
        { dfaStates := mapSet [] (setToKey heap S0) 0,
          dfaStateInfo := [{ id := 0, positions := none,
                             isAccepting := someAccepting heap S0, transitions := [] }],
          queue := [S0] } = some v := hv
    rw [this]
    rfl
  refine ⟨A, S0, v, hrun, hAmem, hmem0', hinv.nodup, fun w => ?_, fun hco => ?_⟩
  · have h1 := @bfs_acceptsFrom (nextSubset heap) (setToKey heap) (mkSubset heap)
      (fun S => ClosedSet heap nfa.startState S ∧ AbsReach (nextSubset heap) A S0 S)
      A (someAccepting heap) S0 v hinv
      (fun _ _ => rfl) (fun _ _ => rfl) hnext hacc hcongr (some 0) w 0 S0 hinv.first
    have h2 := absAccepts_subset hU hs hAmem w S0 c0.1 c0.2.2
    show DFA.acceptsFrom _ 0 w = true ↔ _
    rw [h1, h2]
    constructor
    · rintro ⟨s, hsS, u, hp, hacc'⟩
      exact ⟨u, by simpa using ((hmem0' s).1 hsS).trans hp, hacc'⟩
    · rintro ⟨u, hp, hacc'⟩
      exact ⟨nfa.startState, (hmem0' _).2 (NPath.nil _), u, hp, hacc'⟩
  · refine @bfs_trim (nextSubset heap) (setToKey heap) (mkSubset heap)
      (fun S => ClosedSet heap nfa.startState S ∧ AbsReach (nextSubset heap) A S0 S)
      A (someAccepting heap) S0 v hinv
      (fun _ _ => rfl) (fun _ _ => rfl) hnext hacc hcongr (fun S gg => ?_) (fun S gg => gg.2)
    have g := gg.1
    obtain ⟨s, hsS⟩ := List.exists_mem_of_ne_nil _ g.2.1
    obtain ⟨w, u, hp, hu⟩ := hco s (g.1.inU hU hs s hsS)
    exact ⟨w, (absAccepts_subset hU hs hAmem w S g.1 g.2.2).2 ⟨s, hsS, u, hp, hu⟩⟩

end SubsetSem

/-! ## `astToNfa` and the pipeline `nfaToDfa(astToNfa(ast))` -/

theorem astToNfa_eq (ast : AST) (σ : Store) :
    astToNfa ast σ =
      ((buildNfaForNode ast { σ with stateId := 0 }).1,
        { (buildNfaForNode ast { σ with stateId := 0 }).2 with
          states := (buildNfaForNode ast { σ with stateId := 0 }).2.states.modify
            (fun s => { s with isAccepting := true })
            (buildNfaForNode ast { σ with stateId := 0 }).1.endState }) := rfl

theorem deref_modify (heap : List State) (f : State → State) (e i : Nat) :
    deref (heap.modify f e) i = if i = e ∧ e < heap.length then f (deref heap i)
      else deref heap i := by
  simp only [deref, List.getD_eq_getElem?_getD, List.getElem?_modify]
  by_cases h1 : e = i
  · subst h1
    by_cases h2 : e < heap.length
    · simp [h2, List.getElem?_eq_getElem h2]
    · simp [h2, List.getElem?_eq_none (Nat.le_of_not_lt h2)]
  · have : ¬ i = e := fun h => h1 h.symm
    simp only [h1, ↓reduceIte, this, false_and]
    cases heap[i]? <;> rfl

theorem NPath.congr_targets {h h' : List State}
    (e : ∀ i c, targetsOf h' i c = targetsOf h i c) {s u : Nat} {w : List Char} :
    NPath h' s w u ↔ NPath h s w u := by
  constructor
  · intro hp
    induction hp with
    | nil s => exact NPath.nil s
    | eps ht _ ih => exact NPath.eps (e _ _ ▸ ht) ih
    | sym hc ht _ ih => exact NPath.sym hc (e _ _ ▸ ht) ih
  · intro hp
    induction hp with
    | nil s => exact NPath.nil s
    | eps ht _ ih => exact NPath.eps ((e _ _).symm ▸ ht) ih
    | sym hc ht _ ih => exact NPath.sym hc ((e _ _).symm ▸ ht) ih

theorem astToNfa_spec (ast : AST) (σ : Store) :
    IsThompson ast σ.states.length (astToNfa ast σ).2.states (astToNfa ast σ).1 := by
  rw [astToNfa_eq]
  have hb := built ast { σ with stateId := 0 }
  generalize buildNfaForNode ast { σ with stateId := 0 } = b at hb
  obtain ⟨frag, σ1⟩ := b
  simp only at hb ⊢
  have hlen : (σ1.states.modify (fun s => { s with isAccepting := true })
      frag.endState).length = σ1.states.length := List.length_modify _ _ _
  have htr : ∀ i, (deref (σ1.states.modify (fun s => { s with isAccepting := true })
      frag.endState) i).transitions = (deref σ1.states i).transitions := by
    intro i
    rw [deref_modify]
    split <;> rfl
  have hid : ∀ i, (deref (σ1.states.modify (fun s => { s with isAccepting := true })
      frag.endState) i).id = (deref σ1.states i).id := by
    intro i
    rw [deref_modify]
    split <;> rfl
  have htg : ∀ i c, targetsOf (σ1.states.modify (fun s => { s with isAccepting := true })
      frag.endState) i c = targetsOf σ1.states i c := by
    intro i c
    simp only [targetsOf, htr]
  refine
    { start_ge := hb.start_ge
      start_lt := by rw [hlen]; exact hb.start_lt
      end_ge := hb.end_ge
      end_lt := by rw [hlen]; exact hb.end_lt
      region := ⟨fun s hs => hs.2, fun s hs e he t ht => ?_⟩
      ids := ?_
      accepting := ?_
      end_empty := by rw [htr]; exact hb.end_empty
      conn := ?_
      coacc := ?_
      lang := ?_ }
  · rw [hlen] at hs ⊢
    rw [htr] at he
    exact hb.closed s hs.1 hs.2 e he t ht
  · intro i h1 h2
    rw [hlen] at h2
    rw [hid, hb.ids i h1 h2]
    simp
  · intro i h1 h2
    rw [hlen] at h2
    rw [deref_modify]
    by_cases hi : i = frag.endState
    · have := hb.end_lt
      simp [hi, this]
    · simp [hi, hb.nonacc i h1 h2]
  · obtain ⟨w, hw⟩ := hb.conn
    exact ⟨w, (NPath.congr_targets htg).2 hw⟩
  · intro i h1 h2
    rw [hlen] at h2
    obtain ⟨w, hw⟩ := hb.coacc i h1 h2
    exact ⟨w, (NPath.congr_targets htg).2 hw⟩
  · intro hε w
    rw [NPath.congr_targets htg]
    exact hb.lang hε w

theorem IsThompson.idsDistinct {ast : AST} {n0 : Nat} {heap : List State} {nfa : NFAFragment}
    (h : IsThompson ast n0 heap nfa) :
    IdsDistinct heap (fun i => n0 ≤ i ∧ i < heap.length) := by
  intro i j hi hj e
  rw [h.ids i hi.1 hi.2, h.ids j hj.1 hj.2] at e
  omega

/-- Reachable states of a Thompson NFA: exactly one accepts, the end state. -/
theorem IsThompson.one_accepting {ast : AST} {n0 : Nat} {heap : List State}
    {nfa : NFAFragment} (h : IsThompson ast n0 heap nfa) :
    Reach heap nfa.startState nfa.endState ∧
    ∀ s, Reach heap nfa.startState s →
      ((deref heap s).isAccepting = true ↔ s = nfa.endState) := by
  obtain ⟨w, hw⟩ := h.conn
  refine ⟨hw.reach, fun s hs => ?_⟩
  have := hs.staysIn h.region ⟨h.start_ge, h.start_lt⟩
  exact h.accepting s this.1 this.2

theorem subsetDfa_eq (ast : AST) (σ : Store) :
    subsetDfa ast σ = nfaToDfa (astToNfa ast σ).2.states (astToNfa ast σ).1 := rfl

/-- The pipeline `nfaToDfa(astToNfa(ast))` returns a DFA, each of whose states
lists a symbol at most once; the DFA is trim; for an AST without `'ε'` leaf it
accepts the language of the AST. -/
theorem subsetDfa_spec (ast : AST) (σ : Store) :
    ∃ d, subsetDfa ast σ = some d ∧
      (∀ st ∈ d.states, (st.transitions.map Prod.fst).Nodup) ∧
      d.Trim ∧
      (ast.avoids EPSILON → ∀ w, d.accepts w = true ↔ w ∈ languageOf ast) := by
  have ht := astToNfa_spec ast σ
  rw [subsetDfa_eq]
  generalize astToNfa ast σ = r at ht
  obtain ⟨nfa, σ'⟩ := r
  simp only at ht ⊢
  obtain ⟨A, S0, v, hrun, _, _, hnd, hacc, htrim⟩ :=
    nfaToDfa_spec ht.region ht.idsDistinct nfa ⟨ht.start_ge, ht.start_lt⟩
  refine ⟨_, hrun, hnd, htrim (fun s hs => ?_), fun hε w => ?_⟩
  · obtain ⟨w, hw⟩ := ht.coacc s hs.1 hs.2
    exact ⟨w, nfa.endState, hw, (ht.accepting _ ht.end_ge ht.end_lt).2 rfl⟩
  · rw [hacc w, ← ht.lang hε w]
    constructor
    · rintro ⟨u, hp, hu⟩
      have hin := hp.inRegion ht.region ⟨ht.start_ge, ht.start_lt⟩
      rw [(ht.accepting u hin.1 hin.2).1 hu] at hp
      exact hp
    · intro hp
      exact ⟨nfa.endState, hp, (ht.accepting _ ht.end_ge ht.end_lt).2 rfl⟩

/-! ## The `followpos` map: links and position paths -/

theorem mapSet_of_none {α β : Type} [BEq α] [LawfulBEq α] (m : List (α × β)) (k : α) (v : β)
    (h : mapGet m k = none) : mapSet m k v = m ++ [(k, v)] := by
  induction m with
  | nil => rfl
  | cons e m ih =>
    obtain ⟨k0, v0⟩ := e
    unfold mapGet at h ih
    unfold mapSet
    cases hk : (k == k0) with
    | true => simp [List.lookup, hk] at h
    | false =>
      simp only [List.lookup, hk] at h
      have : (k0 == k) = false := by
        cases hk' : (k0 == k) with
        | false => rfl
        | true =>
          have e1 : k0 = k := eq_of_beq hk'
          subst e1
          simp at hk
      simp only [this, Bool.false_eq_true, ↓reduceIte, List.cons_append, ih h]

theorem mapGet_append {α β : Type} [BEq α] (m m' : List (α × β)) (k : α) :
    mapGet (m ++ m') k = (mapGet m k).or (mapGet m' k) := by
  induction m with
  | nil => simp [mapGet]
  | cons e m ih =>
    obtain ⟨k0, v0⟩ := e
    unfold mapGet at ih ⊢
    cases hk : (k == k0) with
    | true => simp [List.lookup, hk]
    | false => simp only [List.cons_append, List.lookup, hk]; exact ih

theorem mapGet_append_of_some {α β : Type} [BEq α] (m m' : List (α × β)) (k : α) (v : β)
    (h : mapGet m k = some v) : mapGet (m ++ m') k = some v := by
  rw [mapGet_append, h]; rfl

theorem mapGet_isSome_iff {α β : Type} [BEq α] [LawfulBEq α] (m : List (α × β)) (k : α) :
    (mapGet m k).isSome = true ↔ k ∈ m.map Prod.fst := by
  have := mapGet_eq_none_iff m k
  cases h : mapGet m k with
  | none => simp [h] at this ⊢; exact this
  | some v =>
    simp only [Option.isSome_some, true_iff]
    by_contra hc
    rw [this.2 hc] at h
    simp at h

theorem followAdd_spec {F : List (Nat × List Nat)} {pos : Nat} {S : List Nat} (fp : Nat)
    (h : mapGet F pos = some S) :
    followAdd F pos fp = some (mapSet F pos (setAdd S fp)) := by
  simp [followAdd, h]

theorem followAddAll_spec (tgts : List Nat) :
    ∀ {F : List (Nat × List Nat)} {pos : Nat} {S : List Nat}, mapGet F pos = some S →
      ∃ F', followAddAll F pos tgts = some F' ∧
        ∀ k, mapGet F' k = if k = pos then some (tgts.foldl setAdd S) else mapGet F k := by
  induction tgts with
  | nil =>
    intro F pos S h
    refine ⟨F, rfl, fun k => ?_⟩
    by_cases hk : k = pos
    · simp [hk, h]
    · simp [hk]
  | cons t rest ih =>
    intro F pos S h
    have h1 : mapGet (mapSet F pos (setAdd S t)) pos = some (setAdd S t) :=
      mapGet_mapSet_self _ _ _
    obtain ⟨F', hF', hget⟩ := ih h1
    refine ⟨F', by simp only [followAddAll, followAdd_spec t h, hF'], fun k => ?_⟩
    rw [hget k]
    by_cases hk : k = pos
    · simp [hk]
    · simp only [hk, ↓reduceIte]
      exact mapGet_mapSet_ne _ _ _ _ hk

/-- What the nested loops that add the targets to the `followpos` of every
source do, when every source has a `followpos` entry. -/
theorem followLink_spec (srcs tgts : List Nat) :
    ∀ {F : List (Nat × List Nat)}, (∀ p ∈ srcs, (mapGet F p).isSome = true) →
      ∃ F', followLink F srcs tgts = some F' ∧
        (∀ k, k ∉ srcs → mapGet F' k = mapGet F k) ∧
        (∀ k, (mapGet F' k).isSome = (mapGet F k).isSome) ∧
        (∀ k x, Follows F' k x ↔ Follows F k x ∨ (k ∈ srcs ∧ x ∈ tgts)) ∧
        (∀ k S', mapGet F' k = some S' → (∀ S, mapGet F k = some S → S.Nodup) → S'.Nodup) := by
  induction srcs with
  | nil =>
    intro F _
    exact ⟨F, rfl, fun _ _ => rfl, fun _ => rfl, fun k x => by simp,
      fun k S' h hn => hn S' h⟩
  | cons p rest ih =>
    intro F hsrc
    obtain ⟨S, hS⟩ := Option.isSome_iff_exists.1 (hsrc p (List.mem_cons_self _ _))
    obtain ⟨F1, hF1, hget⟩ := followAddAll_spec tgts hS
    have hsome1 : ∀ k, (mapGet F1 k).isSome = (mapGet F k).isSome := by
      intro k
      rw [hget k]
      by_cases hk : k = p
      · simp [hk, hS]
      · simp [hk]
    have hfol1 : ∀ k x, Follows F1 k x ↔ Follows F k x ∨ (k = p ∧ x ∈ tgts) := by
      intro k x
      unfold Follows
      rw [hget k]
      by_cases hk : k = p
      · subst hk
        simp only [↓reduceIte, Option.some.injEq, exists_eq_left', mem_foldl_setAdd, hS,
          true_and]
      · simp [hk]
    obtain ⟨F', hF', h1, h2, h3, h4⟩ := ih (F := F1) (fun q hq => by
      rw [hsome1]; exact hsrc q (List.mem_cons_of_mem _ hq))
    refine ⟨F', by simp only [followLink, hF1, hF'], ?_, ?_, ?_, ?_⟩
    · intro k hk
      rw [h1 k (fun hc => hk (List.mem_cons_of_mem _ hc)), hget k]
      have : k ≠ p := fun e => hk (e ▸ List.mem_cons_self _ _)
      simp [this]
    · intro k
      rw [h2, hsome1]
    · intro k x
      rw [h3, hfol1, List.mem_cons]
      tauto
    · intro k S' hk hn
      refine h4 k S' hk (fun S1 hS1 => ?_)
      rw [hget k] at hS1
      by_cases hkp : k = p
      · subst hkp
        simp only [↓reduceIte, Option.some.injEq] at hS1
        rw [← hS1]
        exact nodup_foldl_setAdd _ _ (hn S hS)
      · simp only [hkp, ↓reduceIte] at hS1
        exact hn S1 hS1

theorem PosPath.ne_nil {F : List (Nat × List Nat)} {P : List (Nat × Char)} {p q : Nat}
    {w : List Char} (h : PosPath F P p w q) : w ≠ [] := by
  cases h <;> simp

theorem PosPath.weaken {F F' : List (Nat × List Nat)} {P P' : List (Nat × Char)}
    (hF : ∀ p q, Follows F p q → Follows F' p q)
    (hP : ∀ k a, mapGet P k = some a → mapGet P' k = some a)
    {p q : Nat} {w : List Char} (h : PosPath F P p w q) : PosPath F' P' p w q := by
  induction h with
  | single ha => exact PosPath.single (hP _ _ ha)
  | step ha hf _ ih => exact PosPath.step (hP _ _ ha) (hF _ _ hf) ih

/-- A path that starts in a region which the new `followpos` edges do not
leave, and on which the new maps add nothing, is a path of the old maps. -/
theorem PosPath.restrict {F F' : List (Nat × List Nat)} {P P' : List (Nat × Char)}
    {R : Nat → Prop}
    (hF : ∀ x y, R x → Follows F' x y → Follows F x y ∧ R y)
    (hP : ∀ k a, R k → mapGet P' k = some a → mapGet P k = some a)
    {p q : Nat} {w : List Char} (h : PosPath F' P' p w q) (hp : R p) :
    PosPath F P p w q ∧ R q := by
  induction h with
  | single ha => exact ⟨PosPath.single (hP _ _ hp ha), hp⟩
  | step ha hf _ ih =>
    obtain ⟨h1, h2⟩ := hF _ _ hp hf
    obtain ⟨h3, h4⟩ := ih h2
    exact ⟨PosPath.step (hP _ _ hp ha) h1 h3, h4⟩

theorem PosPath.append {F : List (Nat × List Nat)} {P : List (Nat × Char)} {p x y q : Nat}
    {u v : List Char} (h1 : PosPath F P p u x) (hf : Follows F x y) (h2 : PosPath F P y v q) :
    PosPath F P p (u ++ v) q := by
  induction h1 with
  | single ha => exact PosPath.step ha hf h2
  | step ha hf' _ ih => exact PosPath.step ha hf' (ih hf)

/-- A path that starts in a region `R` either stays in it, using old edges, or
leaves it once through a link edge `E`. -/
theorem PosPath.split {F F' : List (Nat × List Nat)} {P P' : List (Nat × Char)}
    {R : Nat → Prop} {E : Nat → Nat → Prop}
    (hF : ∀ x y, R x → Follows F' x y → (Follows F x y ∧ R y) ∨ E x y)
    (hP : ∀ k a, R k → mapGet P' k = some a → mapGet P k = some a)
    {p q : Nat} {w : List Char} (h : PosPath F' P' p w q) (hp : R p) :
    (PosPath F P p w q ∧ R q) ∨
    ∃ w1 w2 x y, w = w1 ++ w2 ∧ PosPath F P p w1 x ∧ R x ∧ E x y ∧ PosPath F' P' y w2 q := by
  induction h with
  | single ha => exact Or.inl ⟨PosPath.single (hP _ _ hp ha), hp⟩
  | @step p p' r a w ha hf hrest ih =>
    rcases hF _ _ hp hf with ⟨h1, h2⟩ | hE
    · rcases ih h2 with ⟨h3, h4⟩ | ⟨w1, w2, x, y, hw, h3, h4, h5, h6⟩
      · exact Or.inl ⟨PosPath.step (hP _ _ hp ha) h1 h3, h4⟩
      · exact Or.inr ⟨a :: w1, w2, x, y, by rw [hw]; rfl,
          PosPath.step (hP _ _ hp ha) h1 h3, h4, h5, h6⟩
    · exact Or.inr ⟨[a], w, p, p', rfl, PosPath.single (hP _ _ hp ha), hp, hE, hrest⟩

/-! ## The annotation pass `traverse` -/

theorem range'_append_one (s m n : Nat) :
    List.range' s m ++ List.range' (s + m) n = List.range' s (m + n) := by
  have := List.range'_append s m n 1
  rw [Nat.one_mul, Nat.add_comm n m] at this
  exact this

theorem PosPath.invert {F : List (Nat × List Nat)} {P : List (Nat × Char)} {p q : Nat}
    {w : List Char} (h : PosPath F P p w q) :
    (∃ a, w = [a] ∧ q = p ∧ mapGet P p = some a) ∨
    (∃ a w' p', w = a :: w' ∧ mapGet P p = some a ∧ Follows F p p' ∧ PosPath F P p' w' q) := by
  cases h with
  | single ha => exact Or.inl ⟨_, rfl, rfl, ha⟩
  | step ha hf hr => exact Or.inr ⟨_, _, _, rfl, ha, hf, hr⟩

theorem FollowVars.WF.positions_none {v : FollowVars} (h : v.WF) {k : Nat}
    (hk : v.position < k) : mapGet v.positions k = none := by
  rw [mapGet_eq_none_iff, h.keys, List.mem_range'_1]
  omega

theorem FollowVars.WF.followpos_none {v : FollowVars} (h : v.WF) {k : Nat}
    (hk : v.position < k) : mapGet v.followpos k = none := by
  cases hg : mapGet v.followpos k with
  | none => rfl
  | some S =>
    have := h.followKeys k (by rw [hg]; rfl)
    omega

theorem FollowVars.WF.positions_some {v : FollowVars} (h : v.WF) {k : Nat}
    (h1 : 1 ≤ k) (h2 : k ≤ v.position) : (mapGet v.positions k).isSome = true := by
  rw [mapGet_isSome_iff, h.keys, List.mem_range'_1]
  omega

section TraversedLemmas

variable {ast : AST} {v0 v1 : FollowVars} {A : AnnotatedAST}

theorem Traversed.le (h : Traversed ast v0 A v1) : v0.position ≤ v1.position := by
  rw [h.position]; omega

theorem Traversed.sym_mono (h : Traversed ast v0 A v1) (k : Nat) (a : Char)
    (hk : mapGet v0.positions k = some a) : mapGet v1.positions k = some a := by
  rw [h.positions]
  exact mapGet_append_of_some _ _ _ _ hk

theorem Traversed.sym_back (h : Traversed ast v0 A v1) (hwf : v0.WF) (k : Nat) (a : Char)
    (h1 : 1 ≤ k) (h2 : k ≤ v0.position)
    (hk : mapGet v1.positions k = some a) : mapGet v0.positions k = some a := by
  obtain ⟨b, hb⟩ := Option.isSome_iff_exists.1 (hwf.positions_some h1 h2)
  have := h.sym_mono k b hb
  rw [hk] at this
  rw [hb, Option.some.inj this]

theorem Traversed.follows_old (h : Traversed ast v0 A v1) {k : Nat} (x : Nat)
    (hk : k ≤ v0.position) : Follows v1.followpos k x ↔ Follows v0.followpos k x := by
  unfold Follows
  rw [h.followOld k hk]

theorem Traversed.follows_mono (h : Traversed ast v0 A v1) (hwf : v0.WF) (k x : Nat)
    (hf : Follows v0.followpos k x) : Follows v1.followpos k x := by
  obtain ⟨S, hS, hx⟩ := hf
  have := hwf.followKeys k (by rw [hS]; rfl)
  exact (h.follows_old x this.2).2 ⟨S, hS, hx⟩

theorem Traversed.follows_new (h : Traversed ast v0 A v1) {k x : Nat}
    (hk : v0.position < k) (hf : Follows v1.followpos k x) :
    v0.position < x ∧ x ≤ v1.position := by
  obtain ⟨S, hS, hx⟩ := hf
  obtain ⟨h1, h2⟩ := (h.followNew k S hk hS).2 x hx
  exact ⟨h1, (h.wf.followKeys x h2).2⟩

theorem Traversed.key_le (h : Traversed ast v0 A v1) {k : Nat}
    (hk : (mapGet v1.followpos k).isSome = true) : k ≤ v1.position :=
  (h.wf.followKeys k hk).2

end TraversedLemmas

theorem traverse_char (c : Char) (v0 : FollowVars) (hwf : v0.WF) :
    ∃ A v1, traverse (.CHAR c) v0 = some (A, v1) ∧ Traversed (.CHAR c) v0 A v1 := by
  have hP : mapSet v0.positions (v0.position + 1) c =
      v0.positions ++ [(v0.position + 1, c)] :=
    mapSet_of_none _ _ _ (hwf.positions_none (by omega))
  have hkeys : (v0.positions ++ [(v0.position + 1, c)]).map Prod.fst =
      List.range' 1 (v0.position + 1) := by
    rw [List.map_append, hwf.keys, List.range'_concat]
    simp [Nat.add_comm]
  have hsym : mapGet (v0.positions ++ [(v0.position + 1, c)]) (v0.position + 1) = some c := by
    rw [mapGet_append, hwf.positions_none (by omega)]
    simp [mapGet, List.lookup]
  by_cases hc : c = EPSILON
  · refine ⟨.CHAR c { position := some (v0.position + 1), nullable := true,
                       firstpos := [], lastpos := [] },
      { position := v0.position + 1, positions := mapSet v0.positions (v0.position + 1) c,
        followpos := v0.followpos },
      by simp only [traverse, hc, ne_eq, not_true_eq_false, ↓reduceIte], ?_⟩
    rw [hP]
    exact
      { position := by simp [AST.leaves]
        positions := by simp [AST.leaves]
        wf := ⟨hkeys, fun k hk => by
          have := hwf.followKeys k hk
          simp only at this ⊢
          omega⟩
        followOld := fun _ _ => rfl
        followNew := by
          intro k S hk hS
          simp only at hS
          rw [hwf.followpos_none hk] at hS
          simp at hS
        first_nodup := List.nodup_nil
        first_in := by simp [AnnotatedAST.firstpos, AnnotatedAST.attrs]
        last_nodup := List.nodup_nil
        last_in := by simp [AnnotatedAST.lastpos, AnnotatedAST.attrs]
        nonempty := by simp [AnnotatedAST.nullable, AnnotatedAST.attrs]
        coacc := by
          intro p hp hs
          simp only at hs
          rw [hwf.followpos_none hp] at hs
          simp at hs
        lang := fun hε => absurd hc hε }
  · refine ⟨.CHAR c { position := some (v0.position + 1), nullable := false,
                       firstpos := [v0.position + 1], lastpos := [v0.position + 1] },
      { position := v0.position + 1, positions := mapSet v0.positions (v0.position + 1) c,
        followpos := mapSet v0.followpos (v0.position + 1) [] },
      by simp only [traverse, ne_eq, hc, not_false_eq_true, ↓reduceIte], ?_⟩
    rw [hP]
    have hF : ∀ k, mapGet (mapSet v0.followpos (v0.position + 1) []) k =
        if k = v0.position + 1 then some [] else mapGet v0.followpos k :=
      fun k => mapGet_mapSet _ _ _ _
    exact
      { position := by simp [AST.leaves]
        positions := by simp [AST.leaves]
        wf := ⟨hkeys, fun k hk => by
          simp only at hk ⊢
          rw [hF] at hk
          by_cases e : k = v0.position + 1
          · omega
          · simp only [e, ↓reduceIte] at hk
            have := hwf.followKeys k hk
            omega⟩
        followOld := by
          intro k hk
          simp only
          rw [hF]
          simp [show k ≠ v0.position + 1 by omega]
        followNew := by
          intro k S hk hS
          simp only at hS
          rw [hF] at hS
          by_cases e : k = v0.position + 1
          · simp only [e, ↓reduceIte, Option.some.injEq] at hS
            subst hS
            simp
          · simp only [e, ↓reduceIte] at hS
            rw [hwf.followpos_none hk] at hS
            simp at hS
        first_nodup := by simp [AnnotatedAST.firstpos, AnnotatedAST.attrs]
        first_in := by
          intro p hp
          simp only [AnnotatedAST.firstpos, AnnotatedAST.attrs, List.mem_singleton] at hp
          subst hp
          simp [hF]
        last_nodup := by simp [AnnotatedAST.lastpos, AnnotatedAST.attrs]
        last_in := by
          intro p hp
          simp only [AnnotatedAST.lastpos, AnnotatedAST.attrs, List.mem_singleton] at hp
          subst hp
          simp [hF]
        nonempty := by simp [AnnotatedAST.firstpos, AnnotatedAST.attrs]
        coacc := by
          intro p hp hs
          simp only at hs
          rw [hF] at hs
          by_cases e : p = v0.position + 1
          · subst e
            exact ⟨[c], v0.position + 1,
              by simp [AnnotatedAST.lastpos, AnnotatedAST.attrs], PosPath.single hsym⟩
          · simp only [e, ↓reduceIte] at hs
            rw [hwf.followpos_none hp] at hs
            simp at hs
        lang := by
          intro _ w
          simp only [languageOf, AnnotatedAST.nullable, AnnotatedAST.firstpos,
            AnnotatedAST.lastpos, AnnotatedAST.attrs, List.mem_singleton, exists_eq_left,
            Bool.false_eq_true, and_false, false_or]
          constructor
          · intro hw
            have : w = [c] := hw
            subst this
            exact PosPath.single hsym
          · intro hp
            rcases hp.invert with ⟨a, hw, _, ha⟩ | ⟨a, w', p', _, _, hf, _⟩
            · rw [hsym] at ha
              rw [hw, ← Option.some.inj ha]
              exact Set.mem_singleton _
            · obtain ⟨S, hS, hx⟩ := hf
              rw [hF] at hS
              simp only [↓reduceIte, Option.some.injEq] at hS
              subst hS
              simp at hx }

theorem nullable_mk_concat (a b : AnnotatedAST) (x : Attrs) :
    (AnnotatedAST.CONCAT a b x).nullable = x.nullable := rfl

theorem firstpos_mk_concat (a b : AnnotatedAST) (x : Attrs) :
    (AnnotatedAST.CONCAT a b x).firstpos = x.firstpos := rfl

theorem lastpos_mk_concat (a b : AnnotatedAST) (x : Attrs) :
    (AnnotatedAST.CONCAT a b x).lastpos = x.lastpos := rfl

theorem nullable_mk_alternation (a b : AnnotatedAST) (x : Attrs) :
    (AnnotatedAST.ALTERNATION a b x).nullable = x.nullable := rfl

theorem firstpos_mk_alternation (a b : AnnotatedAST) (x : Attrs) :
    (AnnotatedAST.ALTERNATION a b x).firstpos = x.firstpos := rfl

theorem lastpos_mk_alternation (a b : AnnotatedAST) (x : Attrs) :
    (AnnotatedAST.ALTERNATION a b x).lastpos = x.lastpos := rfl

theorem nullable_mk_star (a : AnnotatedAST) (x : Attrs) :
    (AnnotatedAST.KLEENE_STAR a x).nullable = x.nullable := rfl

theorem firstpos_mk_star (a : AnnotatedAST) (x : Attrs) :
    (AnnotatedAST.KLEENE_STAR a x).firstpos = x.firstpos := rfl

theorem lastpos_mk_star (a : AnnotatedAST) (x : Attrs) :
    (AnnotatedAST.KLEENE_STAR a x).lastpos = x.lastpos := rfl

theorem Traversed.path_stays {ast : AST} {v0 v1 : FollowVars} {A : AnnotatedAST}
    (h : Traversed ast v0 A v1) {p q : Nat} {w : List Char}
    (hp : PosPath v1.followpos v1.positions p w q) (h0 : v0.position < p) :
    v0.position < q ∧ q ≤ v1.position := by
  induction hp with
  | @single p a ha =>
    refine ⟨h0, ?_⟩
    have := (mapGet_isSome_iff v1.positions p).1 (by rw [ha]; rfl)
    rw [h.wf.keys, List.mem_range'_1] at this
    omega
  | step _ hf _ ih => exact ih (h.follows_new h0 hf).1

section Binary

variable {l r : AST} {v0 v1 v2 : FollowVars} {Al Ar : AnnotatedAST}

theorem path_left_up (hl : Traversed l v0 Al v1) (hr : Traversed r v1 Ar v2)
    {p q : Nat} {w : List Char} (hp : PosPath v1.followpos v1.positions p w q) :
    PosPath v2.followpos v2.positions p w q :=
  hp.weaken (hr.follows_mono hl.wf) hr.sym_mono

theorem path_left_down (hl : Traversed l v0 Al v1) (hr : Traversed r v1 Ar v2)
    {p q : Nat} {w : List Char} (hp : PosPath v2.followpos v2.positions p w q)
    (h0 : v0.position < p) (h1 : p ≤ v1.position) :
    PosPath v1.followpos v1.positions p w q ∧ (v0.position < q ∧ q ≤ v1.position) := by
  refine PosPath.restrict (R := fun k => v0.position < k ∧ k ≤ v1.position) ?_ ?_ hp ⟨h0, h1⟩
  · intro x y hx hf
    have := (hr.follows_old y hx.2).1 hf
    exact ⟨this, hl.follows_new hx.1 this⟩
  · intro k a hk ha
    exact hr.sym_back hl.wf k a (by omega) hk.2 ha

theorem binary_position (hl : Traversed l v0 Al v1) (hr : Traversed r v1 Ar v2) :
    v2.position = v0.position + (l.leaves ++ r.leaves).length := by
  rw [hr.position, hl.position, List.length_append]; omega

theorem binary_positions (hl : Traversed l v0 Al v1) (hr : Traversed r v1 Ar v2) :
    v2.positions = v0.positions ++
      (List.range' (v0.position + 1) (l.leaves ++ r.leaves).length).zip
        (l.leaves ++ r.leaves) := by
  have e : v0.position + l.leaves.length + 1 = v0.position + 1 + l.leaves.length := by omega
  rw [hr.positions, hl.positions, hl.position, List.length_append, List.append_assoc,
    ← range'_append_one, List.zip_append (by simp), e]

theorem binary_followOld (hl : Traversed l v0 Al v1) (hr : Traversed r v1 Ar v2)
    (k : Nat) (hk : k ≤ v0.position) : mapGet v2.followpos k = mapGet v0.followpos k := by
  rw [hr.followOld k (by have := hl.le; omega), hl.followOld k hk]

theorem binary_followNew (hl : Traversed l v0 Al v1) (hr : Traversed r v1 Ar v2)
    (k : Nat) (S : List Nat) (hk : v0.position < k) (hS : mapGet v2.followpos k = some S) :
    S.Nodup ∧ ∀ q ∈ S, v0.position < q ∧ (mapGet v2.followpos q).isSome = true := by
  by_cases h1 : k ≤ v1.position
  · rw [hr.followOld k h1] at hS
    obtain ⟨hn, hm⟩ := hl.followNew k S hk hS
    refine ⟨hn, fun q hq => ?_⟩
    obtain ⟨a, b⟩ := hm q hq
    refine ⟨a, ?_⟩
    rw [hr.followOld q (hl.key_le b)]
    exact b
  · obtain ⟨hn, hm⟩ := hr.followNew k S (by omega) hS
    refine ⟨hn, fun q hq => ?_⟩
    obtain ⟨a, b⟩ := hm q hq
    have := hl.le
    exact ⟨by omega, b⟩

theorem left_in_final (hl : Traversed l v0 Al v1) (hr : Traversed r v1 Ar v2) {p : Nat}
    (h : v0.position < p ∧ (mapGet v1.followpos p).isSome = true) :
    v0.position < p ∧ (mapGet v2.followpos p).isSome = true := by
  refine ⟨h.1, ?_⟩
  rw [hr.followOld p (hl.key_le h.2)]
  exact h.2

theorem right_in_final (hl : Traversed l v0 Al v1) {p : Nat}
    (h : v1.position < p ∧ (mapGet v2.followpos p).isSome = true) :
    v0.position < p ∧ (mapGet v2.followpos p).isSome = true := by
  have := hl.le
  exact ⟨by omega, h.2⟩

theorem traversed_alternation (hl : Traversed l v0 Al v1) (hr : Traversed r v1 Ar v2) :
    Traversed (.ALTERNATION l r) v0
      (.ALTERNATION Al Ar
        { position := none, nullable := Al.nullable || Ar.nullable,
          firstpos := setOfList (Al.firstpos ++ Ar.firstpos),
          lastpos := setOfList (Al.lastpos ++ Ar.lastpos) }) v2 where
  position := binary_position hl hr
  positions := binary_positions hl hr
  wf := hr.wf
  followOld := binary_followOld hl hr
  followNew := binary_followNew hl hr
  first_nodup := nodup_setOfList _
  first_in := by
    intro p hp
    simp only [firstpos_mk_alternation, mem_setOfList, List.mem_append] at hp
    rcases hp with hp | hp
    · exact left_in_final hl hr (hl.first_in p hp)
    · exact right_in_final hl (hr.first_in p hp)
  last_nodup := nodup_setOfList _
  last_in := by
    intro p hp
    simp only [lastpos_mk_alternation, mem_setOfList, List.mem_append] at hp
    rcases hp with hp | hp
    · exact left_in_final hl hr (hl.last_in p hp)
    · exact right_in_final hl (hr.last_in p hp)
  nonempty := by
    intro hn
    simp only [nullable_mk_alternation, Bool.or_eq_false_iff] at hn
    obtain ⟨x, hx⟩ := List.exists_mem_of_ne_nil _ (hl.nonempty hn.1)
    have hx' : x ∈ setOfList (Al.firstpos ++ Ar.firstpos) := by
      simp [mem_setOfList, hx]
    simp only [firstpos_mk_alternation]
    exact List.ne_nil_of_mem hx'
  coacc := by
    intro p hp hs
    by_cases h1 : p ≤ v1.position
    · rw [hr.followOld p h1] at hs
      obtain ⟨w, q, hq, hpath⟩ := hl.coacc p hp hs
      exact ⟨w, q, by simp [lastpos_mk_alternation, mem_setOfList, hq],
        path_left_up hl hr hpath⟩
    · obtain ⟨w, q, hq, hpath⟩ := hr.coacc p (by omega) hs
      exact ⟨w, q, by simp [lastpos_mk_alternation, mem_setOfList, hq], hpath⟩
  lang := by
    intro hε w
    have il := hl.lang hε.1
    have ir := hr.lang hε.2
    simp only [languageOf, Language.mem_add, nullable_mk_alternation, firstpos_mk_alternation,
      lastpos_mk_alternation, mem_setOfList, List.mem_append, Bool.or_eq_true]
    constructor
    · rintro (hw | hw)
      · rcases (il w).1 hw with ⟨h1, h2⟩ | ⟨p, hp, q, hq, hpath⟩
        · exact Or.inl ⟨h1, Or.inl h2⟩
        · exact Or.inr ⟨p, Or.inl hp, q, Or.inl hq, path_left_up hl hr hpath⟩
      · rcases (ir w).1 hw with ⟨h1, h2⟩ | ⟨p, hp, q, hq, hpath⟩
        · exact Or.inl ⟨h1, Or.inr h2⟩
        · exact Or.inr ⟨p, Or.inr hp, q, Or.inr hq, hpath⟩
    · rintro (⟨h1, h2 | h2⟩ | ⟨p, hp | hp, q, hq, hpath⟩)
      · exact Or.inl ((il w).2 (Or.inl ⟨h1, h2⟩))
      · exact Or.inr ((ir w).2 (Or.inl ⟨h1, h2⟩))
      · have hpin := hl.first_in p hp
        obtain ⟨h3, h4⟩ := path_left_down hl hr hpath hpin.1 (hl.key_le hpin.2)
        rcases hq with hq | hq
        · exact Or.inl ((il w).2 (Or.inr ⟨p, hp, q, hq, h3⟩))
        · have := (hr.last_in q hq).1
          omega
      · have hpin := hr.first_in p hp
        have h4 := hr.path_stays hpath hpin.1
        rcases hq with hq | hq
        · have := hl.key_le (hl.last_in q hq).2
          omega
        · exact Or.inr ((ir w).2 (Or.inr ⟨p, hp, q, hq, hpath⟩))

end Binary

section Concat

variable {l r : AST} {v0 v1 v2 : FollowVars} {Al Ar : AnnotatedAST}

theorem traversed_concat (hl : Traversed l v0 Al v1) (hr : Traversed r v1 Ar v2)
    {F3 : List (Nat × List Nat)}
    (k1 : ∀ k, k ∉ Al.lastpos → mapGet F3 k = mapGet v2.followpos k)
    (k2 : ∀ k, (mapGet F3 k).isSome = (mapGet v2.followpos k).isSome)
    (k3 : ∀ k x, Follows F3 k x ↔
      Follows v2.followpos k x ∨ (k ∈ Al.lastpos ∧ x ∈ Ar.firstpos))
    (k4 : ∀ k S', mapGet F3 k = some S' →
      (∀ S, mapGet v2.followpos k = some S → S.Nodup) → S'.Nodup) :
    Traversed (.CONCAT l r) v0
      (.CONCAT Al Ar
        { position := none, nullable := Al.nullable && Ar.nullable,
          firstpos := if Al.nullable then setOfList (Al.firstpos ++ Ar.firstpos)
                      else Al.firstpos,
          lastpos := if Ar.nullable then setOfList (Al.lastpos ++ Ar.lastpos)
                     else Ar.lastpos })
      { v2 with followpos := F3 } := by
  have hle := hl.le
  have first_mem : ∀ p, p ∈ (if Al.nullable then setOfList (Al.firstpos ++ Ar.firstpos)
      else Al.firstpos) → p ∈ Al.firstpos ∨ (Al.nullable = true ∧ p ∈ Ar.firstpos) := by
    intro p hp
    cases hn : Al.nullable with
    | false => rw [hn] at hp; exact Or.inl hp
    | true =>
      rw [hn] at hp
      simp only [↓reduceIte, mem_setOfList, List.mem_append] at hp
      rcases hp with hp | hp
      · exact Or.inl hp
      · exact Or.inr ⟨rfl, hp⟩
  have last_mem : ∀ p, p ∈ (if Ar.nullable then setOfList (Al.lastpos ++ Ar.lastpos)
      else Ar.lastpos) → p ∈ Ar.lastpos ∨ (Ar.nullable = true ∧ p ∈ Al.lastpos) := by
    intro p hp
    cases hn : Ar.nullable with
    | false => rw [hn] at hp; exact Or.inl hp
    | true =>
      rw [hn] at hp
      simp only [↓reduceIte, mem_setOfList, List.mem_append] at hp
      rcases hp with hp | hp
      · exact Or.inr ⟨rfl, hp⟩
      · exact Or.inl hp
  have first_of_left : ∀ p, p ∈ Al.firstpos →
      p ∈ (if Al.nullable then setOfList (Al.firstpos ++ Ar.firstpos) else Al.firstpos) := by
    intro p hp
    split
    · simp [mem_setOfList, hp]
    · exact hp
  have last_of_right : ∀ p, p ∈ Ar.lastpos →
      p ∈ (if Ar.nullable then setOfList (Al.lastpos ++ Ar.lastpos) else Ar.lastpos) := by
    intro p hp
    split
    · simp [mem_setOfList, hp]
    · exact hp
  have toF3 : ∀ {p}, (v0.position < p ∧ (mapGet v2.followpos p).isSome = true) →
      (v0.position < p ∧ (mapGet F3 p).isSome = true) := by
    intro p hp
    exact ⟨hp.1, by rw [k2]; exact hp.2⟩
  -- paths
  have pathR : ∀ {p q w}, PosPath F3 v2.positions p w q → v1.position < p →
      p ≤ v2.position → PosPath v2.followpos v2.positions p w q ∧
        (v1.position < q ∧ q ≤ v2.position) := by
    intro p q w hp h1 h2
    refine PosPath.restrict (R := fun k => v1.position < k ∧ k ≤ v2.position) ?_
      (fun _ _ _ h => h) hp ⟨h1, h2⟩
    intro x y hx hf
    rcases (k3 x y).1 hf with hf | ⟨hx', _⟩
    · exact ⟨hf, hr.follows_new hx.1 hf⟩
    · have := hl.key_le (hl.last_in x hx').2
      omega
  have up2 : ∀ {p q w}, PosPath v2.followpos v2.positions p w q →
      PosPath F3 v2.positions p w q :=
    fun hp => hp.weaken (fun p q hf => (k3 p q).2 (Or.inl hf)) (fun _ _ h => h)
  have split : ∀ {p q w}, PosPath F3 v2.positions p w q → v0.position < p →
      p ≤ v1.position →
      (PosPath v1.followpos v1.positions p w q ∧ (v0.position < q ∧ q ≤ v1.position)) ∨
      ∃ w1 w2 x y, w = w1 ++ w2 ∧ PosPath v1.followpos v1.positions p w1 x ∧
        (v0.position < x ∧ x ≤ v1.position) ∧ (x ∈ Al.lastpos ∧ y ∈ Ar.firstpos) ∧
        PosPath F3 v2.positions y w2 q := by
    intro p q w hp h0 h1
    refine PosPath.split (R := fun k => v0.position < k ∧ k ≤ v1.position)
      (E := fun x y => x ∈ Al.lastpos ∧ y ∈ Ar.firstpos) ?_ ?_ hp ⟨h0, h1⟩
    · intro x y hx hf
      rcases (k3 x y).1 hf with hf | hE
      · have := (hr.follows_old y hx.2).1 hf
        exact Or.inl ⟨this, hl.follows_new hx.1 this⟩
      · exact Or.inr hE
    · intro k a hk ha
      exact hr.sym_back hl.wf k a (by omega) hk.2 ha
  refine
    { position := (binary_position hl hr : v2.position = _)
      positions := (binary_positions hl hr : v2.positions = _)
      wf := ⟨hr.wf.keys, fun k hk => hr.wf.followKeys k (by rw [← k2]; exact hk)⟩
      followOld := ?_
      followNew := ?_
      first_nodup := ?_
      first_in := ?_
      last_nodup := ?_
      last_in := ?_
      nonempty := ?_
      coacc := ?_
      lang := ?_ }
  · intro k hk
    show mapGet F3 k = mapGet v0.followpos k
    rw [k1 k (fun hc => by have := (hl.last_in k hc).1; omega)]
    exact binary_followOld hl hr k hk
  · intro k S' hk hS'
    have hS' : mapGet F3 k = some S' := hS'
    refine ⟨k4 k S' hS' (fun S hS => (binary_followNew hl hr k S hk hS).1), fun q hq => ?_⟩
    show v0.position < q ∧ (mapGet F3 q).isSome = true
    rcases (k3 k q).1 ⟨S', hS', hq⟩ with ⟨S, hS, hqS⟩ | ⟨_, hq'⟩
    · exact toF3 ((binary_followNew hl hr k S hk hS).2 q hqS)
    · exact toF3 (right_in_final hl (hr.first_in q hq'))
  · simp only [firstpos_mk_concat]
    split
    · exact nodup_setOfList _
    · exact hl.first_nodup
  · intro p hp
    simp only [firstpos_mk_concat] at hp
    show v0.position < p ∧ (mapGet F3 p).isSome = true
    rcases first_mem p hp with hp | ⟨_, hp⟩
    · exact toF3 (left_in_final hl hr (hl.first_in p hp))
    · exact toF3 (right_in_final hl (hr.first_in p hp))
  · simp only [lastpos_mk_concat]
    split
    · exact nodup_setOfList _
    · exact hr.last_nodup
  · intro p hp
    simp only [lastpos_mk_concat] at hp
    show v0.position < p ∧ (mapGet F3 p).isSome = true
    rcases last_mem p hp with hp | ⟨_, hp⟩
    · exact toF3 (right_in_final hl (hr.last_in p hp))
    · exact toF3 (left_in_final hl hr (hl.last_in p hp))
  · intro hn
    simp only [nullable_mk_concat] at hn
    simp only [firstpos_mk_concat]
    cases hA : Al.nullable with
    | false =>
      simp only [Bool.false_eq_true, ↓reduceIte]
      exact hl.nonempty hA
    | true =>
      rw [hA] at hn
      simp only [Bool.true_and] at hn
      obtain ⟨y, hy⟩ := List.exists_mem_of_ne_nil _ (hr.nonempty hn)
      have hy' : y ∈ setOfList (Al.firstpos ++ Ar.firstpos) := by
        simp [mem_setOfList, hy]
      simp only [↓reduceIte]
      exact List.ne_nil_of_mem hy'
  · intro p hp hs
    have hs2 : (mapGet v2.followpos p).isSome = true := by
      rw [← k2]; exact hs
    show ∃ w, ∃ q ∈ _, PosPath F3 v2.positions p w q
    simp only [lastpos_mk_concat]
    by_cases h1 : p ≤ v1.position
    · rw [hr.followOld p h1] at hs2
      obtain ⟨w, x, hx, hpath⟩ := hl.coacc p hp hs2
      have P1 := up2 (path_left_up hl hr hpath)
      cases hn : Ar.nullable with
      | true =>
        exact ⟨w, x, by simp [mem_setOfList, hx], P1⟩
      | false =>
        obtain ⟨y, hy⟩ := List.exists_mem_of_ne_nil _ (hr.nonempty hn)
        have hyin := hr.first_in y hy
        obtain ⟨w2, z, hz, hpath2⟩ := hr.coacc y hyin.1 hyin.2
        exact ⟨w ++ w2, z, by simpa using hz,
          P1.append ((k3 x y).2 (Or.inr ⟨hx, hy⟩)) (up2 hpath2)⟩
    · obtain ⟨w, q, hq, hpath⟩ := hr.coacc p (by omega) hs2
      exact ⟨w, q, last_of_right q hq, up2 hpath⟩
  · intro hε w
    have il := hl.lang hε.1
    have ir := hr.lang hε.2
    simp only [languageOf, Language.mem_mul, nullable_mk_concat, firstpos_mk_concat,
      lastpos_mk_concat, Bool.and_eq_true]
    show _ ↔ _ ∨ ∃ p ∈ _, ∃ q ∈ _, PosPath F3 v2.positions p w q
    constructor
    · rintro ⟨u, hu, v, hv, rfl⟩
      rcases (il u).1 hu with ⟨u0, un⟩ | ⟨p, hp, x, hx, pl⟩
      · subst u0
        rcases (ir v).1 hv with ⟨v0', vn⟩ | ⟨y, hy, q, hq, pr⟩
        · subst v0'
          exact Or.inl ⟨rfl, un, vn⟩
        · right
          refine ⟨y, ?_, q, last_of_right q hq, by simpa using up2 pr⟩
          rw [un]
          simp [mem_setOfList, hy]
      · rcases (ir v).1 hv with ⟨v0', vn⟩ | ⟨y, hy, q, hq, pr⟩
        · subst v0'
          right
          refine ⟨p, first_of_left p hp, x, ?_, by
            simpa using up2 (path_left_up hl hr pl)⟩
          rw [vn]
          simp [mem_setOfList, hx]
        · right
          exact ⟨p, first_of_left p hp, q, last_of_right q hq,
            (up2 (path_left_up hl hr pl)).append ((k3 x y).2 (Or.inr ⟨hx, hy⟩)) (up2 pr)⟩
    · rintro (⟨h1, h2, h3⟩ | ⟨p, hp, q, hq, hpath⟩)
      · exact ⟨[], (il []).2 (Or.inl ⟨rfl, h2⟩), [], (ir []).2 (Or.inl ⟨rfl, h3⟩), by
          simp [h1]⟩
      · rcases first_mem p hp with hp | ⟨hn, hp⟩
        · have hpin := hl.first_in p hp
          rcases split hpath hpin.1 (hl.key_le hpin.2) with
            ⟨h3, h4⟩ | ⟨w1, w2, x, y, hw, h3, _, ⟨hx, hy⟩, h6⟩
          · rcases last_mem q hq with hq | ⟨hnr, hq⟩
            · have := (hr.last_in q hq).1
              omega
            · exact ⟨w, (il w).2 (Or.inr ⟨p, hp, q, hq, h3⟩), [],
                (ir []).2 (Or.inl ⟨rfl, hnr⟩), by simp⟩
          · have hyin := hr.first_in y hy
            obtain ⟨h7, h8⟩ := pathR h6 hyin.1 (hr.key_le hyin.2)
            rcases last_mem q hq with hq | ⟨_, hq⟩
            · exact ⟨w1, (il w1).2 (Or.inr ⟨p, hp, x, hx, h3⟩), w2,
                (ir w2).2 (Or.inr ⟨y, hy, q, hq, h7⟩), hw.symm⟩
            · have := hl.key_le (hl.last_in q hq).2
              omega
        · have hpin := hr.first_in p hp
          obtain ⟨h7, h8⟩ := pathR hpath hpin.1 (hr.key_le hpin.2)
          rcases last_mem q hq with hq | ⟨_, hq⟩
          · exact ⟨[], (il []).2 (Or.inl ⟨rfl, hn⟩), w,
              (ir w).2 (Or.inr ⟨p, hp, q, hq, h7⟩), by simp⟩
          · have := hl.key_le (hl.last_in q hq).2
            omega

end Concat

section Star

variable {c : AST} {v0 v1 : FollowVars} {Ac : AnnotatedAST}

theorem traversed_star (hc : Traversed c v0 Ac v1) {F2 : List (Nat × List Nat)}
    (k1 : ∀ k, k ∉ Ac.lastpos → mapGet F2 k = mapGet v1.followpos k)
    (k2 : ∀ k, (mapGet F2 k).isSome = (mapGet v1.followpos k).isSome)
    (k3 : ∀ k x, Follows F2 k x ↔
      Follows v1.followpos k x ∨ (k ∈ Ac.lastpos ∧ x ∈ Ac.firstpos))
    (k4 : ∀ k S', mapGet F2 k = some S' →
      (∀ S, mapGet v1.followpos k = some S → S.Nodup) → S'.Nodup) :
    Traversed (.KLEENE_STAR c) v0
      (.KLEENE_STAR Ac
        { position := none, nullable := true, firstpos := Ac.firstpos,
          lastpos := Ac.lastpos })
      { v1 with followpos := F2 } := by
  have toF2 : ∀ {p}, (v0.position < p ∧ (mapGet v1.followpos p).isSome = true) →
      (v0.position < p ∧ (mapGet F2 p).isSome = true) := by
    intro p hp
    exact ⟨hp.1, by rw [k2]; exact hp.2⟩
  have up : ∀ {p q w}, PosPath v1.followpos v1.positions p w q →
      PosPath F2 v1.positions p w q :=
    fun hp => hp.weaken (fun p q hf => (k3 p q).2 (Or.inl hf)) (fun _ _ h => h)
  refine
    { position := hc.position
      positions := hc.positions
      wf := ⟨hc.wf.keys, fun k hk => hc.wf.followKeys k (by rw [← k2]; exact hk)⟩
      followOld := ?_
      followNew := ?_
      first_nodup := hc.first_nodup
      first_in := fun p hp => toF2 (hc.first_in p hp)
      last_nodup := hc.last_nodup
      last_in := fun p hp => toF2 (hc.last_in p hp)
      nonempty := ?_
      coacc := ?_
      lang := ?_ }
  · intro k hk
    show mapGet F2 k = mapGet v0.followpos k
    rw [k1 k (fun h => by have := (hc.last_in k h).1; omega)]
    exact hc.followOld k hk
  · intro k S' hk hS'
    have hS' : mapGet F2 k = some S' := hS'
    refine ⟨k4 k S' hS' (fun S hS => (hc.followNew k S hk hS).1), fun q hq => ?_⟩
    show v0.position < q ∧ (mapGet F2 q).isSome = true
    rcases (k3 k q).1 ⟨S', hS', hq⟩ with ⟨S, hS, hqS⟩ | ⟨_, hq'⟩
    · exact toF2 ((hc.followNew k S hk hS).2 q hqS)
    · exact toF2 (hc.first_in q hq')
  · intro hn
    simp [nullable_mk_star] at hn
  · intro p hp hs
    have hs1 : (mapGet v1.followpos p).isSome = true := by
      rw [← k2]; exact hs
    obtain ⟨w, q, hq, hpath⟩ := hc.coacc p hp hs1
    exact ⟨w, q, hq, up hpath⟩
  · intro hε w
    have ic := hc.lang hε
    simp only [languageOf, nullable_mk_star, firstpos_mk_star, lastpos_mk_star, and_true]
    show _ ↔ _ ∨ ∃ p ∈ _, ∃ q ∈ _, PosPath F2 v1.positions p w q
    constructor
    · intro hw
      rw [Language.mem_kstar_iff_exists_nonempty] at hw
      obtain ⟨S, rfl, hS⟩ := hw
      have chain : ∀ (S : List (List Char)) (y : List Char),
          (∀ z ∈ y :: S, z ∈ languageOf c ∧ z ≠ []) →
          ∃ p ∈ Ac.firstpos, ∃ q ∈ Ac.lastpos,
            PosPath F2 v1.positions p (y :: S).flatten q := by
        intro S
        induction S with
        | nil =>
          intro y hy
          obtain ⟨hy1, hy2⟩ := hy y (List.mem_cons_self _ _)
          rcases (ic y).1 hy1 with ⟨h, _⟩ | ⟨p, hp, q, hq, hpath⟩
          · exact absurd h hy2
          · exact ⟨p, hp, q, hq, by simpa using up hpath⟩
        | cons z S ih =>
          intro y hy
          obtain ⟨hy1, hy2⟩ := hy y (List.mem_cons_self _ _)
          obtain ⟨p', hp', q', hq', hpath'⟩ := ih z (fun t ht => hy t (List.mem_cons_of_mem _ ht))
          rcases (ic y).1 hy1 with ⟨h, _⟩ | ⟨p, hp, x, hx, hpath⟩
          · exact absurd h hy2
          · refine ⟨p, hp, q', hq', ?_⟩
            rw [List.flatten_cons]
            exact (up hpath).append ((k3 x p').2 (Or.inr ⟨hx, hp'⟩)) hpath'
      cases S with
      | nil => exact Or.inl rfl
      | cons y S => exact Or.inr (chain S y hS)
    · rintro (h | ⟨p, hp, q, hq, hpath⟩)
      · rw [h]; exact Language.nil_mem_kstar _
      · have key : ∀ (p q : Nat) (w : List Char), PosPath F2 v1.positions p w q →
            v0.position < p → q ∈ Ac.lastpos →
            ∃ u v, w = u ++ v ∧ (∃ x ∈ Ac.lastpos, PosPath v1.followpos v1.positions p u x) ∧
              v ∈ KStar.kstar (languageOf c) := by
          intro p q w hpath
          induction hpath with
          | @single p a ha =>
            intro _ hq
            exact ⟨[a], [], rfl, ⟨p, hq, PosPath.single ha⟩, Language.nil_mem_kstar _⟩
          | @step p p' r a w ha hf _ ih =>
            intro h0 hq
            rcases (k3 p p').1 hf with hf1 | ⟨hpl, hpf⟩
            · obtain ⟨u', v', hw, ⟨x', hx', hp1⟩, hv'⟩ := ih (hc.follows_new h0 hf1).1 hq
              exact ⟨a :: u', v', by rw [hw]; rfl, ⟨x', hx', PosPath.step ha hf1 hp1⟩, hv'⟩
            · obtain ⟨u', v', hw, ⟨x', hx', hp1⟩, hv'⟩ := ih (hc.first_in p' hpf).1 hq
              refine ⟨[a], w, rfl, ⟨p, hpl, PosPath.single ha⟩, ?_⟩
              rw [hw]
              exact append_mem_kstar ((ic u').2 (Or.inr ⟨p', hpf, x', hx', hp1⟩)) hv'
        obtain ⟨u, v, hw, ⟨x, hx, hp1⟩, hv⟩ := key p q w hpath (hc.first_in p hp).1 hq
        rw [hw]
        exact append_mem_kstar ((ic u).2 (Or.inr ⟨p, hp, x, hx, hp1⟩)) hv

end Star

/-- The annotation pass succeeds on every AST and keeps the variables well
formed; for an AST without `'ε'` leaf, the words of its language are the words
read along the position paths from `firstpos` to `lastpos` (and the empty word
when the node is nullable). -/
theorem traversed (ast : AST) :
    ∀ v0 : FollowVars, v0.WF → ∃ A v1, traverse ast v0 = some (A, v1) ∧ Traversed ast v0 A v1 := by
  induction ast with
  | CHAR c => exact fun v0 hwf => traverse_char c v0 hwf
  | CONCAT l r ihl ihr =>
    intro v0 hwf
    obtain ⟨Al, v1, e1, hl⟩ := ihl v0 hwf
    obtain ⟨Ar, v2, e2, hr⟩ := ihr v1 hl.wf
    obtain ⟨F3, e3, k1, k2, k3, k4⟩ := followLink_spec Al.lastpos Ar.firstpos
      (F := v2.followpos) (fun p hp => (left_in_final hl hr (hl.last_in p hp)).2)
    exact ⟨_, _, by simp only [traverse, e1, e2, e3], traversed_concat hl hr k1 k2 k3 k4⟩
  | ALTERNATION l r ihl ihr =>
    intro v0 hwf
    obtain ⟨Al, v1, e1, hl⟩ := ihl v0 hwf
    obtain ⟨Ar, v2, e2, hr⟩ := ihr v1 hl.wf
    exact ⟨_, _, by simp only [traverse, e1, e2], traversed_alternation hl hr⟩
  | KLEENE_STAR c ih =>
    intro v0 hwf
    obtain ⟨Ac, v1, e1, hc⟩ := ih v0 hwf
    obtain ⟨F2, e2, k1, k2, k3, k4⟩ := followLink_spec Ac.lastpos Ac.firstpos
      (F := v1.followpos) (fun p hp => (hc.last_in p hp).2)
    exact ⟨_, _, by simp only [traverse, e1, e2], traversed_star hc k1 k2 k3 k4⟩

/-! ## The construction `buildDfaFromFollowpos` -/

section DirectRefine

variable (P : List (Nat × Char)) (F : List (Nat × List Nat)) (e : Nat)

theorem directSymbol_core (cur : List Nat) (curId : Nat) (v : DirectVars) (a : Char) :
    (directSymbol P F e cur curId v a).map DirectVars.core =
      bfsSymbol (nextDirect P F) posToKey (mkDirect e) cur curId v.core a := by
  unfold directSymbol bfsSymbol nextDirect
  by_cases h : (cur.filter fun p => mapGet P p == some a).length = 0
  · simp [h]
  · simp only [h, ↓reduceIte]
    cases unionFollowpos F [] (cur.filter fun p => mapGet P p == some a) with
    | none => rfl
    | some U =>
      simp only
      by_cases hU : U.length > 0
      · simp only [hU, ↓reduceIte]
        show Option.map DirectVars.core
          (match mapGet v.dfaStates (posToKey U) with
            | none => _
            | some nextDfaId => _) = match mapGet v.dfaStates (posToKey U) with
            | none => _
            | some nextDfaId => _
        cases mapGet v.dfaStates (posToKey U) with
        | none =>
          simp only [Option.map_map]
          rfl
        | some j =>
          simp only [Option.map_map]
          rfl
      · simp only [hU, ↓reduceIte]
        rfl

theorem directSymbols_core (cur : List Nat) (curId : Nat) (syms : List Char) :
    ∀ v : DirectVars, (directSymbols P F e cur curId v syms).map DirectVars.core =
      bfsSymbols (nextDirect P F) posToKey (mkDirect e) cur curId v.core syms := by
  induction syms with
  | nil => intro v; rfl
  | cons a rest ih =>
    intro v
    simp only [directSymbols, bfsSymbols, ← directSymbol_core]
    cases directSymbol P F e cur curId v a with
    | none => rfl
    | some v' => exact ih v'

theorem directLoop_core (alphabet : List Char) (fuel : Nat) :
    ∀ (head : Nat) (v : DirectVars),
      (directLoop P F e alphabet fuel head v).map DirectVars.core =
        bfsLoop (nextDirect P F) posToKey (mkDirect e) alphabet fuel head v.core := by
  induction fuel with
  | zero => intro head v; rfl
  | succ fuel ih =>
    intro head v
    have hq : v.core.queue = v.queue := rfl
    have hd : v.core.dfaStates = v.dfaStates := rfl
    simp only [directLoop, bfsLoop, hq, hd]
    cases hq1 : v.queue[head]? with
    | none => rfl
    | some cur =>
      simp only []
      cases hm : mapGet v.dfaStates (posToKey cur) with
      | none => rfl
      | some curId =>
        simp only []
        split
        · rename_i heq
          have hc := congrArg (Option.map DirectVars.core) heq
          rw [directSymbols_core] at hc
          have hc' : bfsSymbols (nextDirect P F) posToKey (mkDirect e) cur curId v.core
              alphabet = none := hc
          rw [hc']
          rfl
        · rename_i v' heq
          have hc := congrArg (Option.map DirectVars.core) heq
          rw [directSymbols_core] at hc
          have hc' : bfsSymbols (nextDirect P F) posToKey (mkDirect e) cur curId v.core
              alphabet = some v'.core := hc
          rw [hc']
          exact ih _ v'

end DirectRefine

section DirectSem

variable {P : List (Nat × Char)} {F : List (Nat × List Nat)}

theorem unionFollowpos_spec (srcs : List Nat) :
    ∀ acc : List Nat, (∀ p ∈ srcs, (mapGet F p).isSome = true) →
      ∃ U, unionFollowpos F acc srcs = some U ∧ (acc.Nodup → U.Nodup) ∧
        ∀ x, x ∈ U ↔ x ∈ acc ∨ ∃ p ∈ srcs, Follows F p x := by
  induction srcs with
  | nil =>
    intro acc _
    exact ⟨acc, rfl, fun h => h, fun x => by simp⟩
  | cons p rest ih =>
    intro acc hs
    obtain ⟨S, hS⟩ := Option.isSome_iff_exists.1 (hs p (List.mem_cons_self _ _))
    obtain ⟨U, hU, hn, hm⟩ := ih (S.foldl setAdd acc)
      (fun q hq => hs q (List.mem_cons_of_mem _ hq))
    refine ⟨U, by simp only [unionFollowpos, hS, hU],
      fun h => hn (nodup_foldl_setAdd _ _ h), fun x => ?_⟩
    rw [hm, mem_foldl_setAdd]
    simp only [List.mem_cons, exists_eq_or_imp, Follows, hS, Option.some.injEq,
      exists_eq_left']
    tauto

theorem mem_contributing (S : List Nat) (a : Char) (p : Nat) :
    p ∈ S.filter (fun p => mapGet P p == some a) ↔ p ∈ S ∧ mapGet P p = some a := by
  simp [List.mem_filter]

/-- The successor of a good set of positions is computed (no lookup fails) and
is good; it is the union of the `followpos` of the members that carry the symbol. -/
theorem nextDirect_spec
    (hF : ∀ k S, mapGet F k = some S → S.Nodup ∧ ∀ q ∈ S, (mapGet F q).isSome = true)
    {S : List Nat} (g : GoodPos F S) (a : Char) :
    (nextDirect P F S a = some none ∧
      ∀ x, ¬ ∃ p ∈ S, mapGet P p = some a ∧ Follows F p x) ∨
    ∃ T, nextDirect P F S a = some (some T) ∧ GoodPos F T ∧ T ≠ [] ∧
      ∀ x, x ∈ T ↔ ∃ p ∈ S, mapGet P p = some a ∧ Follows F p x := by
  unfold nextDirect
  by_cases h : (S.filter fun p => mapGet P p == some a).length = 0
  · left
    refine ⟨by simp only [h, ↓reduceIte], ?_⟩
    rintro x ⟨p, hp, ha, _⟩
    have : p ∈ S.filter fun p => mapGet P p == some a := (mem_contributing S a p).2 ⟨hp, ha⟩
    rw [List.length_eq_zero.1 h] at this
    simp at this
  · obtain ⟨U, hU, hn, hm⟩ := unionFollowpos_spec (F := F)
      (S.filter fun p => mapGet P p == some a) []
      (fun p hp => g.2 p ((mem_contributing S a p).1 hp).1)
    have hmem : ∀ x, x ∈ U ↔ ∃ p ∈ S, mapGet P p = some a ∧ Follows F p x := by
      intro x
      rw [hm]
      simp only [List.not_mem_nil, false_or]
      constructor
      · rintro ⟨p, hp, hf⟩
        obtain ⟨h1, h2⟩ := (mem_contributing S a p).1 hp
        exact ⟨p, h1, h2, hf⟩
      · rintro ⟨p, h1, h2, hf⟩
        exact ⟨p, (mem_contributing S a p).2 ⟨h1, h2⟩, hf⟩
    simp only [h, ↓reduceIte, hU]
    by_cases hlen : U.length > 0
    · right
      refine ⟨U, by simp only [hlen, ↓reduceIte], ⟨hn List.nodup_nil, fun x hx => ?_⟩,
        List.ne_nil_of_length_pos hlen, hmem⟩
      obtain ⟨p, _, _, S', hS', hxS⟩ := (hmem x).1 hx
      exact (hF p S' hS').2 x hxS
    · left
      refine ⟨by simp only [hlen, ↓reduceIte], ?_⟩
      intro x hx
      have := (hmem x).2 hx
      have : U = [] := List.length_eq_zero.1 (by omega)
      simp_all

theorem posToKey_eq_iff {S S' : List Nat} (g : GoodPos F S) (g' : GoodPos F S') :
    posToKey S = posToKey S' ↔ ∀ x, x ∈ S ↔ x ∈ S' :=
  sortedKey_eq_iff g.1 g'.1

theorem direct_bound {n : Nat} (hK : ∀ k, (mapGet F k).isSome = true → 1 ≤ k ∧ k ≤ n)
    (q : List (List Nat)) (hq : ∀ S ∈ q, GoodPos F S) (hk : (q.map posToKey).Nodup) :
    q.length ≤ 2 ^ n := by
  have hinj : ∀ S ∈ q, ∀ S' ∈ q, S.toFinset = S'.toFinset → S = S' := by
    intro S hS S' hS' e
    have : posToKey S = posToKey S' :=
      (posToKey_eq_iff (hq S hS) (hq S' hS')).2 (fun x => by
        have := Finset.ext_iff.1 e x
        simpa using this)
    exact List.inj_on_of_nodup_map hk hS hS' this
  have hn : (q.map List.toFinset).Nodup := List.Nodup.map_on hinj (List.Nodup.of_map _ hk)
  have hsub : (q.map List.toFinset).toFinset ⊆ (Finset.Icc 1 n).powerset := by
    intro G hG
    simp only [List.mem_toFinset, List.mem_map] at hG
    obtain ⟨S, hS, rfl⟩ := hG
    rw [Finset.mem_powerset]
    intro x hx
    simp only [List.mem_toFinset] at hx
    exact Finset.mem_Icc.2 (hK x ((hq S hS).2 x hx))
  have := Finset.card_le_card hsub
  rw [List.toFinset_card_of_nodup hn, Finset.card_powerset, Nat.card_Icc,
    List.length_map] at this
  simpa using this

/-- The automaton of position sets accepts from a good set the words `w` such
that `w` followed by the end marker is read along a position path from a member
of the set to the end-marker position. -/
theorem absAccepts_direct {endPos : Nat} {A : List Char}
    (hF : ∀ k S, mapGet F k = some S → S.Nodup ∧ ∀ q ∈ S, (mapGet F q).isSome = true)
    (hEndSym : mapGet P endPos = some '#')
    (hHash : ∀ k, mapGet P k = some '#' → k = endPos)
    (hEndF : mapGet F endPos = some [])
    (hA : ∀ a, a ∈ A ↔ (a ≠ '#' ∧ ∃ k, mapGet P k = some a)) :
    ∀ (w : List Char) (S : List Nat), GoodPos F S →
      (absAccepts (nextDirect P F) (fun S => S.contains endPos) A S w ↔
        ∃ p ∈ S, PosPath F P p (w ++ ['#']) endPos) := by
  have noFollow : ∀ x, ¬ Follows F endPos x := by
    rintro x ⟨S, hS, hx⟩
    rw [hEndF] at hS
    rw [← Option.some.inj hS] at hx
    simp at hx
  intro w
  induction w with
  | nil =>
    intro S _
    rw [absAccepts_nil]
    have hc : (S.contains endPos = true) ↔ endPos ∈ S := by simp
    simp only [hc, List.nil_append]
    constructor
    · intro h
      exact ⟨endPos, h, PosPath.single hEndSym⟩
    · rintro ⟨p, hp, hpath⟩
      rcases hpath.invert with ⟨a, _, hq, _⟩ | ⟨a, w', p', hw, ha, hf, hr⟩
      · rw [hq]; exact hp
      · simp only [List.cons.injEq] at hw
        rw [← hw.1] at ha
        rw [hHash p ha] at hf
        exact absurd hf (noFollow p')
  | cons a w ih =>
    intro S g
    rw [absAccepts_cons]
    constructor
    · rintro ⟨_, T, hT, hw⟩
      rcases nextDirect_spec (P := P) hF g a with ⟨h1, _⟩ | ⟨T', h1, gT, _, hmem⟩
      · rw [h1] at hT; simp at hT
      · have : T' = T := by
          rw [h1] at hT
          exact Option.some.inj (Option.some.inj hT)
        subst this
        obtain ⟨q, hq, hpath⟩ := (ih T' gT).1 hw
        obtain ⟨p, hp, ha, hf⟩ := (hmem q).1 hq
        exact ⟨p, hp, PosPath.step ha hf hpath⟩
    · rintro ⟨p, hp, hpath⟩
      rcases hpath.invert with ⟨b, hw, _, _⟩ | ⟨b, w', p', hw, hb, hf, hr⟩
      · simp at hw
      · simp only [List.cons_append, List.cons.injEq] at hw
        obtain ⟨e1, e2⟩ := hw
        subst e1 e2
        have ha : a ∈ A := by
          rw [hA]
          refine ⟨fun e => ?_, p, hb⟩
          rw [e] at hb
          rw [hHash p hb] at hf
          exact noFollow p' hf
        rcases nextDirect_spec (P := P) hF g a with ⟨_, h2⟩ | ⟨T, h1, gT, _, hmem⟩
        · exact absurd ⟨p, hp, hb, hf⟩ (h2 p')
        · exact ⟨ha, T, h1, (ih T gT).2 ⟨p', (hmem p').2 ⟨p, hp, hb, hf⟩, hr⟩⟩

end DirectSem

/-! ## `calculateFollowpos` and `generateDfaDirectly` -/

theorem mem_foldl_symAdd (l acc : List Char) (y : Char) :
    y ∈ l.foldl symAdd acc ↔ y ∈ acc ∨ y ∈ l := by
  induction l generalizing acc with
  | nil => simp
  | cons x l ih =>
    simp only [List.foldl_cons, ih, mem_symAdd, List.mem_cons]
    tauto

theorem mem_positionsAlphabet (P : List (Nat × Char)) (a : Char) :
    a ∈ positionsAlphabet P ↔ (a ≠ '#' ∧ a ∈ P.map Prod.snd) := by
  unfold positionsAlphabet
  rw [mem_sortSymbols, List.mem_filter, mem_foldl_symAdd]
  simp only [List.not_mem_nil, false_or, ne_eq, decide_not, Bool.not_eq_eq_eq_not, Bool.not_true,
    decide_eq_false_iff_not]
  tauto

theorem mapGet_of_mem_nodup {α β : Type} [BEq α] [LawfulBEq α] {m : List (α × β)} {k : α}
    {v : β} (hn : (m.map Prod.fst).Nodup) (h : (k, v) ∈ m) : mapGet m k = some v := by
  induction m with
  | nil => simp at h
  | cons e m ih =>
    obtain ⟨k0, v0⟩ := e
    simp only [List.map_cons, List.nodup_cons] at hn
    unfold mapGet at ih ⊢
    rcases List.mem_cons.1 h with h1 | h2
    · simp only [Prod.mk.injEq] at h1
      obtain ⟨e1, e2⟩ := h1
      subst e1 e2
      simp [List.lookup]
    · have hne : (k == k0) = false := by
        cases hk : (k == k0) with
        | false => rfl
        | true =>
          have e1 : k = k0 := eq_of_beq hk
          subst e1
          have hmem : k ∈ m.map Prod.fst := List.mem_map.2 ⟨(k, v), h2, rfl⟩
          exact absurd hmem hn.1
      simp only [List.lookup, hne]
      exact ih hn.2 h2

theorem AST.avoids_iff (c : Char) (ast : AST) : ast.avoids c ↔ c ∉ ast.leaves := by
  induction ast with
  | CHAR v =>
    simp only [AST.avoids, AST.leaves, List.mem_singleton]
    exact ⟨fun h e => h e.symm, fun h e => h e.symm⟩
  | CONCAT l r ihl ihr => simp [AST.avoids, AST.leaves, ihl, ihr]
  | ALTERNATION l r ihl ihr => simp [AST.avoids, AST.leaves, ihl, ihr]
  | KLEENE_STAR e ih => simp [AST.avoids, AST.leaves, ih]

theorem initial_wf : FollowVars.WF { position := 0, positions := [], followpos := [] } :=
  ⟨rfl, fun k hk => by simp [mapGet] at hk⟩

theorem hash_ne_epsilon : '#' ≠ EPSILON := by decide

theorem traverse_concat_eq {l r : AST} {v0 v1 v2 : FollowVars} {Al Ar : AnnotatedAST}
    {F3 : List (Nat × List Nat)} (e1 : traverse l v0 = some (Al, v1))
    (e2 : traverse r v1 = some (Ar, v2))
    (e3 : followLink v2.followpos Al.lastpos Ar.firstpos = some F3) :
    traverse (.CONCAT l r) v0 =
      some (.CONCAT Al Ar
        { position := none, nullable := Al.nullable && Ar.nullable,
          firstpos := if Al.nullable then setOfList (Al.firstpos ++ Ar.firstpos)
                      else Al.firstpos,
          lastpos := if Ar.nullable then setOfList (Al.lastpos ++ Ar.lastpos)
                     else Ar.lastpos },
        { v2 with followpos := F3 }) := by
  simp only [traverse, e1, e2, e3]

theorem calculateFollowpos_spec (ast : AST) :
    ∃ d, calculateFollowpos ast = some d ∧ RootFacts ast d := by
  obtain ⟨Al, v1, e1, hl⟩ := traversed ast _ initial_wf
  have hp1 : v1.position = ast.leaves.length := by
    rw [hl.position]; simp
  obtain ⟨Ar, v2, e2, hr⟩ := traverse_char '#' v1 hl.wf
  have e2x : traverse (.CHAR '#') v1 =
      some (.CHAR '#' { position := some (v1.position + 1), nullable := false,
                        firstpos := [v1.position + 1], lastpos := [v1.position + 1] },
            { position := v1.position + 1,
              positions := mapSet v1.positions (v1.position + 1) '#',
              followpos := mapSet v1.followpos (v1.position + 1) [] }) := by
    simp only [traverse, ne_eq, hash_ne_epsilon, not_false_eq_true, ↓reduceIte]
  have hArN : Ar.nullable = false := by
    rw [e2x] at e2
    simp only [Option.some.injEq, Prod.mk.injEq] at e2
    rw [← e2.1]; rfl
  have hArF : Ar.firstpos = [v1.position + 1] := by
    rw [e2x] at e2
    simp only [Option.some.injEq, Prod.mk.injEq] at e2
    rw [← e2.1]; rfl
  have hArL : Ar.lastpos = [v1.position + 1] := by
    rw [e2x] at e2
    simp only [Option.some.injEq, Prod.mk.injEq] at e2
    rw [← e2.1]; rfl
  have hv2P : v2.positions = mapSet v1.positions (v1.position + 1) '#' := by
    rw [e2x] at e2
    simp only [Option.some.injEq, Prod.mk.injEq] at e2
    rw [← e2.2]
  have hv2F : v2.followpos = mapSet v1.followpos (v1.position + 1) [] := by
    rw [e2x] at e2
    simp only [Option.some.injEq, Prod.mk.injEq] at e2
    rw [← e2.2]
  obtain ⟨F3, e3, k1, k2, k3, k4⟩ := followLink_spec Al.lastpos Ar.firstpos
    (F := v2.followpos) (fun p hp => (left_in_final hl hr (hl.last_in p hp)).2)
  have root := traversed_concat hl hr k1 k2 k3 k4
  have hcalc : calculateFollowpos ast = some
      { augmentedAst := .CONCAT Al Ar
          { position := none, nullable := Al.nullable && Ar.nullable,
            firstpos := if Al.nullable then setOfList (Al.firstpos ++ Ar.firstpos)
                        else Al.firstpos,
            lastpos := if Ar.nullable then setOfList (Al.lastpos ++ Ar.lastpos)
                       else Ar.lastpos },
        positions := v2.positions, followpos := F3 } := by
    simp only [calculateFollowpos, traverse_concat_eq e1 e2 e3]
  refine ⟨_, hcalc, ?_⟩
  have hpos : v2.positions =
      (List.range' 1 (ast.leaves.length + 1)).zip (ast.leaves ++ ['#']) := by
    have := root.positions
    simpa [AST.leaves] using this
  have hkeys : v2.positions.map Prod.fst = List.range' 1 (ast.leaves.length + 1) := by
    have := root.wf.keys
    simp only at this
    rw [this, hr.position, hp1]
    rfl
  have hP1 : v1.positions = (List.range' 1 ast.leaves.length).zip ast.leaves := by
    have := hl.positions
    simpa using this
  have hp2 : v2.position = ast.leaves.length + 1 := by
    rw [hr.position, hp1]; rfl
  refine
    { positions := hpos
      length := by
        have := congrArg List.length hkeys
        simpa using this
      keys := by
        show (v2.positions.map Prod.fst).Nodup
        rw [hkeys]
        exact List.nodup_range' 1 _
      keysRange := by
        intro k hk
        have := root.wf.followKeys k hk
        simp only at this
        omega
      closed := by
        intro k S hS
        have hk := root.wf.followKeys k (by
          show (mapGet F3 k).isSome = true
          rw [show mapGet F3 k = some S from hS]; rfl)
        obtain ⟨h1, h2⟩ := root.followNew k S (by simp only; omega) hS
        exact ⟨h1, fun q hq => (h2 q hq).2⟩
      first_nodup := root.first_nodup
      first_in := fun p hp => (root.first_in p hp).2
      endSym := by
        show mapGet v2.positions _ = _
        rw [hv2P, ← hp1]
        exact mapGet_mapSet_self _ _ _
      endF := by
        show mapGet F3 _ = _
        rw [← hp1, k1 _ (fun hc => by
          have := hl.key_le (hl.last_in _ hc).2
          omega), hv2F]
        exact mapGet_mapSet_self _ _ _
      hash := ?_
      nonempty := root.nonempty (by simp only [nullable_mk_concat, hArN, Bool.and_false])
      coacc := ?_
      lang := ?_ }
  · intro hh k hk
    have hk : mapGet v2.positions k = some '#' := hk
    rw [hv2P] at hk
    by_cases e : k = v1.position + 1
    · rw [e, hp1]
    · rw [mapGet_mapSet_ne _ _ _ _ e] at hk
      have := mapGet_mem _ _ _ hk
      rw [hP1] at this
      exact absurd (List.of_mem_zip this).2 ((AST.avoids_iff '#' ast).1 hh)
  · intro p hp
    have hk := root.wf.followKeys p hp
    obtain ⟨w, q, hq, hpath⟩ := root.coacc p (by simp only; omega) hp
    simp only [lastpos_mk_concat, hArN, hArL, Bool.false_eq_true, ↓reduceIte,
      List.mem_singleton] at hq
    rw [hq, hp1] at hpath
    exact ⟨w, hpath⟩
  · intro hε w
    have := root.lang ⟨hε, hash_ne_epsilon⟩ (w ++ ['#'])
    simp only [languageOf, Language.mem_mul, nullable_mk_concat, firstpos_mk_concat,
      lastpos_mk_concat, hArN, hArL, Bool.false_eq_true, ↓reduceIte, List.mem_singleton,
      exists_eq_left, Bool.and_false, and_false, false_or] at this
    show _ ↔ ∃ p ∈ AnnotatedAST.firstpos (.CONCAT Al Ar _), PosPath F3 v2.positions p _ _
    simp only [firstpos_mk_concat]
    rw [← hp1, ← this]
    constructor
    · intro hw
      exact ⟨w, hw, ['#'], Set.mem_singleton _, rfl⟩
    · rintro ⟨u, hu, v, hv, huv⟩
      have hv' : v = ['#'] := hv
      rw [hv'] at huv
      rw [← List.append_cancel_right huv]
      exact hu

/-! ## The pipeline `generateDfaDirectly(ast)` -/

theorem directInit_core (e : Nat) (start : List Nat) (trace : List String) :
    DirectVars.core
      { dfaStates := mapSet [] (posToKey start) 0,
        dfaStateInfo := [{ id := 0, positions := some start,
                           isAccepting := start.contains e, transitions := [] }],
        queue := [start],
        trace := trace } = bfsInit posToKey (mkDirect e) start := rfl

theorem PosPath.last {F : List (Nat × List Nat)} {P : List (Nat × Char)} {p q : Nat}
    {w : List Char} (h : PosPath F P p w q) :
    ∃ a u, w = u ++ [a] ∧ mapGet P q = some a := by
  induction h with
  | @single p a ha => exact ⟨a, [], rfl, ha⟩
  | @step p q r a w ha _ _ ih =>
    obtain ⟨b, u, hw, hb⟩ := ih
    exact ⟨b, a :: u, by rw [hw]; rfl, hb⟩

/-- The pipeline `generateDfaDirectly(ast)` returns a result on every AST, and
each state of its DFA lists a symbol at most once; for an AST without `'#'`
leaf the DFA is trim, and for an AST without `'ε'` and without `'#'` leaf the
DFA accepts the language of the AST. -/
theorem directDfa_spec (ast : AST) :
    ∃ r, generateDfaDirectly ast = some r ∧
      (∀ st ∈ r.dfa.states, (st.transitions.map Prod.fst).Nodup) ∧
      (ast.avoids '#' → r.dfa.Trim) ∧
      (ast.avoids EPSILON → ast.avoids '#' →
        ∀ w, r.dfa.accepts w = true ↔ w ∈ languageOf ast) := by
  obtain ⟨d, hd, hR⟩ := calculateFollowpos_spec ast
  have h0 : ¬ d.augmentedAst.firstpos.length = 0 :=
    fun h => hR.nonempty (List.length_eq_zero.1 h)
  have hmk : ∀ i S, (mkDirect d.positions.length i S).transitions = [] := fun _ _ => rfl
  have c0 : GoodPos d.followpos d.augmentedAst.firstpos := ⟨hR.first_nodup, hR.first_in⟩
  have g0 : (GoodPos d.followpos d.augmentedAst.firstpos ∧ d.augmentedAst.firstpos ≠ []) ∧
      AbsReach (nextDirect d.positions d.followpos) (positionsAlphabet d.positions)
        d.augmentedAst.firstpos d.augmentedAst.firstpos :=
    ⟨⟨c0, hR.nonempty⟩, AbsReach.refl⟩
  have hnext : ∀ S a, ((GoodPos d.followpos S ∧ S ≠ []) ∧
      AbsReach (nextDirect d.positions d.followpos) (positionsAlphabet d.positions)
        d.augmentedAst.firstpos S) → a ∈ positionsAlphabet d.positions →
      ∃ r, nextDirect d.positions d.followpos S a = some r ∧
        ∀ T, r = some T → ((GoodPos d.followpos T ∧ T ≠ []) ∧
          AbsReach (nextDirect d.positions d.followpos) (positionsAlphabet d.positions)
            d.augmentedAst.firstpos T) := by
    intro S a gg ha
    obtain ⟨g, hreach⟩ := gg
    rcases nextDirect_spec (P := d.positions) hR.closed g.1 a with ⟨h1, _⟩ | ⟨T, h1, gT, hne, _⟩
    · exact ⟨none, h1, fun T hT => by simp at hT⟩
    · exact ⟨some T, h1, fun T' hT => by
        rw [← Option.some.inj hT]; exact ⟨⟨gT, hne⟩, AbsReach.step hreach ha h1⟩⟩
  have hbound : ∀ q : List (List Nat), (∀ S ∈ q, (GoodPos d.followpos S ∧ S ≠ []) ∧
      AbsReach (nextDirect d.positions d.followpos) (positionsAlphabet d.positions)
        d.augmentedAst.firstpos S) →
      (q.map posToKey).Nodup → q.length ≤ 2 ^ d.positions.length :=
    fun q hq hk => direct_bound (F := d.followpos) (n := d.positions.length)
      (fun k hk => by rw [hR.length]; exact hR.keysRange k hk) q (fun S hS => (hq S hS).1.1) hk
  obtain ⟨vb, hvb, hinv⟩ := @bfsLoop_result (nextDirect d.positions d.followpos) posToKey
    (mkDirect d.positions.length) (fun S => (GoodPos d.followpos S ∧ S ≠ []) ∧
      AbsReach (nextDirect d.positions d.followpos) (positionsAlphabet d.positions)
        d.augmentedAst.firstpos S)
    d.augmentedAst.firstpos
    (positionsAlphabet d.positions) (2 ^ d.positions.length) hmk g0 hnext hbound
  have hcore := directLoop_core d.positions d.followpos d.positions.length
    (positionsAlphabet d.positions) (2 ^ d.positions.length + 1) 0
    { dfaStates := mapSet [] (posToKey d.augmentedAst.firstpos) 0,
      dfaStateInfo := [{ id := 0, positions := some d.augmentedAst.firstpos,
                         isAccepting := d.augmentedAst.firstpos.contains d.positions.length,
                         transitions := [] }],
      queue := [d.augmentedAst.firstpos],
      trace := ["- **Initial State**: q0 = firstpos(root) = \x7b" ++
        posToKey d.augmentedAst.firstpos ++ "\x7d"] }
  rw [directInit_core, hvb] at hcore
  obtain ⟨v, hv, hvc⟩ := Option.map_eq_some'.1 hcore
  have hb : buildDfaFromFollowpos d =
      some ({ states := v.dfaStateInfo, alphabet := positionsAlphabet d.positions,
              startState := some 0 }, v.trace) := by
    simp only [buildDfaFromFollowpos, h0, ↓reduceIte, hv, Option.map_some']
  have hstates : v.dfaStateInfo = vb.dfaStateInfo := by rw [← hvc]; rfl
  have hg : generateDfaDirectly ast = some
      { dfa := { states := v.dfaStateInfo, alphabet := positionsAlphabet d.positions,
                 startState := some 0 },
        trace := v.trace, annotatedAst := d.augmentedAst, positions := d.positions,
        followpos := d.followpos } := by
    simp only [generateDfaDirectly, hd, hb]
  have hacc : ∀ S S', ((GoodPos d.followpos S ∧ S ≠ []) ∧
      AbsReach (nextDirect d.positions d.followpos) (positionsAlphabet d.positions)
        d.augmentedAst.firstpos S) → ((GoodPos d.followpos S' ∧ S' ≠ []) ∧
      AbsReach (nextDirect d.positions d.followpos) (positionsAlphabet d.positions)
        d.augmentedAst.firstpos S') →
      posToKey S = posToKey S' →
      (fun S : List Nat => S.contains d.positions.length) S =
        (fun S : List Nat => S.contains d.positions.length) S' := by
    intro S S' gg gg' e
    have g := gg.1
    have g' := gg'.1
    have hm := (posToKey_eq_iff g.1 g'.1).1 e
    simp only
    rw [Bool.eq_iff_iff]
    have c1 : (S.contains d.positions.length = true) ↔ d.positions.length ∈ S := by simp
    have c2 : (S'.contains d.positions.length = true) ↔ d.positions.length ∈ S' := by simp
    rw [c1, c2, hm]
  have hcongr : ∀ S S' a T, ((GoodPos d.followpos S ∧ S ≠ []) ∧
      AbsReach (nextDirect d.positions d.followpos) (positionsAlphabet d.positions)
        d.augmentedAst.firstpos S) → ((GoodPos d.followpos S' ∧ S' ≠ []) ∧
      AbsReach (nextDirect d.positions d.followpos) (positionsAlphabet d.positions)
        d.augmentedAst.firstpos S') →
      posToKey S = posToKey S' → a ∈ positionsAlphabet d.positions →
      nextDirect d.positions d.followpos S a = some (some T) →
      ∃ T', nextDirect d.positions d.followpos S' a = some (some T') ∧
        posToKey T = posToKey T' := by
    intro S S' a T gg gg' e _ hT
    have g := gg.1
    have g' := gg'.1
    have hm := (posToKey_eq_iff g.1 g'.1).1 e
    rcases nextDirect_spec (P := d.positions) hR.closed g.1 a with ⟨h1, _⟩ |
      ⟨T0, h1, gT, hne, hmem⟩
    · rw [h1] at hT; simp at hT
    · have : T0 = T := by
        rw [h1] at hT
        exact Option.some.inj (Option.some.inj hT)
      subst this
      obtain ⟨x, hx⟩ := List.exists_mem_of_ne_nil T0 hne
      obtain ⟨p, hp, ha, hf⟩ := (hmem x).1 hx
      rcases nextDirect_spec (P := d.positions) hR.closed g'.1 a with ⟨_, h2⟩ |
        ⟨T', h2, gT', _, hmem'⟩
      · exact absurd ⟨p, (hm p).1 hp, ha, hf⟩ (h2 x)
      · refine ⟨T', h2, (posToKey_eq_iff gT gT').2 (fun y => ?_)⟩
        rw [hmem, hmem']
        constructor
        · rintro ⟨q, h3, h4⟩; exact ⟨q, (hm q).1 h3, h4⟩
        · rintro ⟨q, h3, h4⟩; exact ⟨q, (hm q).2 h3, h4⟩
  have hA : ∀ a, a ∈ positionsAlphabet d.positions ↔
      (a ≠ '#' ∧ ∃ k, mapGet d.positions k = some a) := by
    intro a
    rw [mem_positionsAlphabet]
    constructor
    · rintro ⟨h2, h3⟩
      obtain ⟨⟨k, c⟩, hkc, hc⟩ := List.mem_map.1 h3
      simp only at hc
      subst hc
      exact ⟨h2, k, mapGet_of_mem_nodup hR.keys hkc⟩
    · rintro ⟨h2, k, h3⟩
      exact ⟨h2, List.mem_map.2 ⟨(k, a), mapGet_mem _ _ _ h3, rfl⟩⟩
  have hsem : ast.avoids '#' → ∀ (w : List Char) (S : List Nat), GoodPos d.followpos S →
      (absAccepts (nextDirect d.positions d.followpos)
          (fun S => S.contains d.positions.length) (positionsAlphabet d.positions) S w ↔
        ∃ p ∈ S, PosPath d.followpos d.positions p (w ++ ['#']) d.positions.length) :=
    fun hh => @absAccepts_direct d.positions d.followpos d.positions.length
      (positionsAlphabet d.positions) hR.closed
      (by rw [hR.length]; exact hR.endSym)
      (by rw [hR.length]; exact hR.hash hh)
      (by rw [hR.length]; exact hR.endF) hA
  refine ⟨_, hg, ?_, fun hh => ?_, fun hε hh w => ?_⟩
  · show ∀ st ∈ v.dfaStateInfo, _
    rw [hstates]
    exact hinv.nodup
  · show DFA.Trim ⟨v.dfaStateInfo, positionsAlphabet d.positions, some 0⟩
    rw [hstates]
    refine @bfs_trim (nextDirect d.positions d.followpos) posToKey
      (mkDirect d.positions.length) (fun S => (GoodPos d.followpos S ∧ S ≠ []) ∧
        AbsReach (nextDirect d.positions d.followpos) (positionsAlphabet d.positions)
          d.augmentedAst.firstpos S)
      (positionsAlphabet d.positions)
      (fun S => S.contains d.positions.length) d.augmentedAst.firstpos vb hinv
      (fun _ _ => rfl) (fun _ _ => rfl) hnext hacc hcongr (fun S gg => ?_) (fun S gg => gg.2)
    have g := gg.1
    obtain ⟨p, hp⟩ := List.exists_mem_of_ne_nil _ g.2
    obtain ⟨w, hpath⟩ := hR.coacc p (g.1.2 p hp)
    obtain ⟨a, u, hw, ha⟩ := hpath.last
    rw [hR.endSym] at ha
    rw [hw, ← Option.some.inj ha, ← hR.length] at hpath
    exact ⟨u, (hsem hh u S g.1).2 ⟨p, hp, hpath⟩⟩
  · show DFA.accepts ⟨v.dfaStateInfo, positionsAlphabet d.positions, some 0⟩ w = true ↔ _
    rw [hstates]
    have h1 := @bfs_acceptsFrom (nextDirect d.positions d.followpos) posToKey
      (mkDirect d.positions.length) (fun S => (GoodPos d.followpos S ∧ S ≠ []) ∧
        AbsReach (nextDirect d.positions d.followpos) (positionsAlphabet d.positions)
          d.augmentedAst.firstpos S)
      (positionsAlphabet d.positions)
      (fun S => S.contains d.positions.length) d.augmentedAst.firstpos vb hinv
      (fun _ _ => rfl) (fun _ _ => rfl) hnext hacc hcongr (some 0) w 0
      d.augmentedAst.firstpos hinv.first
    show DFA.acceptsFrom _ 0 w = true ↔ _
    rw [h1, hsem hh w _ c0, hR.lang hε w, hR.length]

/-! ## Every AST returned by the parser has alphanumeric leaves -/

theorem applyOperator_alphanumeric {output out : List AST} {operator : Char}
    (h : applyOperator output operator = .ok out) (ha : ∀ t ∈ output, t.alphanumeric) :
    ∀ t ∈ out, t.alphanumeric := by
  unfold applyOperator at h
  split at h
  · cases output with
    | nil => cases h
    | cons operand rest =>
      simp only [Except.ok.injEq] at h
      subst h
      intro t ht
      rcases List.mem_cons.1 ht with rfl | ht
      · exact ha operand (List.mem_cons_self _ _)
      · exact ha t (List.mem_cons_of_mem _ ht)
  · match output, h, ha with
    | [], h, _ => cases h
    | [_], h, _ => cases h
    | right :: left :: rest, h, ha =>
      simp only [Except.ok.injEq] at h
      subst h
      have hr := ha right (List.mem_cons_self _ _)
      have hl := ha left (List.mem_cons_of_mem _ (List.mem_cons_self _ _))
      intro t ht
      rcases List.mem_cons.1 ht with rfl | ht
      · split
        · exact ⟨hl, hr⟩
        · exact ⟨hl, hr⟩
      · exact ha t (List.mem_cons_of_mem _ (List.mem_cons_of_mem _ ht))

theorem popUntilParen_alphanumeric {operators : List Char} :
    ∀ {output out : List AST} {ops : List Char},
      popUntilParen output operators = .ok (out, ops) → (∀ t ∈ output, t.alphanumeric) →
      ∀ t ∈ out, t.alphanumeric := by
  induction operators with
  | nil =>
    intro output out ops h ha
    simp only [popUntilParen, Except.ok.injEq, Prod.mk.injEq] at h
    rw [← h.1]
    exact ha
  | cons top rest ih =>
    intro output out ops h ha
    unfold popUntilParen at h
    split at h
    · simp only [Except.ok.injEq, Prod.mk.injEq] at h
      rw [← h.1]
      exact ha
    · cases happ : applyOperator output top with
      | error e => rw [happ] at h; cases h
      | ok o =>
        rw [happ] at h
        exact ih h (applyOperator_alphanumeric happ ha)

theorem popWhilePrec_alphanumeric {token : Char} {operators : List Char} :
    ∀ {output out : List AST} {ops : List Char},
      popWhilePrec token output operators = .ok (out, ops) → (∀ t ∈ output, t.alphanumeric) →
      ∀ t ∈ out, t.alphanumeric := by
  induction operators with
  | nil =>
    intro output out ops h ha
    simp only [popWhilePrec, Except.ok.injEq, Prod.mk.injEq] at h
    rw [← h.1]
    exact ha
  | cons top rest ih =>
    intro output out ops h ha
    unfold popWhilePrec at h
    split at h
    · cases happ : applyOperator output top with
      | error e => rw [happ] at h; cases h
      | ok o =>
        rw [happ] at h
        exact ih h (applyOperator_alphanumeric happ ha)
    · simp only [Except.ok.injEq, Prod.mk.injEq] at h
      rw [← h.1]
      exact ha

theorem step_alphanumeric {output out : List AST} {operators ops : List Char} {token : Char}
    (h : step output operators token = .ok (out, ops)) (ha : ∀ t ∈ output, t.alphanumeric) :
    ∀ t ∈ out, t.alphanumeric := by
  unfold step at h
  split at h
  · rename_i hlit
    simp only [Except.ok.injEq, Prod.mk.injEq] at h
    rw [← h.1]
    intro t ht
    rcases List.mem_cons.1 ht with rfl | ht
    · exact hlit
    · exact ha t ht
  · split at h
    · simp only [Except.ok.injEq, Prod.mk.injEq] at h
      rw [← h.1]
      exact ha
    · split at h
      · cases hp : popUntilParen output operators with
        | error e => rw [hp] at h; cases h
        | ok r =>
          obtain ⟨o, p⟩ := r
          rw [hp] at h
          simp only [Except.ok.injEq, Prod.mk.injEq] at h
          rw [← h.1]
          exact popUntilParen_alphanumeric hp ha
      · cases hp : popWhilePrec token output operators with
        | error e => rw [hp] at h; cases h
        | ok r =>
          obtain ⟨o, p⟩ := r
          rw [hp] at h
          simp only [Except.ok.injEq, Prod.mk.injEq] at h
          rw [← h.1]
          exact popWhilePrec_alphanumeric hp ha

theorem tokenLoop_alphanumeric {tokens : List Char} :
    ∀ {output out : List AST} {operators ops : List Char},
      tokenLoop output operators tokens = .ok (out, ops) → (∀ t ∈ output, t.alphanumeric) →
      ∀ t ∈ out, t.alphanumeric := by
  induction tokens with
  | nil =>
    intro output out operators ops h ha
    simp only [tokenLoop, Except.ok.injEq, Prod.mk.injEq] at h
    rw [← h.1]
    exact ha
  | cons token rest ih =>
    intro output out operators ops h ha
    unfold tokenLoop at h
    cases hs : step output operators token with
    | error e => rw [hs] at h; cases h
    | ok r =>
      obtain ⟨o, p⟩ := r
      rw [hs] at h
      exact ih h (step_alphanumeric hs ha)

theorem drain_alphanumeric {operators : List Char} :
    ∀ {output out : List AST},
      drain output operators = .ok out → (∀ t ∈ output, t.alphanumeric) →
      ∀ t ∈ out, t.alphanumeric := by
  induction operators with
  | nil =>
    intro output out h ha
    simp only [drain, Except.ok.injEq] at h
    rw [← h]
    exact ha
  | cons top rest ih =>
    intro output out h ha
    unfold drain at h
    cases happ : applyOperator output top with
    | error e => rw [happ] at h; cases h
    | ok o =>
      rw [happ] at h
      exact ih h (applyOperator_alphanumeric happ ha)

/-- Every leaf of an AST returned by `parseRegex` is alphanumeric. -/
theorem parseRegex_alphanumeric {regex : List Char} {ast : AST}
    (h : parseRegex regex = .ok ast) : ast.alphanumeric := by
  unfold parseRegex shunt at h
  cases ht : tokenLoop [] [] (addConcat regex) with
  | error e => rw [ht] at h; cases h
  | ok r =>
    obtain ⟨output, operators⟩ := r
    rw [ht] at h
    simp only at h
    cases hd : drain output operators with
    | error e => rw [hd] at h; cases h
    | ok out =>
      rw [hd] at h
      have hall := drain_alphanumeric hd
        (tokenLoop_alphanumeric ht (fun t ht => absurd ht (List.not_mem_nil t)))
      match out, h, hall with
      | [], h, _ => cases h
      | [tree], h, hall =>
        simp only [Except.ok.injEq] at h
        subst h
        exact hall _ (List.mem_cons_self _ _)
      | _ :: _ :: _, h, _ => cases h

/-- An AST with alphanumeric leaves has no leaf valued `c` when `c` is not
alphanumeric. -/
theorem alphanumeric_avoids {c : Char} (hc : isLiteral c = false) (ast : AST)
    (h : ast.alphanumeric) : ast.avoids c := by
  induction ast with
  | CHAR v =>
    intro e
    rw [AST.alphanumeric, e, hc] at h
    cases h
  | CONCAT l r ihl ihr => exact ⟨ihl h.1, ihr h.2⟩
  | ALTERNATION l r ihl ihr => exact ⟨ihl h.1, ihr h.2⟩
  | KLEENE_STAR e ih => exact ih h

theorem isLiteral_epsilon : isLiteral EPSILON = false := by decide

theorem isLiteral_hash : isLiteral '#' = false := by decide

/-! ## Determinism, and bisimilarity of language-equivalent trim DFAs -/

theorem deterministic_of_nodup {d : DFA}
    (h : ∀ st ∈ d.states, (st.transitions.map Prod.fst).Nodup) : d.Deterministic := by
  intro st hst a t1 t2 h1 h2
  have e1 := mapGet_of_mem_nodup (h st hst) h1
  have e2 := mapGet_of_mem_nodup (h st hst) h2
  rw [e1] at e2
  exact Option.some.inj e2

/-- In two DFAs that accept the same words, a state reached in the first one
over a word from which it accepts something has a counterpart in the second
one: the state reached over the same word, which accepts the same words. -/
theorem counterpart_of_reach {d1 d2 : DFA} {s1 s2 : Nat}
    (heq : ∀ w, d1.acceptsFrom s1 w = d2.acceptsFrom s2 w)
    {s : Nat} {w u : List Char} (hrun : d1.run s1 w = some s)
    (hu : d1.acceptsFrom s u = true) :
    ∃ t, (d2.state t).isSome = true ∧ ∀ x, d1.acceptsFrom s x = d2.acceptsFrom t x := by
  have h1 : d2.acceptsFrom s2 (w ++ u) = true := by
    rw [← heq, DFA.acceptsFrom_append hrun]
    exact hu
  obtain ⟨t, ht⟩ := DFA.run_of_acceptsFrom_append h1
  have h2 : d2.acceptsFrom t u = true := by
    rw [← DFA.acceptsFrom_append ht]
    exact h1
  refine ⟨t, DFA.state_of_acceptsFrom h2, fun x => ?_⟩
  rw [← DFA.acceptsFrom_append hrun, ← DFA.acceptsFrom_append ht]
  exact heq (w ++ x)

/-- Two trim DFAs that accept the same words are bisimilar. -/
theorem bisimilar_of_equivalent {d1 d2 : DFA} (t1 : d1.Trim) (t2 : d2.Trim)
    (heq : ∀ w, d1.accepts w = d2.accepts w) : d1.Bisimilar d2 := by
  obtain ⟨s1, hs1, hv1⟩ := t1.start
  obtain ⟨s2, hs2, hv2⟩ := t2.start
  have heq' : ∀ w, d1.acceptsFrom s1 w = d2.acceptsFrom s2 w := by
    intro w
    have := heq w
    unfold DFA.accepts at this
    rw [hs1, hs2] at this
    exact this
  refine ⟨fun s t => (d1.state s).isSome = true ∧ (d2.state t).isSome = true ∧
    ∀ w, d1.acceptsFrom s w = d2.acceptsFrom t w, fun s t h => ⟨h.1, h.2.1⟩,
    fun s hs => ?_, fun t ht => ?_,
    ⟨s1, s2, hs1, hs2, hv1, hv2, heq'⟩, fun s t h => ?_, fun s t a h => ?_⟩
  · obtain ⟨s0, w, hs0, hrun⟩ := t1.reach s hs
    obtain ⟨u, hu⟩ := t1.live s hs
    rw [hs1] at hs0
    rw [← Option.some.inj hs0] at hrun
    obtain ⟨t, ht, hx⟩ := counterpart_of_reach heq' hrun hu
    exact ⟨t, hs, ht, hx⟩
  · obtain ⟨s0, w, hs0, hrun⟩ := t2.reach t ht
    obtain ⟨u, hu⟩ := t2.live t ht
    rw [hs2] at hs0
    rw [← Option.some.inj hs0] at hrun
    obtain ⟨s, hs, hx⟩ := counterpart_of_reach (fun w => (heq' w).symm) hrun hu
    exact ⟨s, hs, ht, fun x => (hx x).symm⟩
  · have := h.2.2 []
    rw [DFA.acceptsFrom_nil, DFA.acceptsFrom_nil] at this
    exact this
  · obtain ⟨_, _, hw⟩ := h
    cases hn1 : d1.next s a with
    | none =>
      cases hn2 : d2.next t a with
      | none => exact Or.inl ⟨rfl, rfl⟩
      | some t' =>
        obtain ⟨w, hacc⟩ := t2.live t' (t2.closed t a t' hn2)
        have := hw (a :: w)
        rw [DFA.acceptsFrom_cons_none hn1, DFA.acceptsFrom_cons_some hn2, hacc] at this
        cases this
    | some s' =>
      cases hn2 : d2.next t a with
      | none =>
        obtain ⟨w, hacc⟩ := t1.live s' (t1.closed s a s' hn1)
        have := hw (a :: w)
        rw [DFA.acceptsFrom_cons_some hn1, DFA.acceptsFrom_cons_none hn2, hacc] at this
        cases this
      | some t' =>
        refine Or.inr ⟨s', t', rfl, rfl, t1.closed s a s' hn1, t2.closed t a t' hn2,
          fun w => ?_⟩
        have := hw (a :: w)
        rw [DFA.acceptsFrom_cons_some hn1, DFA.acceptsFrom_cons_some hn2] at this
        exact this

/-- Both pipelines return a DFA on an AST with alphanumeric leaves; the two
DFAs are trim and accept the language of the AST. -/
theorem pipelines_spec {ast : AST} (ha : ast.alphanumeric) (σ : Store) :
    ∃ d r, subsetDfa ast σ = some d ∧ generateDfaDirectly ast = some r ∧
      d.Trim ∧ r.dfa.Trim ∧
      (∀ w, d.accepts w = true ↔ w ∈ languageOf ast) ∧
      (∀ w, r.dfa.accepts w = true ↔ w ∈ languageOf ast) := by
  have hε := alphanumeric_avoids isLiteral_epsilon ast ha
  have hh := alphanumeric_avoids isLiteral_hash ast ha
  obtain ⟨d, hd, _, ht1, hl1⟩ := subsetDfa_spec ast σ
  obtain ⟨r, hr, _, ht2, hl2⟩ := directDfa_spec ast
  exact ⟨d, r, hd, hr, ht1, ht2 hh, hl1 hε, hl2 hε hh⟩

/-- The AST of the regex `a(b|c)*`. -/
theorem parse_sample :
    parseRegex "a(b|c)*".toList =
      .ok (.CONCAT (.CHAR 'a') (.KLEENE_STAR (.ALTERNATION (.CHAR 'b') (.CHAR 'c')))) := rfl

theorem sample_avoids_epsilon :
    AST.avoids EPSILON
      (.CONCAT (.CHAR 'a') (.KLEENE_STAR (.ALTERNATION (.CHAR 'b') (.CHAR 'c')))) :=
  alphanumeric_avoids isLiteral_epsilon _ (parseRegex_alphanumeric parse_sample)

set_option maxRecDepth 100000

theorem sample_subset_eval :
    (subsetDfa (.CONCAT (.CHAR 'a') (.KLEENE_STAR (.ALTERNATION (.CHAR 'b') (.CHAR 'c'))))
        Store.initial).map
      (fun d => [d.accepts "a".toList, d.accepts "abc".toList, d.accepts "abbbcbc".toList,
        d.accepts "".toList, d.accepts "b".toList, d.accepts "ab c".toList]) =
      some [true, true, true, false, false, false] := by
  rfl

theorem sample_direct_eval :
    (generateDfaDirectly
        (.CONCAT (.CHAR 'a') (.KLEENE_STAR (.ALTERNATION (.CHAR 'b') (.CHAR 'c'))))).map
      (fun r => [r.dfa.accepts "a".toList, r.dfa.accepts "abc".toList,
        r.dfa.accepts "abbbcbc".toList, r.dfa.accepts "".toList, r.dfa.accepts "b".toList,
        r.dfa.accepts "ab c".toList]) =
      some [true, true, true, false, false, false] := by
  rfl

theorem star_subset_ids :
    (subsetDfa (.KLEENE_STAR (.CHAR 'a')) Store.initial).map
      (fun d => d.states.map DFAState.id) = some [0, 1] := by
  rfl

theorem star_direct_ids :
    (generateDfaDirectly (.KLEENE_STAR (.CHAR 'a'))).map
      (fun r => r.dfa.states.map DFAState.id) = some [0] := by
  rfl

theorem epsilon_leaf_eval :
    (subsetDfa (.CHAR EPSILON) Store.initial).map (fun d => d.accepts []) = some true := by
  rfl

/-! ## The numbering of the leaves by `traverse` -/

/-- The annotation pass keeps the tree, advances the counter by the number of
leaves and numbers the leaves consecutively, left to right. -/
theorem traverse_leaves (ast : AST) :
    ∀ (v0 : FollowVars) (A : AnnotatedAST) (v1 : FollowVars),
      traverse ast v0 = some (A, v1) →
      A.erase = ast ∧ v1.position = v0.position + ast.leaves.length ∧
      A.leafPositions = (List.range' (v0.position + 1) ast.leaves.length).map some := by
  induction ast with
  | CHAR c =>
    intro v0 A v1 h
    unfold traverse at h
    split at h
    · simp only [Option.some.injEq, Prod.mk.injEq] at h
      obtain ⟨h1, h2⟩ := h
      subst h1 h2
      simp [AnnotatedAST.erase, AnnotatedAST.leafPositions, AST.leaves]
    · simp only [Option.some.injEq, Prod.mk.injEq] at h
      obtain ⟨h1, h2⟩ := h
      subst h1 h2
      simp [AnnotatedAST.erase, AnnotatedAST.leafPositions, AST.leaves]
  | CONCAT l r ihl ihr =>
    intro v0 A v1 h
    unfold traverse at h
    cases e1 : traverse l v0 with
    | none => rw [e1] at h; cases h
    | some p1 =>
      obtain ⟨Al, va⟩ := p1
      rw [e1] at h
      simp only at h
      cases e2 : traverse r va with
      | none => rw [e2] at h; cases h
      | some p2 =>
        obtain ⟨Ar, vb⟩ := p2
        rw [e2] at h
        simp only at h
        cases e3 : followLink vb.followpos Al.lastpos Ar.firstpos with
        | none => rw [e3] at h; cases h
        | some F =>
          rw [e3] at h
          simp only [Option.some.injEq, Prod.mk.injEq] at h
          obtain ⟨h1, h2⟩ := h
          subst h1 h2
          obtain ⟨a1, a2, a3⟩ := ihl v0 Al va e1
          obtain ⟨b1, b2, b3⟩ := ihr va Ar vb e2
          refine ⟨by simp [AnnotatedAST.erase, a1, b1], ?_, ?_⟩
          · simp only [AST.leaves, List.length_append]
            rw [b2, a2]; omega
          · simp only [AnnotatedAST.leafPositions, AST.leaves, List.length_append, a3, b3, a2]
            rw [← List.map_append]
            congr 1
            have e : v0.position + l.leaves.length + 1 = v0.position + 1 + l.leaves.length := by
              omega
            rw [e, range'_append_one]
  | ALTERNATION l r ihl ihr =>
    intro v0 A v1 h
    unfold traverse at h
    cases e1 : traverse l v0 with
    | none => rw [e1] at h; cases h
    | some p1 =>
      obtain ⟨Al, va⟩ := p1
      rw [e1] at h
      simp only at h
      cases e2 : traverse r va with
      | none => rw [e2] at h; cases h
      | some p2 =>
        obtain ⟨Ar, vb⟩ := p2
        rw [e2] at h
        simp only [Option.some.injEq, Prod.mk.injEq] at h
        obtain ⟨h1, h2⟩ := h
        subst h1 h2
        obtain ⟨a1, a2, a3⟩ := ihl v0 Al va e1
        obtain ⟨b1, b2, b3⟩ := ihr va Ar vb e2
        refine ⟨by simp [AnnotatedAST.erase, a1, b1], ?_, ?_⟩
        · simp only [AST.leaves, List.length_append]
          rw [b2, a2]; omega
        · simp only [AnnotatedAST.leafPositions, AST.leaves, List.length_append, a3, b3, a2]
          rw [← List.map_append]
          congr 1
          have e : v0.position + l.leaves.length + 1 = v0.position + 1 + l.leaves.length := by
            omega
          rw [e, range'_append_one]
  | KLEENE_STAR c ih =>
    intro v0 A v1 h
    unfold traverse at h
    cases e1 : traverse c v0 with
    | none => rw [e1] at h; cases h
    | some p1 =>
      obtain ⟨Ac, va⟩ := p1
      rw [e1] at h
      simp only at h
      cases e3 : followLink va.followpos Ac.lastpos Ac.firstpos with
      | none => rw [e3] at h; cases h
      | some F =>
        rw [e3] at h
        simp only [Option.some.injEq, Prod.mk.injEq] at h
        obtain ⟨h1, h2⟩ := h
        subst h1 h2
        obtain ⟨a1, a2, a3⟩ := ih v0 Ac va e1
        exact ⟨by simp [AnnotatedAST.erase, a1], a2, a3⟩

/-- What `calculateFollowpos` returns about the leaves: the augmented tree is
`CONCAT(ast, CHAR '#')`, its leaves carry the positions `1, 2, ...` left to
right, and the `positions` map lists the leaf characters in that order. -/
theorem calculateFollowpos_leaves (ast : AST) :
    ∃ d, calculateFollowpos ast = some d ∧ RootFacts ast d ∧
      d.augmentedAst.erase = .CONCAT ast (.CHAR '#') ∧
      d.augmentedAst.leafPositions = (List.range' 1 (ast.leaves.length + 1)).map some := by
  obtain ⟨d, hd, hR⟩ := calculateFollowpos_spec ast
  refine ⟨d, hd, hR, ?_⟩
  unfold calculateFollowpos at hd
  cases ht : traverse (.CONCAT ast (.CHAR '#'))
      { position := 0, positions := [], followpos := [] } with
  | none => rw [ht] at hd; cases hd
  | some p =>
    obtain ⟨A, v⟩ := p
    rw [ht] at hd
    simp only [Option.some.injEq] at hd
    subst hd
    obtain ⟨a1, _, a3⟩ := traverse_leaves _ _ _ _ ht
    refine ⟨a1, ?_⟩
    simpa [AST.leaves] using a3

/-- A run over the empty word from a member of a set closed under `'ε'`
transitions stays in the set. -/
theorem NPath.closed_under {heap : List State} {D : Nat → Prop}
    (hD : ∀ x, D x → ∀ t ∈ targetsOf heap x EPSILON, D t) {s u : Nat} {w : List Char}
    (hp : NPath heap s w u) (hw : w = []) (hs : D s) : D u := by
  induction hp with
  | nil s => exact hs
  | eps ht _ ih => exact ih hw (hD _ hs _ ht)
  | sym _ _ _ _ => cases hw

/-! ## Evaluation of `calculateFollowpos` on the regex `(a|b)*abb` -/

set_option maxRecDepth 100000

theorem parse_textbook :
    parseRegex "(a|b)*abb".toList =
      .ok (.CONCAT (.CONCAT (.CONCAT (.KLEENE_STAR (.ALTERNATION (.CHAR 'a') (.CHAR 'b')))
        (.CHAR 'a')) (.CHAR 'b')) (.CHAR 'b')) := by
  rfl

theorem textbook_followpos_eval :
    (calculateFollowpos
        (.CONCAT (.CONCAT (.CONCAT (.KLEENE_STAR (.ALTERNATION (.CHAR 'a') (.CHAR 'b')))
          (.CHAR 'a')) (.CHAR 'b')) (.CHAR 'b'))).map
      (fun d => (d.augmentedAst.erase.leaves, d.augmentedAst.leafPositions, d.positions,
        d.followpos)) =
    some (['a', 'b', 'a', 'b', 'b', '#'],
      [some 1, some 2, some 3, some 4, some 5, some 6],
      [(1, 'a'), (2, 'b'), (3, 'a'), (4, 'b'), (5, 'b'), (6, '#')],
      [(1, [1, 2, 3]), (2, [1, 2, 3]), (3, [4]), (4, [5]), (5, [6]), (6, [])]) := by
  rfl

/-! ## The worklist loop numbers the states in the order of their discovery -/

theorem stepIn_setTransition {info info' : List DFAState} {src dst : Nat} {a : Char}
    (h : setTransition info src a dst = some info') (i : Nat) (b : Char) (t : Nat) :
    StepIn info' i b t ↔
      ((i = src ∧ b = a ∧ t = dst) ∨ (¬ (i = src ∧ b = a) ∧ StepIn info i b t)) := by
  unfold setTransition at h
  cases hs : info[src]? with
  | none => rw [hs] at h; cases h
  | some st0 =>
    rw [hs] at h
    simp only [Option.some.injEq] at h
    subst h
    have hlt : src < info.length := by
      rcases List.getElem?_eq_some.1 hs with ⟨hh, _⟩
      exact hh
    unfold StepIn
    by_cases hi : i = src
    · subst hi
      simp only [List.getElem?_set_self hlt, Option.some.injEq, exists_eq_left', true_and,
        mapGet_mapSet, hs]
      by_cases hb : b = a
      · subst hb
        simp only [↓reduceIte, Option.some.injEq, not_true_eq_false, false_and, or_false,
          true_and]
        exact eq_comm
      · simp only [hb, ↓reduceIte, false_and, not_false_eq_true, true_and, false_or]
    · have hne : src ≠ i := fun e => hi e.symm
      simp only [List.getElem?_set_ne hne, hi, false_and, not_false_eq_true, true_and,
        false_or]

theorem stepIn_append {info : List DFAState} {st0 : DFAState} (h0 : st0.transitions = [])
    (i : Nat) (b : Char) (t : Nat) : StepIn (info ++ [st0]) i b t ↔ StepIn info i b t := by
  unfold StepIn
  rcases Nat.lt_trichotomy i info.length with hi | hi | hi
  · rw [List.getElem?_append_left hi]
  · subst hi
    rw [List.getElem?_concat_length, List.getElem?_eq_none (Nat.le_refl _)]
    simp [h0, mapGet_nil]
  · rw [List.getElem?_eq_none (by simp; omega), List.getElem?_eq_none (by omega)]

theorem pairLt_irrefl (p : Nat × Nat) : ¬ pairLt p p := by
  unfold pairLt; omega

theorem pairLt_asymm {p q : Nat × Nat} (h : pairLt p q) : ¬ pairLt q p := by
  unfold pairLt at h ⊢; omega

theorem DiscInv.start {alphabet : List Char} {st0 : DFAState} (h0 : st0.transitions = []) :
    DiscInv alphabet [st0] 1 0 0 where
  proc := by
    rintro i b t ⟨st, h1, h2⟩
    rcases List.getElem?_eq_some.1 h1 with ⟨hi, e⟩
    simp only [List.length_singleton] at hi
    have : i = 0 := by omega
    subst this
    simp only [List.getElem_cons_zero] at e
    subst e
    rw [h0, mapGet_nil] at h2
    cases h2
  disc := by
    intro t h1 h2
    omega

theorem DiscInv.nextHead {alphabet : List Char} {info : List DFAState} {n h : Nat}
    (hd : DiscInv alphabet info n h alphabet.length) : DiscInv alphabet info n (h + 1) 0 where
  proc := by
    intro i b t hs
    obtain ⟨h1, h2, h3⟩ := hd.proc i b t hs
    refine ⟨h1, ?_, h3⟩
    unfold pairLt at h2 ⊢
    simp only at h2 ⊢
    omega
  disc := hd.disc

/-- Recording the transition of the pair `(h, k)` keeps the invariant; the
target is an earlier state or the state appended for it. -/
theorem DiscInv.advance {alphabet : List Char} {info info' : List DFAState}
    {n n' h k dst : Nat} {a : Char} (hd : DiscInv alphabet info n h k)
    (hn : alphabet.Nodup) (hk : alphabet[k]? = some a) (hh : h < n) (hdst : dst < n')
    (hq : n' = n ∨ (n' = n + 1 ∧ dst = n))
    (hstep : ∀ i b t, StepIn info' i b t ↔
      ((i = h ∧ b = a ∧ t = dst) ∨ (¬ (i = h ∧ b = a) ∧ StepIn info i b t))) :
    DiscInv alphabet info' n' h (k + 1) := by
  have hka : alphabet.indexOf a = k := by
    rcases List.getElem?_eq_some.1 hk with ⟨hlt, e⟩
    rw [← e]
    exact List.indexOf_getElem hn k hlt
  have hmem : a ∈ alphabet := List.mem_iff_getElem?.2 ⟨k, hk⟩
  have hold : ∀ j a0 t, StepIn info j a0 t → StepIn info' j a0 t := by
    intro j a0 t hs
    refine (hstep j a0 t).2 (Or.inr ⟨?_, hs⟩)
    rintro ⟨e1, e2⟩
    have := (hd.proc j a0 t hs).2.1
    rw [e1, e2, hka] at this
    exact pairLt_irrefl _ this
  constructor
  · intro i b t hs
    rcases (hstep i b t).1 hs with ⟨e1, e2, e3⟩ | ⟨_, hs'⟩
    · subst e1 e2 e3
      refine ⟨hmem, ?_, hdst⟩
      rw [hka]
      exact Or.inr ⟨rfl, Nat.lt_succ_self _⟩
    · obtain ⟨h1, h2, h3⟩ := hd.proc i b t hs'
      refine ⟨h1, ?_, by omega⟩
      unfold pairLt at h2 ⊢
      simp only at h2 ⊢
      omega
  · intro t h1 h2
    by_cases ht : t < n
    · obtain ⟨j, a0, m1, m2, m3, m4⟩ := hd.disc t h1 ht
      refine ⟨j, a0, m1, m2, hold j a0 t m3, fun i b t' hs hle => ?_⟩
      rcases (hstep i b t').1 hs with ⟨e1, e2, e3⟩ | ⟨_, hs'⟩
      · subst e1 e2 e3
        have := (hd.proc j a0 t m3).2.1
        rw [hka]
        exact pairLt_asymm this
      · exact m4 i b t' hs' hle
    · have hn1 : n' = n + 1 ∧ dst = n := by omega
      have e : t = n := by omega
      subst e
      refine ⟨h, a, hmem, hh, (hstep h a t).2 (Or.inl ⟨rfl, rfl, hn1.2.symm⟩),
        fun i b t' hs hle => ?_⟩
      rcases (hstep i b t').1 hs with ⟨e1, e2, e3⟩ | ⟨_, hs'⟩
      · subst e1 e2
        exact pairLt_irrefl _
      · have := (hd.proc i b t' hs').2.2
        omega

theorem DiscInv.skipSymbol {alphabet : List Char} {info : List DFAState} {n h k : Nat}
    (hd : DiscInv alphabet info n h k) : DiscInv alphabet info n h (k + 1) where
  proc := by
    intro i b t hs
    obtain ⟨h1, h2, h3⟩ := hd.proc i b t hs
    refine ⟨h1, ?_, h3⟩
    unfold pairLt at h2 ⊢
    simp only at h2 ⊢
    omega
  disc := hd.disc

section BfsOrder

variable {next : List Nat → Char → Option (Option (List Nat))}
variable {key : List Nat → String} {mk : Nat → List Nat → DFAState}

/-- One round of the loop over the alphabet either changes nothing or records
one transition of the current state, to an earlier state or to a state that it
appends. -/
theorem bfsSymbol_delta {Good : List Nat → Prop} {start : List Nat} {P : Nat → Char → Prop}
    {v v' : SubsetVars} (h : BfsInv next key mk Good start P v)
    (hmk : ∀ i S, (mk i S).transitions = []) {cur : List Nat} {head : Nat} {a : Char}
    (e : bfsSymbol next key mk cur head v a = some v') :
    v' = v ∨ ∃ dst, dst < v'.queue.length ∧
      (v'.queue.length = v.queue.length ∨
        (v'.queue.length = v.queue.length + 1 ∧ dst = v.queue.length)) ∧
      ∀ i b t, StepIn v'.dfaStateInfo i b t ↔
        ((i = head ∧ b = a ∧ t = dst) ∨ (¬ (i = head ∧ b = a) ∧ StepIn v.dfaStateInfo i b t)) := by
  unfold bfsSymbol at e
  cases hr : next cur a with
  | none => rw [hr] at e; cases e
  | some r =>
    rw [hr] at e
    cases r with
    | none =>
      simp only [Option.some.injEq] at e
      exact Or.inl e.symm
    | some nxt =>
      simp only at e
      right
      cases hk : mapGet v.dfaStates (key nxt) with
      | none =>
        rw [hk] at e
        simp only at e
        obtain ⟨info, hi, hv⟩ := Option.map_eq_some'.1 e
        subst hv
        refine ⟨v.dfaStateInfo.length, by simp [h.len], Or.inr ⟨by simp, h.len⟩,
          fun i b t => ?_⟩
        rw [stepIn_setTransition hi, stepIn_append (hmk _ _)]
      | some j =>
        rw [hk] at e
        simp only at e
        obtain ⟨info, hi, hv⟩ := Option.map_eq_some'.1 e
        subst hv
        obtain ⟨S', hS1, _⟩ := (h.map (key nxt) j).1 hk
        have hj : j < v.queue.length := by
          rcases List.getElem?_eq_some.1 hS1 with ⟨hh, _⟩
          exact hh
        exact ⟨j, hj, Or.inl rfl, fun i b t => stepIn_setTransition hi i b t⟩

theorem bfsSymbols_disc {Good : List Nat → Prop} {start : List Nat} {alphabet : List Char}
    (hmk : ∀ i S, (mk i S).transitions = []) (hn : alphabet.Nodup)
    {head : Nat} {cur : List Nat} (syms : List Char)
    (hnext : ∀ a ∈ syms, ∃ r, next cur a = some r ∧ ∀ T, r = some T → Good T) :
    ∀ {P : Nat → Char → Prop} {v v' : SubsetVars} {k : Nat},
      BfsInv next key mk Good start P v → v.queue[head]? = some cur →
      alphabet.drop k = syms →
      DiscInv alphabet v.dfaStateInfo v.queue.length head k →
      bfsSymbols next key mk cur head v syms = some v' →
      DiscInv alphabet v'.dfaStateInfo v'.queue.length head alphabet.length := by
  induction syms with
  | nil =>
    intro P v v' k h hcur hdrop hd e
    simp only [bfsSymbols, Option.some.injEq] at e
    subst e
    have hk : alphabet.length ≤ k := List.drop_eq_nil_iff.1 hdrop
    refine ⟨fun i b t hs => ?_, hd.disc⟩
    obtain ⟨h1, h2, h3⟩ := hd.proc i b t hs
    refine ⟨h1, ?_, h3⟩
    have := List.indexOf_lt_length.2 h1
    unfold pairLt at h2 ⊢
    simp only at h2 ⊢
    omega
  | cons a rest ih =>
    intro P v v' k h hcur hdrop hd e
    obtain ⟨v1, e1, h1, c1⟩ := bfsSymbol_inv h hmk hcur a (hnext a (List.mem_cons_self _ _))
    simp only [bfsSymbols, e1] at e
    have hhead : head < v.queue.length := by
      rcases List.getElem?_eq_some.1 hcur with ⟨hh, _⟩
      exact hh
    have hka : alphabet[k]? = some a := by
      have := congrArg (fun l => l[0]?) hdrop
      simpa using this
    have hdrop1 : alphabet.drop (k + 1) = rest := by
      have := congrArg List.tail hdrop
      simpa using this
    have hd1 : DiscInv alphabet v1.dfaStateInfo v1.queue.length head (k + 1) := by
      rcases bfsSymbol_delta h hmk e1 with e0 | ⟨dst, d1, d2, d3⟩
      · rw [e0]; exact hd.skipSymbol
      · exact hd.advance hn hka hhead d1 d2 d3
    exact ih (fun b hb => hnext b (List.mem_cons_of_mem _ hb)) h1 c1 hdrop1 hd1 e

theorem bfsLoop_disc {Good : List Nat → Prop} {start : List Nat} {alphabet : List Char}
    (hmk : ∀ i S, (mk i S).transitions = []) (hn : alphabet.Nodup)
    (hnext : ∀ S a, Good S → a ∈ alphabet → ∃ r, next S a = some r ∧ ∀ T, r = some T → Good T) :
    ∀ (fuel head : Nat) (v v' : SubsetVars),
      BfsInv next key mk Good start (fun i a => i < head ∧ a ∈ alphabet) v →
      head ≤ v.queue.length →
      DiscInv alphabet v.dfaStateInfo v.queue.length head 0 →
      bfsLoop next key mk alphabet fuel head v = some v' →
      DiscInv alphabet v'.dfaStateInfo v'.queue.length v'.queue.length 0 := by
  intro fuel
  induction fuel with
  | zero =>
    intro head v v' _ _ _ e
    simp only [bfsLoop] at e
    cases e
  | succ fuel ih =>
    intro head v v' h hle hd e
    cases hq : v.queue[head]? with
    | none =>
      simp only [bfsLoop, hq, Option.some.injEq] at e
      subst e
      have : v.queue.length ≤ head := List.getElem?_eq_none_iff.1 hq
      have e' : head = v.queue.length := by omega
      rw [e'] at hd
      exact hd
    | some cur =>
      have hid : mapGet v.dfaStates (key cur) = some head := (h.map _ _).2 ⟨cur, hq, rfl⟩
      have hgood : Good cur := h.good cur (List.mem_iff_getElem?.2 ⟨head, hq⟩)
      obtain ⟨v1, e1, h1, c1⟩ := bfsSymbols_inv hmk alphabet
        (fun a ha => hnext cur a hgood ha) h hq
      simp only [bfsLoop, hq, hid, e1] at e
      have hlt : head < v1.queue.length := by
        rcases List.getElem?_eq_some.1 c1 with ⟨hh, _⟩
        exact hh
      have hP : ∀ i a, ((i < head ∧ a ∈ alphabet) ∨ (i = head ∧ a ∈ alphabet)) ↔
          (i < head + 1 ∧ a ∈ alphabet) := by
        intro i a
        constructor
        · rintro (⟨p1, p2⟩ | ⟨p1, p2⟩)
          · exact ⟨by omega, p2⟩
          · exact ⟨by omega, p2⟩
        · rintro ⟨p1, p2⟩
          by_cases e : i = head
          · exact Or.inr ⟨e, p2⟩
          · exact Or.inl ⟨by omega, p2⟩
      have hd1 := bfsSymbols_disc hmk hn alphabet
        (fun a ha => hnext cur a hgood ha) h hq (List.drop_zero _) hd e1
      exact ih (head + 1) v1 v' (h1.congr hP) hlt hd1.nextHead e

/-- The result of the worklist loop numbers the sets in the order of their
discovery. -/
theorem bfsLoop_order {Good : List Nat → Prop} {start : List Nat} {alphabet : List Char}
    (hmk : ∀ i S, (mk i S).transitions = []) (hn : alphabet.Nodup) (hstart : Good start)
    (hnext : ∀ S a, Good S → a ∈ alphabet → ∃ r, next S a = some r ∧ ∀ T, r = some T → Good T)
    {fuel : Nat} {v : SubsetVars}
    (e : bfsLoop next key mk alphabet fuel 0 (bfsInit key mk start) = some v) :
    DiscInv alphabet v.dfaStateInfo v.queue.length v.queue.length 0 := by
  refine @bfsLoop_disc next key mk Good start alphabet hmk hn hnext fuel 0 _ v ?_
    (Nat.zero_le _) ?_ e
  · exact (bfsInit_inv hmk hstart).congr (fun i a => by constructor <;> intro hh <;> omega)
  · exact DiscInv.start (hmk _ _)

/-- A transition recorded in the result of the worklist loop is on a symbol of
the alphabet and leads from a discovered set to the state of its successor. -/
theorem bfs_step {Good : List Nat → Prop} {start : List Nat} {alphabet : List Char}
    {v : SubsetVars}
    (h : BfsInv next key mk Good start (fun i a => i < v.queue.length ∧ a ∈ alphabet) v)
    (hnext : ∀ S a, Good S → a ∈ alphabet → ∃ r, next S a = some r ∧ ∀ T, r = some T → Good T)
    {i j : Nat} {a : Char} (hs : StepIn v.dfaStateInfo i a j) :
    a ∈ alphabet ∧ ∃ S T S', v.queue[i]? = some S ∧ next S a = some (some T) ∧
      v.queue[j]? = some S' ∧ key S' = key T := by
  obtain ⟨st, hst, hm⟩ := hs
  have hi : i < v.queue.length := by
    rcases List.getElem?_eq_some.1 hst with ⟨hh, _⟩
    rw [← h.len]; exact hh
  have hS := List.getElem?_eq_getElem hi
  have gS : Good v.queue[i] := h.good _ (List.mem_iff_getElem?.2 ⟨i, hS⟩)
  by_cases ha : a ∈ alphabet
  · refine ⟨ha, ?_⟩
    have hd := h.done i st _ a hst hS ⟨hi, ha⟩
    unfold TransOK at hd
    obtain ⟨r, hr, _⟩ := hnext _ a gS ha
    cases r with
    | none =>
      rw [hr] at hd
      simp only at hd
      rw [hd] at hm
      cases hm
    | some T =>
      rw [hr] at hd
      simp only at hd
      obtain ⟨j', S', h1, h2, h3⟩ := hd
      rw [h1] at hm
      simp only [Option.some.injEq] at hm
      subst hm
      exact ⟨_, T, S', hS, hr, h2, h3⟩
  · have hd := h.todo i st a hst (fun hp => ha hp.2)
    rw [hd] at hm
    cases hm

/-- The DFA made of the result of the worklist loop is well formed. -/
theorem bfs_wellFormed {Good : List Nat → Prop} {start : List Nat} {alphabet : List Char}
    {v : SubsetVars}
    (h : BfsInv next key mk Good start (fun i a => i < v.queue.length ∧ a ∈ alphabet) v)
    (hid : ∀ i S, (mk i S).id = i)
    (hnext : ∀ S a, Good S → a ∈ alphabet → ∃ r, next S a = some r ∧ ∀ T, r = some T → Good T) :
    DFA.WellFormed { states := v.dfaStateInfo, alphabet := alphabet, startState := some 0 } := by
  have hids : ∀ (i : Nat) (st : DFAState), v.dfaStateInfo[i]? = some st → st.id = i := by
    intro i st hst
    have hi : i < v.queue.length := by
      rcases List.getElem?_eq_some.1 hst with ⟨hh, _⟩
      rw [← h.len]; exact hh
    have := h.shape i st _ hst (List.getElem?_eq_getElem hi)
    rw [this]
    exact hid _ _
  have hstep : ∀ st ∈ v.dfaStateInfo, ∀ e ∈ st.transitions,
      ∃ i, StepIn v.dfaStateInfo i e.1 e.2 := by
    intro st hst e he
    obtain ⟨i, hi⟩ := List.mem_iff_getElem?.1 hst
    exact ⟨i, st, hi, mapGet_of_mem_nodup (h.nodup st hst) he⟩
  refine ⟨rfl, ?_, hids, fun st hst e he => ?_, fun st hst e he => ?_⟩
  · intro e
    have h0 := h.first
    have hl := h.len
    have e' : v.dfaStateInfo = [] := e
    rw [e'] at hl
    simp only [List.length_nil] at hl
    rw [List.getElem?_eq_none (by omega)] at h0
    cases h0
  · obtain ⟨i, hs⟩ := hstep st hst e he
    exact (bfs_step h hnext hs).1
  · obtain ⟨i, hs⟩ := hstep st hst e he
    obtain ⟨_, S, T, S', _, _, h2, _⟩ := bfs_step h hnext hs
    have hj : e.2 < v.dfaStateInfo.length := by
      rcases List.getElem?_eq_some.1 h2 with ⟨hh, _⟩
      rw [h.len]; exact hh
    exact ⟨v.dfaStateInfo[e.2], List.getElem_mem hj,
      hids _ _ (List.getElem?_eq_getElem hj)⟩

/-- In a table that keeps the discovery invariant to the end, every state but
the first has a least entering transition, from an earlier state, and the least
entering transitions come in the order of the states. -/
theorem DiscInv.least {alphabet : List Char} {info : List DFAState} {n : Nat}
    (hd : DiscInv alphabet info n n 0) (k : Nat) (h1 : 1 ≤ k) (h2 : k < n) :
    ∃ j a, j < k ∧ a ∈ alphabet ∧ StepIn info j a k ∧
      (∀ j' a', StepIn info j' a' k →
        ¬ pairLt (j', alphabet.indexOf a') (j, alphabet.indexOf a)) ∧
      ∀ k' j' a', k < k' → StepIn info j' a' k' →
        pairLt (j, alphabet.indexOf a) (j', alphabet.indexOf a') := by
  obtain ⟨j, a, m1, m2, m3, m4⟩ := hd.disc k h1 h2
  refine ⟨j, a, m2, m1, m3, fun j' a' hs => m4 j' a' k hs (Nat.le_refl _),
    fun k' j' a' hk hs => ?_⟩
  have hnot := m4 j' a' k' hs (by omega)
  have ha' := (hd.proc j' a' k' hs).1
  by_cases e : j = j' ∧ alphabet.indexOf a = alphabet.indexOf a'
  · obtain ⟨e1, e2⟩ := e
    have e3 : a = a' := (List.indexOf_inj m1 ha').1 e2
    subst e1 e3
    obtain ⟨st, s1, s2⟩ := m3
    obtain ⟨st', s3, s4⟩ := hs
    rw [s1] at s3
    simp only [Option.some.injEq] at s3
    subst s3
    rw [s2] at s4
    simp only [Option.some.injEq] at s4
    omega
  · unfold pairLt at hnot ⊢
    simp only at hnot ⊢
    omega

end BfsOrder

/-! ## The alphabets are duplicate free -/

theorem nodup_symAdd (s : List Char) (x : Char) (h : s.Nodup) : (symAdd s x).Nodup := by
  unfold symAdd
  split
  · exact h
  · rename_i hx
    exact List.Nodup.append h (List.nodup_singleton x) (by simpa using hx)

theorem nodup_foldl_symAdd (l : List Char) :
    ∀ acc : List Char, acc.Nodup → (l.foldl symAdd acc).Nodup := by
  induction l with
  | nil => intro acc h; exact h
  | cons x l ih => intro acc h; exact ih _ (nodup_symAdd acc x h)

theorem nodup_sortSymbols (l : List Char) (h : l.Nodup) : (sortSymbols l).Nodup :=
  (List.perm_insertionSort symbolLe l).nodup_iff.2 h

theorem nodup_positionsAlphabet (P : List (Nat × Char)) : (positionsAlphabet P).Nodup :=
  nodup_sortSymbols _ ((nodup_foldl_symAdd _ [] List.nodup_nil).filter _)

theorem visitTransitions_nodup (entries : List (Char × List Nat)) :
    ∀ (alphabet : List Char) (visited stack : List Nat), alphabet.Nodup →
      (visitTransitions alphabet visited stack entries).1.Nodup := by
  induction entries with
  | nil => intro alphabet visited stack h; exact h
  | cons e rest ih =>
    intro alphabet visited stack h
    obtain ⟨symbol, targets⟩ := e
    simp only [visitTransitions]
    refine ih _ _ _ ?_
    split
    · exact nodup_symAdd _ _ h
    · exact h

theorem getAlphabetLoop_nodup (heap : List State) :
    ∀ (fuel : Nat) (alphabet : List Char) (visited stack : List Nat) (A : List Char),
      alphabet.Nodup → getAlphabetLoop heap fuel alphabet visited stack = some A → A.Nodup := by
  intro fuel
  induction fuel with
  | zero => intro alphabet visited stack A _ e; cases e
  | succ fuel ih =>
    intro alphabet visited stack A h e
    cases stack with
    | nil =>
      simp only [getAlphabetLoop, Option.some.injEq] at e
      rw [← e]; exact h
    | cons s stack =>
      simp only [getAlphabetLoop] at e
      exact ih _ _ _ A (visitTransitions_nodup _ _ _ _ h) e

/-- The alphabet that `getAlphabet` returns lists each symbol once. -/
theorem getAlphabet_nodup {heap : List State} {start : Nat} {visited : List Nat}
    {A : List Char} (h : getAlphabet heap start visited = some A) : A.Nodup := by
  unfold getAlphabet at h
  obtain ⟨A0, h0, e⟩ := Option.map_eq_some'.1 h
  rw [← e]
  exact nodup_sortSymbols _ (getAlphabetLoop_nodup heap _ _ _ _ A0 List.nodup_nil h0)

/-! ## The final state of the two worklist loops -/

section SubsetInv

variable {heap : List State} {U : Nat → Prop} {start : Nat}

/-- Sets of states of a region with pairwise distinct keys are at most as many
as the subsets of a finite set that covers the region. -/
theorem subset_bound_in (hU : ClosedRegion heap U) (hs : U start) (hid : IdsDistinct heap U)
    (F : Finset Nat) (hF : ∀ x, U x → x ∈ F)
    (q : List (List Nat)) (hq : ∀ S ∈ q, GoodSet heap start S)
    (hk : (q.map (setToKey heap)).Nodup) : q.length ≤ 2 ^ F.card := by
  have hinj : ∀ S ∈ q, ∀ S' ∈ q, S.toFinset = S'.toFinset → S = S' := by
    intro S hS S' hS' e
    have : setToKey heap S = setToKey heap S' :=
      (setToKey_eq_iff hU hs hid (hq S hS) (hq S' hS')).2 (fun x => by
        have := Finset.ext_iff.1 e x
        simpa using this)
    exact List.inj_on_of_nodup_map hk hS hS' this
  have hn : (q.map List.toFinset).Nodup := List.Nodup.map_on hinj (List.Nodup.of_map _ hk)
  have hsub : (q.map List.toFinset).toFinset ⊆ F.powerset := by
    intro G hG
    simp only [List.mem_toFinset, List.mem_map] at hG
    obtain ⟨S, hS, rfl⟩ := hG
    rw [Finset.mem_powerset]
    intro x hx
    simp only [List.mem_toFinset] at hx
    exact hF x ((hq S hS).inU hU hs x hx)
  have := Finset.card_le_card hsub
  rw [List.toFinset_card_of_nodup hn, Finset.card_powerset, List.length_map] at this
  exact this

theorem goodSet_next (hU : ClosedRegion heap U) (hs : U start) (S : List Nat) (a : Char)
    (g : GoodSet heap start S) :
    ∃ r, nextSubset heap S a = some r ∧ ∀ T, r = some T → GoodSet heap start T := by
  rcases nextSubset_spec hU hs g a with ⟨h1, _⟩ | ⟨T, h1, gT, _, _⟩
  · exact ⟨none, h1, fun T hT => by simp at hT⟩
  · exact ⟨some T, h1, fun T' hT => by rw [← Option.some.inj hT]; exact gT⟩

/-- The worklist loop of `nfaToDfa` ends, on a well-formed NFA, in a state that
satisfies the invariant of the loop with every pair processed, numbers the sets
in the order of their discovery, and holds at most as many sets as a finite
set covering the region has subsets. -/
theorem nfaToDfa_inv (hU : ClosedRegion heap U) (hid : IdsDistinct heap U)
    (nfa : NFAFragment) (hs : U nfa.startState) :
    ∃ (A : List Char) (S0 : List Nat) (v : SubsetVars),
      nfaToDfa heap nfa =
        some { states := v.dfaStateInfo, alphabet := A, startState := some 0 } ∧
      getAlphabet heap nfa.startState [] = some A ∧
      epsilonClosure heap (setOfList [nfa.startState]) = some S0 ∧
      BfsInv (nextSubset heap) (setToKey heap) (mkSubset heap) (GoodSet heap nfa.startState)
        S0 (fun i a => i < v.queue.length ∧ a ∈ A) v ∧
      DiscInv A v.dfaStateInfo v.queue.length v.queue.length 0 ∧
      (∀ F : Finset Nat, (∀ x, U x → x ∈ F) → v.queue.length ≤ 2 ^ F.card) := by
  obtain ⟨A, hA, _⟩ := getAlphabet_spec hU hs
  have hstart : (setOfList [nfa.startState]) = [nfa.startState] := by
    simp [setOfList, setAdd]
  obtain ⟨S0, hS0, hn0, _, hmem0⟩ := epsilonClosure_spec hU
    (S := setOfList [nfa.startState]) (by rw [hstart]; simp) (by
      intro s h
      rw [hstart, List.mem_singleton] at h
      rw [h]; exact hs)
  have g0 : GoodSet heap nfa.startState S0 := by
    refine ⟨hn0, fun x hx => ?_⟩
    obtain ⟨s, hsS, hp⟩ := (hmem0 x).1 hx
    rw [hstart, List.mem_singleton] at hsS
    rw [hsS] at hp
    exact hp.reach
  have hnext : ∀ S a, GoodSet heap nfa.startState S → a ∈ A →
      ∃ r, nextSubset heap S a = some r ∧ ∀ T, r = some T → GoodSet heap nfa.startState T :=
    fun S a g _ => goodSet_next hU hs S a g
  have hmk : ∀ i S, (mkSubset heap i S).transitions = [] := fun _ _ => rfl
  obtain ⟨v, hv, hinv⟩ := @bfsLoop_result (nextSubset heap) (setToKey heap) (mkSubset heap)
    (GoodSet heap nfa.startState) S0 A (2 ^ heap.length) hmk g0 hnext
    (fun q hq hk => subset_bound hU hs hid q hq hk)
  have hrun : nfaToDfa heap nfa =
      some { states := v.dfaStateInfo, alphabet := A, startState := some 0 } := by
    unfold nfaToDfa
    simp only [hA, hS0, subsetLoop_eq]
    have : bfsLoop (nextSubset heap) (setToKey heap) (mkSubset heap) A (2 ^ heap.length + 1) 0
        { dfaStates := mapSet [] (setToKey heap S0) 0,
          dfaStateInfo := [{ id := 0, positions := none,
                             isAccepting := someAccepting heap S0, transitions := [] }],
          queue := [S0] } = some v := hv
    rw [this]
    rfl
  exact ⟨A, S0, v, hrun, hA, hS0, hinv,
    bfsLoop_order hmk (getAlphabet_nodup hA) g0 hnext hv,
    fun F hF => subset_bound_in hU hs hid F hF v.queue hinv.good hinv.keys_nodup⟩

end SubsetInv

/-- The worklist loop of `buildDfaFromFollowpos` ends, on the tables that
`calculateFollowpos` returns, in a state that satisfies the invariant of the
loop with every pair processed, numbers the sets in the order of their
discovery, and holds at most as many sets as the positions have subsets. -/
theorem directDfa_inv (ast : AST) :
    ∃ (d : CalcData) (v : DirectVars), calculateFollowpos ast = some d ∧ RootFacts ast d ∧
      buildDfaFromFollowpos d =
        some ({ states := v.dfaStateInfo, alphabet := positionsAlphabet d.positions,
                startState := some 0 }, v.trace) ∧
      generateDfaDirectly ast = some
        { dfa := { states := v.dfaStateInfo, alphabet := positionsAlphabet d.positions,
                   startState := some 0 },
          trace := v.trace, annotatedAst := d.augmentedAst, positions := d.positions,
          followpos := d.followpos } ∧
      BfsInv (nextDirect d.positions d.followpos) posToKey (mkDirect d.positions.length)
        (GoodPos d.followpos) d.augmentedAst.firstpos
        (fun i a => i < v.queue.length ∧ a ∈ positionsAlphabet d.positions) v.core ∧
      DiscInv (positionsAlphabet d.positions) v.dfaStateInfo v.queue.length v.queue.length 0 ∧
      v.queue.length ≤ 2 ^ d.positions.length := by
  obtain ⟨d, hd, hR⟩ := calculateFollowpos_spec ast
  have h0 : ¬ d.augmentedAst.firstpos.length = 0 :=
    fun h => hR.nonempty (List.length_eq_zero.1 h)
  have hmk : ∀ i S, (mkDirect d.positions.length i S).transitions = [] := fun _ _ => rfl
  have g0 : GoodPos d.followpos d.augmentedAst.firstpos := ⟨hR.first_nodup, hR.first_in⟩
  have hnext : ∀ S a, GoodPos d.followpos S → a ∈ positionsAlphabet d.positions →
      ∃ r, nextDirect d.positions d.followpos S a = some r ∧
        ∀ T, r = some T → GoodPos d.followpos T := by
    intro S a g _
    rcases nextDirect_spec (P := d.positions) hR.closed g a with ⟨h1, _⟩ | ⟨T, h1, gT, _, _⟩
    · exact ⟨none, h1, fun T hT => by simp at hT⟩
    · exact ⟨some T, h1, fun T' hT => by rw [← Option.some.inj hT]; exact gT⟩
  have hbound : ∀ q : List (List Nat), (∀ S ∈ q, GoodPos d.followpos S) →
      (q.map posToKey).Nodup → q.length ≤ 2 ^ d.positions.length :=
    fun q hq hk => direct_bound (F := d.followpos) (n := d.positions.length)
      (fun k hk => by rw [hR.length]; exact hR.keysRange k hk) q hq hk
  obtain ⟨vb, hvb, hinv⟩ := @bfsLoop_result (nextDirect d.positions d.followpos) posToKey
    (mkDirect d.positions.length) (GoodPos d.followpos) d.augmentedAst.firstpos
    (positionsAlphabet d.positions) (2 ^ d.positions.length) hmk g0 hnext hbound
  have hcore := directLoop_core d.positions d.followpos d.positions.length
    (positionsAlphabet d.positions) (2 ^ d.positions.length + 1) 0
    { dfaStates := mapSet [] (posToKey d.augmentedAst.firstpos) 0,
      dfaStateInfo := [{ id := 0, positions := some d.augmentedAst.firstpos,
                         isAccepting := d.augmentedAst.firstpos.contains d.positions.length,
                         transitions := [] }],
      queue := [d.augmentedAst.firstpos],
      trace := ["- **Initial State**: q0 = firstpos(root) = \x7b" ++
        posToKey d.augmentedAst.firstpos ++ "\x7d"] }
  rw [directInit_core, hvb] at hcore
  obtain ⟨v, hv, hvc⟩ := Option.map_eq_some'.1 hcore
  have hb : buildDfaFromFollowpos d =
      some ({ states := v.dfaStateInfo, alphabet := positionsAlphabet d.positions,
              startState := some 0 }, v.trace) := by
    simp only [buildDfaFromFollowpos, h0, ↓reduceIte, hv, Option.map_some']
  have hg : generateDfaDirectly ast = some
      { dfa := { states := v.dfaStateInfo, alphabet := positionsAlphabet d.positions,
                 startState := some 0 },
        trace := v.trace, annotatedAst := d.augmentedAst, positions := d.positions,
        followpos := d.followpos } := by
    simp only [generateDfaDirectly, hd, hb]
  have hord := bfsLoop_order hmk (nodup_positionsAlphabet d.positions) g0 hnext hvb
  have hlen := hbound vb.queue hinv.good hinv.keys_nodup
  rw [← hvc] at hinv hord hlen
  exact ⟨d, v, hd, hR, hb, hg, hinv, hord, hlen⟩

theorem goodPos_next {P : List (Nat × Char)} {F : List (Nat × List Nat)}
    (hF : ∀ k S, mapGet F k = some S → S.Nodup ∧ ∀ q ∈ S, (mapGet F q).isSome = true)
    (S : List Nat) (a : Char) (g : GoodPos F S) :
    ∃ r, nextDirect P F S a = some r ∧ ∀ T, r = some T → GoodPos F T := by
  rcases nextDirect_spec (P := P) hF g a with ⟨h1, _⟩ | ⟨T, h1, gT, _, _⟩
  · exact ⟨none, h1, fun T hT => by simp at hT⟩
  · exact ⟨some T, h1, fun T' hT => by rw [← Option.some.inj hT]; exact gT⟩

theorem mem_followUnion (P : List (Nat × Char)) (F : List (Nat × List Nat)) (S : List Nat)
    (a : Char) (x : Nat) :
    x ∈ followUnion P F S a ↔ ∃ p ∈ S, mapGet P p = some a ∧ Follows F p x := by
  unfold followUnion Follows
  simp only [List.mem_flatMap, mem_contributing]
  constructor
  · rintro ⟨p, ⟨h1, h2⟩, h3⟩
    cases hm : mapGet F p with
    | none => rw [hm] at h3; simp at h3
    | some T =>
      rw [hm] at h3
      exact ⟨p, h1, h2, T, hm, h3⟩
  · rintro ⟨p, h1, h2, T, h3, h4⟩
    exact ⟨p, ⟨h1, h2⟩, by rw [h3]; exact h4⟩

/-! ## `buildNfaForNode` does not depend on the store it starts from -/

theorem mapGet_mapVals {α β γ : Type} [BEq α] (m : List (α × β)) (g : β → γ) (k : α) :
    mapGet (m.map fun e => (e.1, g e.2)) k = (mapGet m k).map g := by
  induction m with
  | nil => rfl
  | cons e m ih =>
    obtain ⟨k0, v0⟩ := e
    simp only [mapGet, List.map_cons, List.lookup_cons] at ih ⊢
    cases k == k0
    · exact ih
    · rfl

theorem mapSet_mapVals {α β γ : Type} [BEq α] (m : List (α × β)) (g : β → γ) (k : α) (v : β) :
    mapSet (m.map fun e => (e.1, g e.2)) k (g v) = (mapSet m k v).map fun e => (e.1, g e.2) := by
  induction m with
  | nil => rfl
  | cons e m ih =>
    obtain ⟨k0, v0⟩ := e
    simp only [mapSet, List.map_cons]
    cases k0 == k
    · simp only [Bool.false_eq_true, ↓reduceIte, List.map_cons, ih]
    · simp only [↓reduceIte, List.map_cons]

theorem setAdd_map_add (l : List Nat) (t n : Nat) :
    setAdd (l.map (· + n)) (t + n) = (setAdd l t).map (· + n) := by
  unfold setAdd
  by_cases h : t ∈ l
  · have : t + n ∈ l.map (· + n) := List.mem_map.2 ⟨t, h, rfl⟩
    simp only [this, h, ↓reduceIte]
  · have : ¬ t + n ∈ l.map (· + n) := by
      intro hc
      obtain ⟨x, hx, e⟩ := List.mem_map.1 hc
      have : x = t := by simpa using e
      exact h (this ▸ hx)
    simp only [this, h, ↓reduceIte, List.map_append, List.map_cons, List.map_nil]

theorem State.shift_addTransition (s : State) (n c : Nat) (a : Char) (t : Nat) :
    (s.shift n c).addTransition a (t + n) = (s.addTransition a t).shift n c := by
  unfold State.addTransition
  have hg : mapGet (s.shift n c).transitions a =
      (mapGet s.transitions a).map (fun l => l.map (· + n)) :=
    mapGet_mapVals s.transitions (fun l => l.map (· + n)) a
  rw [hg]
  cases hm : mapGet s.transitions a with
  | none =>
    simp only [Option.map_none', State.shift]
    congr 1
    exact mapSet_mapVals s.transitions (fun l => l.map (· + n)) a [t]
  | some targets =>
    simp only [Option.map_some', State.shift]
    congr 1
    rw [setAdd_map_add]
    exact mapSet_mapVals s.transitions (fun l => l.map (· + n)) a (setAdd targets t)

theorem modify_append_map (pre l : List State) (g f f' : State → State)
    (hfg : ∀ x, f (g x) = g (f' x)) (s : Nat) :
    (pre ++ l.map g).modify f (s + pre.length) = pre ++ (l.modify f' s).map g := by
  apply List.ext_getElem?
  intro m
  rw [List.getElem?_modify]
  by_cases hm : m < pre.length
  · have hne : ¬ s + pre.length = m := by omega
    simp only [hne, ↓reduceIte, List.getElem?_append_left hm]
    cases pre[m]? <;> rfl
  · have hle : pre.length ≤ m := Nat.le_of_not_lt hm
    rw [List.getElem?_append_right hle, List.getElem?_append_right hle, List.getElem?_map,
      List.getElem?_map, List.getElem?_modify]
    cases l[m - pre.length]? with
    | none => rfl
    | some x =>
      show some (if s + pre.length = m then f (g x) else g x) =
        some (g (if s = m - pre.length then f' x else x))
      by_cases hs : s = m - pre.length
      · have hs' : s + pre.length = m := by omega
        rw [if_pos hs', if_pos hs, hfg]
      · have hs' : ¬ s + pre.length = m := by omega
        simp only [hs', hs, ↓reduceIte]

theorem reloc_length (pre : List State) (c : Nat) (σ : Store) :
    (σ.reloc pre c).states.length = σ.states.length + pre.length := by
  simp [Store.reloc, Nat.add_comm]

theorem reloc_newState (pre : List State) (c : Nat) (σ : Store) :
    (σ.reloc pre c).newState.2 = σ.newState.2.reloc pre c := by
  simp only [Store.newState, Store.reloc, List.map_append, List.map_cons, List.map_nil,
    List.append_assoc, State.shift, Nat.add_right_comm]

theorem reloc_addTransition (pre : List State) (c : Nat) (σ : Store) (s : Nat) (a : Char)
    (t : Nat) :
    (σ.reloc pre c).addTransition (s + pre.length) a (t + pre.length) =
      (σ.addTransition s a t).reloc pre c := by
  simp only [Store.addTransition, Store.reloc]
  congr 1
  exact modify_append_map pre σ.states (State.shift pre.length c) _ _
    (fun x => State.shift_addTransition x pre.length c a t) s

/-- Building in a relocated store gives the relocated result of building in
the store itself. -/
theorem buildNfaForNode_reloc (ast : AST) :
    ∀ (σ : Store) (pre : List State) (c : Nat),
      buildNfaForNode ast (σ.reloc pre c) =
        ((buildNfaForNode ast σ).1.shift pre.length, (buildNfaForNode ast σ).2.reloc pre c) := by
  induction ast with
  | CHAR v =>
    intro σ pre c
    rw [buildNfaForNode_char, buildNfaForNode_char, reloc_length, reloc_newState,
      reloc_newState, Nat.add_right_comm σ.states.length pre.length 1, reloc_addTransition]
    rfl
  | CONCAT l r ihl ihr =>
    intro σ pre c
    rw [buildNfaForNode_concat, buildNfaForNode_concat, ihl]
    simp only
    rw [ihr]
    simp only [NFAFragment.shift, reloc_addTransition]
  | ALTERNATION l r ihl ihr =>
    intro σ pre c
    rw [buildNfaForNode_alternation, buildNfaForNode_alternation, reloc_length, reloc_newState,
      reloc_newState, ihl]
    simp only
    rw [ihr]
    simp only [NFAFragment.shift, Nat.add_right_comm σ.states.length pre.length 1,
      reloc_addTransition]
  | KLEENE_STAR ch ih =>
    intro σ pre c
    rw [buildNfaForNode_star, buildNfaForNode_star, reloc_length, reloc_newState,
      reloc_newState, ih]
    simp only [NFAFragment.shift, Nat.add_right_comm σ.states.length pre.length 1,
      reloc_addTransition]

theorem buildNfaForNode_length (ast : AST) :
    ∀ σ : Store, (buildNfaForNode ast σ).2.states.length =
      σ.states.length + 2 * ast.thompsonNodes := by
  induction ast with
  | CHAR v =>
    intro σ
    rw [buildNfaForNode_char]
    simp only [addTransition_length, newState_length, AST.thompsonNodes]
  | CONCAT l r ihl ihr =>
    intro σ
    rw [buildNfaForNode_concat]
    simp only [addTransition_length, ihr, ihl, AST.thompsonNodes]
    omega
  | ALTERNATION l r ihl ihr =>
    intro σ
    rw [buildNfaForNode_alternation]
    simp only [addTransition_length, ihr, ihl, newState_length, AST.thompsonNodes]
    omega
  | KLEENE_STAR ch ih =>
    intro σ
    rw [buildNfaForNode_star]
    simp only [addTransition_length, ih, newState_length, AST.thompsonNodes]
    omega

theorem astToNfa_length (ast : AST) (σ : Store) :
    (astToNfa ast σ).2.states.length = σ.states.length + 2 * ast.thompsonNodes := by
  rw [astToNfa_eq]
  simp only [List.length_modify]
  exact buildNfaForNode_length ast { σ with stateId := 0 }

/-- The result of `astToNfa` in any store is the result in the store of a
freshly loaded page, relocated behind the objects of the store. -/
theorem astToNfa_reloc (ast : AST) (σ : Store) :
    astToNfa ast σ =
      ((astToNfa ast Store.initial).1.shift σ.states.length,
        { stateId := (astToNfa ast Store.initial).2.stateId,
          states := σ.states ++
            (astToNfa ast Store.initial).2.states.map (State.shift σ.states.length 0) }) := by
  have e0 : ({ σ with stateId := 0 } : Store) = Store.initial.reloc σ.states 0 := by
    simp [Store.reloc, Store.initial]
  have e1 : ({ Store.initial with stateId := 0 } : Store) = Store.initial := rfl
  rw [astToNfa_eq, astToNfa_eq, e0, e1, buildNfaForNode_reloc]
  simp only [NFAFragment.shift, Store.reloc, Nat.add_zero]
  congr 2
  exact modify_append_map σ.states _ (State.shift σ.states.length 0)
    (fun s => { s with isAccepting := true }) (fun s => { s with isAccepting := true })
    (fun x => rfl) _

theorem deref_shifted_id (pre l : List State) (k t : Nat) :
    (deref (pre ++ l.map (State.shift k 0)) (t + pre.length)).id = (deref l t).id := by
  simp only [deref, List.getD_eq_getElem?_getD]
  rw [List.getElem?_append_right (Nat.le_add_left _ _), Nat.add_sub_cancel, List.getElem?_map]
  cases l[t]? with
  | none => rfl
  | some s => rfl

/-- The NFA that `astToNfa` builds reads the same in every store. -/
theorem astToNfa_view (ast : AST) (σ : Store) :
    nfaView (astToNfa ast σ).2.states σ.states.length =
      nfaView (astToNfa ast Store.initial).2.states 0 := by
  rw [astToNfa_reloc ast σ]
  simp only [nfaView, List.drop_left, List.drop_zero, List.map_map]
  apply List.map_congr_left
  intro s _
  simp only [Function.comp, State.shift, Nat.add_zero, List.map_map, Prod.mk.injEq, true_and]
  apply List.map_congr_left
  intro e _
  simp only [Function.comp, Prod.mk.injEq, true_and]
  rw [List.map_map]
  apply List.map_congr_left
  intro t _
  exact deref_shifted_id σ.states _ σ.states.length t

theorem thompson_ids {ast : AST} {n0 : Nat} {heap : List State} {nfa : NFAFragment}
    (h : IsThompson ast n0 heap nfa) (n : Nat) (hlen : heap.length = n0 + n) :
    (heap.drop n0).map State.id = List.range n := by
  apply List.ext_getElem
  · simp [hlen]
  · intro i h1 h2
    simp only [List.length_map, List.length_drop] at h1
    have hi : n0 + i < heap.length := by omega
    have := h.ids (n0 + i) (Nat.le_add_right _ _) hi
    simp only [deref, List.getD_eq_getElem?_getD, List.getElem?_eq_getElem hi,
      Option.getD_some] at this
    simp only [List.getElem_map, List.getElem_drop, List.getElem_range]
    rw [this]
    omega

/-! ## The alphabets of the two pipelines -/

theorem char_eq_of_toNat {a b : Char} (h : a.toNat = b.toNat) : a = b := by
  apply Char.ext
  apply UInt32.ext
  exact h

theorem unitsLe_total : ∀ a b : List Nat, unitsLe a b = true ∨ unitsLe b a = true
  | [], _ => Or.inl rfl
  | _ :: _, [] => Or.inr rfl
  | x :: xs, y :: ys => by
    simp only [unitsLe, Bool.or_eq_true, decide_eq_true_eq, Bool.and_eq_true, beq_iff_eq]
    rcases Nat.lt_trichotomy x y with h | h | h
    · exact Or.inl (Or.inl h)
    · rcases unitsLe_total xs ys with h' | h'
      · exact Or.inl (Or.inr ⟨h, h'⟩)
      · exact Or.inr (Or.inr ⟨h.symm, h'⟩)
    · exact Or.inr (Or.inl h)

theorem unitsLe_trans : ∀ a b c : List Nat, unitsLe a b = true → unitsLe b c = true →
    unitsLe a c = true
  | [], _, _, _, _ => rfl
  | _ :: _, [], _, h, _ => by simp [unitsLe] at h
  | _ :: _, _ :: _, [], _, h => by simp [unitsLe] at h
  | x :: xs, y :: ys, z :: zs, h1, h2 => by
    simp only [unitsLe, Bool.or_eq_true, decide_eq_true_eq, Bool.and_eq_true, beq_iff_eq]
      at h1 h2 ⊢
    rcases h1 with h1 | ⟨e1, h1⟩
    · rcases h2 with h2 | ⟨e2, h2⟩
      · exact Or.inl (by omega)
      · exact Or.inl (by omega)
    · rcases h2 with h2 | ⟨e2, h2⟩
      · exact Or.inl (by omega)
      · exact Or.inr ⟨by omega, unitsLe_trans xs ys zs h1 h2⟩

theorem unitsLe_antisymm : ∀ a b : List Nat, unitsLe a b = true → unitsLe b a = true → a = b
  | [], [], _, _ => rfl
  | [], _ :: _, _, h => by simp [unitsLe] at h
  | _ :: _, [], h, _ => by simp [unitsLe] at h
  | x :: xs, y :: ys, h1, h2 => by
    simp only [unitsLe, Bool.or_eq_true, decide_eq_true_eq, Bool.and_eq_true, beq_iff_eq]
      at h1 h2
    rcases h1 with h1 | ⟨e1, h1⟩
    · rcases h2 with h2 | ⟨e2, h2⟩
      · omega
      · omega
    · rcases h2 with h2 | ⟨e2, h2⟩
      · omega
      · rw [e1, unitsLe_antisymm xs ys h1 h2]

theorem utf16_injective {a b : Char} (h : utf16 a = utf16 b) : a = b := by
  apply char_eq_of_toNat
  unfold utf16 at h
  split at h <;> split at h
  · simpa using h
  · simp at h
  · simp at h
  · simp only [List.cons.injEq, and_true] at h
    omega

/-- The order of `sort()` on one-character strings is total. -/
theorem symbolLe_total : IsTotal Char symbolLe := ⟨fun _ _ => unitsLe_total _ _⟩

theorem symbolLe_trans : IsTrans Char symbolLe :=
  ⟨fun _ _ _ h1 h2 => unitsLe_trans _ _ _ h1 h2⟩

theorem symbolLe_antisymm : IsAntisymm Char symbolLe :=
  ⟨fun _ _ h1 h2 => utf16_injective (unitsLe_antisymm _ _ h1 h2)⟩

theorem sorted_sortSymbols (l : List Char) : (sortSymbols l).Sorted symbolLe := by
  haveI := symbolLe_total
  haveI := symbolLe_trans
  exact List.sorted_insertionSort symbolLe l

/-- Two sorted duplicate-free lists of symbols with the same members are equal. -/
theorem eq_of_sorted_of_mem_iff {l1 l2 : List Char} (s1 : l1.Sorted symbolLe)
    (s2 : l2.Sorted symbolLe) (n1 : l1.Nodup) (n2 : l2.Nodup) (h : ∀ c, c ∈ l1 ↔ c ∈ l2) :
    l1 = l2 := by
  haveI := symbolLe_antisymm
  exact List.eq_of_perm_of_sorted ((List.perm_ext_iff_of_nodup n1 n2).2 h) s1 s2

theorem isLiteral_small {c : Char} (h : isLiteral c = true) : c.toNat < 65536 := by
  unfold isLiteral at h
  simp only [Bool.or_eq_true, Bool.and_eq_true, decide_eq_true_eq] at h
  omega

theorem symbolLe_small {a b : Char} (ha : a.toNat < 65536) (hb : b.toNat < 65536) :
    symbolLe a b ↔ a.toNat ≤ b.toNat := by
  unfold symbolLe utf16
  simp only [ha, hb, ↓reduceIte, unitsLe, Bool.or_eq_true, decide_eq_true_eq,
    Bool.and_eq_true, beq_iff_eq, and_true]
  omega

theorem alphanumeric_leaves {ast : AST} (h : ast.alphanumeric) :
    ∀ c ∈ ast.leaves, isLiteral c = true := by
  induction ast with
  | CHAR v =>
    intro c hc
    simp only [AST.leaves, List.mem_singleton] at hc
    rw [hc]; exact h
  | CONCAT l r ihl ihr =>
    intro c hc
    simp only [AST.leaves, List.mem_append] at hc
    rcases hc with hc | hc
    · exact ihl h.1 c hc
    · exact ihr h.2 c hc
  | ALTERNATION l r ihl ihr =>
    intro c hc
    simp only [AST.leaves, List.mem_append] at hc
    rcases hc with hc | hc
    · exact ihl h.1 c hc
    · exact ihr h.2 c hc
  | KLEENE_STAR e ih => exact ih h

theorem getAlphabet_sorted {heap : List State} {start : Nat} {visited : List Nat}
    {A : List Char} (h : getAlphabet heap start visited = some A) : A.Sorted symbolLe := by
  unfold getAlphabet at h
  obtain ⟨A0, _, e⟩ := Option.map_eq_some'.1 h
  rw [← e]
  exact sorted_sortSymbols A0

theorem Reach.congr_entries {h h' : List State}
    (e : ∀ i, (deref h' i).transitions = (deref h i).transitions) {s u : Nat}
    (hp : Reach h' s u) : Reach h s u := by
  induction hp with
  | refl s => exact Reach.refl s
  | step he ht _ ih => exact Reach.step (e _ ▸ he) ht ih

theorem astToNfa_transitions (ast : AST) (σ : Store) (i : Nat) :
    (deref (astToNfa ast σ).2.states i).transitions =
      (deref (buildNfaForNode ast { σ with stateId := 0 }).2.states i).transitions := by
  rw [astToNfa_eq]
  simp only
  rw [deref_modify]
  split <;> rfl

/-- The symbols other than `'ε'` on the transitions of the states reachable in
the NFA that `astToNfa` builds are the values of the leaves other than `'ε'`. -/
theorem astToNfa_symbols (ast : AST) (σ : Store) (a : Char) :
    (a ≠ EPSILON ∧ ∃ s, Reach (astToNfa ast σ).2.states (astToNfa ast σ).1.startState s ∧
      ∃ e ∈ (deref (astToNfa ast σ).2.states s).transitions, e.1 = a) ↔
    (a ≠ EPSILON ∧ a ∈ ast.leaves) := by
  have hb := built ast { σ with stateId := 0 }
  have ht := astToNfa_spec ast σ
  have hlen : (astToNfa ast σ).2.states.length =
      (buildNfaForNode ast { σ with stateId := 0 }).2.states.length := by
    rw [astToNfa_eq]
    exact List.length_modify _ _ _
  have hstart : (astToNfa ast σ).1 = (buildNfaForNode ast { σ with stateId := 0 }).1 := rfl
  constructor
  · rintro ⟨h1, s, hs, e, he, hea⟩
    refine ⟨h1, ?_⟩
    have hin := hs.staysIn ht.region ⟨ht.start_ge, ht.start_lt⟩
    rw [astToNfa_transitions] at he
    rcases hb.symsSound s hin.1 (hlen ▸ hin.2) e he with h2 | h2
    · exact absurd (hea ▸ h2) h1
    · exact hea ▸ h2
  · rintro ⟨h1, h2⟩
    refine ⟨h1, ?_⟩
    obtain ⟨i, t, i1, i2, i3⟩ := hb.symsComplete a h2
    obtain ⟨e, he, hea, _⟩ := targetsOf_entry i3
    obtain ⟨w, hw⟩ := hb.acc i i1 i2
    refine ⟨i, ?_, e, ?_, hea⟩
    · rw [hstart]
      exact hw.reach.congr_entries (fun j => (astToNfa_transitions ast σ j).symm)
    · rw [astToNfa_transitions]
      exact he

/-- The alphabet of `nfaToDfa(astToNfa(ast))`: sorted, without repetition, made
of the values of the leaves other than `'ε'`. -/
theorem subsetDfa_alphabet (ast : AST) (σ : Store) :
    ∃ d, subsetDfa ast σ = some d ∧ d.alphabet.Nodup ∧ d.alphabet.Sorted symbolLe ∧
      ∀ a, a ∈ d.alphabet ↔ (a ≠ EPSILON ∧ a ∈ ast.leaves) := by
  have ht := astToNfa_spec ast σ
  obtain ⟨A, S0, v, hrun, hA, _⟩ :=
    nfaToDfa_inv ht.region ht.idsDistinct (astToNfa ast σ).1 ⟨ht.start_ge, ht.start_lt⟩
  obtain ⟨A', hA', hmem⟩ := @getAlphabet_spec _ _ ht.region
    (astToNfa ast σ).1.startState ⟨ht.start_ge, ht.start_lt⟩
  rw [hA] at hA'
  simp only [Option.some.injEq] at hA'
  subst hA'
  refine ⟨_, (subsetDfa_eq ast σ).trans hrun, getAlphabet_nodup hA, getAlphabet_sorted hA,
    fun a => ?_⟩
  exact (hmem a).trans (astToNfa_symbols ast σ a)

/-- The alphabet of `generateDfaDirectly(ast).dfa`: sorted, without repetition,
made of the values of the leaves other than `'#'`. -/
theorem directDfa_alphabet (ast : AST) :
    ∃ r, generateDfaDirectly ast = some r ∧ r.dfa.alphabet.Nodup ∧
      r.dfa.alphabet.Sorted symbolLe ∧
      ∀ a, a ∈ r.dfa.alphabet ↔ (a ≠ '#' ∧ a ∈ ast.leaves) := by
  obtain ⟨d, v, _, hR, _, hg, _⟩ := directDfa_inv ast
  refine ⟨_, hg, nodup_positionsAlphabet d.positions, sorted_sortSymbols _, fun a => ?_⟩
  show a ∈ positionsAlphabet d.positions ↔ _
  rw [mem_positionsAlphabet, hR.positions, List.map_snd_zip _ _ (by simp)]
  simp only [List.mem_append, List.mem_singleton]
  constructor
  · rintro ⟨h1, h2 | h2⟩
    · exact ⟨h1, h2⟩
    · exact absurd h2 h1
  · rintro ⟨h1, h2⟩
    exact ⟨h1, Or.inl h2⟩

/-! ## Every position of an AST without `'ε'` leaf has a `followpos` entry -/

theorem followAdd_isSome {F F' : List (Nat × List Nat)} {pos fp : Nat}
    (h : followAdd F pos fp = some F') (k : Nat) :
    (mapGet F' k).isSome = (mapGet F k).isSome := by
  unfold followAdd at h
  cases hm : mapGet F pos with
  | none => rw [hm] at h; cases h
  | some S =>
    rw [hm] at h
    simp only [Option.some.injEq] at h
    subst h
    rw [mapGet_mapSet]
    by_cases hk : k = pos
    · subst hk
      simp [hm]
    · simp [hk]

theorem followAddAll_isSome (tgts : List Nat) :
    ∀ {F F' : List (Nat × List Nat)} {pos : Nat}, followAddAll F pos tgts = some F' →
      ∀ k, (mapGet F' k).isSome = (mapGet F k).isSome := by
  induction tgts with
  | nil =>
    intro F F' pos h k
    simp only [followAddAll, Option.some.injEq] at h
    rw [h]
  | cons t rest ih =>
    intro F F' pos h k
    unfold followAddAll at h
    cases h1 : followAdd F pos t with
    | none => rw [h1] at h; cases h
    | some F1 =>
      rw [h1] at h
      rw [ih h k, followAdd_isSome h1 k]

theorem followLink_isSome (srcs tgts : List Nat) :
    ∀ {F F' : List (Nat × List Nat)}, followLink F srcs tgts = some F' →
      ∀ k, (mapGet F' k).isSome = (mapGet F k).isSome := by
  induction srcs with
  | nil =>
    intro F F' h k
    simp only [followLink, Option.some.injEq] at h
    rw [h]
  | cons p rest ih =>
    intro F F' h k
    unfold followLink at h
    cases h1 : followAddAll F p tgts with
    | none => rw [h1] at h; cases h
    | some F1 =>
      rw [h1] at h
      rw [ih h k, followAddAll_isSome tgts h1 k]

/-- On an AST without `'ε'` leaf the annotation pass gives a `followpos` entry
to every position that it hands out, and keeps the earlier entries. -/
theorem traverse_entries (ast : AST) (h : ast.avoids EPSILON) :
    ∀ (v0 : FollowVars) (A : AnnotatedAST) (v1 : FollowVars),
      traverse ast v0 = some (A, v1) →
      v0.position ≤ v1.position ∧
      (∀ k, (mapGet v0.followpos k).isSome = true → (mapGet v1.followpos k).isSome = true) ∧
      (∀ k, v0.position < k → k ≤ v1.position → (mapGet v1.followpos k).isSome = true) := by
  induction ast with
  | CHAR c =>
    intro v0 A v1 e
    have hc : c ≠ EPSILON := h
    simp only [traverse, ne_eq, hc, not_false_eq_true, ↓reduceIte, Option.some.injEq,
      Prod.mk.injEq] at e
    obtain ⟨_, e2⟩ := e
    subst e2
    refine ⟨Nat.le_succ _, fun k hk => ?_, fun k h1 h2 => ?_⟩
    · simp only
      rw [mapGet_mapSet]
      split
      · rfl
      · exact hk
    · simp only at h2 ⊢
      have : k = v0.position + 1 := by omega
      rw [this, mapGet_mapSet_self]
      rfl
  | CONCAT l r ihl ihr =>
    intro v0 A v1 e
    unfold traverse at e
    cases e1 : traverse l v0 with
    | none => rw [e1] at e; cases e
    | some p1 =>
      obtain ⟨Al, va⟩ := p1
      rw [e1] at e
      simp only at e
      cases e2 : traverse r va with
      | none => rw [e2] at e; cases e
      | some p2 =>
        obtain ⟨Ar, vb⟩ := p2
        rw [e2] at e
        simp only at e
        cases e3 : followLink vb.followpos Al.lastpos Ar.firstpos with
        | none => rw [e3] at e; cases e
        | some F =>
          rw [e3] at e
          simp only [Option.some.injEq, Prod.mk.injEq] at e
          obtain ⟨_, e5⟩ := e
          subst e5
          obtain ⟨a1, a2, a3⟩ := ihl h.1 v0 Al va e1
          obtain ⟨b1, b2, b3⟩ := ihr h.2 va Ar vb e2
          have hF := followLink_isSome _ _ e3
          refine ⟨Nat.le_trans a1 b1, fun k hk => ?_, fun k h1 h2 => ?_⟩
          · show (mapGet F k).isSome = true
            rw [hF]
            exact b2 k (a2 k hk)
          · show (mapGet F k).isSome = true
            rw [hF]
            by_cases hk : k ≤ va.position
            · exact b2 k (a3 k h1 hk)
            · exact b3 k (by omega) h2
  | ALTERNATION l r ihl ihr =>
    intro v0 A v1 e
    unfold traverse at e
    cases e1 : traverse l v0 with
    | none => rw [e1] at e; cases e
    | some p1 =>
      obtain ⟨Al, va⟩ := p1
      rw [e1] at e
      simp only at e
      cases e2 : traverse r va with
      | none => rw [e2] at e; cases e
      | some p2 =>
        obtain ⟨Ar, vb⟩ := p2
        rw [e2] at e
        simp only [Option.some.injEq, Prod.mk.injEq] at e
        obtain ⟨_, e5⟩ := e
        subst e5
        obtain ⟨a1, a2, a3⟩ := ihl h.1 v0 Al va e1
        obtain ⟨b1, b2, b3⟩ := ihr h.2 va Ar vb e2
        refine ⟨Nat.le_trans a1 b1, fun k hk => b2 k (a2 k hk), fun k h1 h2 => ?_⟩
        by_cases hk : k ≤ va.position
        · exact b2 k (a3 k h1 hk)
        · exact b3 k (by omega) h2
  | KLEENE_STAR c ih =>
    intro v0 A v1 e
    unfold traverse at e
    cases e1 : traverse c v0 with
    | none => rw [e1] at e; cases e
    | some p1 =>
      obtain ⟨Ac, va⟩ := p1
      rw [e1] at e
      simp only at e
      cases e3 : followLink va.followpos Ac.lastpos Ac.firstpos with
      | none => rw [e3] at e; cases e
      | some F =>
        rw [e3] at e
        simp only [Option.some.injEq, Prod.mk.injEq] at e
        obtain ⟨_, e5⟩ := e
        subst e5
        obtain ⟨a1, a2, a3⟩ := ih h v0 Ac va e1
        have hF := followLink_isSome _ _ e3
        refine ⟨a1, fun k hk => ?_, fun k h1 h2 => ?_⟩
        · show (mapGet F k).isSome = true
          rw [hF]
          exact a2 k hk
        · show (mapGet F k).isSome = true
          rw [hF]
          exact a3 k h1 h2

/-- On an AST without `'ε'` leaf, `calculateFollowpos` gives every position a
`followpos` set, and the set is empty for the end marker only. -/
theorem calculateFollowpos_entries (ast : AST) (h : ast.avoids EPSILON) :
    ∃ d, calculateFollowpos ast = some d ∧ RootFacts ast d ∧
      (∀ k, 1 ≤ k → k < d.positions.length →
        ∃ S, mapGet d.followpos k = some S ∧ S ≠ []) ∧
      mapGet d.followpos d.positions.length = some [] := by
  obtain ⟨d, hd, hR⟩ := calculateFollowpos_spec ast
  refine ⟨d, hd, hR, fun k h1 h2 => ?_, by rw [hR.length]; exact hR.endF⟩
  have hsome : (mapGet d.followpos k).isSome = true := by
    unfold calculateFollowpos at hd
    cases ht : traverse (.CONCAT ast (.CHAR '#'))
        { position := 0, positions := [], followpos := [] } with
    | none => rw [ht] at hd; cases hd
    | some p =>
      obtain ⟨A, v⟩ := p
      rw [ht] at hd
      simp only [Option.some.injEq] at hd
      subst hd
      have hav : (AST.CONCAT ast (.CHAR '#')).avoids EPSILON := ⟨h, hash_ne_epsilon⟩
      obtain ⟨_, _, a3⟩ := traverse_entries _ hav _ _ _ ht
      obtain ⟨_, a5, _⟩ := traverse_leaves _ _ _ _ ht
      refine a3 k h1 ?_
      rw [a5]
      show k ≤ 0 + (ast.leaves ++ ['#']).length
      have hl : v.positions.length = ast.leaves.length + 1 := hR.length
      have h2' : k < v.positions.length := h2
      rw [List.length_append, List.length_singleton]
      omega
  obtain ⟨w, hp⟩ := hR.coacc k hsome
  have hne : k ≠ ast.leaves.length + 1 := by
    have := hR.length
    omega
  cases hp with
  | single _ => exact absurd rfl hne
  | step _ hf _ =>
    obtain ⟨S, hS, hq⟩ := hf
    exact ⟨S, hS, List.ne_nil_of_mem hq⟩

/-! ## The parser on fully parenthesised renderings -/

theorem tokenLoop_literal {c : Char} (h : isLiteral c = true) (out : List AST) (ops rest : List Char) :
    tokenLoop out ops (c :: rest) = tokenLoop (AST.CHAR c :: out) ops rest := by
  simp only [tokenLoop, step, h, ↓reduceIte]

theorem tokenLoop_open (out : List AST) (ops rest : List Char) :
    tokenLoop out ops ('(' :: rest) = tokenLoop out ('(' :: ops) rest := by
  have h1 : isLiteral '(' = false := by decide
  simp [tokenLoop, step, h1]

theorem tokenLoop_close (out : List AST) (ops rest : List Char) :
    tokenLoop out ('(' :: ops) (')' :: rest) = tokenLoop out ops rest := by
  have h1 : isLiteral ')' = false := by decide
  have h2 : ¬ (')' = '(') := by decide
  simp [tokenLoop, step, h1, h2, popUntilParen]

theorem tokenLoop_close_concat (l r : AST) (out : List AST) (ops rest : List Char) :
    tokenLoop (r :: l :: out) ('.' :: '(' :: ops) (')' :: rest) =
      tokenLoop (AST.CONCAT l r :: out) ops rest := by
  have h1 : isLiteral ')' = false := by decide
  have h2 : ¬ (')' = '(') := by decide
  have h3 : ¬ ('.' = '(') := by decide
  have h4 : ¬ ('.' = '*') := by decide
  have h5 : ¬ ('.' = '|') := by decide
  simp [tokenLoop, step, h1, h2, h3, h4, h5, popUntilParen, applyOperator]

theorem tokenLoop_close_alternation (l r : AST) (out : List AST) (ops rest : List Char) :
    tokenLoop (r :: l :: out) ('|' :: '(' :: ops) (')' :: rest) =
      tokenLoop (AST.ALTERNATION l r :: out) ops rest := by
  have h1 : isLiteral ')' = false := by decide
  have h2 : ¬ (')' = '(') := by decide
  have h3 : ¬ ('|' = '(') := by decide
  have h4 : ¬ ('|' = '*') := by decide
  simp [tokenLoop, step, h1, h2, h3, h4, popUntilParen, applyOperator]

theorem tokenLoop_close_star (c : AST) (out : List AST) (ops rest : List Char) :
    tokenLoop (c :: out) ('*' :: '(' :: ops) (')' :: rest) =
      tokenLoop (AST.KLEENE_STAR c :: out) ops rest := by
  have h1 : isLiteral ')' = false := by decide
  have h2 : ¬ (')' = '(') := by decide
  have h3 : ¬ ('*' = '(') := by decide
  simp [tokenLoop, step, h1, h2, h3, popUntilParen, applyOperator]

theorem tokenLoop_operator_paren {op : Char} (h1 : isLiteral op = false) (h2 : op ≠ '(')
    (h3 : op ≠ ')') (out : List AST) (ops rest : List Char) :
    tokenLoop out ('(' :: ops) (op :: rest) = tokenLoop out (op :: '(' :: ops) rest := by
  simp [tokenLoop, step, h1, h2, h3, popWhilePrec]

theorem tokenLoop_operator_empty {op : Char} (h1 : isLiteral op = false) (h2 : op ≠ '(')
    (h3 : op ≠ ')') (out : List AST) (rest : List Char) :
    tokenLoop out [] (op :: rest) = tokenLoop out [op] rest := by
  simp [tokenLoop, step, h1, h2, h3, popWhilePrec]

/-- The tokens of a rendering, read between an open parenthesis on the stack
and the closing parenthesis, leave the AST on the output stack. -/
theorem tokenLoop_enclosed (t : AST) (h : t.alphanumeric) :
    ∀ (out : List AST) (ops rest : List Char),
      tokenLoop out ('(' :: ops) (t.tokens ++ ')' :: rest) = tokenLoop (t :: out) ops rest := by
  induction t with
  | CHAR c =>
    intro out ops rest
    have hc : isLiteral c = true := h
    simp only [AST.tokens, List.singleton_append]
    rw [tokenLoop_literal hc, tokenLoop_close]
  | CONCAT l r ihl ihr =>
    intro out ops rest
    simp only [AST.tokens, List.cons_append, List.append_assoc, List.nil_append]
    rw [tokenLoop_open, ihl h.1,
      tokenLoop_operator_paren (by decide) (by decide) (by decide), tokenLoop_open, ihr h.2,
      tokenLoop_close_concat]
  | ALTERNATION l r ihl ihr =>
    intro out ops rest
    simp only [AST.tokens, List.cons_append, List.append_assoc, List.nil_append]
    rw [tokenLoop_open, ihl h.1,
      tokenLoop_operator_paren (by decide) (by decide) (by decide), tokenLoop_open, ihr h.2,
      tokenLoop_close_alternation]
  | KLEENE_STAR c ih =>
    intro out ops rest
    simp only [AST.tokens, List.cons_append, List.append_assoc, List.nil_append]
    rw [tokenLoop_open, ih h,
      tokenLoop_operator_paren (by decide) (by decide) (by decide), tokenLoop_close_star]

/-- The shunting-yard loops return the AST on the tokens of its rendering. -/
theorem shunt_tokens (t : AST) (h : t.alphanumeric) : shunt t.tokens = .ok t := by
  have h3 : ¬ ('.' = '*') := by decide
  have h4 : ¬ ('.' = '|') := by decide
  have h5 : ¬ ('|' = '*') := by decide
  cases t with
  | CHAR c =>
    have hc : isLiteral c = true := h
    simp [shunt, AST.tokens, tokenLoop, step, hc, drain]
  | CONCAT l r =>
    have e : tokenLoop [] [] (AST.CONCAT l r).tokens = .ok ([r, l], ['.']) := by
      have e2 := tokenLoop_enclosed r h.2 [l] ['.'] []
      simp only [AST.tokens]
      rw [tokenLoop_open, tokenLoop_enclosed l h.1,
        tokenLoop_operator_empty (by decide) (by decide) (by decide), tokenLoop_open, e2]
      rfl
    simp [shunt, e, drain, applyOperator, h3, h4]
  | ALTERNATION l r =>
    have e : tokenLoop [] [] (AST.ALTERNATION l r).tokens = .ok ([r, l], ['|']) := by
      have e2 := tokenLoop_enclosed r h.2 [l] ['|'] []
      simp only [AST.tokens]
      rw [tokenLoop_open, tokenLoop_enclosed l h.1,
        tokenLoop_operator_empty (by decide) (by decide) (by decide), tokenLoop_open, e2]
      rfl
    simp [shunt, e, drain, applyOperator, h5]
  | KLEENE_STAR c =>
    have e : tokenLoop [] [] (AST.KLEENE_STAR c).tokens = .ok ([c], ['*']) := by
      have e2 := tokenLoop_enclosed c h [] [] ['*']
      simp only [AST.tokens]
      rw [tokenLoop_open, e2, tokenLoop_operator_empty (by decide) (by decide) (by decide)]
      rfl
    simp [shunt, e, drain, applyOperator]

theorem addConcat_open (rest : List Char) :
    addConcat ('(' :: rest) = '(' :: addConcat rest := by
  cases rest with
  | nil => rfl
  | cons n rest =>
    have h1 : isLiteral '(' = false := by decide
    have h2 : ('(' == ')' || '(' == '*') = false := by decide
    rw [addConcat]
    simp [h1, h2]

theorem addConcat_close_open (rest : List Char) :
    addConcat (')' :: '(' :: rest) = ')' :: '.' :: addConcat ('(' :: rest) := by
  have h1 : isLiteral ')' = false := by decide
  rw [addConcat]
  simp [h1]

theorem addConcat_close_suffix (s : List Char) (hs : s = [] ∨ ∃ s', s = ')' :: s') :
    addConcat (')' :: s) = ')' :: addConcat s := by
  rcases hs with rfl | ⟨s', rfl⟩
  · rfl
  · have h1 : isLiteral ')' = false := by decide
    rw [addConcat]
    simp [h1]

theorem addConcat_close_bar (rest : List Char) :
    addConcat (')' :: '|' :: rest) = ')' :: '|' :: addConcat rest := by
  have h1 : isLiteral ')' = false := by decide
  have h2 : isLiteral '|' = false := by decide
  have h3 : ('|' == '(') = false := by decide
  have h4 : ('|' == ')' || '|' == '*') = false := by decide
  have e1 : addConcat (')' :: '|' :: rest) = ')' :: addConcat ('|' :: rest) := by
    rw [addConcat]
    simp [h1, h2, h3]
  rw [e1]
  cases rest with
  | nil => rfl
  | cons n rest =>
    rw [addConcat]
    simp [h2, h4]

theorem addConcat_close_star (s : List Char) (hs : s = [] ∨ ∃ s', s = ')' :: s') :
    addConcat (')' :: '*' :: s) = ')' :: '*' :: addConcat s := by
  have h1 : isLiteral ')' = false := by decide
  have h2 : isLiteral '*' = false := by decide
  have h3 : ('*' == '(') = false := by decide
  have e1 : addConcat (')' :: '*' :: s) = ')' :: addConcat ('*' :: s) := by
    rw [addConcat]
    simp [h1, h2, h3]
  rw [e1]
  rcases hs with rfl | ⟨s', rfl⟩
  · rfl
  · rw [addConcat]
    simp [h1, h2]

theorem addConcat_literal_suffix {c : Char} (hc : isLiteral c = true) (s : List Char)
    (hs : s = [] ∨ ∃ s', s = ')' :: s') : addConcat (c :: s) = c :: addConcat s := by
  rcases hs with rfl | ⟨s', rfl⟩
  · rfl
  · have h1 : isLiteral ')' = false := by decide
    have h2 := isLiteral_ne hc
    rw [addConcat]
    simp [h1, h2.2.1, h2.2.2.1]

/-- The first loop of `parseRegex` turns a rendering into its tokens. -/
theorem addConcat_render (t : AST) (h : t.alphanumeric) :
    ∀ s : List Char, (s = [] ∨ ∃ s', s = ')' :: s') →
      addConcat (t.render ++ s) = t.tokens ++ addConcat s := by
  induction t with
  | CHAR c =>
    intro s hs
    exact addConcat_literal_suffix h s hs
  | CONCAT l r ihl ihr =>
    intro s hs
    simp only [AST.render, AST.tokens, List.cons_append, List.append_assoc, List.nil_append]
    rw [addConcat_open, ihl h.1 _ (Or.inr ⟨_, rfl⟩), addConcat_close_open, addConcat_open,
      ihr h.2 _ (Or.inr ⟨_, rfl⟩), addConcat_close_suffix s hs]
  | ALTERNATION l r ihl ihr =>
    intro s hs
    simp only [AST.render, AST.tokens, List.cons_append, List.append_assoc, List.nil_append]
    rw [addConcat_open, ihl h.1 _ (Or.inr ⟨_, rfl⟩), addConcat_close_bar, addConcat_open,
      ihr h.2 _ (Or.inr ⟨_, rfl⟩), addConcat_close_suffix s hs]
  | KLEENE_STAR c ih =>
    intro s hs
    simp only [AST.render, AST.tokens, List.cons_append, List.append_assoc, List.nil_append]
    rw [addConcat_open, ih h _ (Or.inr ⟨_, rfl⟩), addConcat_close_star s hs]

/-- `parseRegex` returns an AST with alphanumeric leaves on its rendering. -/
theorem parseRegex_render (t : AST) (h : t.alphanumeric) : parseRegex t.render = .ok t := by
  have e := addConcat_render t h [] (Or.inl rfl)
  rw [List.append_nil] at e
  unfold parseRegex
  rw [e]
  show shunt (t.tokens ++ []) = .ok t
  rw [List.append_nil]
  exact shunt_tokens t h

/-! ## Counting operands: an unclosed parenthesis makes `parseRegex` throw -/

theorem pendingBinary_cons (c : Char) (ops : List Char) :
    pendingBinary (c :: ops) = pendingBinary ops + (if c = '*' ∨ c = '(' then 0 else 1) := by
  unfold pendingBinary
  rw [List.countP_cons]
  by_cases h1 : c = '*'
  · simp [h1]
  · by_cases h2 : c = '('
    · simp [h2]
    · simp [h1, h2]

theorem pendingParens_cons (c : Char) (ops : List Char) :
    pendingParens (c :: ops) = pendingParens ops + (if c = '(' then 1 else 0) := by
  unfold pendingParens
  rw [List.countP_cons]
  by_cases h2 : c = '('
  · simp [h2]
  · simp [h2]

theorem literalCount_cons (c : Char) (l : List Char) :
    literalCount (c :: l) = literalCount l + (if isLiteral c = true then 1 else 0) := by
  unfold literalCount
  rw [List.countP_cons]

theorem binaryCount_cons (c : Char) (l : List Char) :
    binaryCount (c :: l) = binaryCount l + (if isBinaryToken c = true then 1 else 0) := by
  unfold binaryCount
  rw [List.countP_cons]

theorem literalCount_single (c : Char) :
    literalCount [c] = (if isLiteral c = true then 1 else 0) := by
  unfold literalCount
  rw [List.countP_cons, List.countP_nil, Nat.zero_add]

theorem binaryCount_single (c : Char) :
    binaryCount [c] = (if isBinaryToken c = true then 1 else 0) := by
  unfold binaryCount
  rw [List.countP_cons, List.countP_nil, Nat.zero_add]

theorem openParens_single (d : Nat) (c : Char) :
    openParens d [c] = if c = '(' then d + 1 else if c = ')' then d - 1 else d := by
  simp only [openParens]

theorem isBinaryToken_iff (c : Char) :
    isBinaryToken c = true ↔ (isLiteral c = false ∧ c ≠ '(' ∧ c ≠ ')' ∧ c ≠ '*') := by
  unfold isBinaryToken
  simp [and_assoc]

theorem applyOperator_length {out out' : List AST} {op : Char}
    (h : applyOperator out op = .ok out') :
    out'.length + (if op = '*' then 0 else 1) = out.length := by
  unfold applyOperator at h
  by_cases hop : op = '*'
  · simp only [hop, ↓reduceIte] at h ⊢
    cases out with
    | nil => cases h
    | cons x o =>
      simp only [Except.ok.injEq] at h
      rw [← h]
      rfl
  · simp only [hop, ↓reduceIte] at h ⊢
    match out, h with
    | [], h => cases h
    | [_], h => cases h
    | r :: l :: o, h =>
      simp only [Except.ok.injEq] at h
      rw [← h]
      rfl

theorem popUntilParen_count (ops : List Char) :
    ∀ {out out' : List AST} {ops' : List Char}, popUntilParen out ops = .ok (out', ops') →
      out'.length + pendingBinary ops = out.length + pendingBinary ops' ∧
      pendingParens ops' = pendingParens ops ∧ (ops' = [] ∨ ∃ o, ops' = '(' :: o) := by
  induction ops with
  | nil =>
    intro out out' ops' h
    simp only [popUntilParen, Except.ok.injEq, Prod.mk.injEq] at h
    obtain ⟨h1, h2⟩ := h
    subst h1 h2
    exact ⟨rfl, rfl, Or.inl rfl⟩
  | cons top ops ih =>
    intro out out' ops' h
    unfold popUntilParen at h
    by_cases ht : top = '('
    · simp only [ht, ↓reduceIte, Except.ok.injEq, Prod.mk.injEq] at h
      obtain ⟨h1, h2⟩ := h
      subst h1 h2
      exact ⟨by rw [ht], by rw [ht], Or.inr ⟨ops, rfl⟩⟩
    · simp only [ht, ↓reduceIte] at h
      cases ha : applyOperator out top with
      | error e => rw [ha] at h; cases h
      | ok o =>
        rw [ha] at h
        obtain ⟨i1, i2, i3⟩ := ih h
        have hl := applyOperator_length ha
        refine ⟨?_, ?_, i3⟩
        · rw [pendingBinary_cons]
          by_cases hs : top = '*'
          · simp only [hs, ↓reduceIte, true_or] at hl ⊢
            omega
          · simp only [hs, ht, ↓reduceIte, or_self] at hl ⊢
            omega
        · rw [pendingParens_cons, i2]
          simp [ht]

theorem popWhilePrec_count (token : Char) (ops : List Char) :
    ∀ {out out' : List AST} {ops' : List Char},
      popWhilePrec token out ops = .ok (out', ops') →
      out'.length + pendingBinary ops = out.length + pendingBinary ops' ∧
      pendingParens ops' = pendingParens ops := by
  induction ops with
  | nil =>
    intro out out' ops' h
    simp only [popWhilePrec, Except.ok.injEq, Prod.mk.injEq] at h
    obtain ⟨h1, h2⟩ := h
    subst h1 h2
    exact ⟨rfl, rfl⟩
  | cons top ops ih =>
    intro out out' ops' h
    unfold popWhilePrec at h
    by_cases hc : top ≠ '(' ∧ precGe top token = true
    · simp only [hc, ne_eq, not_false_eq_true, and_self, ↓reduceIte] at h
      cases ha : applyOperator out top with
      | error e => rw [ha] at h; cases h
      | ok o =>
        rw [ha] at h
        obtain ⟨i1, i2⟩ := ih h
        have hl := applyOperator_length ha
        have ht : ¬ top = '(' := hc.1
        refine ⟨?_, ?_⟩
        · rw [pendingBinary_cons]
          by_cases hs : top = '*'
          · simp only [hs, ↓reduceIte, true_or] at hl ⊢
            omega
          · simp only [hs, ht, ↓reduceIte, or_self] at hl ⊢
            omega
        · rw [pendingParens_cons, i2]
          simp [ht]
    · rw [if_neg hc] at h
      simp only [Except.ok.injEq, Prod.mk.injEq] at h
      obtain ⟨h1, h2⟩ := h
      subst h1 h2
      exact ⟨rfl, rfl⟩

theorem step_count {out out' : List AST} {ops ops' : List Char} {token : Char}
    (h : step out ops token = .ok (out', ops')) :
    out'.length + pendingBinary ops + binaryCount [token] =
      out.length + pendingBinary ops' + literalCount [token] ∧
    pendingParens ops' = openParens (pendingParens ops) [token] := by
  unfold step at h
  by_cases hl : isLiteral token = true
  · simp only [hl, ↓reduceIte, Except.ok.injEq, Prod.mk.injEq] at h
    obtain ⟨h1, h2⟩ := h
    subst h1 h2
    have hne := isLiteral_ne hl
    have hb : isBinaryToken token = false := by
      unfold isBinaryToken
      simp [hl]
    rw [binaryCount_single, literalCount_single, openParens_single]
    simp only [hb, hl, hne.1, hne.2.1, ↓reduceIte, List.length_cons, Bool.false_eq_true]
    exact ⟨by omega, trivial⟩
  · have hl' : isLiteral token = false := by simpa using hl
    simp only [hl', Bool.false_eq_true, ↓reduceIte] at h
    by_cases ho : token = '('
    · simp only [ho, ↓reduceIte, Except.ok.injEq, Prod.mk.injEq] at h
      obtain ⟨h1, h2⟩ := h
      subst h1 h2 ho
      have hb : isBinaryToken '(' = false := by decide
      have hl2 : isLiteral '(' = false := by decide
      rw [binaryCount_single, literalCount_single, openParens_single, pendingBinary_cons,
        pendingParens_cons]
      simp only [hb, hl2, ↓reduceIte, or_true, Bool.false_eq_true]
      exact ⟨by omega, trivial⟩
    · simp only [ho, ↓reduceIte] at h
      by_cases hc : token = ')'
      · simp only [hc, ↓reduceIte] at h
        cases hp : popUntilParen out ops with
        | error e => rw [hp] at h; cases h
        | ok r =>
          obtain ⟨o, p⟩ := r
          rw [hp] at h
          simp only [Except.ok.injEq, Prod.mk.injEq] at h
          obtain ⟨h1, h2⟩ := h
          subst h1 h2 hc
          obtain ⟨i1, i2, i3⟩ := popUntilParen_count ops hp
          have hb : isBinaryToken ')' = false := by decide
          have hl2 : isLiteral ')' = false := by decide
          have hx : ¬ (')' = '(') := by decide
          rw [binaryCount_single, literalCount_single, openParens_single]
          simp only [hb, hl2, hx, ↓reduceIte, Bool.false_eq_true]
          rcases i3 with rfl | ⟨q, rfl⟩
          · simp only [List.tail_nil]
            rw [← i2]
            exact ⟨by omega, rfl⟩
          · simp only [List.tail_cons]
            rw [pendingBinary_cons] at i1
            rw [pendingParens_cons] at i2
            simp only [or_true, ↓reduceIte] at i1 i2
            exact ⟨by omega, by omega⟩
      · simp only [hc, ↓reduceIte] at h
        cases hp : popWhilePrec token out ops with
        | error e => rw [hp] at h; cases h
        | ok r =>
          obtain ⟨o, p⟩ := r
          rw [hp] at h
          simp only [Except.ok.injEq, Prod.mk.injEq] at h
          obtain ⟨h1, h2⟩ := h
          subst h1 h2
          obtain ⟨i1, i2⟩ := popWhilePrec_count token ops hp
          rw [pendingBinary_cons, pendingParens_cons, binaryCount_single, literalCount_single,
            openParens_single]
          simp only [ho, hc, hl', ↓reduceIte, or_false, Bool.false_eq_true]
          by_cases hs : token = '*'
          · have hb : isBinaryToken token = false := by
              rw [hs]; decide
            rw [hb, if_pos hs]
            simp only [↓reduceIte, Bool.false_eq_true]
            exact ⟨by omega, by omega⟩
          · have hb : isBinaryToken token = true :=
              (isBinaryToken_iff token).2 ⟨hl', ho, hc, hs⟩
            rw [hb, if_neg hs]
            simp only [↓reduceIte]
            exact ⟨by omega, by omega⟩

theorem openParens_cons (d : Nat) (c : Char) (l : List Char) :
    openParens d (c :: l) = openParens (openParens d [c]) l := by
  simp only [openParens]
  split
  · rfl
  · split <;> rfl

theorem tokenLoop_count (toks : List Char) :
    ∀ {out out' : List AST} {ops ops' : List Char},
      tokenLoop out ops toks = .ok (out', ops') →
      out'.length + pendingBinary ops + binaryCount toks =
        out.length + pendingBinary ops' + literalCount toks ∧
      pendingParens ops' = openParens (pendingParens ops) toks := by
  induction toks with
  | nil =>
    intro out out' ops ops' h
    simp only [tokenLoop, Except.ok.injEq, Prod.mk.injEq] at h
    obtain ⟨h1, h2⟩ := h
    subst h1 h2
    exact ⟨rfl, rfl⟩
  | cons token rest ih =>
    intro out out' ops ops' h
    unfold tokenLoop at h
    cases hs : step out ops token with
    | error e => rw [hs] at h; cases h
    | ok r =>
      obtain ⟨o, p⟩ := r
      rw [hs] at h
      obtain ⟨s1, s2⟩ := step_count hs
      obtain ⟨i1, i2⟩ := ih h
      rw [openParens_cons, ← s2, i2]
      refine ⟨?_, rfl⟩
      rw [binaryCount_cons, literalCount_cons]
      rw [binaryCount_single, literalCount_single] at s1
      omega

theorem drain_count (ops : List Char) :
    ∀ {out out' : List AST}, drain out ops = .ok out' →
      out'.length + pendingBinary ops + pendingParens ops = out.length := by
  induction ops with
  | nil =>
    intro out out' h
    simp only [drain, Except.ok.injEq] at h
    rw [h]
    rfl
  | cons top ops ih =>
    intro out out' h
    unfold drain at h
    cases ha : applyOperator out top with
    | error e => rw [ha] at h; cases h
    | ok o =>
      rw [ha] at h
      have i1 := ih h
      have hl := applyOperator_length ha
      rw [pendingBinary_cons, pendingParens_cons]
      by_cases hs : top = '*'
      · have hx : ¬ top = '(' := by rw [hs]; decide
        rw [if_pos hs] at hl
        rw [if_pos (Or.inl hs), if_neg hx]
        omega
      · by_cases hp : top = '('
        · rw [if_neg hs] at hl
          rw [if_pos (Or.inr hp), if_pos hp]
          omega
        · rw [if_neg hs] at hl
          rw [if_neg (fun hc => hc.elim hs hp), if_neg hp]
          omega

theorem leadsOperand_le (s : List Char) : leadsOperand s ≤ 1 := by
  cases s with
  | nil => exact Nat.zero_le _
  | cons c rest =>
    show (if (isLiteral c || c == '(') = true then 1 else 0) ≤ 1
    split <;> omega

/-- After the insertion of the explicit concatenation operators, the literals
are at most one more than the two-operand operators, and not more when the
string starts with neither a literal nor `(`. -/
theorem addConcat_weight (s : List Char) :
    literalCount (addConcat s) ≤ binaryCount (addConcat s) + leadsOperand s := by
  induction s with
  | nil => exact Nat.le_refl _
  | cons c rest ih =>
    cases rest with
    | nil =>
      simp only [addConcat, literalCount_cons, binaryCount_cons, literalCount, binaryCount,
        List.countP_nil, leadsOperand, Nat.zero_add]
      by_cases hl : isLiteral c = true
      · simp [hl]
      · simp [hl]
    | cons n rest =>
      have hbd : isBinaryToken '.' = true := by decide
      have hld : isLiteral '.' = false := by decide
      have hn1 := leadsOperand_le (n :: rest)
      have hn0 : (isLiteral n || n == '(') = false → leadsOperand (n :: rest) = 0 := by
        intro hh
        simp only [leadsOperand, hh, Bool.false_eq_true, ↓reduceIte]
      by_cases h1 : (isLiteral c && (isLiteral n || n == '(')) = true
      · have e : addConcat (c :: n :: rest) = c :: '.' :: addConcat (n :: rest) := by
          rw [addConcat]; simp [h1]
        have hc : isLiteral c = true := by
          simp only [Bool.and_eq_true] at h1
          exact h1.1
        have hb : isBinaryToken c = false := by
          unfold isBinaryToken
          simp [hc]
        rw [e]
        simp only [literalCount_cons, binaryCount_cons, hc, hb, hbd, hld, leadsOperand,
          Bool.true_or, ↓reduceIte, Bool.false_eq_true]
        omega
      · by_cases h2 : ((c == ')' || c == '*') && (isLiteral n || n == '(')) = true
        · have e : addConcat (c :: n :: rest) = c :: '.' :: addConcat (n :: rest) := by
            rw [addConcat]; simp [h1, h2]
          have hc : c = ')' ∨ c = '*' := by
            simp only [Bool.and_eq_true, Bool.or_eq_true, beq_iff_eq] at h2
            exact h2.1
          have hlc : isLiteral c = false := by
            rcases hc with rfl | rfl <;> decide
          have hb : isBinaryToken c = false := by
            rcases hc with rfl | rfl <;> decide
          rw [e]
          simp only [literalCount_cons, binaryCount_cons, hlc, hb, hbd, hld,
            ↓reduceIte, Bool.false_eq_true]
          omega
        · have e : addConcat (c :: n :: rest) = c :: addConcat (n :: rest) := by
            rw [addConcat]; simp [h1, h2]
          rw [e]
          simp only [literalCount_cons, binaryCount_cons]
          by_cases hlc : isLiteral c = true
          · have hnn : (isLiteral n || n == '(') = false := by
              simp only [hlc, Bool.true_and] at h1
              simpa using h1
            have hb : isBinaryToken c = false := by
              unfold isBinaryToken
              simp [hlc]
            have := hn0 hnn
            simp only [hlc, hb, leadsOperand, Bool.true_or, ↓reduceIte, Bool.false_eq_true]
            omega
          · have hlc' : isLiteral c = false := by simpa using hlc
            by_cases hb : isBinaryToken c = true
            · simp only [hlc', hb, ↓reduceIte, Bool.false_eq_true]
              omega
            · have hb' : isBinaryToken c = false := by simpa using hb
              have hcls : c = '(' ∨ c = ')' ∨ c = '*' := by
                by_contra hcon
                simp only [not_or] at hcon
                exact hb ((isBinaryToken_iff c).2 ⟨hlc', hcon.1, hcon.2.1, hcon.2.2⟩)
              rcases hcls with rfl | hcc
              · simp only [hlc', hb', leadsOperand, Bool.false_or, beq_self_eq_true,
                  ↓reduceIte, Bool.false_eq_true]
                omega
              · have hnn : (isLiteral n || n == '(') = false := by
                  have hcc' : (c == ')' || c == '*') = true := by
                    rcases hcc with rfl | rfl <;> decide
                  simp only [hcc', Bool.true_and] at h2
                  simpa using h2
                have := hn0 hnn
                simp only [hlc', hb', ↓reduceIte, Bool.false_eq_true]
                omega

theorem openParens_dot (d : Nat) (l : List Char) : openParens d ('.' :: l) = openParens d l := by
  have h1 : ¬ ('.' = '(') := by decide
  have h2 : ¬ ('.' = ')') := by decide
  simp only [openParens, h1, h2, ↓reduceIte]

/-- The inserted concatenation operators do not change the open parentheses. -/
theorem openParens_addConcat (s : List Char) :
    ∀ d, openParens d (addConcat s) = openParens d s := by
  induction s with
  | nil => intro d; rfl
  | cons c rest ih =>
    intro d
    cases rest with
    | nil => rfl
    | cons n rest =>
      have hstep : ∀ d, openParens d (c :: addConcat (n :: rest)) =
          openParens d (c :: n :: rest) := by
        intro d
        rw [openParens_cons, ih, ← openParens_cons]
      by_cases h1 : (isLiteral c && (isLiteral n || n == '(')) = true
      · have e : addConcat (c :: n :: rest) = c :: '.' :: addConcat (n :: rest) := by
          rw [addConcat]; simp [h1]
        rw [e, openParens_cons, openParens_dot, ← openParens_cons, hstep]
      · by_cases h2 : ((c == ')' || c == '*') && (isLiteral n || n == '(')) = true
        · have e : addConcat (c :: n :: rest) = c :: '.' :: addConcat (n :: rest) := by
            rw [addConcat]; simp [h1, h2]
          rw [e, openParens_cons, openParens_dot, ← openParens_cons, hstep]
        · have e : addConcat (c :: n :: rest) = c :: addConcat (n :: rest) := by
            rw [addConcat]; simp [h1, h2]
          rw [e, hstep]

/-- When the token loop ends with a parenthesis on the operator stack, the
final loop leaves no operand on the output stack, if it returns at all. -/
theorem unclosed_drain {s : List Char} (h : 0 < unclosedParens s) {out : List AST}
    {ops : List Char} (ht : tokenLoop [] [] (addConcat s) = .ok (out, ops)) :
    '(' ∈ ops ∧ ∀ out', drain out ops = .ok out' → out'.length = 0 := by
  obtain ⟨t1, t2⟩ := tokenLoop_count _ ht
  have hw := addConcat_weight s
  have hb := leadsOperand_le s
  have hp : 0 < pendingParens ops := by
    rw [t2]
    show 0 < openParens 0 (addConcat s)
    rw [openParens_addConcat]
    exact h
  have e0 : pendingBinary ([] : List Char) = 0 := rfl
  have e1 : ([] : List AST).length = 0 := rfl
  rw [e0, e1] at t1
  refine ⟨?_, fun out' hd => ?_⟩
  · unfold pendingParens at hp
    obtain ⟨x, hx, hx'⟩ := List.countP_pos_iff.1 hp
    have : x = '(' := by simpa using hx'
    exact this ▸ hx
  · have := drain_count ops hd
    omega

/-- `parseRegex` throws on a string with a parenthesis that is never closed. -/
theorem parseRegex_unclosed {s : List Char} (h : 0 < unclosedParens s) :
    ∃ e, parseRegex s = .error e := by
  cases hp : parseRegex s with
  | error e => exact ⟨e, rfl⟩
  | ok t =>
    exfalso
    unfold parseRegex shunt at hp
    cases ht : tokenLoop [] [] (addConcat s) with
    | error e => rw [ht] at hp; cases hp
    | ok r =>
      obtain ⟨out, ops⟩ := r
      rw [ht] at hp
      simp only at hp
      cases hd : drain out ops with
      | error e => rw [hd] at hp; cases hp
      | ok out' =>
        rw [hd] at hp
        have hlen := (unclosed_drain h ht).2 out' hd
        match out', hp, hlen with
        | [], hp, _ => cases hp
        | [tree], _, hlen => cases hlen
        | _ :: _ :: _, hp, _ => cases hp

theorem openParens_append (l1 l2 : List Char) :
    ∀ d, openParens d (l1 ++ l2) = openParens (openParens d l1) l2 := by
  induction l1 with
  | nil => intro d; rfl
  | cons c l1 ih =>
    intro d
    rw [List.cons_append, openParens_cons, ih, ← openParens_cons]

theorem openParens_ge (l : List Char) (h : ')' ∉ l) : ∀ d, d ≤ openParens d l := by
  induction l with
  | nil => intro d; exact Nat.le_refl _
  | cons c l ih =>
    intro d
    have hc : c ≠ ')' := fun e => h (e ▸ List.mem_cons_self _ _)
    have hl : ')' ∉ l := fun e => h (List.mem_cons_of_mem _ e)
    rw [openParens_cons, openParens_single]
    by_cases ho : c = '('
    · rw [if_pos ho]
      exact Nat.le_trans (Nat.le_succ d) (ih hl _)
    · rw [if_neg ho, if_neg hc]
      exact ih hl d

/-- A `(` with no `)` after it is never closed. -/
theorem unclosedParens_pos (pre suf : List Char) (h : ')' ∉ suf) :
    0 < unclosedParens (pre ++ '(' :: suf) := by
  unfold unclosedParens
  rw [openParens_append, openParens_cons, openParens_single, if_pos rfl]
  exact Nat.lt_of_lt_of_le (Nat.succ_pos _) (openParens_ge suf h _)

/-! ## Claims about the two pipelines -/

/-- C1: for every AST returned by `parseRegex` (and every store the NFA builder
starts from), both pipelines return a DFA, and the DFA `nfaToDfa(astToNfa(ast))`
accepts a word exactly when the DFA `generateDfaDirectly(ast).dfa` accepts it. -/
theorem C1_pipelines_agree (s : List Char) (ast : AST) (h : parseRegex s = .ok ast)
    (σ : Store) :
    ∃ d r, subsetDfa ast σ = some d ∧ generateDfaDirectly ast = some r ∧
      ∀ w, d.accepts w = r.dfa.accepts w := by
  obtain ⟨d, r, hd, hr, _, _, l1, l2⟩ := pipelines_spec (parseRegex_alphanumeric h) σ
  refine ⟨d, r, hd, hr, fun w => ?_⟩
  rw [Bool.eq_iff_iff, l1, l2]

/-- Witness of C1 at the regex `a(b|c)*`. -/
theorem C1_pipelines_agree_witness :
    parseRegex "a(b|c)*".toList =
      .ok (.CONCAT (.CHAR 'a') (.KLEENE_STAR (.ALTERNATION (.CHAR 'b') (.CHAR 'c')))) ∧
    ∃ d r,
      subsetDfa (.CONCAT (.CHAR 'a') (.KLEENE_STAR (.ALTERNATION (.CHAR 'b') (.CHAR 'c'))))
        Store.initial = some d ∧
      generateDfaDirectly
        (.CONCAT (.CHAR 'a') (.KLEENE_STAR (.ALTERNATION (.CHAR 'b') (.CHAR 'c')))) = some r ∧
      ∀ w, d.accepts w = r.dfa.accepts w :=
  ⟨parse_sample, C1_pipelines_agree _ _ parse_sample Store.initial⟩

/-- C2 (counterexample): on the AST `CHAR 'ε'` the DFA `nfaToDfa(astToNfa(ast))`
accepts the empty word, which is not in the language `{"ε"}` that the claim
assigns to that AST: `nfa.js` reads the symbol `'ε'` as the epsilon move. -/
theorem C2_epsilon_leaf_counterexample :
    ∃ d, subsetDfa (.CHAR 'ε') Store.initial = some d ∧ d.accepts [] = true ∧
      [] ∉ languageOf (.CHAR 'ε') := by
  obtain ⟨d, hd, hacc⟩ := Option.map_eq_some'.1 epsilon_leaf_eval
  refine ⟨d, hd, hacc, fun h => ?_⟩
  have h' : ([] : List Char) = ['ε'] := h
  cases h'

/-- C2 (amended): for every AST none of whose `CHAR` leaves has the value `'ε'`
(and every store the NFA builder starts from), `nfaToDfa(astToNfa(ast))` returns
a DFA, and that DFA accepts a word exactly when the word belongs to the regular
language denoted by the AST. -/
theorem C2_subset_accepts_language (ast : AST) (h : ast.avoids EPSILON) (σ : Store) :
    ∃ d, subsetDfa ast σ = some d ∧ ∀ w, d.accepts w = true ↔ w ∈ languageOf ast := by
  obtain ⟨d, hd, _, _, hl⟩ := subsetDfa_spec ast σ
  exact ⟨d, hd, hl h⟩

/-- Witness of C2 (amended) at the AST of `a(b|c)*`. -/
theorem C2_subset_accepts_language_witness :
    AST.avoids EPSILON
      (.CONCAT (.CHAR 'a') (.KLEENE_STAR (.ALTERNATION (.CHAR 'b') (.CHAR 'c')))) ∧
    ∃ d,
      subsetDfa (.CONCAT (.CHAR 'a') (.KLEENE_STAR (.ALTERNATION (.CHAR 'b') (.CHAR 'c'))))
        Store.initial = some d ∧
      ∀ w, d.accepts w = true ↔
        w ∈ languageOf
          (.CONCAT (.CHAR 'a') (.KLEENE_STAR (.ALTERNATION (.CHAR 'b') (.CHAR 'c')))) :=
  ⟨sample_avoids_epsilon,
    C2_subset_accepts_language _ sample_avoids_epsilon Store.initial⟩

/-- C3 (counterexample): for the regex `a*` the DFA `nfaToDfa(astToNfa(ast))` has
two states and the DFA `generateDfaDirectly(ast).dfa` has one, so no bijection
between their states exists, in either direction. -/
theorem C3_star_not_isomorphic :
    ∃ ast d r, parseRegex "a*".toList = .ok ast ∧
      subsetDfa ast Store.initial = some d ∧ generateDfaDirectly ast = some r ∧
      d.states.length = 2 ∧ r.dfa.states.length = 1 ∧
      ¬ r.dfa.Isomorphic d ∧ ¬ d.Isomorphic r.dfa := by
  obtain ⟨d, hd, e1⟩ := Option.map_eq_some'.1 star_subset_ids
  obtain ⟨r, hr, e2⟩ := Option.map_eq_some'.1 star_direct_ids
  have s1 : ∀ s, (d.state s).isSome = true ↔ s = 0 ∨ s = 1 := by
    intro s
    rw [DFA.state_isSome_iff, e1]
    simp
  have s2 : ∀ s, (r.dfa.state s).isSome = true ↔ s = 0 := by
    intro s
    rw [DFA.state_isSome_iff, e2]
    simp
  have n1 : d.states.length = 2 := by
    have := congrArg List.length e1
    simpa using this
  have n2 : r.dfa.states.length = 1 := by
    have := congrArg List.length e2
    simpa using this
  refine ⟨_, d, r, rfl, hd, hr, n1, n2, ?_, ?_⟩
  · rintro ⟨f, hbij, _⟩
    obtain ⟨x, hx, hfx⟩ := hbij.surjOn ((s1 0).2 (Or.inl rfl))
    obtain ⟨y, hy, hfy⟩ := hbij.surjOn ((s1 1).2 (Or.inr rfl))
    have ex : x = 0 := (s2 x).1 hx
    have ey : y = 0 := (s2 y).1 hy
    rw [ex] at hfx
    rw [ey] at hfy
    omega
  · rintro ⟨f, hbij, _⟩
    have h0 : f 0 = 0 := (s2 _).1 (hbij.mapsTo ((s1 0).2 (Or.inl rfl)))
    have h1 : f 1 = 0 := (s2 _).1 (hbij.mapsTo ((s1 1).2 (Or.inr rfl)))
    have := hbij.injOn ((s1 0).2 (Or.inl rfl)) ((s1 1).2 (Or.inr rfl)) (h0.trans h1.symm)
    omega

/-- C3 (amended): for every AST returned by `parseRegex`, the DFA
`generateDfaDirectly(ast).dfa` is bisimilar to the DFA `nfaToDfa(astToNfa(ast))`:
there is a relation between their states that relates every state of each DFA
to some state of the other, relates start state to start state, preserves
`isAccepting`, and preserves every transition on every symbol (related states
either both lack the transition or both have it, with related targets). -/
theorem C3_pipelines_bisimilar (s : List Char) (ast : AST) (h : parseRegex s = .ok ast)
    (σ : Store) :
    ∃ d r, subsetDfa ast σ = some d ∧ generateDfaDirectly ast = some r ∧
      r.dfa.Bisimilar d := by
  obtain ⟨d, r, hd, hr, t1, t2, l1, l2⟩ :=
    pipelines_spec (parseRegex_alphanumeric h) σ
  refine ⟨d, r, hd, hr, bisimilar_of_equivalent t2 t1 (fun w => ?_)⟩
  rw [Bool.eq_iff_iff, l1, l2]

/-- Witness of C3 (amended) at the regex `a*`. -/
theorem C3_pipelines_bisimilar_witness :
    parseRegex "a*".toList = .ok (.KLEENE_STAR (.CHAR 'a')) ∧
    ∃ d r, subsetDfa (.KLEENE_STAR (.CHAR 'a')) Store.initial = some d ∧
      generateDfaDirectly (.KLEENE_STAR (.CHAR 'a')) = some r ∧ r.dfa.Bisimilar d :=
  ⟨rfl, C3_pipelines_bisimilar "a*".toList _ rfl Store.initial⟩

/-- C4: for the regex `a(b|c)*` (and every store the NFA builder starts from),
both DFAs accept `"a"`, `"abc"` and `"abbbcbc"` and reject `""`, `"b"` and
`"ab c"`. -/
theorem C4_sample_strings :
    ∃ ast, parseRegex "a(b|c)*".toList = .ok ast ∧
      ∀ σ : Store, ∃ d r, subsetDfa ast σ = some d ∧ generateDfaDirectly ast = some r ∧
        (d.accepts "a".toList = true ∧ d.accepts "abc".toList = true ∧
          d.accepts "abbbcbc".toList = true ∧ d.accepts "".toList = false ∧
          d.accepts "b".toList = false ∧ d.accepts "ab c".toList = false) ∧
        (r.dfa.accepts "a".toList = true ∧ r.dfa.accepts "abc".toList = true ∧
          r.dfa.accepts "abbbcbc".toList = true ∧ r.dfa.accepts "".toList = false ∧
          r.dfa.accepts "b".toList = false ∧ r.dfa.accepts "ab c".toList = false) := by
  refine ⟨_, parse_sample, fun σ => ?_⟩
  have ha := parseRegex_alphanumeric parse_sample
  obtain ⟨d, r, hd, hr, _, _, l1, _⟩ := pipelines_spec ha σ
  obtain ⟨d0, r0, hd0, _, _, _, l0, _⟩ := pipelines_spec ha Store.initial
  have e0 := sample_subset_eval
  have e1 := sample_direct_eval
  rw [hd0] at e0
  rw [hr] at e1
  simp only [Option.map_some', Option.some.injEq, List.cons.injEq, and_true] at e0 e1
  have same : ∀ w, d.accepts w = d0.accepts w := by
    intro w
    rw [Bool.eq_iff_iff, l1, l0]
  refine ⟨d, r, hd, hr, ?_, e1⟩
  simp only [same]
  exact e0

/-! ## Claims about the parser -/

/-- C5: `parseRegex` throws on `"a|"`, `"(a"` and `"*a"` (with the message of the
operator that lacks an operand) and returns an AST on `"a*"`, `"(a|b)*"` and `"a"`. -/
theorem C5_error_boundary :
    parseRegex "a|".toList = .error "Invalid syntax for operator \x27|\x27." ∧
    parseRegex "(a".toList = .error "Invalid syntax for operator \x27(\x27." ∧
    parseRegex "*a".toList = .error "Invalid syntax for Kleene star." ∧
    parseRegex "a*".toList = .ok (.KLEENE_STAR (.CHAR 'a')) ∧
    parseRegex "(a|b)*".toList = .ok (.KLEENE_STAR (.ALTERNATION (.CHAR 'a') (.CHAR 'b'))) ∧
    parseRegex "a".toList = .ok (.CHAR 'a') :=
  ⟨rfl, rfl, rfl, rfl, rfl, rfl⟩

/-- C6 (evaluation at the failing input): the string `"a)"` has a `)` without an
earlier `(`, and `parseRegex` still returns the AST `CHAR a` for it: the `pop`
meant for the `(` finds an empty operator stack and passes silently. -/
theorem C6_unmatched_close_paren_parses :
    balanced "a)".toList = false ∧ parseRegex "a)".toList = .ok (.CHAR 'a') :=
  ⟨rfl, rfl⟩

/-- C7: parsing a string and parsing the same string with the explicit
concatenation operator already inserted (by the rule of the specification) have
the same outcome; in particular `"ab"` / `"a.b"` and `"(a)(b)"` / `"(a).(b)"`. -/
theorem C7_explicit_concat_same_parse :
    (∀ s : List Char, parseRegex s = parseRegex (insertExplicitConcat s)) ∧
    parseRegex "ab".toList = parseRegex "a.b".toList ∧
    parseRegex "ab".toList = .ok (.CONCAT (.CHAR 'a') (.CHAR 'b')) ∧
    parseRegex "(a)(b)".toList = parseRegex "(a).(b)".toList ∧
    parseRegex "(a)(b)".toList = .ok (.CONCAT (.CHAR 'a') (.CHAR 'b')) := by
  refine ⟨fun s => ?_, rfl, rfl, rfl, rfl⟩
  rw [← addConcat_eq_insertExplicitConcat]
  unfold parseRegex
  rw [addConcat_idem]

/-- C8: precedence `|` < concatenation < `*`, left associativity of `|` and of
concatenation, and parentheses overriding both, on alphanumeric `x`, `y`, `z`. -/
theorem C8_precedence (x y z : Char)
    (hx : isLiteral x = true) (hy : isLiteral y = true) (hz : isLiteral z = true) :
    parseRegex [x, '|', y, z, '*'] =
      .ok (.ALTERNATION (.CHAR x) (.CONCAT (.CHAR y) (.KLEENE_STAR (.CHAR z)))) ∧
    parseRegex ['(', x, '|', y, ')', z] =
      .ok (.CONCAT (.ALTERNATION (.CHAR x) (.CHAR y)) (.CHAR z)) ∧
    parseRegex [x, y, z] = .ok (.CONCAT (.CONCAT (.CHAR x) (.CHAR y)) (.CHAR z)) ∧
    parseRegex [x, '|', y, '|', z] =
      .ok (.ALTERNATION (.ALTERNATION (.CHAR x) (.CHAR y)) (.CHAR z)) := by
  obtain ⟨x1, x2, x3, x4, x5⟩ := isLiteral_ne hx
  obtain ⟨y1, y2, y3, y4, y5⟩ := isLiteral_ne hy
  obtain ⟨z1, z2, z3, z4, z5⟩ := isLiteral_ne hz
  have l1 : isLiteral '|' = false := by decide
  have l2 : isLiteral '.' = false := by decide
  have l3 : isLiteral '*' = false := by decide
  have l4 : isLiteral '(' = false := by decide
  have l5 : isLiteral ')' = false := by decide
  refine ⟨?_, ?_, ?_, ?_⟩ <;>
    simp [parseRegex, addConcat, shunt, tokenLoop, step, popWhilePrec, popUntilParen, drain,
      applyOperator, precGe, precedence, hx, hy, hz, l1, l2, l3, l4, l5, x1, x2, x3, x4, x5,
      y1, y2, y3, y4, y5, z1, z2, z3, z4, z5]

/-- Witness of C8 at `x = 'a'`, `y = 'b'`, `z = 'c'`. -/
theorem C8_precedence_witness :
    parseRegex "a|bc*".toList =
      .ok (.ALTERNATION (.CHAR 'a') (.CONCAT (.CHAR 'b') (.KLEENE_STAR (.CHAR 'c')))) ∧
    parseRegex "(a|b)c".toList =
      .ok (.CONCAT (.ALTERNATION (.CHAR 'a') (.CHAR 'b')) (.CHAR 'c')) ∧
    parseRegex "abc".toList = .ok (.CONCAT (.CONCAT (.CHAR 'a') (.CHAR 'b')) (.CHAR 'c')) ∧
    parseRegex "a|b|c".toList =
      .ok (.ALTERNATION (.ALTERNATION (.CHAR 'a') (.CHAR 'b')) (.CHAR 'c')) :=
  C8_precedence 'a' 'b' 'c' (by decide) (by decide) (by decide)

/-! ## Claims about the invariants of the automata -/

/-- C9: for every AST (and every store the NFA builder starts from), both
pipelines return a DFA, and in each of the two DFAs every state has at most one
target state for each symbol. -/
theorem C9_deterministic (ast : AST) (σ : Store) :
    ∃ d r, subsetDfa ast σ = some d ∧ generateDfaDirectly ast = some r ∧
      d.Deterministic ∧ r.dfa.Deterministic := by
  obtain ⟨d, hd, n1, _⟩ := subsetDfa_spec ast σ
  obtain ⟨r, hr, n2, _⟩ := directDfa_spec ast
  exact ⟨d, r, hd, hr, deterministic_of_nodup n1, deterministic_of_nodup n2⟩

/-- C10: for every AST (and every store the NFA builder starts from), the NFA
states that are reachable from `astToNfa(ast).startState` and have
`isAccepting = true` are exactly one state, `astToNfa(ast).endState`. -/
theorem C10_single_accepting_state (ast : AST) (σ : Store) (s : Nat) :
    (Reach (astToNfa ast σ).2.states (astToNfa ast σ).1.startState s ∧
      (deref (astToNfa ast σ).2.states s).isAccepting = true) ↔
    s = (astToNfa ast σ).1.endState := by
  obtain ⟨hr, hall⟩ := (astToNfa_spec ast σ).one_accepting
  constructor
  · rintro ⟨h1, h2⟩
    exact (hall s h1).1 h2
  · intro e
    rw [e]
    exact ⟨hr, (hall _ hr).2 rfl⟩

/-! ## Claims about the followpos tables and the epsilon closure -/

/-- C13: for the regex `(a|b)*abb`, `calculateFollowpos(parseRegex(r))` numbers
the leaves of the augmented tree 1..6, left to right, with the symbols
`a, b, a, b, b, #`, and yields `followpos(1) = followpos(2) = {1,2,3}`,
`followpos(3) = {4}`, `followpos(4) = {5}`, `followpos(5) = {6}` and
`followpos(6) = {}`. -/
theorem C13_followpos_of_textbook_regex :
    ∃ ast d, parseRegex "(a|b)*abb".toList = .ok ast ∧ calculateFollowpos ast = some d ∧
      d.augmentedAst.erase.leaves = ['a', 'b', 'a', 'b', 'b', '#'] ∧
      d.augmentedAst.leafPositions = [some 1, some 2, some 3, some 4, some 5, some 6] ∧
      d.positions = [(1, 'a'), (2, 'b'), (3, 'a'), (4, 'b'), (5, 'b'), (6, '#')] ∧
      mapGet d.followpos 1 = some [1, 2, 3] ∧ mapGet d.followpos 2 = some [1, 2, 3] ∧
      mapGet d.followpos 3 = some [4] ∧ mapGet d.followpos 4 = some [5] ∧
      mapGet d.followpos 5 = some [6] ∧ mapGet d.followpos 6 = some [] ∧
      d.followpos.map Prod.fst = [1, 2, 3, 4, 5, 6] := by
  obtain ⟨d, hd, he⟩ := Option.map_eq_some'.1 textbook_followpos_eval
  simp only [Prod.mk.injEq] at he
  obtain ⟨h1, h2, h3, h4⟩ := he
  refine ⟨_, d, parse_textbook, hd, h1, h2, h3, ?_⟩
  rw [h4]
  exact ⟨rfl, rfl, rfl, rfl, rfl, rfl, rfl⟩

/-- C14: for every input of `buildDfaFromFollowpos` whose `augmentedAst.firstpos`
is the empty set, the result is a DFA with an empty list of states and
`startState = null`, together with a trace of exactly one entry. -/
theorem C14_empty_firstpos (d : CalcData) (h : d.augmentedAst.firstpos = []) :
    ∃ dfa trace, buildDfaFromFollowpos d = some (dfa, trace) ∧
      dfa.states = [] ∧ dfa.startState = none ∧ trace.length = 1 := by
  refine ⟨{ states := [], alphabet := positionsAlphabet d.positions, startState := none },
    ["Empty regex results in an empty automaton."], ?_, rfl, rfl, rfl⟩
  simp only [buildDfaFromFollowpos, h, List.length_nil, ↓reduceIte]

/-- Witness of C14 at an annotated tree that is a single nullable leaf. -/
theorem C14_empty_firstpos_witness :
    AnnotatedAST.firstpos (.CHAR 'ε' ⟨some 1, true, [], []⟩) = [] ∧
    ∃ dfa trace,
      buildDfaFromFollowpos ⟨.CHAR 'ε' ⟨some 1, true, [], []⟩, [(1, 'ε')], []⟩ =
        some (dfa, trace) ∧
      dfa.states = [] ∧ dfa.startState = none ∧ trace.length = 1 :=
  ⟨rfl, C14_empty_firstpos ⟨.CHAR 'ε' ⟨some 1, true, [], []⟩, [(1, 'ε')], []⟩ rfl⟩

/-- C15: for every AST, `calculateFollowpos(ast)` annotates the tree
`CONCAT(ast, CHAR '#')`, whose leaves, read left to right, get the positions
`1, 2, ..., m` with `m` the number of `CHAR` leaves of `ast` plus one; the
`positions` map has `m` entries and sends `i` to the character of the `i`-th
leaf; the end marker `'#'` is the last leaf and has position `m`. -/
theorem C15_positions_numbering (ast : AST) :
    ∃ d, calculateFollowpos ast = some d ∧
      d.augmentedAst.erase = .CONCAT ast (.CHAR '#') ∧
      d.augmentedAst.leafPositions = (List.range' 1 (ast.leaves.length + 1)).map some ∧
      d.augmentedAst.leafPositions.getLast? = some (some (ast.leaves.length + 1)) ∧
      d.positions.length = ast.leaves.length + 1 ∧
      d.positions.map Prod.fst = List.range' 1 (ast.leaves.length + 1) ∧
      (∀ i, i < ast.leaves.length + 1 →
        mapGet d.positions (i + 1) = (d.augmentedAst.erase.leaves)[i]?) ∧
      mapGet d.positions (ast.leaves.length + 1) = some '#' := by
  obtain ⟨d, hd, hR, h1, h2⟩ := calculateFollowpos_leaves ast
  have hlen : (List.range' 1 (ast.leaves.length + 1)).length = (ast.leaves ++ ['#']).length := by
    simp
  have hkeys : d.positions.map Prod.fst = List.range' 1 (ast.leaves.length + 1) := by
    rw [hR.positions, List.map_fst_zip]
    rw [hlen]
  refine ⟨d, hd, h1, h2, ?_, hR.length, hkeys, fun i hi => ?_, hR.endSym⟩
  · rw [h2, List.range'_concat, List.map_append, List.getLast?_append]
    simp
    omega
  · have hi1 : i < (List.range' 1 (ast.leaves.length + 1)).length := by simpa using hi
    have hi2 : i < (ast.leaves ++ ['#']).length := by simpa using hi
    have hmem : ((i + 1), (ast.leaves ++ ['#'])[i]) ∈ d.positions := by
      rw [hR.positions]
      refine List.mem_iff_getElem.2 ⟨i, by simpa using hi, ?_⟩
      simp [List.getElem_zip]
      omega
    rw [mapGet_of_mem_nodup hR.keys hmem, h1]
    simp only [AST.leaves]
    rw [List.getElem?_eq_getElem hi2]

/-- C17: in a heap whose references all point into the heap, for every set `S`
of states, `epsilonClosure(S)` returns a set `C` (the loop terminates, also on a
cyclic graph); `C` holds exactly the states reachable from a member of `S` by
zero or more `'ε'` transitions: it contains `S`, is closed under `'ε'`
transitions, and is contained in every set with those two properties. -/
theorem C17_epsilon_closure (heap : List State) (S : List Nat)
    (href : ∀ s, s < heap.length → ∀ e ∈ (deref heap s).transitions, ∀ t ∈ e.2,
      t < heap.length)
    (hS : ∀ s ∈ S, s < heap.length) (hn : S.Nodup) :
    ∃ C, epsilonClosure heap S = some C ∧
      (∀ x, x ∈ C ↔ ∃ s ∈ S, NPath heap s [] x) ∧
      (∀ s ∈ S, s ∈ C) ∧
      (∀ x ∈ C, ∀ t ∈ targetsOf heap x EPSILON, t ∈ C) ∧
      (∀ D : Nat → Prop, (∀ s ∈ S, D s) →
        (∀ x, D x → ∀ t ∈ targetsOf heap x EPSILON, D t) → ∀ x ∈ C, D x) := by
  have hU : ClosedRegion heap (fun i => i < heap.length) := ⟨fun _ h => h, href⟩
  obtain ⟨C, hC, _, _, hmem⟩ := epsilonClosure_spec hU hn hS
  refine ⟨C, hC, hmem, fun s hs => (hmem s).2 ⟨s, hs, NPath.nil s⟩, fun x hx t ht => ?_,
    fun D h1 h2 x hx => ?_⟩
  · obtain ⟨s, hs, hp⟩ := (hmem x).1 hx
    exact (hmem t).2 ⟨s, hs, hp.eps_snoc ht⟩
  · obtain ⟨s, hs, hp⟩ := (hmem x).1 hx
    exact hp.closed_under h2 rfl (h1 s hs)

/-- Witness of C17 at a heap of two states that point to each other by `'ε'`
transitions, and the set that holds the first of them. -/
theorem C17_epsilon_closure_witness :
    (∀ s, s < 2 → ∀ e ∈ (deref [⟨0, false, [('ε', [1])]⟩, ⟨1, false, [('ε', [0])]⟩]
      s).transitions, ∀ t ∈ e.2, t < 2) ∧
    ∃ C, epsilonClosure [⟨0, false, [('ε', [1])]⟩, ⟨1, false, [('ε', [0])]⟩] [0] = some C ∧
      (∀ x, x ∈ C ↔
        ∃ s ∈ [0], NPath [⟨0, false, [('ε', [1])]⟩, ⟨1, false, [('ε', [0])]⟩] s [] x) ∧
      (∀ s ∈ [0], s ∈ C) ∧
      (∀ x ∈ C, ∀ t ∈ targetsOf [⟨0, false, [('ε', [1])]⟩, ⟨1, false, [('ε', [0])]⟩] x
        EPSILON, t ∈ C) ∧
      (∀ D : Nat → Prop, (∀ s ∈ [0], D s) →
        (∀ x, D x → ∀ t ∈ targetsOf [⟨0, false, [('ε', [1])]⟩, ⟨1, false, [('ε', [0])]⟩] x
          EPSILON, D t) → ∀ x ∈ C, D x) :=
  ⟨by decide,
    C17_epsilon_closure [⟨0, false, [('ε', [1])]⟩, ⟨1, false, [('ε', [0])]⟩] [0]
      (by decide) (by decide) (by decide)⟩

/-! ## Claims about the construction of the automata -/

/-- C11: for every AST and every store (hence every prior value of the counter
`stateId`), `astToNfa(ast)` creates `n = 2 * (number of CHAR, ALTERNATION and
KLEENE_STAR nodes)` states and leaves the earlier objects as they were; the new
states carry the identities `0, 1, ..., n-1` in this order; and the NFA reads
the same in every store: the identities, the accepting flags and the
transitions (targets given by their identities) of the new states, and the
identities of the start and end state, are those of the build in a fresh
store, so that building the same AST a second time gives them again. -/
theorem C11_state_identities (ast : AST) (σ : Store) :
    (astToNfa ast σ).2.states.length = σ.states.length + 2 * ast.thompsonNodes ∧
    (astToNfa ast σ).2.states.take σ.states.length = σ.states ∧
    ((astToNfa ast σ).2.states.drop σ.states.length).map State.id =
      List.range (2 * ast.thompsonNodes) ∧
    nfaView (astToNfa ast σ).2.states σ.states.length =
      nfaView (astToNfa ast Store.initial).2.states 0 ∧
    (deref (astToNfa ast σ).2.states (astToNfa ast σ).1.startState).id =
      (deref (astToNfa ast Store.initial).2.states
        (astToNfa ast Store.initial).1.startState).id ∧
    (deref (astToNfa ast σ).2.states (astToNfa ast σ).1.endState).id =
      (deref (astToNfa ast Store.initial).2.states
        (astToNfa ast Store.initial).1.endState).id ∧
    nfaView (astToNfa ast (astToNfa ast σ).2).2.states (astToNfa ast σ).2.states.length =
      nfaView (astToNfa ast σ).2.states σ.states.length := by
  have hlen := astToNfa_length ast σ
  have hview := astToNfa_view ast σ
  refine ⟨hlen, ?_, thompson_ids (astToNfa_spec ast σ) _ hlen, hview, ?_, ?_, ?_⟩
  · rw [astToNfa_reloc ast σ]
    exact List.take_left _ _
  · rw [astToNfa_reloc ast σ]
    exact deref_shifted_id σ.states _ σ.states.length _
  · rw [astToNfa_reloc ast σ]
    exact deref_shifted_id σ.states _ σ.states.length _
  · rw [astToNfa_view ast (astToNfa ast σ).2, hview]

/-- C12: on a well-formed NFA (the references of the region `U` stay in `U` and
in the heap, the states of `U` have distinct identities, the start state is in
`U`), `nfaToDfa(nfa)` returns a DFA whose states correspond, in order, to a list
`sets` of sets of NFA states: state 0 to `epsilonClosure({nfa.startState})`,
every state has the index as identity and accepts exactly when its set holds an
accepting state, and every transition leads to the state of the successor set.
The states are numbered in breadth-first discovery order: every state `k >= 1`
has a least entering pair (source state, index of the symbol in the alphabet),
its source is a state `j < k`, and it is smaller than every entering pair of
every later state `k'`. -/
theorem C12_discovery_order {heap : List State} {U : Nat → Prop}
    (hU : ClosedRegion heap U) (hid : IdsDistinct heap U) (nfa : NFAFragment)
    (hs : U nfa.startState) :
    ∃ (d : DFA) (S0 : List Nat) (sets : List (List Nat)), nfaToDfa heap nfa = some d ∧
      epsilonClosure heap (setOfList [nfa.startState]) = some S0 ∧
      sets.length = d.states.length ∧ sets[0]? = some S0 ∧
      (∀ (i : Nat) (st : DFAState) (S : List Nat), d.states[i]? = some st →
        sets[i]? = some S → st.id = i ∧ st.isAccepting = someAccepting heap S) ∧
      (∀ i a j, d.Step i a j → a ∈ d.alphabet ∧ ∃ S T S', sets[i]? = some S ∧
        nextSubset heap S a = some (some T) ∧ sets[j]? = some S' ∧
        setToKey heap S' = setToKey heap T) ∧
      (∀ k, 1 ≤ k → k < d.states.length →
        ∃ j a, j < k ∧ d.LeastEntry k j a ∧
          ∀ k' j' a', k < k' → d.Step j' a' k' →
            pairLt (j, d.alphabet.indexOf a) (j', d.alphabet.indexOf a')) := by
  obtain ⟨A, S0, v, hrun, _, hS0, hinv, hdisc, _⟩ := nfaToDfa_inv hU hid nfa hs
  have hnext : ∀ S a, GoodSet heap nfa.startState S → a ∈ A →
      ∃ r, nextSubset heap S a = some r ∧ ∀ T, r = some T → GoodSet heap nfa.startState T :=
    fun S a g _ => goodSet_next hU hs S a g
  refine ⟨_, S0, v.queue, hrun, hS0, hinv.len.symm, hinv.first, fun i st S h1 h2 => ?_,
    fun i a j hstep => bfs_step hinv hnext hstep, fun k h1 h2 => ?_⟩
  · have := hinv.shape i st S h1 h2
    rw [this]
    exact ⟨rfl, rfl⟩
  · have h2' : k < v.queue.length := by rw [← hinv.len]; exact h2
    obtain ⟨j, a, m1, m2, m3, m4, m5⟩ := hdisc.least k h1 h2'
    exact ⟨j, a, m1, ⟨m2, m3, m4⟩, fun k' j' a' hk hstep => m5 k' j' a' hk hstep⟩

/-- Witness of C12 at the NFA that `astToNfa` builds for `a*` in a fresh store. -/
theorem C12_discovery_order_witness :
    ClosedRegion (astToNfa (.KLEENE_STAR (.CHAR 'a')) Store.initial).2.states
      (fun i => Store.initial.states.length ≤ i ∧
        i < (astToNfa (.KLEENE_STAR (.CHAR 'a')) Store.initial).2.states.length) ∧
    ∃ (d : DFA) (S0 : List Nat) (sets : List (List Nat)),
      nfaToDfa (astToNfa (.KLEENE_STAR (.CHAR 'a')) Store.initial).2.states
        (astToNfa (.KLEENE_STAR (.CHAR 'a')) Store.initial).1 = some d ∧
      epsilonClosure (astToNfa (.KLEENE_STAR (.CHAR 'a')) Store.initial).2.states
        (setOfList [(astToNfa (.KLEENE_STAR (.CHAR 'a')) Store.initial).1.startState]) =
          some S0 ∧
      sets.length = d.states.length ∧ sets[0]? = some S0 ∧
      (∀ (i : Nat) (st : DFAState) (S : List Nat), d.states[i]? = some st →
        sets[i]? = some S → st.id = i ∧
        st.isAccepting =
          someAccepting (astToNfa (.KLEENE_STAR (.CHAR 'a')) Store.initial).2.states S) ∧
      (∀ i a j, d.Step i a j → a ∈ d.alphabet ∧ ∃ S T S', sets[i]? = some S ∧
        nextSubset (astToNfa (.KLEENE_STAR (.CHAR 'a')) Store.initial).2.states S a =
          some (some T) ∧ sets[j]? = some S' ∧
        setToKey (astToNfa (.KLEENE_STAR (.CHAR 'a')) Store.initial).2.states S' =
          setToKey (astToNfa (.KLEENE_STAR (.CHAR 'a')) Store.initial).2.states T) ∧
      (∀ k, 1 ≤ k → k < d.states.length →
        ∃ j a, j < k ∧ d.LeastEntry k j a ∧
          ∀ k' j' a', k < k' → d.Step j' a' k' →
            pairLt (j, d.alphabet.indexOf a) (j', d.alphabet.indexOf a')) :=
  ⟨(astToNfa_spec (.KLEENE_STAR (.CHAR 'a')) Store.initial).region,
    C12_discovery_order (astToNfa_spec (.KLEENE_STAR (.CHAR 'a')) Store.initial).region
      (astToNfa_spec (.KLEENE_STAR (.CHAR 'a')) Store.initial).idsDistinct
      (astToNfa (.KLEENE_STAR (.CHAR 'a')) Store.initial).1
      ⟨(astToNfa_spec (.KLEENE_STAR (.CHAR 'a')) Store.initial).start_ge,
        (astToNfa_spec (.KLEENE_STAR (.CHAR 'a')) Store.initial).start_lt⟩⟩

/-- C16: for every AST (and every store the NFA builder starts from), both
pipelines return a DFA, and each of the two DFAs is well formed: `startState`
is 0, the list of states is not empty, the state stored at index `i` has
`id = i`, every transition symbol is a member of the alphabet of the DFA, and
every transition target is the `id` of a state in the list. -/
theorem C16_dfa_well_formed (ast : AST) (σ : Store) :
    ∃ d r, subsetDfa ast σ = some d ∧ generateDfaDirectly ast = some r ∧
      d.WellFormed ∧ r.dfa.WellFormed := by
  have ht := astToNfa_spec ast σ
  obtain ⟨A, S0, v, hrun, _, _, hinv, _⟩ :=
    nfaToDfa_inv ht.region ht.idsDistinct (astToNfa ast σ).1 ⟨ht.start_ge, ht.start_lt⟩
  obtain ⟨d, w, _, hR, _, hg, hinv', _⟩ := directDfa_inv ast
  refine ⟨_, _, (subsetDfa_eq ast σ).trans hrun, hg, ?_, ?_⟩
  · have h1 := bfs_wellFormed hinv
    exact h1 (fun _ _ => rfl)
      (fun S a g _ => goodSet_next ht.region ⟨ht.start_ge, ht.start_lt⟩ S a g)
  · have hc : BfsInv (nextDirect d.positions d.followpos) posToKey
        (mkDirect d.positions.length) (GoodPos d.followpos) d.augmentedAst.firstpos
        (fun i a => i < w.core.queue.length ∧ a ∈ positionsAlphabet d.positions) w.core :=
      hinv'
    have h2 := bfs_wellFormed hc
    exact h2 (fun _ _ => rfl) (fun S a g _ => goodPos_next hR.closed S a g)

/-- C18: for every AST, the DFA built by
`buildDfaFromFollowpos(calculateFollowpos(ast))` is the followpos automaton:
state 0 carries the position set `firstpos(root)`; every state carries a
position set and is accepting exactly when the set contains the end-marker
position (the number of positions, which is the position of `'#'`); and for
every state with position set `S` and every symbol `a` of the alphabet, with
`U` the union of `followpos(p)` over the `p` in `S` whose symbol is `a`, the
state has no transition on `a` when `U` is empty, and otherwise its transition
on `a` leads to the state whose position set has the members of `U`. -/
theorem C18_followpos_automaton (ast : AST) :
    ∃ (d : CalcData) (dfa : DFA) (trace : List String), calculateFollowpos ast = some d ∧
      buildDfaFromFollowpos d = some (dfa, trace) ∧
      mapGet d.positions d.positions.length = some '#' ∧
      (∃ st0, dfa.states[0]? = some st0 ∧ st0.positions = some d.augmentedAst.firstpos) ∧
      ∀ st ∈ dfa.states, ∃ S, st.positions = some S ∧
        (st.isAccepting = true ↔ d.positions.length ∈ S) ∧
        ∀ a ∈ dfa.alphabet,
          (followUnion d.positions d.followpos S a = [] → mapGet st.transitions a = none) ∧
          (followUnion d.positions d.followpos S a ≠ [] →
            ∃ (j : Nat) (st' : DFAState) (S' : List Nat), mapGet st.transitions a = some j ∧
              dfa.states[j]? = some st' ∧ st'.id = j ∧ st'.positions = some S' ∧
              ∀ q, q ∈ S' ↔ q ∈ followUnion d.positions d.followpos S a) := by
  obtain ⟨d, v, hd, hR, hb, _, hinv, _, _⟩ := directDfa_inv ast
  have hshape : ∀ (i : Nat) (st : DFAState) (S : List Nat), v.dfaStateInfo[i]? = some st →
      v.queue[i]? = some S →
      st.id = i ∧ st.positions = some S ∧ st.isAccepting = S.contains d.positions.length := by
    intro i st S h1 h2
    have := hinv.shape i st S h1 h2
    rw [this]
    exact ⟨rfl, rfl, rfl⟩
  have hlen : v.dfaStateInfo.length = v.queue.length := hinv.len
  refine ⟨d, _, _, hd, hb, by rw [hR.length]; exact hR.endSym, ?_, fun st hst => ?_⟩
  · have h0 : 0 < v.dfaStateInfo.length := by
      rw [hlen]
      rcases List.getElem?_eq_some.1 hinv.first with ⟨hh, _⟩
      exact hh
    exact ⟨_, List.getElem?_eq_getElem h0,
      (hshape 0 _ _ (List.getElem?_eq_getElem h0) hinv.first).2.1⟩
  · obtain ⟨i, hi⟩ := List.mem_iff_getElem?.1 hst
    have hil : i < v.queue.length := by
      rcases List.getElem?_eq_some.1 hi with ⟨hh, _⟩
      rw [← hlen]; exact hh
    have hS := List.getElem?_eq_getElem hil
    have gS : GoodPos d.followpos v.queue[i] := hinv.good _ (List.mem_iff_getElem?.2 ⟨i, hS⟩)
    obtain ⟨_, s2, s3⟩ := hshape i st _ hi hS
    refine ⟨v.queue[i], s2, by rw [s3]; simp, fun a ha => ?_⟩
    have hdone := hinv.done i st _ a hi hS ⟨hil, ha⟩
    unfold TransOK at hdone
    rcases nextDirect_spec (P := d.positions) hR.closed gS a with ⟨h1, h2⟩ |
      ⟨T, h1, gT, hne, hmem⟩
    · rw [h1] at hdone
      simp only at hdone
      have hnil : followUnion d.positions d.followpos v.queue[i] a = [] :=
        List.eq_nil_iff_forall_not_mem.2
          (fun x hx => h2 x ((mem_followUnion _ _ _ _ x).1 hx))
      exact ⟨fun _ => hdone, fun hc => absurd hnil hc⟩
    · rw [h1] at hdone
      simp only at hdone
      obtain ⟨j, S', t1, t2, t3⟩ := hdone
      have hjl : j < v.dfaStateInfo.length := by
        rcases List.getElem?_eq_some.1 t2 with ⟨hh, _⟩
        rw [hlen]; exact hh
      have gS' : GoodPos d.followpos S' := hinv.good _ (List.mem_iff_getElem?.2 ⟨j, t2⟩)
      have hsame := (posToKey_eq_iff gS' gT).1 t3
      obtain ⟨u1, u2, _⟩ := hshape j _ S' (List.getElem?_eq_getElem hjl) t2
      have hmemU : ∀ q, q ∈ S' ↔ q ∈ followUnion d.positions d.followpos v.queue[i] a :=
        fun q => (hsame q).trans ((hmem q).trans (mem_followUnion _ _ _ _ q).symm)
      refine ⟨fun hc => ?_, fun _ =>
        ⟨j, _, S', t1, List.getElem?_eq_getElem hjl, u1, u2, hmemU⟩⟩
      obtain ⟨x, hx⟩ := List.exists_mem_of_ne_nil T hne
      have := (hmemU x).1 ((hsame x).2 hx)
      rw [hc] at this
      cases this

/-- C19: for every AST (and every store the NFA builder starts from), the
worklist loops of both pipelines terminate (each pipeline returns a DFA); the
DFA of the subset path has at most `2^n` states, `n = 2 * (number of CHAR,
ALTERNATION and KLEENE_STAR nodes)` being the number of NFA states that
`astToNfa` creates; and the DFA of the followpos path has at most `2^m` states,
`m` being the number of positions, end marker included. -/
theorem C19_termination_and_bounds (ast : AST) (σ : Store) :
    ∃ d r, subsetDfa ast σ = some d ∧ generateDfaDirectly ast = some r ∧
      (astToNfa ast σ).2.states.length = σ.states.length + 2 * ast.thompsonNodes ∧
      d.states.length ≤ 2 ^ (2 * ast.thompsonNodes) ∧
      r.positions.length = ast.leaves.length + 1 ∧
      r.dfa.states.length ≤ 2 ^ r.positions.length := by
  have ht := astToNfa_spec ast σ
  have hlen := astToNfa_length ast σ
  obtain ⟨A, S0, v, hrun, _, _, hinv, _, hbound⟩ :=
    nfaToDfa_inv ht.region ht.idsDistinct (astToNfa ast σ).1 ⟨ht.start_ge, ht.start_lt⟩
  obtain ⟨d, w, _, hR, _, hg, hinv', _, hbound'⟩ := directDfa_inv ast
  refine ⟨_, _, (subsetDfa_eq ast σ).trans hrun, hg, hlen, ?_, hR.length, ?_⟩
  · have := hbound (Finset.Ico σ.states.length (astToNfa ast σ).2.states.length)
      (fun x hx => Finset.mem_Ico.2 hx)
    rw [Nat.card_Ico, hlen, Nat.add_sub_cancel_left] at this
    show v.dfaStateInfo.length ≤ _
    rw [hinv.len]
    exact this
  · show w.dfaStateInfo.length ≤ 2 ^ d.positions.length
    have hl : w.dfaStateInfo.length = w.queue.length := hinv'.len
    rw [hl]
    exact hbound'

/-- C20: for every AST returned by `parseRegex` (and every store the NFA
builder starts from), the alphabet of `nfaToDfa(astToNfa(ast))` and the alphabet
of `generateDfaDirectly(ast).dfa` are the same list: the distinct characters of
the `CHAR` leaves of the AST, sorted; it lists each leaf character once, holds
neither `'ε'` nor `'#'`, and ascends by character code. -/
theorem C20_alphabets_agree (s : List Char) (ast : AST) (h : parseRegex s = .ok ast)
    (σ : Store) :
    ∃ d r, subsetDfa ast σ = some d ∧ generateDfaDirectly ast = some r ∧
      d.alphabet = r.dfa.alphabet ∧ d.alphabet = leafAlphabet ast ∧
      (∀ c, c ∈ d.alphabet ↔ c ∈ ast.leaves) ∧ d.alphabet.Nodup ∧
      EPSILON ∉ d.alphabet ∧ '#' ∉ d.alphabet ∧
      d.alphabet.Pairwise (fun a b => a.toNat < b.toNat) := by
  have hlit := alphanumeric_leaves (parseRegex_alphanumeric h)
  have hε : ∀ c ∈ ast.leaves, c ≠ EPSILON := by
    intro c hc e
    have := hlit c hc
    rw [e, isLiteral_epsilon] at this
    cases this
  have hh : ∀ c ∈ ast.leaves, c ≠ '#' := by
    intro c hc e
    have := hlit c hc
    rw [e, isLiteral_hash] at this
    cases this
  obtain ⟨d, hd, n1, s1, m1⟩ := subsetDfa_alphabet ast σ
  obtain ⟨r, hr, n2, s2, m2⟩ := directDfa_alphabet ast
  have hm1 : ∀ c, c ∈ d.alphabet ↔ c ∈ ast.leaves :=
    fun c => (m1 c).trans ⟨fun x => x.2, fun x => ⟨hε c x, x⟩⟩
  have hm2 : ∀ c, c ∈ r.dfa.alphabet ↔ c ∈ ast.leaves :=
    fun c => (m2 c).trans ⟨fun x => x.2, fun x => ⟨hh c x, x⟩⟩
  refine ⟨d, r, hd, hr, eq_of_sorted_of_mem_iff s1 s2 n1 n2 (fun c => (hm1 c).trans (hm2 c).symm),
    ?_, hm1, n1, fun hc => hε _ ((hm1 _).1 hc) rfl, fun hc => hh _ ((hm1 _).1 hc) rfl, ?_⟩
  · refine eq_of_sorted_of_mem_iff s1 (sorted_sortSymbols _) n1
      (nodup_sortSymbols _ (List.nodup_dedup _)) (fun c => ?_)
    rw [hm1]
    unfold leafAlphabet
    rw [mem_sortSymbols, List.mem_dedup]
  · refine List.Pairwise.imp_of_mem ?_ (List.Pairwise.and s1 n1)
    intro a b ha hb hab
    have la := isLiteral_small (hlit a ((hm1 a).1 ha))
    have lb := isLiteral_small (hlit b ((hm1 b).1 hb))
    have hle := (symbolLe_small la lb).1 hab.1
    have hne : a.toNat ≠ b.toNat := fun e => hab.2 (char_eq_of_toNat e)
    omega

/-- Witness of C20 at the regex `a(b|c)*`. -/
theorem C20_alphabets_agree_witness :
    parseRegex "a(b|c)*".toList =
      .ok (.CONCAT (.CHAR 'a') (.KLEENE_STAR (.ALTERNATION (.CHAR 'b') (.CHAR 'c')))) ∧
    ∃ d r,
      subsetDfa (.CONCAT (.CHAR 'a') (.KLEENE_STAR (.ALTERNATION (.CHAR 'b') (.CHAR 'c'))))
        Store.initial = some d ∧
      generateDfaDirectly
        (.CONCAT (.CHAR 'a') (.KLEENE_STAR (.ALTERNATION (.CHAR 'b') (.CHAR 'c')))) = some r ∧
      d.alphabet = r.dfa.alphabet ∧
      d.alphabet = leafAlphabet
        (.CONCAT (.CHAR 'a') (.KLEENE_STAR (.ALTERNATION (.CHAR 'b') (.CHAR 'c')))) ∧
      (∀ c, c ∈ d.alphabet ↔ c ∈ AST.leaves
        (.CONCAT (.CHAR 'a') (.KLEENE_STAR (.ALTERNATION (.CHAR 'b') (.CHAR 'c'))))) ∧
      d.alphabet.Nodup ∧ EPSILON ∉ d.alphabet ∧ '#' ∉ d.alphabet ∧
      d.alphabet.Pairwise (fun a b => a.toNat < b.toNat) :=
  ⟨parse_sample, C20_alphabets_agree _ _ parse_sample Store.initial⟩

/-! ## Claims about the canonical keys, the rendering and the degenerate cases -/

/-- C21: the canonical key (member identities sorted ascending and joined with
`','`) is injective on sets: two sets of NFA states whose identities are
pairwise distinct get the same key from `setToKey` exactly when they hold the
same identities, and two sets of positions get the same key from `posToKey`
exactly when they have the same members; and in the DFA that
`generateDfaDirectly(ast)` builds with `buildDfaFromFollowpos`, two states whose
position sets have the same members are the same state. -/
theorem C21_canonical_key (heap : List State) (S S' : List Nat)
    (hS : (S.map fun s => (deref heap s).id).Nodup)
    (hS' : (S'.map fun s => (deref heap s).id).Nodup)
    (P P' : List Nat) (hP : P.Nodup) (hP' : P'.Nodup) (ast : AST) :
    (setToKey heap S = setToKey heap S' ↔
      ∀ i, i ∈ S.map (fun s => (deref heap s).id) ↔ i ∈ S'.map (fun s => (deref heap s).id)) ∧
    (posToKey P = posToKey P' ↔ ∀ p, p ∈ P ↔ p ∈ P') ∧
    ∃ r, generateDfaDirectly ast = some r ∧
      ∀ (i j : Nat) (st st' : DFAState) (T T' : List Nat),
        r.dfa.states[i]? = some st → r.dfa.states[j]? = some st' →
        st.positions = some T → st'.positions = some T' → (∀ p, p ∈ T ↔ p ∈ T') → i = j := by
  refine ⟨sortedKey_eq_iff hS hS', sortedKey_eq_iff hP hP', ?_⟩
  obtain ⟨d, v, _, _, _, hg, hinv, _, _⟩ := directDfa_inv ast
  refine ⟨_, hg, ?_⟩
  have hkey : ∀ (i : Nat) (st : DFAState) (T : List Nat), v.dfaStateInfo[i]? = some st →
      st.positions = some T → v.queue[i]? = some T ∧ GoodPos d.followpos T := by
    intro i st T h1 h2
    have hi : i < v.queue.length := by
      rcases List.getElem?_eq_some.1 h1 with ⟨hh, _⟩
      have hl : v.dfaStateInfo.length = v.queue.length := hinv.len
      rw [← hl]; exact hh
    have hq := List.getElem?_eq_getElem hi
    have hsh := hinv.shape i st _ h1 hq
    rw [hsh] at h2
    have e : v.queue[i] = T := Option.some.inj h2
    rw [e] at hq
    exact ⟨hq, hinv.good T (List.mem_iff_getElem?.2 ⟨i, hq⟩)⟩
  have hnd : (v.queue.map posToKey).Nodup := hinv.keys_nodup
  intro i j st st' T T' h1 h2 h3 h4 hsame
  obtain ⟨q1, g1⟩ := hkey i st T h1 h3
  obtain ⟨q2, g2⟩ := hkey j st' T' h2 h4
  have ek : posToKey T = posToKey T' := (posToKey_eq_iff g1 g2).2 hsame
  have e1 : (v.queue.map posToKey)[i]? = some (posToKey T) := by
    rw [List.getElem?_map, q1]; rfl
  have e2 : (v.queue.map posToKey)[j]? = some (posToKey T) := by
    rw [List.getElem?_map, q2, ek]; rfl
  have li : i < (v.queue.map posToKey).length := by
    rcases List.getElem?_eq_some.1 e1 with ⟨hh, _⟩
    exact hh
  have lj : j < (v.queue.map posToKey).length := by
    rcases List.getElem?_eq_some.1 e2 with ⟨hh, _⟩
    exact hh
  have hne := List.nodup_iff_getElem?_ne_getElem?.1 hnd
  rcases Nat.lt_trichotomy i j with hlt | heq | hgt
  · exact absurd (e1.trans e2.symm) (hne i j hlt lj)
  · exact heq
  · exact absurd (e2.trans e1.symm) (hne j i hgt li)

/-- Witness of C21 at two orders of the same two states, two orders of the same
two positions, and the AST of `a`. -/
theorem C21_canonical_key_witness :
    ([0, 1].map fun s => (deref [⟨0, false, []⟩, ⟨1, false, []⟩] s).id).Nodup ∧
    ([1, 0].map fun s => (deref [⟨0, false, []⟩, ⟨1, false, []⟩] s).id).Nodup ∧
    [2, 1].Nodup ∧ [1, 2].Nodup ∧
    (setToKey [⟨0, false, []⟩, ⟨1, false, []⟩] [0, 1] =
        setToKey [⟨0, false, []⟩, ⟨1, false, []⟩] [1, 0] ↔
      ∀ i, i ∈ [0, 1].map (fun s => (deref [⟨0, false, []⟩, ⟨1, false, []⟩] s).id) ↔
        i ∈ [1, 0].map (fun s => (deref [⟨0, false, []⟩, ⟨1, false, []⟩] s).id)) ∧
    (posToKey [2, 1] = posToKey [1, 2] ↔ ∀ p, p ∈ [2, 1] ↔ p ∈ [1, 2]) ∧
    ∃ r, generateDfaDirectly (.CHAR 'a') = some r ∧
      ∀ (i j : Nat) (st st' : DFAState) (T T' : List Nat),
        r.dfa.states[i]? = some st → r.dfa.states[j]? = some st' →
        st.positions = some T → st'.positions = some T' → (∀ p, p ∈ T ↔ p ∈ T') → i = j :=
  ⟨by decide, by decide, by decide, by decide,
    C21_canonical_key [⟨0, false, []⟩, ⟨1, false, []⟩] [0, 1] [1, 0] (by decide) (by decide)
      [2, 1] [1, 2] (by decide) (by decide) (.CHAR 'a')⟩

/-- C22: `parseRegex` inverts the fully parenthesised rendering: for every AST
`t` whose `CHAR` values are alphanumeric characters, `parseRegex(render(t))`
returns `t`; so every such AST is the parse of some string. -/
theorem C22_parse_inverts_render (t : AST) (h : t.alphanumeric) :
    parseRegex t.render = .ok t ∧ ∃ s, parseRegex s = .ok t :=
  ⟨parseRegex_render t h, t.render, parseRegex_render t h⟩

/-- Witness of C22 at the AST of `a(b|c)*`, whose rendering is
`(a)(((b)|(c))*)`. -/
theorem C22_parse_inverts_render_witness :
    AST.alphanumeric
      (.CONCAT (.CHAR 'a') (.KLEENE_STAR (.ALTERNATION (.CHAR 'b') (.CHAR 'c')))) ∧
    AST.render (.CONCAT (.CHAR 'a') (.KLEENE_STAR (.ALTERNATION (.CHAR 'b') (.CHAR 'c')))) =
      "(a)(((b)|(c))*)".toList ∧
    parseRegex
        (AST.render (.CONCAT (.CHAR 'a') (.KLEENE_STAR (.ALTERNATION (.CHAR 'b') (.CHAR 'c')))))
      = .ok (.CONCAT (.CHAR 'a') (.KLEENE_STAR (.ALTERNATION (.CHAR 'b') (.CHAR 'c')))) ∧
    ∃ s, parseRegex s =
      .ok (.CONCAT (.CHAR 'a') (.KLEENE_STAR (.ALTERNATION (.CHAR 'b') (.CHAR 'c')))) :=
  ⟨⟨rfl, rfl, rfl⟩, rfl,
    C22_parse_inverts_render
      (.CONCAT (.CHAR 'a') (.KLEENE_STAR (.ALTERNATION (.CHAR 'b') (.CHAR 'c'))))
      ⟨rfl, rfl, rfl⟩⟩

/-- C23: for every AST with no `CHAR` leaf valued `'ε'`, after
`calculateFollowpos(ast)` the root's `firstpos` is not empty, `followpos(p)` is
a non-empty set for every position `p` before the end marker, and
`followpos(end marker)` is the empty set, the end marker being the last
position, with symbol `'#'`; hence `generateDfaDirectly(ast)` does not take the
degenerate branch (its DFA has `startState = 0` and a state), and every state
has a transition on every symbol of the alphabet carried by one of its
positions. -/
theorem C23_followpos_nonempty (ast : AST) (h : ast.avoids EPSILON) :
    ∃ d r, calculateFollowpos ast = some d ∧ generateDfaDirectly ast = some r ∧
      d.augmentedAst.firstpos ≠ [] ∧
      (∀ p, 1 ≤ p → p < d.positions.length →
        ∃ S, mapGet d.followpos p = some S ∧ S ≠ []) ∧
      mapGet d.positions d.positions.length = some '#' ∧
      mapGet d.followpos d.positions.length = some [] ∧
      r.dfa.startState = some 0 ∧ r.dfa.states ≠ [] ∧
      ∀ st ∈ r.dfa.states, ∃ S, st.positions = some S ∧ ∀ a ∈ r.dfa.alphabet,
        (∃ p ∈ S, mapGet d.positions p = some a) → ∃ j, mapGet st.transitions a = some j := by
  obtain ⟨d, hd, hR, hne, hend⟩ := calculateFollowpos_entries ast h
  obtain ⟨d', v, hd', _, _, hg, hinv, _, _⟩ := directDfa_inv ast
  rw [hd] at hd'
  simp only [Option.some.injEq] at hd'
  subst hd'
  have hlen : v.dfaStateInfo.length = v.queue.length := hinv.len
  have hpos : 0 < v.dfaStateInfo.length := by
    rw [hlen]
    rcases List.getElem?_eq_some.1 hinv.first with ⟨hh, _⟩
    exact hh
  refine ⟨d, _, hd, hg, hR.nonempty, hne, by rw [hR.length]; exact hR.endSym, hend, rfl,
    List.ne_nil_of_length_pos hpos, fun st hst => ?_⟩
  obtain ⟨i, hi⟩ := List.mem_iff_getElem?.1 hst
  have hil : i < v.queue.length := by
    rcases List.getElem?_eq_some.1 hi with ⟨hh, _⟩
    rw [← hlen]; exact hh
  have hS := List.getElem?_eq_getElem hil
  have gS : GoodPos d.followpos v.queue[i] := hinv.good _ (List.mem_iff_getElem?.2 ⟨i, hS⟩)
  have hsh := hinv.shape i st _ hi hS
  refine ⟨v.queue[i], by rw [hsh]; rfl, fun a ha => ?_⟩
  rintro ⟨p, hp, hpa⟩
  have ha' : a ≠ '#' := ((mem_positionsAlphabet d.positions a).1 ha).1
  have hrange := hR.keysRange p (gS.2 p hp)
  have hpm : p ≠ d.positions.length := by
    intro e
    rw [e, hR.length, hR.endSym] at hpa
    exact ha' (Option.some.inj hpa).symm
  obtain ⟨T, hT, hTne⟩ := hne p hrange.1 (by
    have := hR.length
    omega)
  obtain ⟨x, hx⟩ := List.exists_mem_of_ne_nil T hTne
  have hdone := hinv.done i st _ a hi hS ⟨hil, ha⟩
  unfold TransOK at hdone
  rcases nextDirect_spec (P := d.positions) hR.closed gS a with ⟨_, h2⟩ | ⟨U, h1, _, _, _⟩
  · exact absurd ⟨p, hp, hpa, T, hT, hx⟩ (h2 x)
  · rw [h1] at hdone
    simp only at hdone
    obtain ⟨j, _, t1, _, _⟩ := hdone
    exact ⟨j, t1⟩

/-- Witness of C23 at the AST of `a(b|c)*`. -/
theorem C23_followpos_nonempty_witness :
    AST.avoids EPSILON
      (.CONCAT (.CHAR 'a') (.KLEENE_STAR (.ALTERNATION (.CHAR 'b') (.CHAR 'c')))) ∧
    ∃ d r,
      calculateFollowpos
        (.CONCAT (.CHAR 'a') (.KLEENE_STAR (.ALTERNATION (.CHAR 'b') (.CHAR 'c')))) = some d ∧
      generateDfaDirectly
        (.CONCAT (.CHAR 'a') (.KLEENE_STAR (.ALTERNATION (.CHAR 'b') (.CHAR 'c')))) = some r ∧
      d.augmentedAst.firstpos ≠ [] ∧
      (∀ p, 1 ≤ p → p < d.positions.length →
        ∃ S, mapGet d.followpos p = some S ∧ S ≠ []) ∧
      mapGet d.positions d.positions.length = some '#' ∧
      mapGet d.followpos d.positions.length = some [] ∧
      r.dfa.startState = some 0 ∧ r.dfa.states ≠ [] ∧
      ∀ st ∈ r.dfa.states, ∃ S, st.positions = some S ∧ ∀ a ∈ r.dfa.alphabet,
        (∃ p ∈ S, mapGet d.positions p = some a) → ∃ j, mapGet st.transitions a = some j :=
  ⟨sample_avoids_epsilon, C23_followpos_nonempty _ sample_avoids_epsilon⟩

/-- C24: for every input string in which some `(` is never closed by a later
`)`, `parseRegex` throws: `applyOperator` applies `(` as an operator with two
operands, and whenever the token loop ends, the `(` is still on the operator
stack and the final loop, if it does not throw, leaves no operand on the output
stack, so that the test on exactly one operand fails. -/
theorem C24_unclosed_paren_throws (s : List Char) (h : 0 < unclosedParens s) :
    (∃ e, parseRegex s = .error e) ∧
    (∀ (l r : AST) (out : List AST),
      applyOperator (r :: l :: out) '(' = .ok (AST.CONCAT l r :: out)) ∧
    ∀ (out : List AST) (ops : List Char), tokenLoop [] [] (addConcat s) = .ok (out, ops) →
      '(' ∈ ops ∧ ∀ out', drain out ops = .ok out' → out'.length = 0 := by
  refine ⟨parseRegex_unclosed h, fun l r out => rfl, fun out ops ht => unclosed_drain h ht⟩

/-- Witness of C24 at the string `((a)`, whose first parenthesis is never
closed. -/
theorem C24_unclosed_paren_throws_witness :
    0 < unclosedParens "((a)".toList ∧
    (∃ e, parseRegex "((a)".toList = .error e) ∧
    (∀ (l r : AST) (out : List AST),
      applyOperator (r :: l :: out) '(' = .ok (AST.CONCAT l r :: out)) ∧
    ∀ (out : List AST) (ops : List Char),
      tokenLoop [] [] (addConcat "((a)".toList) = .ok (out, ops) →
      '(' ∈ ops ∧ ∀ out', drain out ops = .ok out' → out'.length = 0 :=
  ⟨by decide, C24_unclosed_paren_throws "((a)".toList (by decide)⟩

end RegexToDfa
